import Mathlib

/-!
# Verification of the FSM-Visualizer automata engine

A shallow embedding of the core of the FSM-Visualizer repository
(regex parser, Thompson construction, epsilon elimination, subset
construction, DFA minimization, Mealy/Moore conversion, and the
per-kind acceptance/simulation semantics), together with proofs of
the specification's claims about it.

Conventions used throughout the embedding:
* Python strings of input symbols are `List Char`; state names are `String`.
* Python sets are lists handled up to membership; where the source relies
  on a canonical order-independent key (`frozenset`), we use a sorted,
  deduplicated list.
* Python dictionaries are association lists (first binding wins, matching
  a dict in which a key is inserted at most once).
* Unbounded `while` loops are modelled with an explicit fuel argument;
  where the verified claims need it we prove that the fuel chosen by the
  top-level wrappers is sufficient, so the wrappers compute exactly what
  the Python loops compute.  Exceptions raised by the Python code are
  `Except.error` values.
-/

namespace FSM

/-! ## Regex AST (src/algorithms/regex_parser.py, class RegexNode)

The Python `RegexNode` is a tagged record with fields `type`, `value`,
`left`, `right`; the tags and the fields each tag uses are exactly the
constructors below (`STAR`/`PLUS` store their operand in `left`). -/

inductive RegexNode where
  | CHAR (value : Char)
  | EPSILON
  | CONCAT (left right : RegexNode)
  | OR (left right : RegexNode)
  | STAR (left : RegexNode)
  | PLUS (left : RegexNode)
deriving DecidableEq, Repr

/-- Errors of the embedded parser: `syntaxErr` models the `ValueError`
raised by `RegexParser`; `outOfFuel` is the artefact of modelling the
parser's recursion with fuel (we prove the fuel used by `parseRegex`
is always sufficient, so `outOfFuel` never actually occurs there). -/
inductive ParseErr where
  | syntaxErr (msg : String)
  | outOfFuel
deriving DecidableEq, Repr

/-- `RegexParser.parse_concat` final AST assembly: empty node list gives
EPSILON, otherwise a left-associative CONCAT fold. -/
def concatResult : List RegexNode → RegexNode
  | [] => .EPSILON
  | n :: ns => ns.foldl (fun acc x => RegexNode.CONCAT acc x) n

/-- The `while char in '*+'` postfix loop of `RegexParser.parse_star`. -/
def starLoop (node : RegexNode) : List Char → RegexNode × List Char
  | [] => (node, [])
  | c :: rest =>
    if c = '*' then starLoop (RegexNode.STAR node) rest
    else if c = '+' then starLoop (RegexNode.PLUS node) rest
    else (node, c :: rest)

/-! The mutually recursive parser functions of `RegexParser`, with the
remaining input as an explicit list (the Python cursor `pos` points at
the head of the list) and fuel that decreases at every call. -/

mutual

/-- `RegexParser.parse_or`. -/
def parseOr (fuel : Nat) (l : List Char) : Except ParseErr (RegexNode × List Char) :=
  match fuel with
  | 0 => .error .outOfFuel
  | f + 1 =>
    match parseConcat f l with
    | .error e => .error e
    | .ok (left, l1) => parseOrLoop f left l1

/-- The `while self.peek() == '|'` loop of `parse_or`. -/
def parseOrLoop (fuel : Nat) (left : RegexNode) (l : List Char) :
    Except ParseErr (RegexNode × List Char) :=
  match fuel with
  | 0 => .error .outOfFuel
  | f + 1 =>
    match l with
    | c :: rest =>
      if c = '|' then
        match parseConcat f rest with
        | .error e => .error e
        | .ok (right, l2) => parseOrLoop f (RegexNode.OR left right) l2
      else .ok (left, c :: rest)
    | [] => .ok (left, [])

/-- `RegexParser.parse_concat`. -/
def parseConcat (fuel : Nat) (l : List Char) : Except ParseErr (RegexNode × List Char) :=
  match fuel with
  | 0 => .error .outOfFuel
  | f + 1 =>
    match parseConcatLoop f [] l with
    | .error e => .error e
    | .ok (nodes, l1) => .ok (concatResult nodes, l1)

/-- The `while self.peek() and self.peek() not in ')|'` loop of
`parse_concat`, accumulating the parsed star-expressions. -/
def parseConcatLoop (fuel : Nat) (acc : List RegexNode) (l : List Char) :
    Except ParseErr (List RegexNode × List Char) :=
  match fuel with
  | 0 => .error .outOfFuel
  | f + 1 =>
    match l with
    | [] => .ok (acc, [])
    | c :: rest =>
      if c = ')' ∨ c = '|' then .ok (acc, c :: rest)
      else
        match parseStar f (c :: rest) with
        | .error e => .error e
        | .ok (node, l1) => parseConcatLoop f (acc ++ [node]) l1

/-- `RegexParser.parse_star`. -/
def parseStar (fuel : Nat) (l : List Char) : Except ParseErr (RegexNode × List Char) :=
  match fuel with
  | 0 => .error .outOfFuel
  | f + 1 =>
    match parseBase f l with
    | .error e => .error e
    | .ok (node, l1) => .ok (starLoop node l1)

/-- `RegexParser.parse_base`. -/
def parseBase (fuel : Nat) (l : List Char) : Except ParseErr (RegexNode × List Char) :=
  match fuel with
  | 0 => .error .outOfFuel
  | f + 1 =>
    match l with
    | [] => .error (.syntaxErr "Unexpected character")
    | c :: rest =>
      if c = '(' then
        match parseOr f rest with
        | .error e => .error e
        | .ok (node, l1) =>
          match l1 with
          | d :: l2 =>
            if d = ')' then .ok (node, l2)
            else .error (.syntaxErr "Expected closing parenthesis")
          | [] => .error (.syntaxErr "Expected closing parenthesis")
      else if c = 'ε' then .ok (RegexNode.EPSILON, rest)
      else if c = '\\' ∧ rest.head? = some 'e' then .ok (RegexNode.EPSILON, rest.tail)
      else if c = ')' ∨ c = '|' ∨ c = '*' ∨ c = '+' then
        .error (.syntaxErr "Unexpected character")
      else .ok (RegexNode.CHAR c, rest)

end

/-- `RegexParser.__init__` removes spaces before parsing. -/
def stripSpaces (l : List Char) : List Char := l.filter (fun c => c ≠ ' ')

/-- Fuel that suffices for the whole parse (proved below:
`parse_fuel_sufficient`). -/
def parserFuel (l : List Char) : Nat := 5 * l.length + 5

/-- `parse_regex` (src/algorithms/regex_parser.py): empty input yields
EPSILON, otherwise run `RegexParser.parse`, which returns `parse_or`'s
node and silently ignores any unconsumed input. -/
def parseRegex (l : List Char) : Except ParseErr RegexNode :=
  if l = [] then .ok RegexNode.EPSILON
  else
    match parseOr (parserFuel (stripSpaces l)) (stripSpaces l) with
    | .error e => .error e
    | .ok (node, _) => .ok node

/-! ## Shared automaton model (src/models/automaton.py)

A `State` carries flags `is_accept` and `is_start` besides its name;
the `states` dict is an association list keyed by name.  Python sets
(`alphabet`, `accept_states`) are lists used up to membership; insertion
keeps them duplicate-free.  The per-kind fast lookup index is the single
source of truth for transitions here; the parallel `transitions` list the
base class keeps for rendering holds exactly the same `(from,to,symbol)`
triples and no claim consults it separately, so it is not duplicated. -/

structure StFlags where
  is_accept : Bool
  is_start : Bool
deriving DecidableEq, Repr

/-- Insert into a set-as-list (no-op when already present). -/
def insertStr (l : List String) (x : String) : List String :=
  if x ∈ l then l else l ++ [x]

/-- Insert into a set-as-list (no-op when already present). -/
def insertChar (l : List Char) (c : Char) : List Char :=
  if c ∈ l then l else l ++ [c]

/-- `set.discard`. -/
def removeStr (l : List String) (x : String) : List String :=
  l.filter (fun y => y ≠ x)

/-- Python dict assignment `d[k] = v`: overwrite in place or append. -/
def updA {κ β : Type} [DecidableEq κ] (l : List (κ × β)) (k : κ) (v : β) :
    List (κ × β) :=
  if (l.lookup k).isSome then
    l.map (fun p => if p.1 = k then (k, v) else p)
  else l ++ [(k, v)]

/-! ## NFA and ε-NFA (src/models/nfa.py)

`NFA` and `EpsilonNFA` share one data representation; they differ only in
their `accepts`/simulation functions.  The `(state,symbol) → set of state`
index is kept as the flat list of `((from,symbol),to)` entries (the same
triples the Python code feeds to `defaultdict(set)`; `get_next_states`
reads it back up to duplicates and order, which is all that set holds). -/

structure NFAData where
  states : List (String × StFlags)
  alphabet : List Char
  start : Option String
  accept : List String
  etrans : List ((String × Char) × String)
deriving DecidableEq, Repr

/-- The empty automaton produced by `NFA()` / `EpsilonNFA()`. -/
def emptyNFA : NFAData := ⟨[], [], none, [], []⟩

/-- `Automaton.add_state`. -/
def addStateN (m : NFAData) (name : String) (iacc istart : Bool) : NFAData :=
  { states := updA m.states name ⟨iacc, istart⟩
    alphabet := m.alphabet
    start := if istart then some name else m.start
    accept := if iacc then insertStr m.accept name else m.accept
    etrans := m.etrans }

/-- `NFA.add_transition` (non-deterministic; epsilon is kept out of the
public alphabet by `Automaton.add_transition`). -/
def addTransN (m : NFAData) (f t : String) (sym : Char) : NFAData :=
  { m with
    alphabet := if sym = 'ε' then m.alphabet else insertChar m.alphabet sym
    etrans := m.etrans ++ [((f, sym), t)] }

/-- `NFA.get_next_states` (also the spec's `(state,symbol) → set of state`
index lookup, which `subset_construction.py` invokes under the name
`get_transitions`; that accessor is absent from `src/models`, and the
spec fixes its meaning as this lookup). -/
def nfaNext (m : NFAData) (s : String) (sym : Char) : List String :=
  m.etrans.filterMap (fun e => if e.1.1 = s ∧ e.1.2 = sym then some e.2 else none)

/-- One input symbol step on a set of states (`NFA.accepts` loop body). -/
def nfaStepSet (m : NFAData) (cur : List String) (sym : Char) : List String :=
  (cur.flatMap (fun s => nfaNext m s sym)).dedup

/-- `NFA.accepts`, after the start state has been fixed. -/
def nfaAcceptsFrom (m : NFAData) (cur : List String) : List Char → Bool
  | [] => cur.any (fun s => decide (s ∈ m.accept))
  | c :: w =>
    let nxt := nfaStepSet m cur c
    if nxt = [] then false else nfaAcceptsFrom m nxt w

/-- `NFA.accepts`. -/
def nfaAccepts (m : NFAData) (w : List Char) : Bool :=
  match m.start with
  | none => false
  | some s => nfaAcceptsFrom m [s] w

/-- `NFA.simulate_step_by_step`, after the start state has been fixed. -/
def nfaSimFrom (m : NFAData) (cur : List String) :
    List Char → List (List String × Char × List String)
  | [] => []
  | c :: w =>
    let nxt := nfaStepSet m cur c
    (cur, c, nxt) :: (if nxt = [] then [] else nfaSimFrom m nxt w)

/-- `NFA.simulate_step_by_step`. -/
def nfaSimulate (m : NFAData) (w : List Char) :
    List (List String × Char × List String) :=
  match m.start with
  | none => []
  | some s => nfaSimFrom m [s] w

/-! ### Epsilon closure

Both epsilon-closure routines in the source (`EpsilonNFA.epsilon_closure`
with a deque popped at the left, `subset_construction.epsilon_closure`
with a stack popped at the right) are worklist loops that differ only in
which end of the pending list they take next; `closureLoop` takes that
choice as the `front` flag.  The `while` loop gets explicit fuel; the
wrappers pass the provably sufficient `closureFuel`. -/

/-- Take the next worklist element: left end for a deque (`popleft`),
right end for a stack (`pop`). -/
def popSide (front : Bool) (l : List String) : Option (String × List String) :=
  match l with
  | [] => none
  | x :: xs => if front then some (x, xs) else
      match popSide front xs with
      | none => some (x, [])
      | some (y, ys) => some (y, x :: ys)

/-- Body of the closure loop over one popped state's epsilon successors:
each successor not yet in the closure is added to closure and worklist. -/
def closAdd (clos work : List String) : List String → List String × List String
  | [] => (clos, work)
  | t :: ts =>
    if t ∈ clos then closAdd clos work ts
    else closAdd (clos ++ [t]) (work ++ [t]) ts

/-- The worklist loop shared by both epsilon-closure routines. -/
def closureLoop (ets : String → List String) (front : Bool) :
    Nat → List String → List String → List String
  | 0, clos, _ => clos
  | fuel + 1, clos, work =>
    match popSide front work with
    | none => clos
    | some (s, work1) =>
      let p := closAdd clos work1 (ets s)
      closureLoop ets front fuel p.1 p.2

/-- Fuel sufficient for the closure worklist (proved below). -/
def closureFuel (m : NFAData) (S : List String) : Nat :=
  S.dedup.length + 2 * (S ++ m.etrans.map (fun e => e.2)).dedup.length + 1

/-- `EpsilonNFA.epsilon_closure` / `subset_construction.epsilon_closure`:
closure and worklist both start as the (dedup'd) input set. -/
def epsClosure (m : NFAData) (front : Bool) (S : List String) : List String :=
  closureLoop (fun s => nfaNext m s 'ε') front (closureFuel m S) S.dedup S.dedup

/-- `EpsilonNFA.accepts`, after the initial closure has been taken. -/
def enfaAcceptsFrom (m : NFAData) (cur : List String) : List Char → Bool
  | [] => cur.any (fun s => decide (s ∈ m.accept))
  | c :: w =>
    let nxt := (cur.flatMap (fun s => nfaNext m s c)).dedup
    if nxt = [] then false
    else enfaAcceptsFrom m (epsClosure m true nxt) w

/-- `EpsilonNFA.accepts`. -/
def enfaAccepts (m : NFAData) (w : List Char) : Bool :=
  match m.start with
  | none => false
  | some s => enfaAcceptsFrom m (epsClosure m true [s]) w

/-- `EpsilonNFA.simulate_step_by_step`, after the initial closure. -/
def enfaSimFrom (m : NFAData) (cur : List String) :
    List Char → List (List String × Char × List String)
  | [] => []
  | c :: w =>
    let nxt := epsClosure m true ((cur.flatMap (fun s => nfaNext m s c)).dedup)
    (cur, c, nxt) :: (if nxt = [] then [] else enfaSimFrom m nxt w)

/-- `EpsilonNFA.simulate_step_by_step`. -/
def enfaSimulate (m : NFAData) (w : List Char) :
    List (List String × Char × List String) :=
  match m.start with
  | none => []
  | some s => enfaSimFrom m (epsClosure m true [s]) w

/-! ## DFA (src/models/dfa.py) -/

structure DFAData where
  states : List (String × StFlags)
  alphabet : List Char
  start : Option String
  accept : List String
  table : List ((String × Char) × String)
deriving DecidableEq, Repr

/-- The empty automaton produced by `DFA()`. -/
def emptyDFA : DFAData := ⟨[], [], none, [], []⟩

/-- `Automaton.add_state` on a DFA. -/
def addStateD (d : DFAData) (name : String) (iacc istart : Bool) : DFAData :=
  { states := updA d.states name ⟨iacc, istart⟩
    alphabet := d.alphabet
    start := if istart then some name else d.start
    accept := if iacc then insertStr d.accept name else d.accept
    table := d.table }

/-- `DFA.add_transition`: raises when a binding for `(from,symbol)` is
already present — the existing entry is never overwritten, and the error
is raised before any field is touched, so on the error path the automaton
is returned unchanged (here: no new automaton is produced at all). -/
def dfaAddTransition (d : DFAData) (f t : String) (sym : Char) :
    Except String DFAData :=
  if (d.table.lookup (f, sym)).isSome then
    .error "DFA transition already exists"
  else
    .ok { d with
          alphabet := if sym = 'ε' then d.alphabet else insertChar d.alphabet sym
          table := d.table ++ [((f, sym), t)] }

/-- `DFA.get_next_state` (also the `(state,symbol) → state` index lookup
that `minimization.py` invokes as the absent accessor `get_transition`;
the spec fixes its meaning as this lookup). -/
def dfaNext (d : DFAData) (s : String) (sym : Char) : Option String :=
  d.table.lookup (s, sym)

/-- `DFA.accepts`, after the start state has been fixed. -/
def dfaAcceptsFrom (d : DFAData) (s : String) : List Char → Bool
  | [] => decide (s ∈ d.accept)
  | c :: w =>
    match dfaNext d s c with
    | none => false
    | some t => dfaAcceptsFrom d t w

/-- `DFA.accepts`. -/
def dfaAccepts (d : DFAData) (w : List Char) : Bool :=
  match d.start with
  | none => false
  | some s => dfaAcceptsFrom d s w

/-- `DFA.simulate_step_by_step`, after the start state has been fixed. -/
def dfaSimFrom (d : DFAData) (s : String) : List Char → List (String × Char × String)
  | [] => []
  | c :: w =>
    match dfaNext d s c with
    | none => [(s, c, "REJECT")]
    | some t => (s, c, t) :: dfaSimFrom d t w

/-- `DFA.simulate_step_by_step`. -/
def dfaSimulate (d : DFAData) (w : List Char) : List (String × Char × String) :=
  match d.start with
  | none => []
  | some s => dfaSimFrom d s w

/-- `DFA.get_state_count` / `Automaton.get_state_count`. -/
def dfaStateCount (d : DFAData) : Nat := d.states.length

/-! ## Mealy and Moore machines (src/models/mealy_moore.py) -/

structure MealyData where
  states : List (String × StFlags)
  alphabet : List Char
  start : Option String
  accept : List String
  mtable : List ((String × Char) × (String × String))
  output_alphabet : List String
deriving DecidableEq, Repr

/-- `MealyMachine.process_input` main loop (`outputs` is the accumulator). -/
def mealyProcessFrom (m : MealyData) (s : String) (acc : List String) :
    List Char → Bool × List String
  | [] => (true, acc)
  | c :: w =>
    match m.mtable.lookup (s, c) with
    | none => (false, acc)
    | some (t, out) => mealyProcessFrom m t (acc ++ [out]) w

/-- `MealyMachine.process_input`. -/
def mealyProcess (m : MealyData) (w : List Char) : Bool × List String :=
  match m.start with
  | none => (false, [])
  | some s => mealyProcessFrom m s [] w

/-- `MealyMachine.accepts`. -/
def mealyAccepts (m : MealyData) (w : List Char) : Bool := (mealyProcess m w).1

/-- `MealyMachine.simulate_step_by_step`, after the start state is fixed. -/
def mealySimFrom (m : MealyData) (s : String) :
    List Char → List (String × Char × String × String)
  | [] => []
  | c :: w =>
    match m.mtable.lookup (s, c) with
    | none => [(s, c, "ERROR", "ERROR")]
    | some (t, out) => (s, c, out, t) :: mealySimFrom m t w

/-- `MealyMachine.simulate_step_by_step`. -/
def mealySimulate (m : MealyData) (w : List Char) :
    List (String × Char × String × String) :=
  match m.start with
  | none => []
  | some s => mealySimFrom m s w

structure MooreData where
  states : List (String × StFlags)
  alphabet : List Char
  start : Option String
  accept : List String
  state_outputs : List (String × String)
  mtable : List ((String × Char) × String)
  output_alphabet : List String
deriving DecidableEq, Repr

/-- `MooreMachine.set_state_output`: raises when the state does not
exist; the check precedes every mutation, so a failed call leaves the
machine unchanged (here: produces no machine at all). -/
def mooreSetStateOutput (m : MooreData) (s out : String) :
    Except String MooreData :=
  if (m.states.lookup s).isSome then
    .ok { m with
          state_outputs := updA m.state_outputs s out
          output_alphabet := insertStr m.output_alphabet out }
  else .error "State does not exist"

/-- `self.state_outputs.get(state, "")` as used by the Moore walkers. -/
def mooreOutput (m : MooreData) (s : String) : String :=
  (m.state_outputs.lookup s).getD ""

/-- `MooreMachine.process_input` main loop. -/
def mooreProcessFrom (m : MooreData) (s : String) (acc : List String) :
    List Char → Bool × List String
  | [] => (true, acc)
  | c :: w =>
    match m.mtable.lookup (s, c) with
    | none => (false, acc)
    | some t => mooreProcessFrom m t (acc ++ [mooreOutput m t]) w

/-- `MooreMachine.process_input` (the initial state output is emitted
before any symbol is consumed). -/
def mooreProcess (m : MooreData) (w : List Char) : Bool × List String :=
  match m.start with
  | none => (false, [])
  | some s => mooreProcessFrom m s [mooreOutput m s] w

/-- `MooreMachine.accepts`. -/
def mooreAccepts (m : MooreData) (w : List Char) : Bool := (mooreProcess m w).1

/-- `MooreMachine.simulate_step_by_step`, after the start state is fixed. -/
def mooreSimFrom (m : MooreData) (s : String) :
    List Char → List (String × Char × String × String)
  | [] => []
  | c :: w =>
    match m.mtable.lookup (s, c) with
    | none => [(s, c, "ERROR", "ERROR")]
    | some t => (s, c, t, mooreOutput m t) :: mooreSimFrom m t w

/-- `MooreMachine.simulate_step_by_step`. -/
def mooreSimulate (m : MooreData) (w : List Char) :
    List (String × Char × String × String) :=
  match m.start with
  | none => []
  | some s => mooreSimFrom m s w

/-! ## PDA (src/models/pda.py)

A configuration is `(state, remaining input, stack)` with the stack top
at the head.  `PDA.accepts` is a breadth-first search over configurations
with a visited set; the Python `while queue` loop has **no** step or
frontier bound, so the embedded loop takes fuel and `none` reports that
the given number of iterations did not finish the search. -/

structure PDATransition where
  from_state : String
  to_state : String
  input_symbol : Char
  stack_pop : Char
  stack_push : List Char
deriving DecidableEq, Repr

structure PDAData where
  states : List (String × StFlags)
  alphabet : List Char
  start : Option String
  accept : List String
  stack_alphabet : List Char
  start_stack_symbol : Char
  ptrans : List PDATransition
deriving DecidableEq, Repr

/-- A PDA configuration `(state, remaining_input, stack)`. -/
abbrev PDACfg : Type := String × List Char × List Char

/-- `PDA.get_applicable_transitions` (the caller guarantees a present
stack top; a transition applies when its pop symbol matches the top and
its label is epsilon or equals the next unread input symbol). -/
def pdaApplicable (p : PDAData) (st : String) (inp : Option Char) (top : Char) :
    List PDATransition :=
  p.ptrans.filter (fun tr =>
    decide (tr.from_state = st ∧ tr.stack_pop = top ∧
      (inp = some tr.input_symbol ∨ tr.input_symbol = 'ε')))

/-- Applying one PDA transition to a configuration whose stack is
`top :: stkrest`: pop the top, push the transition's (non-epsilon) push
sequence, and consume one input symbol unless the label is epsilon. -/
def pdaStep (tr : PDATransition) (inp : List Char) (stkrest : List Char) : PDACfg :=
  (tr.to_state,
   (if tr.input_symbol ≠ 'ε' ∧ inp ≠ [] then inp.tail else inp),
   tr.stack_push.filter (fun c => c ≠ 'ε') ++ stkrest)

/-- The `while queue` BFS of `PDA.accepts`, with fuel counting loop
iterations; `none` means the loop was still running when fuel ran out
(the Python loop itself has no such bound and would still be running). -/
def pdaLoop (p : PDAData) : Nat → List PDACfg → List PDACfg → Option Bool
  | 0, _, _ => none
  | _ + 1, [], _ => some false
  | fuel + 1, cfg :: rest, visited =>
    if cfg ∈ visited then pdaLoop p fuel rest visited
    else
      let visited2 := visited ++ [cfg]
      if cfg.1 ∈ p.accept ∧ cfg.2.1 = [] then some true
      else
        match cfg.2.2 with
        | [] => pdaLoop p fuel rest visited2
        | top :: stkrest =>
          let trs := pdaApplicable p cfg.1 cfg.2.1.head? top
          pdaLoop p fuel (rest ++ trs.map (fun tr => pdaStep tr cfg.2.1 stkrest))
            visited2

/-- `PDA.accepts`, running the BFS for at most `fuel` iterations. -/
def pdaAccepts (p : PDAData) (w : List Char) (fuel : Nat) : Option Bool :=
  match p.start with
  | none => some false
  | some s => pdaLoop p fuel [(s, w, [p.start_stack_symbol])] []

/-- One deterministic step record of `PDA.simulate_step_by_step`. -/
def pdaSimLoop (p : PDAData) : Nat → PDACfg →
    List (PDACfg × Option PDATransition) → List (PDACfg × Option PDATransition)
  | 0, _, path => path
  | fuel + 1, cfg, path =>
    if cfg.1 ∈ p.accept ∧ cfg.2.1 = [] then path
    else
      match cfg.2.2 with
      | [] => path
      | top :: stkrest =>
        match pdaApplicable p cfg.1 cfg.2.1.head? top with
        | [] => path
        | tr :: _ =>
          let ncfg := pdaStep tr cfg.2.1 stkrest
          pdaSimLoop p fuel ncfg (path ++ [(ncfg, some tr)])

/-- `PDA.simulate_step_by_step` with its `max_steps` bound (default 100
at the Python call site). -/
def pdaSimulate (p : PDAData) (w : List Char) (max_steps : Nat) :
    List (PDACfg × Option PDATransition) :=
  match p.start with
  | none => []
  | some s =>
    let initial : PDACfg := (s, w, [p.start_stack_symbol])
    pdaSimLoop p max_steps initial [(initial, none)]

/-! ## Thompson construction (src/algorithms/thompson.py)

`build_fragment` threads the builder state (the ε-NFA under construction
and the fresh-name counter) explicitly; `new_state` increments the
counter and yields `"q" ++ counter`. -/

structure TFrag where
  start : String
  accept : String
deriving DecidableEq, Repr

/-- `new_state` of `thompson_construction`. -/
def newStateName (c : Nat) : String := "q" ++ toString (c + 1)

/-- `nfa.states[name].is_accept = False` followed by
`nfa.accept_states.discard(name)`. -/
def demoteAccept (m : NFAData) (name : String) : NFAData :=
  { m with
    states := m.states.map (fun p =>
      if p.1 = name then (p.1, { p.2 with is_accept := false }) else p)
    accept := removeStr m.accept name }

/-- `build_fragment`, returning the extended ε-NFA, the next counter
value, and the fragment's `(start, accept)` pair. -/
def buildFragment : RegexNode → NFAData → Nat → NFAData × Nat × TFrag
  | .EPSILON, nfa, c =>
    let start := newStateName c
    let accept := newStateName (c + 1)
    let nfa1 := addStateN nfa start false false
    let nfa2 := addStateN nfa1 accept true false
    let nfa3 := addTransN nfa2 start accept 'ε'
    (nfa3, c + 2, ⟨start, accept⟩)
  | .CHAR v, nfa, c =>
    let start := newStateName c
    let accept := newStateName (c + 1)
    let nfa1 := addStateN nfa start false false
    let nfa2 := addStateN nfa1 accept true false
    let nfa3 := addTransN nfa2 start accept v
    (nfa3, c + 2, ⟨start, accept⟩)
  | .CONCAT l r, nfa, c =>
    let p1 := buildFragment l nfa c
    let p2 := buildFragment r p1.1 p1.2.1
    let lf := p1.2.2
    let rf := p2.2.2
    let nfa3 := demoteAccept p2.1 lf.accept
    let nfa4 := addTransN nfa3 lf.accept rf.start 'ε'
    (nfa4, p2.2.1, ⟨lf.start, rf.accept⟩)
  | .OR l r, nfa, c =>
    let p1 := buildFragment l nfa c
    let p2 := buildFragment r p1.1 p1.2.1
    let lf := p1.2.2
    let rf := p2.2.2
    let c2 := p2.2.1
    let start := newStateName c2
    let accept := newStateName (c2 + 1)
    let nfa3 := addStateN p2.1 start false false
    let nfa4 := addStateN nfa3 accept true false
    let nfa5 := demoteAccept (demoteAccept nfa4 lf.accept) rf.accept
    let nfa6 := addTransN nfa5 start lf.start 'ε'
    let nfa7 := addTransN nfa6 start rf.start 'ε'
    let nfa8 := addTransN nfa7 lf.accept accept 'ε'
    let nfa9 := addTransN nfa8 rf.accept accept 'ε'
    (nfa9, c2 + 2, ⟨start, accept⟩)
  | .STAR x, nfa, c =>
    let p1 := buildFragment x nfa c
    let xf := p1.2.2
    let c1 := p1.2.1
    let start := newStateName c1
    let accept := newStateName (c1 + 1)
    let nfa2 := addStateN p1.1 start false false
    let nfa3 := addStateN nfa2 accept true false
    let nfa4 := demoteAccept nfa3 xf.accept
    let nfa5 := addTransN nfa4 start xf.start 'ε'
    let nfa6 := addTransN nfa5 start accept 'ε'
    let nfa7 := addTransN nfa6 xf.accept xf.start 'ε'
    let nfa8 := addTransN nfa7 xf.accept accept 'ε'
    (nfa8, c1 + 2, ⟨start, accept⟩)
  | .PLUS x, nfa, c =>
    let p1 := buildFragment x nfa c
    let xf := p1.2.2
    let c1 := p1.2.1
    let start := newStateName c1
    let accept := newStateName (c1 + 1)
    let nfa2 := addStateN p1.1 start false false
    let nfa3 := addStateN nfa2 accept true false
    let nfa4 := demoteAccept nfa3 xf.accept
    let nfa5 := addTransN nfa4 start xf.start 'ε'
    let nfa6 := addTransN nfa5 xf.accept xf.start 'ε'
    let nfa7 := addTransN nfa6 xf.accept accept 'ε'
    (nfa7, c1 + 2, ⟨start, accept⟩)

/-- `nfa.start_state = fragment.start` and
`nfa.states[fragment.start].is_start = True`. -/
def setStartFlag (m : NFAData) (name : String) : NFAData :=
  { m with
    start := some name
    states := m.states.map (fun p =>
      if p.1 = name then (p.1, { p.2 with is_start := true }) else p) }

/-- `thompson_construction`: parse, build the fragment from the AST on a
fresh ε-NFA and counter 0, then mark the fragment start. -/
def thompsonConstruction (regex : List Char) : Except ParseErr NFAData :=
  match parseRegex regex with
  | .error e => .error e
  | .ok ast =>
    let p := buildFragment ast emptyNFA 0
    .ok (setStartFlag p.1 p.2.2.start)

/-! ## Epsilon elimination (src/algorithms/subset_construction.py,
`epsilon_nfa_to_nfa`)

The calls `enfa.get_transitions(...)` in that file refer to an accessor
that does not exist in `src/models`; per the spec it is the
`(state,symbol) → set of state` index lookup, i.e. `nfaNext`.  The
module's own `epsilon_closure` is the stack-driven worklist
(`epsClosure _ false`). -/

/-- Inner symbol loop of `epsilon_nfa_to_nfa`: from original state `s`
with closure `ec`, emit a transition to every member of the closed
successor set (skipping epsilon, which the public alphabet never
contains anyway). -/
def elimSymbolTrans (enfa : NFAData) (nfa : NFAData) (s : String)
    (ec : List String) (sym : Char) : NFAData :=
  if sym = 'ε' then nfa
  else
    let nextS := (ec.flatMap (fun u => nfaNext enfa u sym)).dedup
    if nextS = [] then nfa
    else
      (epsClosure enfa false nextS).foldl
        (fun acc tgt => addTransN acc s tgt sym) nfa

/-- Per-state body of `epsilon_nfa_to_nfa`: mark `s` accepting when its
closure meets the original accept set, then add its symbol transitions. -/
def elimState (enfa : NFAData) (nfa : NFAData) (s : String) : NFAData :=
  let ec := epsClosure enfa false [s]
  let nfa1 :=
    if ec.any (fun x => decide (x ∈ enfa.accept)) then
      { nfa with accept := insertStr nfa.accept s }
    else nfa
  enfa.alphabet.foldl (fun acc sym => elimSymbolTrans enfa acc s ec sym) nfa1

/-- `epsilon_nfa_to_nfa`. -/
def epsilonNfaToNfa (enfa : NFAData) : NFAData :=
  let base := enfa.states.foldl
    (fun acc p => addStateN acc p.1 false false) emptyNFA
  let base2 := { base with start := enfa.start }
  enfa.states.foldl (fun acc p => elimState enfa acc p.1) base2

/-! ## Subset construction (src/algorithms/subset_construction.py,
`nfa_to_dfa`)

A Python `frozenset` key is order-independent; its canonical embedded
form is the sorted deduplicated list `canon`. -/

/-- Canonical, order-independent key of a set of NFA states. -/
def canon (l : List String) : List String :=
  l.dedup.insertionSort (fun a b => a ≤ b)

/-- Union of symbol successors of a subset (the `next_states` set). -/
def nfaSetSucc (nfa : NFAData) (S : List String) (sym : Char) : List String :=
  (S.flatMap (fun s => nfaNext nfa s sym)).dedup

/-- `DFA.add_transition` composed with Python's "key already present"
behaviour wherever the surrounding algorithm guards against or provably
never triggers the duplicate-key error: a present key leaves the DFA
unchanged.  In `nfa_to_dfa` the error can never fire (each processed
subset is handled once and subset keys map to distinct names); in
`build_minimized_dfa` the guard is Python's own `added_transitions`
check, whose content always equals the table's key set. -/
def dfaAddChecked (d : DFAData) (f t : String) (sym : Char) : DFAData :=
  match dfaAddTransition d f t sym with
  | .ok d2 => d2
  | .error _ => d

/-- The memoization state of `nfa_to_dfa`: the DFA under construction,
the `state_map` from canonical subset keys to DFA state names, and the
fresh-name counter. -/
structure SubsetSt where
  dfa : DFAData
  smap : List (List String × String)
  counter : Nat
deriving DecidableEq, Repr

/-- `get_dfa_state`: memoized creation of the DFA state for a subset
key; a fresh state is accepting iff the subset meets the NFA's accept
set. -/
def getDfaState (nfa : NFAData) (st : SubsetSt) (key : List String) :
    SubsetSt × String :=
  match st.smap.lookup key with
  | some name => (st, name)
  | none =>
    let name := "q" ++ toString (st.counter + 1)
    let dfa1 := addStateD st.dfa name false false
    let dfa2 :=
      if key.any (fun s => decide (s ∈ nfa.accept)) then
        { dfa1 with accept := insertStr dfa1.accept name }
      else dfa1
    (⟨dfa2, st.smap ++ [(key, name)], st.counter + 1⟩, name)

/-- The `for symbol in nfa.alphabet` body of the BFS: successors of the
current subset are keyed canonically, memoized, wired into the table,
and enqueued unless already processed; an empty successor set emits
nothing. -/
def subsetSymStep (nfa : NFAData) (S : List String)
    (processed : List (List String)) (curName : String)
    (acc : SubsetSt × List (List String)) (sym : Char) :
    SubsetSt × List (List String) :=
  let next := nfaSetSucc nfa S sym
  if next = [] then acc
  else
    let key := canon next
    let p := getDfaState nfa acc.1 key
    let st2 := { p.1 with dfa := dfaAddChecked p.1.dfa curName p.2 sym }
    (st2, if key ∈ processed then acc.2 else acc.2 ++ [key])

/-- The `while queue` BFS of `nfa_to_dfa` (fuel counts loop iterations;
`subsetFuel` below is proved sufficient). -/
def subsetLoop (nfa : NFAData) :
    Nat → List (List String) → List (List String) → SubsetSt →
    SubsetSt × List (List String)
  | 0, _, processed, st => (st, processed)
  | _ + 1, [], processed, st => (st, processed)
  | fuel + 1, S :: rest, processed, st =>
    if S ∈ processed then subsetLoop nfa fuel rest processed st
    else
      let processed2 := processed ++ [S]
      let p := getDfaState nfa st S
      let q := nfa.alphabet.foldl (subsetSymStep nfa S processed2 p.2)
        (p.1, ([] : List (List String)))
      subsetLoop nfa fuel (rest ++ q.2) processed2 q.1

/-- Fuel sufficient for the subset BFS (proved below). -/
def subsetFuel (nfa : NFAData) (s0 : String) : Nat :=
  2 ^ ((s0 :: nfa.etrans.map (fun e => e.2)).dedup.length) *
    (nfa.alphabet.length + 2) + 2

/-- `nfa_to_dfa`, additionally exposing the memoization state and the
processed set for the stated invariants.  (With no start state the
Python code would run the construction on the subset `{None}`, producing
a DFA with one non-accepting state and no transitions, which accepts
nothing — modelled by the corresponding empty-start DFA.) -/
def nfaToDfaFull (nfa : NFAData) : SubsetSt × List (List String) :=
  match nfa.start with
  | none => (⟨emptyDFA, [], 0⟩, [])
  | some s0 =>
    let startKey := canon [s0]
    let p := getDfaState nfa ⟨emptyDFA, [], 0⟩ startKey
    let st2 := { p.1 with dfa := { p.1.dfa with start := some p.2 } }
    subsetLoop nfa (subsetFuel nfa s0) [startKey] [] st2

/-- `nfa_to_dfa`. -/
def nfaToDfa (nfa : NFAData) : DFAData := (nfaToDfaFull nfa).1.dfa

/-! ## Minimization (src/algorithms/minimization.py)

`dfa.get_transition` in that file refers to an accessor absent from
`src/models`; per the spec it is the `(state,symbol) → state` index
lookup, i.e. `dfaNext`. -/

/-- The `while stack` worklist of `find_reachable_states` (fuel counts
iterations; `reachFuel` below is proved sufficient). -/
def reachLoop (d : DFAData) : Nat → List String → List String → List String
  | 0, _, reach => reach
  | fuel + 1, stack, reach =>
    match popSide false stack with
    | none => reach
    | some (s, stack1) =>
      if s ∈ reach then reachLoop d fuel stack1 reach
      else
        let reach2 := reach ++ [s]
        let pushes := d.alphabet.filterMap (fun sym =>
          match dfaNext d s sym with
          | none => none
          | some t => if t ∈ reach2 then none else some t)
        reachLoop d fuel (stack1 ++ pushes) reach2

/-- Fuel sufficient for the reachability worklist (proved below). -/
def reachFuel (d : DFAData) (s0 : String) : Nat :=
  (d.alphabet.length + 1) * (s0 :: d.table.map (fun e => e.2)).dedup.length + 2

/-- `find_reachable_states` (with the start state already extracted). -/
def findReachable (d : DFAData) (s0 : String) : List String :=
  reachLoop d (reachFuel d s0) [s0] []

/-- The index of the first partition containing a (possibly undefined)
successor state, `-1` when none does (`split_partition`'s signature
entry; an undefined successor is never a member of any block). -/
def partIdx (parts : List (List String)) (x : Option String) : Int :=
  match x with
  | none => -1
  | some t =>
    match parts.findIdx? (fun p => decide (t ∈ p)) with
    | none => -1
    | some i => (i : Int)

/-- A state's transition signature over the sorted alphabet. -/
def sigOf (d : DFAData) (parts : List (List String)) (s : String) : List Int :=
  (d.alphabet.insertionSort (fun a b => a ≤ b)).map
    (fun sym => partIdx parts (dfaNext d s sym))

/-- Add a state to the group of its signature (`signatures[sig].add`),
keeping first-seen signature order like a Python dict. -/
def addToGroup (key : List Int) (s : String) :
    List (List Int × List String) → List (List Int × List String)
  | [] => [(key, [s])]
  | g :: gs =>
    if g.1 = key then (g.1, g.2 ++ [s]) :: gs else g :: addToGroup key s gs

/-- `split_partition`. -/
def splitPartition (d : DFAData) (parts : List (List String))
    (block : List String) : List (List String) :=
  if block.length ≤ 1 then [block]
  else
    (block.foldl (fun acc s => addToGroup (sigOf d parts s) s acc) []).map
      (fun g => g.2)

/-- One full refinement pass over all partitions, returning the new
partition list and the `changed` flag. -/
def refinePass (d : DFAData) (parts : List (List String)) :
    List (List String) × Bool :=
  parts.foldl (fun acc block =>
    let split := splitPartition d parts block
    if 1 < split.length then (acc.1 ++ split, true)
    else (acc.1 ++ [block], acc.2)) ([], false)

/-- The `while changed` refinement loop (fuel counts passes; the fuel
passed by `minimizeDfa` is proved sufficient). -/
def refineLoop (d : DFAData) : Nat → List (List String) → List (List String)
  | 0, parts => parts
  | fuel + 1, parts =>
    let p := refinePass d parts
    if p.2 then refineLoop d fuel p.1 else p.1

/-- `state_map[x]` of `build_minimized_dfa`: the representative name
`"q" ++ i` of the (unique, by disjointness) partition containing `x`. -/
def stateMapLookup (parts : List (List String)) (x : String) : Option String :=
  match parts.findIdx? (fun p => decide (x ∈ p)) with
  | none => none
  | some i => some ("q" ++ toString i)

/-- State-creation step of `build_minimized_dfa`: partition block number
`pr.1` becomes state `"q" ++ i`, accepting when the block meets the
original accept set. -/
def minimBaseStep (d : DFAData) (acc : DFAData) (pr : Nat × List String) :
    DFAData :=
  let rep := "q" ++ toString pr.1
  let acc1 := addStateD acc rep false false
  if pr.2.any (fun s => decide (s ∈ d.accept)) then
    { acc1 with accept := insertStr acc1.accept rep }
  else acc1

/-- Per-symbol transition sampling of `build_minimized_dfa`. -/
def minimTransInner (d : DFAData) (parts : List (List String))
    (sample : String) (acc2 : DFAData) (sym : Char) : DFAData :=
  match dfaNext d sample sym with
  | none => acc2
  | some t =>
    match stateMapLookup parts t, stateMapLookup parts sample with
    | some trep, some srep => dfaAddChecked acc2 srep trep sym
    | _, _ => acc2

/-- Per-block transition sampling of `build_minimized_dfa` (transitions
are sampled from the first state of the block). -/
def minimTransStep (d : DFAData) (parts : List (List String))
    (acc : DFAData) (block : List String) : DFAData :=
  match block with
  | [] => acc
  | sample :: _ => d.alphabet.foldl (minimTransInner d parts sample) acc

/-- `build_minimized_dfa`.  The two `none` fallthroughs on `stateMapLookup`
mark spots where Python would raise `KeyError`; they are unreachable
because the partition list covers the δ-closed reachable set (proved
below), so every start state and every sampled successor is found. -/
def buildMinimized (d : DFAData) (parts : List (List String))
    (origStart : String) : DFAData :=
  let base := parts.enum.foldl (minimBaseStep d) emptyDFA
  let base2 := { base with start := stateMapLookup parts origStart }
  parts.foldl (minimTransStep d parts) base2

/-- `minimize_dfa`.  (With no start state Python explores from `None`
and produces a single non-accepting state `q0` with no transitions;
that concrete result is returned directly here.) -/
def minimizeDfa (d : DFAData) : DFAData :=
  match d.start with
  | none =>
    ⟨[("q0", ⟨false, false⟩)], [], some "q0", [], []⟩
  | some s0 =>
    let reach := findReachable d s0
    let acceptB := reach.filter (fun x => decide (x ∈ d.accept))
    let nonacc := reach.filter (fun x => decide (x ∉ d.accept))
    let parts0 := (if acceptB = [] then [] else [acceptB]) ++
      (if nonacc = [] then [] else [nonacc])
    let parts := refineLoop d (reach.length + 2) parts0
    buildMinimized d parts s0

/-! ### Walks, observations and reachability of a (partial) DFA -/

/-- Iterated `get_next_state`: the state reached from `s` after the
word `w`, `none` when the walk dies on a missing transition. -/
def dfaWalk (d : DFAData) (s : String) : List Char → Option String
  | [] => some s
  | c :: w =>
    match dfaNext d s c with
    | none => none
    | some t => dfaWalk d t w

/-- The observable outcome of a word from a state: `none` when the walk
dies, otherwise whether the reached state is accepting. -/
def dfaObs (d : DFAData) (s : String) (w : List Char) : Option Bool :=
  (dfaWalk d s w).map (fun t => decide (t ∈ d.accept))

/-- `x` is reachable from `s0` along the transition table. -/
def dfaReach (d : DFAData) (s0 x : String) : Prop :=
  ∃ w, dfaWalk d s0 w = some x

/-- The universe the reachability worklist can ever visit: the start
state and the transition targets. -/
def dfaTargets (d : DFAData) (s0 : String) : List String :=
  (s0 :: d.table.map (fun e => e.2)).dedup

/-- Well-formedness of a DFA as `minimize_dfa` requires it: names
referenced by the start state and the transition table are states, and
every table symbol is in the alphabet (as `Automaton.add_transition`
maintains). -/
structure DFAWf (d : DFAData) : Prop where
  startMem : ∀ s, d.start = some s → s ∈ d.states.map Prod.fst
  srcMem : ∀ e ∈ d.table, e.1.1 ∈ d.states.map Prod.fst
  tgtMem : ∀ e ∈ d.table, e.2 ∈ d.states.map Prod.fst
  symMem : ∀ e ∈ d.table, e.1.2 ∈ d.alphabet
  noEps : ('ε' : Char) ∉ d.alphabet

/-- Every transition accumulated by the `build_minimized_dfa` sampling
phase comes from sampling the head of some partition block. -/
def TransSound (d : DFAData) (parts : List (List String))
    (acc : DFAData) : Prop :=
  ∀ e ∈ acc.table, ∃ B ∈ parts, ∃ sample rest, B = sample :: rest ∧
    stateMapLookup parts sample = some e.1.1 ∧
    ∃ t, dfaNext d sample e.1.2 = some t ∧
      stateMapLookup parts t = some e.2

/-! ## Mealy/Moore conversions (src/algorithms/conversions.py)

That module manipulates `mealy.transitions` / `mealy.output_function` /
`moore.transitions` / `moore.output_function` and passes `output=` to
`moore.add_state` — none of which exist on the machines in `src/models`.
Modelled from the spec: per §3 the Mealy index is
`(state,symbol) → (state, output)` (here `mtable`, read as the two dicts
`transitions` and `output_function` with one shared key set), the Moore
index is `(state,symbol) → state` plus the separate `state → output` map
(here `mtable` and `state_outputs`), and `add_state(..., output=o)`
records `o` in that map.  The `state_map` dict of `mealy_to_moore` is
total on the pairs the algorithm ever looks up (for machines whose
transitions stay inside the declared states and alphabet), so it is
modelled by its defining name scheme. -/

/-- The distinct outputs on a state's outgoing transitions, collected in
alphabet order (`outputs` set of `mealy_to_moore`). -/
def mealyOutputsOf (m : MealyData) (s : String) : List String :=
  (m.alphabet.filterMap (fun sym =>
    (m.mtable.lookup (s, sym)).map (fun p => p.2))).dedup

/-- The output of the first transition found from `s` under the fixed
alphabet iteration order (`start_output` / `next_output` searches). -/
def mealyFirstOutput (m : MealyData) (s : String) : Option String :=
  (m.alphabet.filterMap (fun sym =>
    (m.mtable.lookup (s, sym)).map (fun p => p.2))).head?

/-- `state_map[(state, output)]` of `mealy_to_moore`: the Moore state
name created for the pair. -/
def stateMapMM (s : String) (o : Option String) : String :=
  match o with
  | none => s
  | some out => s ++ "_" ++ out

/-- `mealy.add_state(state)` as invoked by `moore_to_mealy` (default
flags). -/
def addStateMealy (me : MealyData) (name : String) : MealyData :=
  { me with states := updA me.states name ⟨false, false⟩ }

/-- `moore.add_state(name, output=o)` of `mealy_to_moore`: add the state
and record its output (see module note). -/
def addStateMoore (mo : MooreData) (name : String) (out : Option String) :
    MooreData :=
  { mo with
    states := updA mo.states name ⟨false, false⟩
    state_outputs :=
      match out with
      | none => mo.state_outputs
      | some o => updA mo.state_outputs name o
    output_alphabet :=
      match out with
      | none => mo.output_alphabet
      | some o => insertStr mo.output_alphabet o }

/-- `MooreMachine.add_transition` (output-free; the symbol joins the
alphabet via the base class). -/
def addTransMoore (mo : MooreData) (f t : String) (sym : Char) : MooreData :=
  { mo with
    alphabet := if sym = 'ε' then mo.alphabet else insertChar mo.alphabet sym
    mtable := updA mo.mtable (f, sym) t }

/-- `mealy_to_moore`. -/
def mealyToMoore (m : MealyData) : MooreData :=
  let mo1 := m.states.foldl (fun acc p =>
    let outs := mealyOutputsOf m p.1
    if outs = [] then addStateMoore acc p.1 none
    else outs.foldl (fun acc2 o =>
      addStateMoore acc2 (stateMapMM p.1 (some o)) (some o)) acc)
    (⟨[], [], none, [], [], [], []⟩ : MooreData)
  let mo2 := { mo1 with
    start := match m.start with
      | none => none
      | some s => some (stateMapMM s (mealyFirstOutput m s)) }
  m.mtable.foldl (fun acc e =>
    let mfrom := stateMapMM e.1.1 (some e.2.2)
    let mto := stateMapMM e.2.1 (mealyFirstOutput m e.2.1)
    addTransMoore acc mfrom mto e.1.2) mo2

/-- `moore_to_mealy`: state-preserving; each Moore transition becomes a
Mealy transition whose output is the destination state's stored output
(Python's `output_function.get(to_state)`, which yields `None` for a
missing output; the claims below only involve machines where every
reached state has one, and the model then uses the stored output). -/
def mooreToMealy (mo : MooreData) : MealyData :=
  let me1 := mo.states.foldl (fun acc p => addStateMealy acc p.1)
    (⟨[], [], none, [], [], []⟩ : MealyData)
  let me2 := { me1 with start := mo.start }
  mo.mtable.foldl (fun acc e =>
    let out := (mo.state_outputs.lookup e.2).getD ""
    { acc with mtable := updA acc.mtable e.1 (e.2, out) }) me2

/-! ## Concrete machines used when settling the claims -/

/-- A PDA with a single push-only epsilon loop: in state `q0`, on no
input, pop `Z` and push `ZZ`.  Its configuration space
`(q0, ε, Z^(k+1))` is infinite, and no configuration is accepting. -/
def loopPDA : PDAData :=
  ⟨[("q0", ⟨false, true⟩)], [], some "q0", [], ['Z'], 'Z',
   [⟨"q0", "q0", 'ε', 'Z', ['Z', 'Z']⟩]⟩

/-- The configuration of `loopPDA`'s BFS after `k` loop iterations. -/
def cfgZ (k : Nat) : PDACfg := ("q0", [], List.replicate (k + 1) 'Z')

/-- A two-state Mealy machine in which each state's outgoing transitions
all carry the same output (`A` always emits "0", `B` always emits "1"). -/
def exMealy : MealyData :=
  ⟨[("A", ⟨false, false⟩), ("B", ⟨false, false⟩)], ['a'], some "A", [],
   [(("A", 'a'), ("B", "0")), (("B", 'a'), ("A", "1"))], ["0", "1"]⟩

/-- A DFA with one declared transition, used to exercise the duplicate
transition check. -/
def exDFA8 : DFAData :=
  ⟨[("s", ⟨false, true⟩), ("t", ⟨true, false⟩)], ['x'], some "s", ["t"],
   [(("s", 'x'), "t")]⟩

/-- A Moore machine with a single state `m`, used to exercise the
unknown-state check of `set_state_output`. -/
def exMoore8 : MooreData :=
  ⟨[("m", ⟨false, true⟩)], [], some "m", [], [("m", "0")], [], ["0"]⟩

/-- A two-state NFA over `{a}` (`s --a--> t`, `t` accepting), used to
exercise the subset construction at a concrete input. -/
def exNFA6 : NFAData :=
  ⟨[("s", ⟨false, false⟩), ("t", ⟨true, false⟩)], ['a'], some "s", ["t"],
   [(("s", 'a'), "t")]⟩

/-- An empty PDA (no start state). -/
def emptyPDA : PDAData := ⟨[], [], none, [], [], 'Z', []⟩

/-- The ε-NFA Thompson's construction yields for the regex `"a"`, used
to exercise the pipeline-equivalence claim at a concrete input. -/
def exThompsonA : NFAData :=
  ⟨[("q1", ⟨false, true⟩), ("q2", ⟨true, false⟩)], ['a'], some "q1",
   ["q2"], [(("q1", 'a'), "q2")]⟩

/-- The ε-NFA Thompson's construction yields for the regex `"ε"` (the
literal epsilon character): a single epsilon edge, an empty public
alphabet. -/
def exThompsonEps : NFAData :=
  ⟨[("q1", ⟨false, true⟩), ("q2", ⟨true, false⟩)], [], some "q1",
   ["q2"], [(("q1", 'ε'), "q2")]⟩

/-- An empty Mealy machine (no start state). -/
def emptyMealy : MealyData := ⟨[], [], none, [], [], []⟩

/-- An empty Moore machine (no start state). -/
def emptyMoore : MooreData := ⟨[], [], none, [], [], [], []⟩

/-! ## Decimal-digit helpers

Used only to prove that the generated state names `"q1", "q2", …` are
pairwise distinct (injectivity of `Nat.repr`). -/

/-- Decimal value of a digit character (left inverse of `Nat.digitChar`
on digits). -/
def charVal (c : Char) : Nat := c.toNat - 48

/-- Value of a decimal digit string (left inverse of `Nat.toDigits 10`). -/
def digitsVal (l : List Char) : Nat :=
  l.foldl (fun a c => 10 * a + charVal c) 0

/-! ## Structural invariants used in the proofs -/

/-- Well-formedness of an ε-NFA under construction: state names are
unique, no state carries the start flag yet, and the accept set and all
transition endpoints refer to existing states. -/
structure BuildInv (nfa : NFAData) : Prop where
  nodupKeys : (nfa.states.map Prod.fst).Nodup
  noStart : ∀ p ∈ nfa.states, p.2.is_start = false
  acceptKeys : ∀ a ∈ nfa.accept, a ∈ nfa.states.map Prod.fst
  edgeKeys : ∀ e ∈ nfa.etrans,
    e.1.1 ∈ nfa.states.map Prod.fst ∧ e.2 ∈ nfa.states.map Prod.fst

/-- All names the counter will generate from `c` on are unused. -/
def FreshFrom (nfa : NFAData) (c : Nat) : Prop :=
  ∀ j, c ≤ j → newStateName j ∉ nfa.states.map Prod.fst ∧
    newStateName j ∉ nfa.accept

/-- Well-formedness of a completed ε-NFA (as produced by Thompson's
construction): a start state exists and every referenced name is a
state. -/
structure ENFAWf (m : NFAData) : Prop where
  startMem : ∀ s, m.start = some s → s ∈ m.states.map Prod.fst
  acceptKeys : ∀ a ∈ m.accept, a ∈ m.states.map Prod.fst
  edgeKeys : ∀ e ∈ m.etrans,
    e.1.1 ∈ m.states.map Prod.fst ∧ e.2 ∈ m.states.map Prod.fst

/-- Invariant maintained by the subset-construction memoization state:
DFA names are exactly `q1..q_counter` in creation order, subset keys are
canonical, non-empty and bound at most once, a memoized name is
accepting iff its subset meets the NFA accept set, and every transition
recorded so far goes from a memoized subset with a non-empty successor
set to the memoized name of that successor set. -/
structure SubInv (nfa : NFAData) (st : SubsetSt) : Prop where
  names_eq : st.smap.map Prod.snd = (List.range st.counter).map newStateName
  keys_nodup : (st.smap.map Prod.fst).Nodup
  keys_canon : ∀ k ∈ st.smap.map Prod.fst, canon k = k
  keys_ne : ∀ k ∈ st.smap.map Prod.fst, k ≠ []
  accept_iff : ∀ kv ∈ st.smap, (kv.2 ∈ st.dfa.accept ↔ ∃ a ∈ kv.1, a ∈ nfa.accept)
  accept_sub : ∀ n ∈ st.dfa.accept, n ∈ st.smap.map Prod.snd
  table_inv : ∀ e ∈ st.dfa.table, ∃ S, st.smap.lookup S = some e.1.1 ∧
    nfaSetSucc nfa S e.1.2 ≠ [] ∧
    st.smap.lookup (canon (nfaSetSucc nfa S e.1.2)) = some e.2

/-- Reachability from a seed set along a successor function: the set the
closure worklists compute.  With `ets s = nfaNext m s 'ε'` this is
epsilon-reachability. -/
inductive FnReach (ets : String → List String) (S : List String) :
    String → Prop
  | base {x : String} : x ∈ S → FnReach ets S x
  | step {x y : String} : FnReach ets S x → y ∈ ets x → FnReach ets S y

/-- A memoized subset key has been fully expanded by the BFS: for every
alphabet symbol with a non-empty successor set the DFA has the matching
transition into the memoized successor key. -/
def SubComplete (nfa : NFAData) (st : SubsetSt) (K : List String) : Prop :=
  ∀ sym ∈ nfa.alphabet, nfaSetSucc nfa K sym ≠ [] →
    ∃ nK nT, st.smap.lookup K = some nK ∧
      st.smap.lookup (canon (nfaSetSucc nfa K sym)) = some nT ∧
      st.dfa.table.lookup (nK, sym) = some nT

/-- Bindings already made by the subset construction persist: the
memoization map and the DFA transition table only ever gain entries. -/
def SubExt (st st2 : SubsetSt) : Prop :=
  (∀ k v, st.smap.lookup k = some v → st2.smap.lookup k = some v) ∧
  (∀ p v, st.dfa.table.lookup p = some v → st2.dfa.table.lookup p = some v)

end FSM

/-! # Theorems -/

namespace FSM

/-! ## Distinctness of generated state names -/

theorem digitsVal_append (l : List Char) (c : Char) :
    digitsVal (l ++ [c]) = 10 * digitsVal l + charVal c := by
  rw [digitsVal, digitsVal, List.foldl_append]
  rfl

theorem charVal_digitChar (m : Nat) (h : m < 10) :
    charVal (Nat.digitChar m) = m := by
  interval_cases m <;> rfl

theorem toDigitsCore_acc (b : Nat) : ∀ (fuel n : Nat) (ds : List Char),
    Nat.toDigitsCore b fuel n ds = Nat.toDigitsCore b fuel n [] ++ ds := by
  intro fuel
  induction fuel with
  | zero => intro n ds; rfl
  | succ f ih =>
    intro n ds
    rw [Nat.toDigitsCore, Nat.toDigitsCore]
    by_cases h : n / b = 0
    · rw [if_pos h, if_pos h]; rfl
    · rw [if_neg h, if_neg h, ih (n / b) (Nat.digitChar (n % b) :: ds),
        ih (n / b) [Nat.digitChar (n % b)]]
      simp

theorem digitsVal_toDigitsCore : ∀ (n fuel : Nat), n < fuel →
    digitsVal (Nat.toDigitsCore 10 fuel n []) = n := by
  intro n
  induction n using Nat.strong_induction_on with
  | _ n ih =>
    intro fuel h
    cases fuel with
    | zero => omega
    | succ f =>
      rw [Nat.toDigitsCore]
      by_cases h0 : n / 10 = 0
      · rw [if_pos h0]
        have hn : n < 10 := by omega
        have hv : digitsVal [Nat.digitChar (n % 10)] =
            10 * 0 + charVal (Nat.digitChar (n % 10)) := rfl
        rw [hv, charVal_digitChar _ (Nat.mod_lt _ (by omega))]
        omega
      · rw [if_neg h0, toDigitsCore_acc, digitsVal_append]
        have h1 : n / 10 < n := Nat.div_lt_self (by omega) (by omega)
        have h2 : n / 10 < f := by omega
        rw [ih (n / 10) h1 f h2, charVal_digitChar _ (Nat.mod_lt _ (by omega))]
        omega

theorem natRepr_inj {m n : Nat} (h : Nat.repr m = Nat.repr n) : m = n := by
  have hd : Nat.toDigits 10 m = Nat.toDigits 10 n := congrArg String.data h
  have hv := congrArg digitsVal hd
  rw [Nat.toDigits, Nat.toDigits,
    digitsVal_toDigitsCore m (m + 1) (by omega),
    digitsVal_toDigitsCore n (n + 1) (by omega)] at hv
  exact hv

/-- The state names produced by the fresh-name counters are pairwise
distinct. -/
theorem newStateName_inj {i j : Nat} (h : newStateName i = newStateName j) :
    i = j := by
  rw [newStateName, newStateName] at h
  have hd := congrArg String.data h
  rw [String.data_append, String.data_append] at hd
  have hr : Nat.repr (i + 1) = Nat.repr (j + 1) := by
    apply String.ext
    have := List.append_cancel_left hd
    exact this
  have := natRepr_inj hr
  omega

/-! ## Association list utilities -/

theorem lookup_cons_eq {α β : Type} [BEq α] [LawfulBEq α]
    (p : α × β) (rest : List (α × β)) (k : α) (h : k = p.1) :
    (p :: rest).lookup k = some p.2 := by
  rw [List.lookup_cons]
  have hb : (k == p.1) = true := by simp [h]
  rw [hb]

theorem lookup_cons_ne {α β : Type} [BEq α] [LawfulBEq α]
    (p : α × β) (rest : List (α × β)) (k : α) (h : k ≠ p.1) :
    (p :: rest).lookup k = rest.lookup k := by
  rw [List.lookup_cons]
  have hb : (k == p.1) = false := beq_false_of_ne h
  rw [hb]

theorem lookup_isSome_iff {α β : Type} [BEq α] [LawfulBEq α]
    (l : List (α × β)) (k : α) :
    (l.lookup k).isSome ↔ k ∈ l.map Prod.fst := by
  induction l with
  | nil => simp
  | cons p rest ih =>
    by_cases h : k = p.1
    · rw [lookup_cons_eq p rest k h]
      simp [h]
    · rw [lookup_cons_ne p rest k h]
      simp [ih, h]

theorem lookup_eq_none_iff {α β : Type} [BEq α] [LawfulBEq α]
    (l : List (α × β)) (k : α) :
    l.lookup k = none ↔ k ∉ l.map Prod.fst := by
  rw [← lookup_isSome_iff]
  cases l.lookup k <;> simp

theorem lookup_mem {α β : Type} [BEq α] [LawfulBEq α]
    {l : List (α × β)} {k : α} {v : β} (h : l.lookup k = some v) :
    (k, v) ∈ l := by
  induction l with
  | nil => cases h
  | cons p rest ih =>
    by_cases hk : k = p.1
    · rw [lookup_cons_eq p rest k hk] at h
      injection h with h
      exact List.mem_cons.mpr (Or.inl (by rw [hk, ← h]))
    · rw [lookup_cons_ne p rest k hk] at h
      exact List.mem_cons_of_mem _ (ih h)

theorem lookup_append_left {α β : Type} [BEq α] [LawfulBEq α]
    {l : List (α × β)} (l2 : List (α × β)) {k : α} {v : β}
    (h : l.lookup k = some v) :
    (l ++ l2).lookup k = some v := by
  induction l with
  | nil => cases h
  | cons p rest ih =>
    rw [List.cons_append]
    by_cases hk : k = p.1
    · rw [lookup_cons_eq p rest k hk] at h
      rw [lookup_cons_eq p (rest ++ l2) k hk]
      exact h
    · rw [lookup_cons_ne p rest k hk] at h
      rw [lookup_cons_ne p (rest ++ l2) k hk]
      exact ih h

theorem lookup_append_right {α β : Type} [BEq α] [LawfulBEq α]
    {l : List (α × β)} (l2 : List (α × β)) {k : α}
    (h : l.lookup k = none) :
    (l ++ l2).lookup k = l2.lookup k := by
  induction l with
  | nil => rfl
  | cons p rest ih =>
    rw [List.cons_append]
    by_cases hk : k = p.1
    · rw [lookup_cons_eq p rest k hk] at h; cases h
    · rw [lookup_cons_ne p rest k hk] at h
      rw [lookup_cons_ne p (rest ++ l2) k hk]
      exact ih h

theorem mem_updA {β : Type} {l : List (String × β)} {k : String} {v : β}
    {p : String × β} (h : p ∈ updA l k v) : p = (k, v) ∨ p ∈ l := by
  rw [updA] at h
  by_cases hs : (l.lookup k).isSome
  · rw [if_pos hs] at h
    obtain ⟨q, hq, hqe⟩ := List.mem_map.mp h
    by_cases hqk : q.1 = k
    · rw [if_pos hqk] at hqe; exact Or.inl hqe.symm
    · rw [if_neg hqk] at hqe; exact Or.inr (hqe ▸ hq)
  · rw [if_neg hs] at h
    rcases List.mem_append.mp h with h | h
    · exact Or.inr h
    · exact Or.inl (List.mem_singleton.mp h)

theorem keys_updA {β : Type} (l : List (String × β)) (k : String) (v : β) :
    (updA l k v).map Prod.fst =
      if (l.lookup k).isSome then l.map Prod.fst
      else l.map Prod.fst ++ [k] := by
  rw [updA]
  by_cases hs : (l.lookup k).isSome
  · rw [if_pos hs, if_pos hs]
    rw [List.map_map]
    apply List.map_congr_left
    intro p _
    by_cases hp : p.1 = k
    · simp [hp]
    · simp [hp]
  · rw [if_neg hs, if_neg hs]
    simp

theorem mem_keys_updA {β : Type} (l : List (String × β)) (k n : String) (v : β) :
    n ∈ (updA l k v).map Prod.fst ↔ n ∈ l.map Prod.fst ∨ n = k := by
  rw [keys_updA]
  by_cases hs : (l.lookup k).isSome
  · rw [if_pos hs]
    constructor
    · exact Or.inl
    · rintro (h | rfl)
      · exact h
      · exact (lookup_isSome_iff l n).mp hs
  · rw [if_neg hs]
    simp

theorem keys_nodup_updA {β : Type} {l : List (String × β)} (k : String) (v : β)
    (h : (l.map Prod.fst).Nodup) : ((updA l k v).map Prod.fst).Nodup := by
  rw [keys_updA]
  by_cases hs : (l.lookup k).isSome
  · rwa [if_pos hs]
  · rw [if_neg hs]
    rw [List.nodup_append]
    refine ⟨h, List.nodup_singleton k, ?_⟩
    intro a ha hb
    rw [List.mem_singleton] at hb
    rw [hb] at ha
    exact ((lookup_eq_none_iff l k).mp (Option.not_isSome_iff_eq_none.mp hs)) ha

theorem lookup_map_update {β : Type} (k : String) (v : β) :
    ∀ l : List (String × β), k ∈ l.map Prod.fst →
    (l.map (fun p => if p.1 = k then (k, v) else p)).lookup k = some v := by
  intro l
  induction l with
  | nil => intro hs; simp at hs
  | cons p rest ih =>
    intro hs
    rw [List.map_cons]
    by_cases hpk : p.1 = k
    · rw [if_pos hpk]
      exact lookup_cons_eq (k, v) _ k rfl
    · rw [if_neg hpk]
      rw [lookup_cons_ne p _ k (Ne.symm hpk)]
      refine ih ?_
      simp only [List.map_cons, List.mem_cons] at hs
      rcases hs with h | h
      · exact absurd h.symm hpk
      · exact h

theorem lookup_updA_self {β : Type} (l : List (String × β))
    (k : String) (v : β) :
    (updA l k v).lookup k = some v := by
  rw [updA]
  by_cases hs : (l.lookup k).isSome
  · rw [if_pos hs]
    exact lookup_map_update k v l ((lookup_isSome_iff l k).mp hs)
  · rw [if_neg hs]
    rw [lookup_append_right [(k, v)] (Option.not_isSome_iff_eq_none.mp hs)]
    exact lookup_cons_eq (k, v) [] k rfl

theorem lookup_map_update_other {β : Type} (k k' : String) (v : β)
    (h : k' ≠ k) :
    ∀ l : List (String × β),
    (l.map (fun p => if p.1 = k then (k, v) else p)).lookup k' = l.lookup k' := by
  intro l
  induction l with
  | nil => rfl
  | cons p rest ih =>
    rw [List.map_cons]
    by_cases hpk : p.1 = k
    · rw [if_pos hpk]
      rw [lookup_cons_ne (k, v) _ k' h]
      rw [lookup_cons_ne p rest k' (fun hx => h (hx.trans hpk))]
      exact ih
    · rw [if_neg hpk]
      by_cases hk' : k' = p.1
      · rw [lookup_cons_eq p _ k' hk', lookup_cons_eq p rest k' hk']
      · rw [lookup_cons_ne p _ k' hk', lookup_cons_ne p rest k' hk']
        exact ih

theorem lookup_updA_other {β : Type} (l : List (String × β))
    (k k' : String) (v : β) (h : k' ≠ k) :
    (updA l k v).lookup k' = l.lookup k' := by
  rw [updA]
  by_cases hs : (l.lookup k).isSome
  · rw [if_pos hs]
    exact lookup_map_update_other k k' v h l
  · rw [if_neg hs]
    by_cases hm : (l.lookup k').isSome
    · obtain ⟨v', hv'⟩ := Option.isSome_iff_exists.mp hm
      rw [lookup_append_left [(k, v)] hv', hv']
    · rw [lookup_append_right [(k, v)] (Option.not_isSome_iff_eq_none.mp hm),
        Option.not_isSome_iff_eq_none.mp hm]
      exact lookup_cons_ne (k, v) [] k' h

/-! ## Parser infrastructure -/

/-- Success of any of the parser functions is stable under extra fuel. -/
theorem parse_mono :
    ∀ f : Nat,
      (∀ l r, parseOr f l = .ok r → parseOr (f + 1) l = .ok r) ∧
      (∀ left l r, parseOrLoop f left l = .ok r → parseOrLoop (f + 1) left l = .ok r) ∧
      (∀ l r, parseConcat f l = .ok r → parseConcat (f + 1) l = .ok r) ∧
      (∀ acc l r, parseConcatLoop f acc l = .ok r → parseConcatLoop (f + 1) acc l = .ok r) ∧
      (∀ l r, parseStar f l = .ok r → parseStar (f + 1) l = .ok r) ∧
      (∀ l r, parseBase f l = .ok r → parseBase (f + 1) l = .ok r) := by
  intro f
  induction f with
  | zero =>
    refine ⟨?_, ?_, ?_, ?_, ?_, ?_⟩ <;> intros <;>
      simp_all [parseOr, parseOrLoop, parseConcat, parseConcatLoop,
        parseStar, parseBase]
  | succ f ih =>
    obtain ⟨ihOr, ihOrLoop, ihConcat, ihConcatLoop, ihStar, ihBase⟩ := ih
    refine ⟨?_, ?_, ?_, ?_, ?_, ?_⟩
    · intro l r h
      rw [parseOr] at h ⊢
      cases hc : parseConcat f l with
      | error e => rw [hc] at h; cases h
      | ok p =>
        rw [hc] at h
        rw [ihConcat _ _ hc]
        exact ihOrLoop _ _ _ h
    · intro left l r h
      cases l with
      | nil => rw [parseOrLoop] at h ⊢; exact h
      | cons c rest =>
        rw [parseOrLoop] at h ⊢
        by_cases hcp : c = '|'
        · rw [if_pos hcp] at h ⊢
          cases hc : parseConcat f rest with
          | error e => rw [hc] at h; cases h
          | ok p =>
            rw [hc] at h
            rw [ihConcat _ _ hc]
            exact ihOrLoop _ _ _ h
        · rw [if_neg hcp] at h ⊢; exact h
    · intro l r h
      rw [parseConcat] at h ⊢
      cases hc : parseConcatLoop f [] l with
      | error e => rw [hc] at h; cases h
      | ok p => rw [hc] at h; rw [ihConcatLoop _ _ _ hc]; exact h
    · intro acc l r h
      cases l with
      | nil => rw [parseConcatLoop] at h ⊢; exact h
      | cons c rest =>
        rw [parseConcatLoop] at h ⊢
        by_cases hcp : c = ')' ∨ c = '|'
        · rw [if_pos hcp] at h ⊢; exact h
        · rw [if_neg hcp] at h ⊢
          cases hc : parseStar f (c :: rest) with
          | error e => rw [hc] at h; cases h
          | ok p =>
            rw [hc] at h
            rw [ihStar _ _ hc]
            exact ihConcatLoop _ _ _ h
    · intro l r h
      rw [parseStar] at h ⊢
      cases hc : parseBase f l with
      | error e => rw [hc] at h; cases h
      | ok p => rw [hc] at h; rw [ihBase _ _ hc]; exact h
    · intro l r h
      cases l with
      | nil => rw [parseBase] at h ⊢; exact h
      | cons c rest =>
        rw [parseBase] at h ⊢
        by_cases hcp : c = '('
        · rw [if_pos hcp] at h ⊢
          cases hc : parseOr f rest with
          | error e => rw [hc] at h; cases h
          | ok p => rw [hc] at h; rw [ihOr _ _ hc]; exact h
        · rw [if_neg hcp] at h ⊢; exact h

/-- Success of `parse_or` is stable under any increase of fuel. -/
theorem parseOr_mono_le {f g : Nat} (hfg : f ≤ g) {l : List Char}
    {r : RegexNode × List Char} (h : parseOr f l = .ok r) :
    parseOr g l = .ok r := by
  induction hfg with
  | refl => exact h
  | step _ ih => exact (parse_mono _).1 _ _ ih

/-- The postfix star/plus loop only consumes input. -/
theorem starLoop_len : ∀ (l : List Char) (node : RegexNode),
    (starLoop node l).2.length ≤ l.length := by
  intro l
  induction l with
  | nil => intro node; simp [starLoop]
  | cons c rest ih =>
    intro node
    rw [starLoop]
    by_cases h1 : c = '*'
    · rw [if_pos h1]; exact (ih _).trans (Nat.le_succ _)
    · rw [if_neg h1]
      by_cases h2 : c = '+'
      · rw [if_pos h2]; exact (ih _).trans (Nat.le_succ _)
      · rw [if_neg h2]

/-- What the postfix star/plus loop consumes is stars and pluses. -/
theorem starLoop_decomp : ∀ (l : List Char) (node : RegexNode),
    ∃ pre, l = pre ++ (starLoop node l).2 ∧ ∀ c ∈ pre, c = '*' ∨ c = '+' := by
  intro l
  induction l with
  | nil => intro node; exact ⟨[], by simp [starLoop]⟩
  | cons c rest ih =>
    intro node
    rw [starLoop]
    by_cases h1 : c = '*'
    · rw [if_pos h1]
      obtain ⟨pre, hpre, hall⟩ := ih (RegexNode.STAR node)
      exact ⟨c :: pre, by simp [hpre.symm, h1], by
        intro x hx
        rcases List.mem_cons.mp hx with h | h
        · exact Or.inl (h.trans h1)
        · exact hall x h⟩
    · rw [if_neg h1]
      by_cases h2 : c = '+'
      · rw [if_pos h2]
        obtain ⟨pre, hpre, hall⟩ := ih (RegexNode.PLUS node)
        exact ⟨c :: pre, by simp [hpre.symm, h2], by
          intro x hx
          rcases List.mem_cons.mp hx with h | h
          · exact Or.inr (h.trans h2)
          · exact hall x h⟩
      · rw [if_neg h2]
        exact ⟨[], by simp⟩

/-- The postfix star/plus loop is unaffected by input beyond a `')'`. -/
theorem starLoop_append : ∀ (l : List Char) (node : RegexNode) (t : List Char),
    starLoop node (l ++ ')' :: t) =
      ((starLoop node l).1, (starLoop node l).2 ++ ')' :: t) := by
  intro l
  induction l with
  | nil => intro node t; simp [starLoop]
  | cons c rest ih =>
    intro node t
    rw [List.cons_append, starLoop, starLoop]
    by_cases h1 : c = '*'
    · rw [if_pos h1, if_pos h1, ih]
    · rw [if_neg h1, if_neg h1]
      by_cases h2 : c = '+'
      · rw [if_pos h2, if_pos h2, ih]
      · rw [if_neg h2, if_neg h2]; simp

/-- Every parser function returns a suffix of its input; `parse_star` and
`parse_base` always consume at least one character. -/
theorem parse_len :
    ∀ f : Nat,
      (∀ l r, parseOr f l = .ok r → r.2.length ≤ l.length) ∧
      (∀ left l r, parseOrLoop f left l = .ok r → r.2.length ≤ l.length) ∧
      (∀ l r, parseConcat f l = .ok r → r.2.length ≤ l.length) ∧
      (∀ acc l r, parseConcatLoop f acc l = .ok r → r.2.length ≤ l.length) ∧
      (∀ l r, parseStar f l = .ok r → r.2.length < l.length) ∧
      (∀ l r, parseBase f l = .ok r → r.2.length < l.length) := by
  intro f
  induction f with
  | zero =>
    refine ⟨?_, ?_, ?_, ?_, ?_, ?_⟩ <;> intros <;>
      simp_all [parseOr, parseOrLoop, parseConcat, parseConcatLoop,
        parseStar, parseBase]
  | succ f ih =>
    obtain ⟨ihOr, ihOrLoop, ihConcat, ihConcatLoop, ihStar, ihBase⟩ := ih
    refine ⟨?_, ?_, ?_, ?_, ?_, ?_⟩
    · intro l r h
      rw [parseOr] at h
      cases hc : parseConcat f l with
      | error e => rw [hc] at h; cases h
      | ok p =>
        rw [hc] at h
        exact (ihOrLoop _ _ _ h).trans (ihConcat _ _ hc)
    · intro left l r h
      cases l with
      | nil => rw [parseOrLoop] at h; cases h; simp
      | cons c rest =>
        rw [parseOrLoop] at h
        by_cases hcp : c = '|'
        · rw [if_pos hcp] at h
          cases hc : parseConcat f rest with
          | error e => rw [hc] at h; cases h
          | ok p =>
            rw [hc] at h
            calc r.2.length ≤ p.2.length := ihOrLoop _ _ _ h
              _ ≤ rest.length := ihConcat _ _ hc
              _ ≤ (c :: rest).length := Nat.le_succ _
        · rw [if_neg hcp] at h; cases h; simp
    · intro l r h
      rw [parseConcat] at h
      cases hc : parseConcatLoop f [] l with
      | error e => rw [hc] at h; cases h
      | ok p => rw [hc] at h; cases h; exact ihConcatLoop _ _ _ hc
    · intro acc l r h
      cases l with
      | nil => rw [parseConcatLoop] at h; cases h; simp
      | cons c rest =>
        rw [parseConcatLoop] at h
        by_cases hcp : c = ')' ∨ c = '|'
        · rw [if_pos hcp] at h; cases h; simp
        · rw [if_neg hcp] at h
          cases hc : parseStar f (c :: rest) with
          | error e => rw [hc] at h; cases h
          | ok p =>
            rw [hc] at h
            exact (ihConcatLoop _ _ _ h).trans (Nat.le_of_lt (ihStar _ _ hc))
    · intro l r h
      rw [parseStar] at h
      cases hc : parseBase f l with
      | error e => rw [hc] at h; cases h
      | ok p =>
        rw [hc] at h
        cases h
        exact Nat.lt_of_le_of_lt (starLoop_len _ _) (ihBase _ _ hc)
    · intro l r h
      cases l with
      | nil => rw [parseBase] at h; cases h
      | cons c rest =>
        rw [parseBase] at h
        by_cases hcp : c = '('
        · rw [if_pos hcp] at h
          cases hc : parseOr f rest with
          | error e => rw [hc] at h; cases h
          | ok p =>
            obtain ⟨node, l1⟩ := p
            rw [hc] at h
            cases l1 with
            | nil => cases h
            | cons d l2 =>
              have h1 : (if d = ')' then
                  (Except.ok (node, l2) : Except ParseErr (RegexNode × List Char))
                  else .error (.syntaxErr "Expected closing parenthesis")) =
                  .ok r := h
              by_cases hd : d = ')'
              · rw [if_pos hd] at h1
                cases h1
                have h2 : (d :: l2).length ≤ rest.length := ihOr _ _ hc
                simp only [List.length_cons] at h2 ⊢
                omega
              · rw [if_neg hd] at h1; cases h1
        · rw [if_neg hcp] at h
          by_cases hce : c = 'ε'
          · rw [if_pos hce] at h; cases h; simp
          · rw [if_neg hce] at h
            by_cases hcb : c = '\\' ∧ rest.head? = some 'e'
            · rw [if_pos hcb] at h
              cases h
              cases rest with
              | nil => simp at hcb
              | cons e rs => simp; omega
            · rw [if_neg hcb] at h
              by_cases hcr : c = ')' ∨ c = '|' ∨ c = '*' ∨ c = '+'
              · rw [if_pos hcr] at h; cases h
              · rw [if_neg hcr] at h; cases h; simp

/-- The fuel the wrappers provide is sufficient: with at least
`5·|input| + k` fuel (per-function offsets below) no parser function
reports `outOfFuel`. -/
theorem parse_fuel :
    ∀ f : Nat,
      (∀ l, 5 * l.length + 5 ≤ f → parseOr f l ≠ .error .outOfFuel) ∧
      (∀ left l, 5 * l.length + 1 ≤ f → parseOrLoop f left l ≠ .error .outOfFuel) ∧
      (∀ l, 5 * l.length + 4 ≤ f → parseConcat f l ≠ .error .outOfFuel) ∧
      (∀ acc l, 5 * l.length + 3 ≤ f → parseConcatLoop f acc l ≠ .error .outOfFuel) ∧
      (∀ l, 5 * l.length + 2 ≤ f → parseStar f l ≠ .error .outOfFuel) ∧
      (∀ l, 5 * l.length + 1 ≤ f → parseBase f l ≠ .error .outOfFuel) := by
  intro f
  induction f with
  | zero => refine ⟨?_, ?_, ?_, ?_, ?_, ?_⟩ <;> intros <;> omega
  | succ f ih =>
    obtain ⟨ihOr, ihOrLoop, ihConcat, ihConcatLoop, ihStar, ihBase⟩ := ih
    refine ⟨?_, ?_, ?_, ?_, ?_, ?_⟩
    · intro l hle
      rw [parseOr]
      cases hc : parseConcat f l with
      | error e =>
        intro hh
        injection hh with hh
        rw [hh] at hc
        exact ihConcat l (by omega) hc
      | ok p =>
        have hlen := (parse_len f).2.2.1 l p hc
        exact ihOrLoop p.1 p.2 (by omega)
    · intro left l hle
      cases l with
      | nil => rw [parseOrLoop]; simp
      | cons c rest =>
        rw [parseOrLoop]
        by_cases hcp : c = '|'
        · rw [if_pos hcp]
          cases hc : parseConcat f rest with
          | error e =>
            intro hh
            injection hh with hh
            rw [hh] at hc
            exact ihConcat rest (by simp at hle; omega) hc
          | ok p =>
            have hlen := (parse_len f).2.2.1 rest p hc
            exact ihOrLoop _ p.2 (by simp at hle; omega)
        · rw [if_neg hcp]; simp
    · intro l hle
      rw [parseConcat]
      cases hc : parseConcatLoop f [] l with
      | error e =>
        intro hh
        injection hh with hh
        rw [hh] at hc
        exact ihConcatLoop [] l (by omega) hc
      | ok p => simp
    · intro acc l hle
      cases l with
      | nil => rw [parseConcatLoop]; simp
      | cons c rest =>
        rw [parseConcatLoop]
        by_cases hcp : c = ')' ∨ c = '|'
        · rw [if_pos hcp]; simp
        · rw [if_neg hcp]
          cases hc : parseStar f (c :: rest) with
          | error e =>
            intro hh
            injection hh with hh
            rw [hh] at hc
            exact ihStar _ (by simp at hle ⊢; omega) hc
          | ok p =>
            have hlen := (parse_len f).2.2.2.2.1 _ p hc
            exact ihConcatLoop _ p.2 (by simp at hle hlen; omega)
    · intro l hle
      rw [parseStar]
      cases hc : parseBase f l with
      | error e =>
        intro hh
        injection hh with hh
        rw [hh] at hc
        exact ihBase l (by omega) hc
      | ok p => simp
    · intro l hle
      cases l with
      | nil => rw [parseBase]; simp
      | cons c rest =>
        rw [parseBase]
        by_cases hcp : c = '('
        · rw [if_pos hcp]
          cases hc : parseOr f rest with
          | error e =>
            intro hh
            injection hh with hh
            rw [hh] at hc
            exact ihOr rest (by simp at hle; omega) hc
          | ok p =>
            obtain ⟨node, l1⟩ := p
            cases l1 with
            | nil => simp
            | cons d l2 => by_cases hd : d = ')' <;> simp [hd]
        · rw [if_neg hcp]
          by_cases hce : c = 'ε'
          · rw [if_pos hce]; simp
          · rw [if_neg hce]
            by_cases hcb : c = '\\' ∧ rest.head? = some 'e'
            · rw [if_pos hcb]; simp
            · rw [if_neg hcb]
              by_cases hcr : c = ')' ∨ c = '|' ∨ c = '*' ∨ c = '+'
              · rw [if_pos hcr]; simp
              · rw [if_neg hcr]; simp

/-- `parse_regex` never runs out of fuel: the embedded parser with the
wrapper's fuel choice is total in the same way the Python parser is. -/
theorem parseRegex_no_fuel_failure (l : List Char) :
    parseRegex l ≠ .error .outOfFuel := by
  rw [parseRegex]
  by_cases hl : l = []
  · rw [if_pos hl]; simp
  · rw [if_neg hl]
    cases hc : parseOr (parserFuel (stripSpaces l)) (stripSpaces l) with
    | error e =>
      have he : e ≠ .outOfFuel := by
        intro hh
        rw [hh] at hc
        exact (parse_fuel _).1 _ (by rw [parserFuel]) hc
      simp only [hc]
      intro hh
      injection hh with hh
      exact he hh
    | ok p =>
      obtain ⟨node, l1⟩ := p
      simp only [hc]
      simp

/-- Appending `')' :: t` to an input on which a parser function
succeeds does not disturb the parse: the function returns the same node
and leaves `')' :: t` attached to its remainder.  (Both a `')'` and the
end of input stop every loop of the parser in the same way.) -/
theorem parse_extend (t : List Char) :
    ∀ f : Nat,
      (∀ l nd rest, parseOr f l = .ok (nd, rest) →
        parseOr f (l ++ ')' :: t) = .ok (nd, rest ++ ')' :: t)) ∧
      (∀ left l nd rest, parseOrLoop f left l = .ok (nd, rest) →
        parseOrLoop f left (l ++ ')' :: t) = .ok (nd, rest ++ ')' :: t)) ∧
      (∀ l nd rest, parseConcat f l = .ok (nd, rest) →
        parseConcat f (l ++ ')' :: t) = .ok (nd, rest ++ ')' :: t)) ∧
      (∀ acc l ns rest, parseConcatLoop f acc l = .ok (ns, rest) →
        parseConcatLoop f acc (l ++ ')' :: t) = .ok (ns, rest ++ ')' :: t)) ∧
      (∀ l nd rest, parseStar f l = .ok (nd, rest) →
        parseStar f (l ++ ')' :: t) = .ok (nd, rest ++ ')' :: t)) ∧
      (∀ l nd rest, parseBase f l = .ok (nd, rest) →
        parseBase f (l ++ ')' :: t) = .ok (nd, rest ++ ')' :: t)) := by
  intro f
  induction f with
  | zero =>
    refine ⟨?_, ?_, ?_, ?_, ?_, ?_⟩ <;> intros <;>
      simp_all [parseOr, parseOrLoop, parseConcat, parseConcatLoop,
        parseStar, parseBase]
  | succ f ih =>
    obtain ⟨ihOr, ihOrLoop, ihConcat, ihConcatLoop, ihStar, ihBase⟩ := ih
    refine ⟨?_, ?_, ?_, ?_, ?_, ?_⟩
    · intro l nd rest h
      rw [parseOr] at h ⊢
      cases hc : parseConcat f l with
      | error e => rw [hc] at h; cases h
      | ok p =>
        obtain ⟨left1, l1⟩ := p
        rw [hc] at h
        rw [ihConcat _ _ _ hc]
        exact ihOrLoop _ _ _ _ h
    · intro left l nd rest h
      cases l with
      | nil =>
        rw [parseOrLoop] at h
        cases h
        rw [List.nil_append, parseOrLoop]
        rw [if_neg (by decide : ¬(')' : Char) = '|')]
      | cons c rest0 =>
        rw [List.cons_append]
        rw [parseOrLoop] at h ⊢
        by_cases hcp : c = '|'
        · rw [if_pos hcp] at h ⊢
          cases hc : parseConcat f rest0 with
          | error e => rw [hc] at h; cases h
          | ok p =>
            obtain ⟨right1, l2⟩ := p
            rw [hc] at h
            rw [ihConcat _ _ _ hc]
            exact ihOrLoop _ _ _ _ h
        · rw [if_neg hcp] at h ⊢
          cases h
          rfl
    · intro l nd rest h
      rw [parseConcat] at h ⊢
      cases hc : parseConcatLoop f [] l with
      | error e => rw [hc] at h; cases h
      | ok p =>
        obtain ⟨ns1, l1⟩ := p
        rw [hc] at h
        cases h
        rw [ihConcatLoop _ _ _ _ hc]
    · intro acc l ns rest h
      cases l with
      | nil =>
        rw [parseConcatLoop] at h
        cases h
        rw [List.nil_append, parseConcatLoop]
        rw [if_pos (by decide : (')' : Char) = ')' ∨ (')' : Char) = '|')]
      | cons c rest0 =>
        rw [List.cons_append]
        rw [parseConcatLoop] at h ⊢
        by_cases hcp : c = ')' ∨ c = '|'
        · rw [if_pos hcp] at h ⊢
          cases h
          rfl
        · rw [if_neg hcp] at h ⊢
          cases hc : parseStar f (c :: rest0) with
          | error e => rw [hc] at h; cases h
          | ok p =>
            obtain ⟨node1, l1⟩ := p
            rw [hc] at h
            have hext := ihStar _ _ _ hc
            rw [List.cons_append] at hext
            rw [hext]
            exact ihConcatLoop _ _ _ _ h
    · intro l nd rest h
      rw [parseStar] at h ⊢
      cases hc : parseBase f l with
      | error e => rw [hc] at h; cases h
      | ok p =>
        obtain ⟨node1, l1⟩ := p
        rw [hc] at h
        rw [ihBase _ _ _ hc]
        have h2 : starLoop node1 l1 = (nd, rest) := by injection h
        show Except.ok (starLoop node1 (l1 ++ ')' :: t)) = .ok (nd, rest ++ ')' :: t)
        rw [starLoop_append, h2]
    · intro l nd rest h
      cases l with
      | nil => rw [parseBase] at h; cases h
      | cons c rest0 =>
        rw [List.cons_append]
        rw [parseBase] at h ⊢
        by_cases hcp : c = '('
        · rw [if_pos hcp] at h ⊢
          cases hc : parseOr f rest0 with
          | error e => rw [hc] at h; cases h
          | ok p =>
            obtain ⟨node1, l1⟩ := p
            rw [hc] at h
            rw [ihOr _ _ _ hc]
            cases l1 with
            | nil => cases h
            | cons d l2 =>
              have h1 : (if d = ')' then
                  (Except.ok (node1, l2) : Except ParseErr (RegexNode × List Char))
                  else .error (.syntaxErr "Expected closing parenthesis")) =
                  .ok (nd, rest) := h
              by_cases hd : d = ')'
              · rw [if_pos hd] at h1
                cases h1
                rw [List.cons_append]
                simp [hd]
              · rw [if_neg hd] at h1; cases h1
        · rw [if_neg hcp] at h ⊢
          by_cases hce : c = 'ε'
          · rw [if_pos hce] at h ⊢
            cases h
            rfl
          · rw [if_neg hce] at h ⊢
            by_cases hcb : c = '\\' ∧ rest0.head? = some 'e'
            · rw [if_pos hcb] at h
              cases rest0 with
              | nil => simp at hcb
              | cons e0 rs =>
                have he0 : e0 = 'e' := by simpa using hcb.2
                rw [if_pos (by simp [hcb.1, he0] :
                  c = '\\' ∧ ((e0 :: rs) ++ ')' :: t).head? = some 'e')]
                cases h
                rfl
            · rw [if_neg hcb] at h
              have hcb2 : ¬(c = '\\' ∧ ((rest0 ++ ')' :: t)).head? = some 'e') := by
                rintro ⟨hc1, hc2⟩
                cases rest0 with
                | nil => simp at hc2
                | cons e0 rs => exact hcb ⟨hc1, by simpa using hc2⟩
              rw [if_neg hcb2]
              by_cases hcr : c = ')' ∨ c = '|' ∨ c = '*' ∨ c = '+'
              · rw [if_pos hcr] at h; cases h
              · rw [if_neg hcr] at h ⊢
                cases h
                rfl

/-- A successful `parse_or` stops only at the end of input or at a
`')'` (`parse_concat` additionally at a `'|'`, which `parse_or` then
consumes). -/
theorem parse_stops :
    ∀ f : Nat,
      (∀ l nd rest, parseOr f l = .ok (nd, rest) →
        rest = [] ∨ ∃ u, rest = ')' :: u) ∧
      (∀ left l nd rest, parseOrLoop f left l = .ok (nd, rest) →
        (l = [] ∨ (∃ u, l = ')' :: u) ∨ (∃ u, l = '|' :: u)) →
        (rest = [] ∨ ∃ u, rest = ')' :: u)) ∧
      (∀ l nd rest, parseConcat f l = .ok (nd, rest) →
        rest = [] ∨ (∃ u, rest = ')' :: u) ∨ (∃ u, rest = '|' :: u)) ∧
      (∀ acc l ns rest, parseConcatLoop f acc l = .ok (ns, rest) →
        rest = [] ∨ (∃ u, rest = ')' :: u) ∨ (∃ u, rest = '|' :: u)) := by
  intro f
  induction f with
  | zero =>
    refine ⟨?_, ?_, ?_, ?_⟩ <;> intros <;>
      simp_all [parseOr, parseOrLoop, parseConcat, parseConcatLoop]
  | succ f ih =>
    obtain ⟨ihOr, ihOrLoop, ihConcat, ihConcatLoop⟩ := ih
    refine ⟨?_, ?_, ?_, ?_⟩
    · intro l nd rest h
      rw [parseOr] at h
      cases hc : parseConcat f l with
      | error e => rw [hc] at h; cases h
      | ok p =>
        obtain ⟨left1, l1⟩ := p
        rw [hc] at h
        refine ihOrLoop _ _ _ _ h ?_
        rcases ihConcat _ _ _ hc with h1 | h1 | h1
        · exact Or.inl h1
        · exact Or.inr (Or.inl h1)
        · exact Or.inr (Or.inr h1)
    · intro left l nd rest h hpre
      cases l with
      | nil =>
        rw [parseOrLoop] at h
        cases h
        exact Or.inl rfl
      | cons c rest0 =>
        rw [parseOrLoop] at h
        by_cases hcp : c = '|'
        · rw [if_pos hcp] at h
          cases hc : parseConcat f rest0 with
          | error e => rw [hc] at h; cases h
          | ok p =>
            obtain ⟨right1, l2⟩ := p
            rw [hc] at h
            refine ihOrLoop _ _ _ _ h ?_
            rcases ihConcat _ _ _ hc with h1 | h1 | h1
            · exact Or.inl h1
            · exact Or.inr (Or.inl h1)
            · exact Or.inr (Or.inr h1)
        · rw [if_neg hcp] at h
          cases h
          rcases hpre with h1 | ⟨u, h1⟩ | ⟨u, h1⟩
          · cases h1
          · have h2 : c = ')' := by simpa using congrArg List.head? h1
            exact Or.inr ⟨rest0, by rw [h2]⟩
          · have h2 : c = '|' := by simpa using congrArg List.head? h1
            exact absurd h2 hcp
    · intro l nd rest h
      rw [parseConcat] at h
      cases hc : parseConcatLoop f [] l with
      | error e => rw [hc] at h; cases h
      | ok p =>
        obtain ⟨ns1, l1⟩ := p
        rw [hc] at h
        cases h
        exact ihConcatLoop _ _ _ _ hc
    · intro acc l ns rest h
      cases l with
      | nil =>
        rw [parseConcatLoop] at h
        cases h
        exact Or.inl rfl
      | cons c rest0 =>
        rw [parseConcatLoop] at h
        by_cases hcp : c = ')' ∨ c = '|'
        · rw [if_pos hcp] at h
          cases h
          rcases hcp with h1 | h1
          · exact Or.inr (Or.inl ⟨rest0, by rw [h1]⟩)
          · exact Or.inr (Or.inr ⟨rest0, by rw [h1]⟩)
        · rw [if_neg hcp] at h
          cases hc : parseStar f (c :: rest0) with
          | error e => rw [hc] at h; cases h
          | ok p =>
            obtain ⟨node1, l1⟩ := p
            rw [hc] at h
            exact ihConcatLoop _ _ _ _ h

/-- On an input containing no `')'`, whatever a successful parser
function consumes contains no `'('` either (an opened group could never
be closed, so a success never enters one). -/
theorem parse_noparen :
    ∀ f : Nat,
      (∀ l nd rest, ')' ∉ l → parseOr f l = .ok (nd, rest) →
        ∃ pre, l = pre ++ rest ∧ '(' ∉ pre) ∧
      (∀ left l nd rest, ')' ∉ l → parseOrLoop f left l = .ok (nd, rest) →
        ∃ pre, l = pre ++ rest ∧ '(' ∉ pre) ∧
      (∀ l nd rest, ')' ∉ l → parseConcat f l = .ok (nd, rest) →
        ∃ pre, l = pre ++ rest ∧ '(' ∉ pre) ∧
      (∀ acc l ns rest, ')' ∉ l → parseConcatLoop f acc l = .ok (ns, rest) →
        ∃ pre, l = pre ++ rest ∧ '(' ∉ pre) ∧
      (∀ l nd rest, ')' ∉ l → parseStar f l = .ok (nd, rest) →
        ∃ pre, l = pre ++ rest ∧ '(' ∉ pre) ∧
      (∀ l nd rest, ')' ∉ l → parseBase f l = .ok (nd, rest) →
        ∃ pre, l = pre ++ rest ∧ '(' ∉ pre) := by
  intro f
  induction f with
  | zero =>
    refine ⟨?_, ?_, ?_, ?_, ?_, ?_⟩ <;> intros <;>
      simp_all [parseOr, parseOrLoop, parseConcat, parseConcatLoop,
        parseStar, parseBase]
  | succ f ih =>
    obtain ⟨ihOr, ihOrLoop, ihConcat, ihConcatLoop, ihStar, ihBase⟩ := ih
    refine ⟨?_, ?_, ?_, ?_, ?_, ?_⟩
    · intro l nd rest hnp h
      rw [parseOr] at h
      cases hc : parseConcat f l with
      | error e => rw [hc] at h; cases h
      | ok p =>
        obtain ⟨left1, l1⟩ := p
        rw [hc] at h
        obtain ⟨pre1, hp1, hq1⟩ := ihConcat _ _ _ hnp hc
        have hnp1 : ')' ∉ l1 := fun hx => hnp (by rw [hp1]; simp [hx])
        obtain ⟨pre2, hp2, hq2⟩ := ihOrLoop _ _ _ _ hnp1 h
        refine ⟨pre1 ++ pre2, ?_, ?_⟩
        · rw [hp1, hp2, List.append_assoc]
        · simp only [List.mem_append]
          rintro (hx | hx)
          · exact hq1 hx
          · exact hq2 hx
    · intro left l nd rest hnp h
      cases l with
      | nil =>
        rw [parseOrLoop] at h
        cases h
        exact ⟨[], by simp⟩
      | cons c rest0 =>
        rw [parseOrLoop] at h
        by_cases hcp : c = '|'
        · rw [if_pos hcp] at h
          cases hc : parseConcat f rest0 with
          | error e => rw [hc] at h; cases h
          | ok p =>
            obtain ⟨right1, l2⟩ := p
            rw [hc] at h
            have hnp0 : ')' ∉ rest0 := fun hx => hnp (by simp [hx])
            obtain ⟨pre1, hp1, hq1⟩ := ihConcat _ _ _ hnp0 hc
            have hnp2 : ')' ∉ l2 := fun hx => hnp0 (by rw [hp1]; simp [hx])
            obtain ⟨pre2, hp2, hq2⟩ := ihOrLoop _ _ _ _ hnp2 h
            refine ⟨c :: (pre1 ++ pre2), ?_, ?_⟩
            · rw [List.cons_append, hp1, hp2, List.append_assoc]
            · simp only [List.mem_cons, List.mem_append]
              rintro (hx | hx | hx)
              · rw [hcp] at hx; cases hx
              · exact hq1 hx
              · exact hq2 hx
        · rw [if_neg hcp] at h
          cases h
          exact ⟨[], by simp⟩
    · intro l nd rest hnp h
      rw [parseConcat] at h
      cases hc : parseConcatLoop f [] l with
      | error e => rw [hc] at h; cases h
      | ok p =>
        obtain ⟨ns1, l1⟩ := p
        rw [hc] at h
        cases h
        exact ihConcatLoop _ _ _ _ hnp hc
    · intro acc l ns rest hnp h
      cases l with
      | nil =>
        rw [parseConcatLoop] at h
        cases h
        exact ⟨[], by simp⟩
      | cons c rest0 =>
        rw [parseConcatLoop] at h
        by_cases hcp : c = ')' ∨ c = '|'
        · rw [if_pos hcp] at h
          cases h
          exact ⟨[], by simp⟩
        · rw [if_neg hcp] at h
          cases hc : parseStar f (c :: rest0) with
          | error e => rw [hc] at h; cases h
          | ok p =>
            obtain ⟨node1, l1⟩ := p
            rw [hc] at h
            obtain ⟨pre1, hp1, hq1⟩ := ihStar _ _ _ hnp hc
            have hnp1 : ')' ∉ l1 := fun hx => hnp (by rw [hp1]; simp [hx])
            obtain ⟨pre2, hp2, hq2⟩ := ihConcatLoop _ _ _ _ hnp1 h
            refine ⟨pre1 ++ pre2, ?_, ?_⟩
            · rw [hp1, hp2, List.append_assoc]
            · simp only [List.mem_append]
              rintro (hx | hx)
              · exact hq1 hx
              · exact hq2 hx
    · intro l nd rest hnp h
      rw [parseStar] at h
      cases hc : parseBase f l with
      | error e => rw [hc] at h; cases h
      | ok p =>
        obtain ⟨node1, l1⟩ := p
        rw [hc] at h
        have h2 : starLoop node1 l1 = (nd, rest) := by injection h
        obtain ⟨pre1, hp1, hq1⟩ := ihBase _ _ _ hnp hc
        obtain ⟨pre2, hp2, hall⟩ := starLoop_decomp l1 node1
        rw [h2] at hp2
        refine ⟨pre1 ++ pre2, ?_, ?_⟩
        · rw [hp1, hp2, List.append_assoc]
        · simp only [List.mem_append]
          rintro (hx | hx)
          · exact hq1 hx
          · rcases hall _ hx with h3 | h3 <;> simp at h3
    · intro l nd rest hnp h
      cases l with
      | nil => rw [parseBase] at h; cases h
      | cons c rest0 =>
        rw [parseBase] at h
        have hnp0 : ')' ∉ rest0 := fun hx => hnp (by simp [hx])
        by_cases hcp : c = '('
        · rw [if_pos hcp] at h
          cases hc : parseOr f rest0 with
          | error e => rw [hc] at h; cases h
          | ok p =>
            obtain ⟨node1, l1⟩ := p
            rw [hc] at h
            obtain ⟨pre1, hp1, _⟩ := ihOr _ _ _ hnp0 hc
            cases l1 with
            | nil => cases h
            | cons d l2 =>
              have h1 : (if d = ')' then
                  (Except.ok (node1, l2) : Except ParseErr (RegexNode × List Char))
                  else .error (.syntaxErr "Expected closing parenthesis")) =
                  .ok (nd, rest) := h
              by_cases hd : d = ')'
              · exact absurd (by rw [hp1, hd]; simp : ')' ∈ rest0) hnp0
              · rw [if_neg hd] at h1; cases h1
        · rw [if_neg hcp] at h
          by_cases hce : c = 'ε'
          · rw [if_pos hce] at h
            cases h
            refine ⟨[c], rfl, by simp [hce]⟩
          · rw [if_neg hce] at h
            by_cases hcb : c = '\\' ∧ rest0.head? = some 'e'
            · rw [if_pos hcb] at h
              cases rest0 with
              | nil => simp at hcb
              | cons e0 rs =>
                have he0 : e0 = 'e' := by simpa using hcb.2
                cases h
                refine ⟨[c, e0], rfl, by simp [hcb.1, he0]⟩
            · rw [if_neg hcb] at h
              by_cases hcr : c = ')' ∨ c = '|' ∨ c = '*' ∨ c = '+'
              · rw [if_pos hcr] at h; cases h
              · rw [if_neg hcr] at h
                cases h
                refine ⟨[c], rfl, ?_⟩
                simp only [List.mem_singleton]
                exact fun hx => hcp hx.symm

/-- A `'*'` or `'+'` where a base expression is expected is rejected by
`parse_base`. -/
theorem parseBase_reserved (f : Nat) (c : Char) (l : List Char)
    (hc : c = '*' ∨ c = '+') :
    parseBase (f + 1) (c :: l) = .error (.syntaxErr "Unexpected character") := by
  rw [parseBase]
  rcases hc with rfl | rfl <;>
    rw [if_neg (by decide), if_neg (by decide),
      if_neg (fun h => absurd h.1 (by decide)), if_pos (by decide)]

/-- An input starting with `'*'` or `'+'` makes the whole parse fail. -/
theorem parseOr_reserved (f : Nat) (c : Char) (l : List Char)
    (hc : c = '*' ∨ c = '+') :
    parseOr (f + 5) (c :: l) = .error (.syntaxErr "Unexpected character") := by
  have hstop : ¬(c = ')' ∨ c = '|') := by
    rcases hc with rfl | rfl <;> decide
  have hstar : parseStar (f + 2) (c :: l) =
      .error (.syntaxErr "Unexpected character") := by
    rw [parseStar, parseBase_reserved f c l hc]
  have hloop : parseConcatLoop (f + 3) [] (c :: l) =
      .error (.syntaxErr "Unexpected character") := by
    rw [parseConcatLoop, if_neg hstop, hstar]
  have hconcat : parseConcat (f + 4) (c :: l) =
      .error (.syntaxErr "Unexpected character") := by
    rw [parseConcat, hloop]
  rw [parseOr, hconcat]

/-- C5 (amended): the parser raises on a `'*'` or `'+'` where a base
expression is expected — in particular on every input beginning with
one — and on a `'('` that can never be closed; but an input beginning
with `')'` or `'|'` does **not** raise: the leading position is treated
as an empty concatenation (for `')'` parsing simply stops there). -/
theorem claim_C5 :
    (∀ t : List Char,
      parseRegex ('*' :: t) = .error (.syntaxErr "Unexpected character")) ∧
    (∀ t : List Char,
      parseRegex ('+' :: t) = .error (.syntaxErr "Unexpected character")) ∧
    (∀ l : List Char, '(' ∈ l → ')' ∉ l → ∃ e, parseRegex l = .error e) ∧
    parseRegex [')'] = .ok .EPSILON ∧
    parseRegex ['|', 'a'] = .ok (.OR .EPSILON (.CHAR 'a')) := by
  have hstar : ∀ (c : Char), c = '*' ∨ c = '+' → ∀ t : List Char,
      parseRegex (c :: t) = .error (.syntaxErr "Unexpected character") := by
    intro c hc t
    have hne : (c :: t : List Char) ≠ [] := by simp
    rw [parseRegex, if_neg hne]
    have hcs : c ≠ ' ' := by rcases hc with rfl | rfl <;> decide
    have hstrip : stripSpaces (c :: t) = c :: stripSpaces t := by
      simp [stripSpaces, hcs]
    rw [hstrip]
    have hfuel : parserFuel (c :: stripSpaces t) =
        5 * (stripSpaces t).length + 5 + 5 := by
      simp [parserFuel]; omega
    rw [hfuel, parseOr_reserved _ _ _ hc]
  refine ⟨hstar '*' (Or.inl rfl), hstar '+' (Or.inr rfl), ?_, by rfl, by rfl⟩
  intro l hlp hnp
  have hne : l ≠ [] := by intro h; rw [h] at hlp; cases hlp
  rw [parseRegex, if_neg hne]
  have hsp : '(' ∈ stripSpaces l := by
    rw [stripSpaces]
    exact List.mem_filter.mpr ⟨hlp, by decide⟩
  have hsnp : ')' ∉ stripSpaces l := by
    intro hx
    exact hnp (List.mem_filter.mp hx).1
  cases hres : parseOr (parserFuel (stripSpaces l)) (stripSpaces l) with
  | error e => exact ⟨e, by simp only [hres]⟩
  | ok p =>
    exfalso
    obtain ⟨nd, rest⟩ := p
    obtain ⟨pre, hp, hq⟩ := (parse_noparen _).1 _ _ _ hsnp hres
    rcases (parse_stops _).1 _ _ _ hres with rfl | ⟨u, rfl⟩
    · rw [List.append_nil] at hp
      rw [hp] at hsp
      exact hq hsp
    · exact hsnp (by rw [hp]; simp)

/-- Counterexample to C5 as stated: it is not the case that every input
beginning with a reserved character (`')'`, `'|'`, `'*'`, `'+'`) makes
the parser raise — the input `")"` parses successfully (to EPSILON). -/
theorem claim_C5_counterexample :
    ¬ (∀ l : List Char,
        (l.head? = some ')' ∨ l.head? = some '|' ∨
         l.head? = some '*' ∨ l.head? = some '+') →
        ∃ e, parseRegex l = .error e) := by
  intro h
  obtain ⟨e, he⟩ := h [')'] (Or.inl rfl)
  rw [show parseRegex [')'] = .ok .EPSILON from rfl] at he
  cases he

/-- Witness for the universally quantified parts of `claim_C5`. -/
theorem claim_C5_witness :
    parseRegex ['*', 'a'] = .error (.syntaxErr "Unexpected character") ∧
    parseRegex ['+'] = .error (.syntaxErr "Unexpected character") ∧
    (∃ e, parseRegex ['(', 'a'] = .error e) := by
  refine ⟨claim_C5.1 ['a'], claim_C5.2.1 [], ?_⟩
  exact claim_C5.2.2.1 ['(', 'a'] (by decide) (by decide)

/-- C9: a well-formed, fully consumed expression followed by a stray
`')'` and arbitrary trailing characters parses without error to the AST
of the leading expression, the rest being silently ignored
(`RegexParser.parse` never checks that the cursor reached the end). -/
theorem claim_C9 (s t : List Char) (ast : RegexNode)
    (hs : ' ' ∉ s) (ht : ' ' ∉ t)
    (h : parseOr (parserFuel s) s = .ok (ast, [])) :
    parseRegex (s ++ ')' :: t) = .ok ast := by
  have hne : s ++ ')' :: t ≠ [] := by simp
  rw [parseRegex, if_neg hne]
  have hstrip : stripSpaces (s ++ ')' :: t) = s ++ ')' :: t := by
    rw [stripSpaces, List.filter_eq_self]
    intro a ha
    simp only [List.mem_append, List.mem_cons] at ha
    have : a ≠ ' ' := by
      rcases ha with ha | ha | ha
      · exact fun hx => hs (hx ▸ ha)
      · rw [ha]; decide
      · exact fun hx => ht (hx ▸ ha)
    simpa using this
  rw [hstrip]
  have hext := (parse_extend t _).1 s ast [] h
  rw [List.nil_append] at hext
  have hlen : parserFuel s ≤ parserFuel (s ++ ')' :: t) := by
    simp [parserFuel]
  have hfull := parseOr_mono_le hlen hext
  simp only [hfull]

/-- Witness for C9 at `"a)b"`. -/
theorem claim_C9_witness : parseRegex ['a', ')', 'b'] = .ok (.CHAR 'a') :=
  claim_C9 ['a'] ['b'] (.CHAR 'a') (by decide) (by decide) (by rfl)

/-! ## Set-as-list helper lemmas -/

theorem mem_insertStr {l : List String} (x y : String) :
    y ∈ insertStr l x ↔ y ∈ l ∨ y = x := by
  rw [insertStr]
  by_cases h : x ∈ l
  · rw [if_pos h]
    constructor
    · exact Or.inl
    · rintro (hy | rfl)
      · exact hy
      · exact h
  · rw [if_neg h]
    simp

theorem insertStr_of_not_mem {l : List String} {x : String} (h : x ∉ l) :
    insertStr l x = l ++ [x] := by
  rw [insertStr, if_neg h]

theorem mem_insertChar {l : List Char} (x y : Char) :
    y ∈ insertChar l x ↔ y ∈ l ∨ y = x := by
  rw [insertChar]
  by_cases h : x ∈ l
  · rw [if_pos h]
    constructor
    · exact Or.inl
    · rintro (hy | rfl)
      · exact hy
      · exact h
  · rw [if_neg h]
    simp

theorem mem_removeStr {A : List String} (x y : String) :
    y ∈ removeStr A x ↔ y ∈ A ∧ y ≠ x := by
  rw [removeStr]
  simp [List.mem_filter]

theorem removeStr_of_not_mem {A : List String} {x : String} (h : x ∉ A) :
    removeStr A x = A := by
  rw [removeStr]
  apply List.filter_eq_self.mpr
  intro a ha
  simp only [ne_eq, Bool.not_eq_true', decide_eq_false_iff_not, decide_not]
  intro hax
  exact h (hax ▸ ha)

theorem removeStr_append {A B : List String} (x : String) :
    removeStr (A ++ B) x = removeStr A x ++ removeStr B x := by
  rw [removeStr, removeStr, removeStr, List.filter_append]

theorem removeStr_singleton_self (x : String) : removeStr [x] x = [] := by
  simp [removeStr]

theorem removeStr_singleton_ne {x y : String} (h : y ≠ x) :
    removeStr [y] x = [y] := by
  simp [removeStr, h]

/-! ## The Thompson construction invariant -/

theorem addTransN_states (m : NFAData) (f t : String) (sym : Char) :
    (addTransN m f t sym).states = m.states := rfl

theorem addTransN_accept (m : NFAData) (f t : String) (sym : Char) :
    (addTransN m f t sym).accept = m.accept := rfl

theorem addTransN_start (m : NFAData) (f t : String) (sym : Char) :
    (addTransN m f t sym).start = m.start := rfl

theorem addTransN_etrans (m : NFAData) (f t : String) (sym : Char) :
    (addTransN m f t sym).etrans = m.etrans ++ [((f, sym), t)] := rfl

theorem demoteAccept_keys (m : NFAData) (name : String) :
    (demoteAccept m name).states.map Prod.fst = m.states.map Prod.fst := by
  show (m.states.map _).map Prod.fst = _
  rw [List.map_map]
  apply List.map_congr_left
  intro p _
  by_cases h : p.1 = name
  · simp [h]
  · simp [h]

theorem demoteAccept_accept (m : NFAData) (name : String) :
    (demoteAccept m name).accept = removeStr m.accept name := rfl

theorem demoteAccept_start (m : NFAData) (name : String) :
    (demoteAccept m name).start = m.start := rfl

theorem demoteAccept_etrans (m : NFAData) (name : String) :
    (demoteAccept m name).etrans = m.etrans := rfl

theorem demoteAccept_noStart {m : NFAData} (name : String)
    (h : ∀ p ∈ m.states, p.2.is_start = false) :
    ∀ p ∈ (demoteAccept m name).states, p.2.is_start = false := by
  intro p hp
  obtain ⟨q, hq, hqe⟩ := List.mem_map.mp hp
  by_cases hqn : q.1 = name
  · rw [if_pos hqn] at hqe
    rw [← hqe]
    exact h q hq
  · rw [if_neg hqn] at hqe
    rw [← hqe]
    exact h q hq

/-- Effect of the shared CHAR/EPSILON leaf of `build_fragment`: two
fresh states joined by one edge. -/
theorem leaf_spec (nfa : NFAData) (c : Nat) (sym : Char)
    (hinv : BuildInv nfa) (hf : FreshFrom nfa c) :
    BuildInv (addTransN (addStateN (addStateN nfa (newStateName c) false false)
      (newStateName (c + 1)) true false) (newStateName c) (newStateName (c + 1)) sym) ∧
    FreshFrom (addTransN (addStateN (addStateN nfa (newStateName c) false false)
      (newStateName (c + 1)) true false) (newStateName c) (newStateName (c + 1)) sym)
      (c + 2) ∧
    (addTransN (addStateN (addStateN nfa (newStateName c) false false)
      (newStateName (c + 1)) true false) (newStateName c) (newStateName (c + 1)) sym).accept =
      nfa.accept ++ [newStateName (c + 1)] ∧
    (addTransN (addStateN (addStateN nfa (newStateName c) false false)
      (newStateName (c + 1)) true false) (newStateName c) (newStateName (c + 1)) sym).states.map
      Prod.fst = nfa.states.map Prod.fst ++ [newStateName c, newStateName (c + 1)] ∧
    (addTransN (addStateN (addStateN nfa (newStateName c) false false)
      (newStateName (c + 1)) true false) (newStateName c) (newStateName (c + 1)) sym).start =
      nfa.start := by
  have hn1k : newStateName c ∉ nfa.states.map Prod.fst := (hf c le_rfl).1
  have hn1a : newStateName c ∉ nfa.accept := (hf c le_rfl).2
  have hn2k : newStateName (c + 1) ∉ nfa.states.map Prod.fst :=
    (hf (c + 1) (by omega)).1
  have hn2a : newStateName (c + 1) ∉ nfa.accept := (hf (c + 1) (by omega)).2
  have hne : newStateName c ≠ newStateName (c + 1) := by
    intro h
    have := newStateName_inj h
    omega
  have hkeys1 : (addStateN nfa (newStateName c) false false).states.map Prod.fst =
      nfa.states.map Prod.fst ++ [newStateName c] := by
    show (updA nfa.states (newStateName c) ⟨false, false⟩).map Prod.fst = _
    rw [keys_updA,
      if_neg (fun hs => hn1k ((lookup_isSome_iff _ _).mp hs))]
  have hkeys2 : (addStateN (addStateN nfa (newStateName c) false false)
      (newStateName (c + 1)) true false).states.map Prod.fst =
      nfa.states.map Prod.fst ++ [newStateName c, newStateName (c + 1)] := by
    show (updA (addStateN nfa (newStateName c) false false).states
      (newStateName (c + 1)) ⟨true, false⟩).map Prod.fst = _
    rw [keys_updA, if_neg (fun hs => ?_), hkeys1, List.append_assoc]
    · rfl
    · have := (lookup_isSome_iff _ _).mp hs
      rw [hkeys1] at this
      rcases List.mem_append.mp this with h | h
      · exact hn2k h
      · exact hne (List.mem_singleton.mp h).symm
  have hacc2 : (addStateN (addStateN nfa (newStateName c) false false)
      (newStateName (c + 1)) true false).accept = nfa.accept ++ [newStateName (c + 1)] := by
    show insertStr (addStateN nfa (newStateName c) false false).accept
      (newStateName (c + 1)) = _
    show insertStr nfa.accept (newStateName (c + 1)) = _
    exact insertStr_of_not_mem hn2a
  refine ⟨?_, ?_, ?_, ?_, ?_⟩
  · constructor
    · show ((addStateN (addStateN nfa (newStateName c) false false)
        (newStateName (c + 1)) true false).states.map Prod.fst).Nodup
      rw [hkeys2, List.nodup_append]
      refine ⟨hinv.nodupKeys, by simp [hne], ?_⟩
      intro a ha hb
      simp only [List.mem_cons, List.mem_singleton, List.not_mem_nil,
        or_false] at hb
      rcases hb with rfl | rfl
      · exact hn1k ha
      · exact hn2k ha
    · intro p hp
      have hp' : p ∈ (addStateN (addStateN nfa (newStateName c) false false)
          (newStateName (c + 1)) true false).states := hp
      rcases mem_updA hp' with rfl | hp2
      · rfl
      · rcases mem_updA hp2 with rfl | hp3
        · rfl
        · exact hinv.noStart p hp3
    · intro a ha
      have ha' : a ∈ nfa.accept ++ [newStateName (c + 1)] := by
        rw [← hacc2]; exact ha
      rw [addTransN_states, hkeys2]
      rcases List.mem_append.mp ha' with h | h
      · exact List.mem_append.mpr (Or.inl (hinv.acceptKeys a h))
      · exact List.mem_append.mpr (Or.inr (by simp [List.mem_singleton.mp h]))
    · intro e he
      have he' : e ∈ nfa.etrans ++ [((newStateName c, sym), newStateName (c + 1))] := he
      rw [addTransN_states, hkeys2]
      rcases List.mem_append.mp he' with h | h
      · obtain ⟨h1, h2⟩ := hinv.edgeKeys e h
        exact ⟨List.mem_append.mpr (Or.inl h1), List.mem_append.mpr (Or.inl h2)⟩
      · rw [List.mem_singleton.mp h]
        exact ⟨List.mem_append.mpr (Or.inr (by simp)),
          List.mem_append.mpr (Or.inr (by simp))⟩
  · intro j hj
    have hj1 : newStateName j ≠ newStateName c := by
      intro h; have := newStateName_inj h; omega
    have hj2 : newStateName j ≠ newStateName (c + 1) := by
      intro h; have := newStateName_inj h; omega
    constructor
    · show newStateName j ∉ (addStateN (addStateN nfa (newStateName c) false false)
        (newStateName (c + 1)) true false).states.map Prod.fst
      rw [hkeys2]
      intro hm
      rcases List.mem_append.mp hm with h | h
      · exact (hf j (by omega)).1 h
      · simp only [List.mem_cons, List.mem_singleton, List.not_mem_nil,
          or_false] at h
        rcases h with h | h
        · exact hj1 h
        · exact hj2 h
    · show newStateName j ∉ (addStateN (addStateN nfa (newStateName c) false false)
        (newStateName (c + 1)) true false).accept
      rw [hacc2]
      intro hm
      rcases List.mem_append.mp hm with h | h
      · exact (hf j (by omega)).2 h
      · exact hj2 (List.mem_singleton.mp h)
  · exact hacc2
  · exact hkeys2
  · rfl

/-- Effect of adding a fresh non-accepting and a fresh accepting state
(the common prefix of the OR/STAR/PLUS cases of `build_fragment`). -/
theorem addTwo_spec (m : NFAData) (c : Nat)
    (hinv : BuildInv m) (hf : FreshFrom m c) :
    (addStateN (addStateN m (newStateName c) false false)
        (newStateName (c + 1)) true false).states.map Prod.fst =
      m.states.map Prod.fst ++ [newStateName c, newStateName (c + 1)] ∧
    ((addStateN (addStateN m (newStateName c) false false)
        (newStateName (c + 1)) true false).states.map Prod.fst).Nodup ∧
    (addStateN (addStateN m (newStateName c) false false)
        (newStateName (c + 1)) true false).accept =
      m.accept ++ [newStateName (c + 1)] ∧
    (∀ p ∈ (addStateN (addStateN m (newStateName c) false false)
        (newStateName (c + 1)) true false).states, p.2.is_start = false) ∧
    (addStateN (addStateN m (newStateName c) false false)
        (newStateName (c + 1)) true false).start = m.start ∧
    (addStateN (addStateN m (newStateName c) false false)
        (newStateName (c + 1)) true false).etrans = m.etrans := by
  have hn1k : newStateName c ∉ m.states.map Prod.fst := (hf c le_rfl).1
  have hn2k : newStateName (c + 1) ∉ m.states.map Prod.fst :=
    (hf (c + 1) (by omega)).1
  have hn2a : newStateName (c + 1) ∉ m.accept := (hf (c + 1) (by omega)).2
  have hne : newStateName c ≠ newStateName (c + 1) := by
    intro h
    have := newStateName_inj h
    omega
  have hkeys1 : (addStateN m (newStateName c) false false).states.map Prod.fst =
      m.states.map Prod.fst ++ [newStateName c] := by
    show (updA m.states (newStateName c) ⟨false, false⟩).map Prod.fst = _
    rw [keys_updA, if_neg (fun hs => hn1k ((lookup_isSome_iff _ _).mp hs))]
  have hkeys2 : (addStateN (addStateN m (newStateName c) false false)
      (newStateName (c + 1)) true false).states.map Prod.fst =
      m.states.map Prod.fst ++ [newStateName c, newStateName (c + 1)] := by
    show (updA (addStateN m (newStateName c) false false).states
      (newStateName (c + 1)) ⟨true, false⟩).map Prod.fst = _
    rw [keys_updA, if_neg (fun hs => ?_), hkeys1, List.append_assoc]
    · rfl
    · have := (lookup_isSome_iff _ _).mp hs
      rw [hkeys1] at this
      rcases List.mem_append.mp this with h | h
      · exact hn2k h
      · exact hne (List.mem_singleton.mp h).symm
  refine ⟨hkeys2, ?_, ?_, ?_, rfl, rfl⟩
  · rw [hkeys2, List.nodup_append]
    refine ⟨hinv.nodupKeys, by simp [hne], ?_⟩
    intro a ha hb
    simp only [List.mem_cons, List.mem_singleton, List.not_mem_nil,
      or_false] at hb
    rcases hb with rfl | rfl
    · exact hn1k ha
    · exact hn2k ha
  · show insertStr m.accept (newStateName (c + 1)) = _
    exact insertStr_of_not_mem hn2a
  · intro p hp
    rcases mem_updA hp with rfl | hp2
    · rfl
    · rcases mem_updA hp2 with rfl | hp3
      · rfl
      · exact hinv.noStart p hp3

/-- The structural invariant of `build_fragment`: starting from a
well-formed machine with no start flags and a fresh counter, the
fragment builder preserves well-formedness, allocates only fresh names,
extends the accept set by exactly the fragment's accept state, and
leaves the designated start-state field and all existing states
untouched. -/
theorem buildFragment_inv (node : RegexNode) :
    ∀ (nfa : NFAData) (c : Nat), BuildInv nfa → FreshFrom nfa c →
      BuildInv (buildFragment node nfa c).1 ∧
      FreshFrom (buildFragment node nfa c).1 (buildFragment node nfa c).2.1 ∧
      c ≤ (buildFragment node nfa c).2.1 ∧
      (buildFragment node nfa c).1.accept =
        nfa.accept ++ [(buildFragment node nfa c).2.2.accept] ∧
      (buildFragment node nfa c).2.2.accept ∉ nfa.accept ∧
      (buildFragment node nfa c).2.2.start ∈
        (buildFragment node nfa c).1.states.map Prod.fst ∧
      (buildFragment node nfa c).2.2.accept ∈
        (buildFragment node nfa c).1.states.map Prod.fst ∧
      (buildFragment node nfa c).1.start = nfa.start ∧
      (∀ n ∈ nfa.states.map Prod.fst,
        n ∈ (buildFragment node nfa c).1.states.map Prod.fst) := by
  induction node with
  | CHAR v =>
    intro nfa c hinv hf
    obtain ⟨h1, h2, h3, h4, h5⟩ := leaf_spec nfa c v hinv hf
    simp only [buildFragment]
    refine ⟨h1, h2, by omega, h3, (hf (c + 1) (by omega)).2, ?_, ?_, h5, ?_⟩
    · rw [h4]
      simp
    · rw [h4]
      simp
    · intro n hn
      rw [h4]
      exact List.mem_append.mpr (Or.inl hn)
  | EPSILON =>
    intro nfa c hinv hf
    obtain ⟨h1, h2, h3, h4, h5⟩ := leaf_spec nfa c 'ε' hinv hf
    simp only [buildFragment]
    refine ⟨h1, h2, by omega, h3, (hf (c + 1) (by omega)).2, ?_, ?_, h5, ?_⟩
    · rw [h4]
      simp
    · rw [h4]
      simp
    · intro n hn
      rw [h4]
      exact List.mem_append.mpr (Or.inl hn)
  | CONCAT l r ihl ihr =>
    intro nfa c hinv hf
    obtain ⟨inv1, f1, c1le, acc1, na1, st1, sa1, srt1, mono1⟩ := ihl nfa c hinv hf
    obtain ⟨inv2, f2, c2le, acc2, na2, st2, sa2, srt2, mono2⟩ :=
      ihr (buildFragment l nfa c).1 (buildFragment l nfa c).2.1 inv1 f1
    simp only [buildFragment]
    set p1 := buildFragment l nfa c with hp1
    set p2 := buildFragment r p1.1 p1.2.1 with hp2
    have hla_ne_ra : p1.2.2.accept ≠ p2.2.2.accept := by
      intro h
      apply na2
      rw [← h, acc1]
      simp
    have hacc4 : (addTransN (demoteAccept p2.1 p1.2.2.accept) p1.2.2.accept
        p2.2.2.start 'ε').accept = nfa.accept ++ [p2.2.2.accept] := by
      rw [addTransN_accept, demoteAccept_accept, acc2, acc1]
      rw [removeStr_append, removeStr_append]
      rw [removeStr_of_not_mem na1]
      rw [show removeStr [p1.2.2.accept] p1.2.2.accept = [] by
        simp [removeStr]]
      rw [show removeStr [p2.2.2.accept] p1.2.2.accept = [p2.2.2.accept] by
        simp [removeStr, Ne.symm hla_ne_ra]]
      simp
    have hkeys4 : (addTransN (demoteAccept p2.1 p1.2.2.accept) p1.2.2.accept
        p2.2.2.start 'ε').states.map Prod.fst = p2.1.states.map Prod.fst := by
      rw [addTransN_states, demoteAccept_keys]
    refine ⟨?_, ?_, by omega, hacc4, ?_, ?_, ?_, ?_, ?_⟩
    · constructor
      · rw [hkeys4]; exact inv2.nodupKeys
      · intro p hp
        rw [addTransN_states] at hp
        exact demoteAccept_noStart _ inv2.noStart p hp
      · intro a ha
        rw [hacc4] at ha
        rw [hkeys4]
        rcases List.mem_append.mp ha with h | h
        · refine mono2 _ (inv1.acceptKeys a ?_)
          rw [acc1]
          exact List.mem_append.mpr (Or.inl h)
        · rw [List.mem_singleton.mp h]
          exact sa2
      · intro e he
        rw [addTransN_etrans, demoteAccept_etrans] at he
        rw [hkeys4]
        rcases List.mem_append.mp he with h | h
        · exact inv2.edgeKeys e h
        · rw [List.mem_singleton.mp h]
          exact ⟨mono2 _ sa1, st2⟩
    · intro j hj
      rw [hkeys4, hacc4]
      refine ⟨(f2 j hj).1, ?_⟩
      intro hm
      rcases List.mem_append.mp hm with h | h
      · exact (f2 j hj).2 (by rw [acc2, acc1]; simp [h])
      · exact (f2 j hj).2 (by rw [acc2]; simp [List.mem_singleton.mp h])
    · intro hm
      apply na2
      rw [acc1]
      exact List.mem_append.mpr (Or.inl hm)
    · rw [hkeys4]
      exact mono2 _ st1
    · rw [hkeys4]
      exact sa2
    · rw [addTransN_start, demoteAccept_start, srt2, srt1]
    · intro n hn
      rw [hkeys4]
      exact mono2 _ (mono1 _ hn)
  | OR l r ihl ihr =>
    intro nfa c hinv hf
    obtain ⟨inv1, f1, c1le, acc1, na1, st1, sa1, srt1, mono1⟩ := ihl nfa c hinv hf
    obtain ⟨inv2, f2, c2le, acc2, na2, st2, sa2, srt2, mono2⟩ :=
      ihr (buildFragment l nfa c).1 (buildFragment l nfa c).2.1 inv1 f1
    simp only [buildFragment]
    set p1 := buildFragment l nfa c with hp1
    set p2 := buildFragment r p1.1 p1.2.1 with hp2
    set c2 := p2.2.1 with hc2
    set n1 := newStateName c2 with hn1
    set n2 := newStateName (c2 + 1) with hn2
    obtain ⟨tk, tnd, ta, tns, tst, ttr⟩ := addTwo_spec p2.1 c2 inv2 f2
    have hra_A0 : p2.2.2.accept ∉ nfa.accept := fun hm => na2 (by
      rw [acc1]; exact List.mem_append.mpr (Or.inl hm))
    have hra_la : p2.2.2.accept ≠ p1.2.2.accept := fun h => na2 (by
      rw [acc1, h]; simp)
    have hn2_acc2 : n2 ∉ p2.1.accept := (f2 (c2 + 1) (by omega)).2
    have hn1_acc2 : n1 ∉ p2.1.accept := (f2 c2 le_rfl).2
    have hn2_la : n2 ≠ p1.2.2.accept := fun h => hn2_acc2 (by
      rw [acc2, acc1, h]; simp)
    have hn2_ra : n2 ≠ p2.2.2.accept := fun h => hn2_acc2 (by
      rw [acc2, h]; simp)
    have hla_A0 : p1.2.2.accept ∉ nfa.accept := na1
    have hkeysF : (addTransN (addTransN (addTransN (addTransN
        (demoteAccept (demoteAccept (addStateN (addStateN p2.1 n1 false false)
          n2 true false) p1.2.2.accept) p2.2.2.accept)
        n1 p1.2.2.start 'ε') n1 p2.2.2.start 'ε') p1.2.2.accept n2 'ε')
        p2.2.2.accept n2 'ε').states.map Prod.fst =
        p2.1.states.map Prod.fst ++ [n1, n2] := by
      rw [addTransN_states, addTransN_states, addTransN_states, addTransN_states,
        demoteAccept_keys, demoteAccept_keys, tk]
    have haccF : (addTransN (addTransN (addTransN (addTransN
        (demoteAccept (demoteAccept (addStateN (addStateN p2.1 n1 false false)
          n2 true false) p1.2.2.accept) p2.2.2.accept)
        n1 p1.2.2.start 'ε') n1 p2.2.2.start 'ε') p1.2.2.accept n2 'ε')
        p2.2.2.accept n2 'ε').accept = nfa.accept ++ [n2] := by
      rw [addTransN_accept, addTransN_accept, addTransN_accept, addTransN_accept,
        demoteAccept_accept, demoteAccept_accept, ta, acc2, acc1]
      simp only [removeStr_append]
      rw [removeStr_of_not_mem hla_A0, removeStr_singleton_self,
        removeStr_singleton_ne hra_la, removeStr_singleton_ne hn2_la]
      rw [removeStr_of_not_mem hra_A0, removeStr_of_not_mem (List.not_mem_nil _),
        removeStr_singleton_self, removeStr_singleton_ne hn2_ra]
      simp
    have hedgeF : (addTransN (addTransN (addTransN (addTransN
        (demoteAccept (demoteAccept (addStateN (addStateN p2.1 n1 false false)
          n2 true false) p1.2.2.accept) p2.2.2.accept)
        n1 p1.2.2.start 'ε') n1 p2.2.2.start 'ε') p1.2.2.accept n2 'ε')
        p2.2.2.accept n2 'ε').etrans = p2.1.etrans ++
        [((n1, 'ε'), p1.2.2.start)] ++ [((n1, 'ε'), p2.2.2.start)] ++
        [((p1.2.2.accept, 'ε'), n2)] ++ [((p2.2.2.accept, 'ε'), n2)] := by
      rw [addTransN_etrans, addTransN_etrans, addTransN_etrans, addTransN_etrans,
        demoteAccept_etrans, demoteAccept_etrans, ttr]
    have hstartF : (addTransN (addTransN (addTransN (addTransN
        (demoteAccept (demoteAccept (addStateN (addStateN p2.1 n1 false false)
          n2 true false) p1.2.2.accept) p2.2.2.accept)
        n1 p1.2.2.start 'ε') n1 p2.2.2.start 'ε') p1.2.2.accept n2 'ε')
        p2.2.2.accept n2 'ε').start = nfa.start := by
      rw [addTransN_start, addTransN_start, addTransN_start, addTransN_start,
        demoteAccept_start, demoteAccept_start, tst, srt2, srt1]
    have hmemkeys : ∀ a, a ∈ p2.1.states.map Prod.fst →
        a ∈ p2.1.states.map Prod.fst ++ [n1, n2] := fun a ha =>
      List.mem_append.mpr (Or.inl ha)
    refine ⟨?_, ?_, by omega, haccF, ?_, ?_, ?_, hstartF, ?_⟩
    · constructor
      · rw [hkeysF]
        rw [tk] at tnd
        exact tnd
      · intro p hp
        rw [addTransN_states, addTransN_states, addTransN_states,
          addTransN_states] at hp
        exact demoteAccept_noStart _ (demoteAccept_noStart _ tns) p hp
      · intro a ha
        rw [haccF] at ha
        rw [hkeysF]
        rcases List.mem_append.mp ha with h | h
        · refine hmemkeys a (mono2 _ (mono1 _ ?_))
          have h0 : a ∈ nfa.states.map Prod.fst := hinv.acceptKeys a h
          exact h0
        · rw [List.mem_singleton.mp h]
          simp
      · intro e he
        rw [hedgeF] at he
        rw [hkeysF]
        simp only [List.append_assoc, List.mem_append, List.mem_singleton] at he
        rcases he with h | h | h | h | h
        · obtain ⟨h1, h2⟩ := inv2.edgeKeys e h
          exact ⟨hmemkeys _ h1, hmemkeys _ h2⟩
        · rw [h]
          exact ⟨by simp, hmemkeys _ (mono2 _ st1)⟩
        · rw [h]
          exact ⟨by simp, hmemkeys _ st2⟩
        · rw [h]
          exact ⟨hmemkeys _ (mono2 _ sa1), by simp⟩
        · rw [h]
          exact ⟨hmemkeys _ sa2, by simp⟩
    · intro j hj
      have hj1 : newStateName j ≠ n1 := by
        rw [hn1]; intro h; have := newStateName_inj h; omega
      have hj2 : newStateName j ≠ n2 := by
        rw [hn2]; intro h; have := newStateName_inj h; omega
      rw [hkeysF, haccF]
      constructor
      · intro hm
        rcases List.mem_append.mp hm with h | h
        · exact (f2 j (by omega)).1 h
        · simp only [List.mem_cons, List.mem_singleton, List.not_mem_nil,
            or_false] at h
          rcases h with h | h
          · exact hj1 h
          · exact hj2 h
      · intro hm
        rcases List.mem_append.mp hm with h | h
        · exact (f2 j (by omega)).2 (by rw [acc2, acc1]; simp [h])
        · exact hj2 (List.mem_singleton.mp h)
    · intro hm
      exact hn2_acc2 (by rw [acc2, acc1]; simp [hm])
    · rw [hkeysF]
      simp
    · rw [hkeysF]
      simp
    · intro n hn
      rw [hkeysF]
      exact hmemkeys _ (mono2 _ (mono1 _ hn))
  | STAR x ihx =>
    intro nfa c hinv hf
    obtain ⟨inv1, f1, c1le, acc1, na1, st1, sa1, srt1, mono1⟩ := ihx nfa c hinv hf
    simp only [buildFragment]
    set p1 := buildFragment x nfa c with hp1
    set c1 := p1.2.1 with hc1
    set n1 := newStateName c1 with hn1
    set n2 := newStateName (c1 + 1) with hn2
    obtain ⟨tk, tnd, ta, tns, tst, ttr⟩ := addTwo_spec p1.1 c1 inv1 f1
    have hn2_acc1 : n2 ∉ p1.1.accept := (f1 (c1 + 1) (by omega)).2
    have hn2_xa : n2 ≠ p1.2.2.accept := fun h => hn2_acc1 (by
      rw [acc1, h]; simp)
    have hkeysF : (addTransN (addTransN (addTransN (addTransN
        (demoteAccept (addStateN (addStateN p1.1 n1 false false) n2 true false)
          p1.2.2.accept) n1 p1.2.2.start 'ε') n1 n2 'ε')
        p1.2.2.accept p1.2.2.start 'ε') p1.2.2.accept n2 'ε').states.map Prod.fst =
        p1.1.states.map Prod.fst ++ [n1, n2] := by
      rw [addTransN_states, addTransN_states, addTransN_states, addTransN_states,
        demoteAccept_keys, tk]
    have haccF : (addTransN (addTransN (addTransN (addTransN
        (demoteAccept (addStateN (addStateN p1.1 n1 false false) n2 true false)
          p1.2.2.accept) n1 p1.2.2.start 'ε') n1 n2 'ε')
        p1.2.2.accept p1.2.2.start 'ε') p1.2.2.accept n2 'ε').accept =
        nfa.accept ++ [n2] := by
      rw [addTransN_accept, addTransN_accept, addTransN_accept, addTransN_accept,
        demoteAccept_accept, ta, acc1]
      simp only [removeStr_append]
      rw [removeStr_of_not_mem na1, removeStr_singleton_self,
        removeStr_singleton_ne hn2_xa]
      simp
    have hedgeF : (addTransN (addTransN (addTransN (addTransN
        (demoteAccept (addStateN (addStateN p1.1 n1 false false) n2 true false)
          p1.2.2.accept) n1 p1.2.2.start 'ε') n1 n2 'ε')
        p1.2.2.accept p1.2.2.start 'ε') p1.2.2.accept n2 'ε').etrans =
        p1.1.etrans ++ [((n1, 'ε'), p1.2.2.start)] ++ [((n1, 'ε'), n2)] ++
        [((p1.2.2.accept, 'ε'), p1.2.2.start)] ++ [((p1.2.2.accept, 'ε'), n2)] := by
      rw [addTransN_etrans, addTransN_etrans, addTransN_etrans, addTransN_etrans,
        demoteAccept_etrans, ttr]
    have hstartF : (addTransN (addTransN (addTransN (addTransN
        (demoteAccept (addStateN (addStateN p1.1 n1 false false) n2 true false)
          p1.2.2.accept) n1 p1.2.2.start 'ε') n1 n2 'ε')
        p1.2.2.accept p1.2.2.start 'ε') p1.2.2.accept n2 'ε').start = nfa.start := by
      rw [addTransN_start, addTransN_start, addTransN_start, addTransN_start,
        demoteAccept_start, tst, srt1]
    have hmemkeys : ∀ a, a ∈ p1.1.states.map Prod.fst →
        a ∈ p1.1.states.map Prod.fst ++ [n1, n2] := fun a ha =>
      List.mem_append.mpr (Or.inl ha)
    refine ⟨?_, ?_, by omega, haccF, ?_, ?_, ?_, hstartF, ?_⟩
    · constructor
      · rw [hkeysF]
        rw [tk] at tnd
        exact tnd
      · intro p hp
        rw [addTransN_states, addTransN_states, addTransN_states,
          addTransN_states] at hp
        exact demoteAccept_noStart _ tns p hp
      · intro a ha
        rw [haccF] at ha
        rw [hkeysF]
        rcases List.mem_append.mp ha with h | h
        · exact hmemkeys a (mono1 _ (hinv.acceptKeys a h))
        · rw [List.mem_singleton.mp h]
          simp
      · intro e he
        rw [hedgeF] at he
        rw [hkeysF]
        simp only [List.append_assoc, List.mem_append, List.mem_singleton] at he
        rcases he with h | h | h | h | h
        · obtain ⟨h1, h2⟩ := inv1.edgeKeys e h
          exact ⟨hmemkeys _ h1, hmemkeys _ h2⟩
        · rw [h]
          exact ⟨by simp, hmemkeys _ st1⟩
        · rw [h]
          exact ⟨by simp, by simp⟩
        · rw [h]
          exact ⟨hmemkeys _ sa1, hmemkeys _ st1⟩
        · rw [h]
          exact ⟨hmemkeys _ sa1, by simp⟩
    · intro j hj
      have hj1 : newStateName j ≠ n1 := by
        rw [hn1]; intro h; have := newStateName_inj h; omega
      have hj2 : newStateName j ≠ n2 := by
        rw [hn2]; intro h; have := newStateName_inj h; omega
      rw [hkeysF, haccF]
      constructor
      · intro hm
        rcases List.mem_append.mp hm with h | h
        · exact (f1 j (by omega)).1 h
        · simp only [List.mem_cons, List.mem_singleton, List.not_mem_nil,
            or_false] at h
          rcases h with h | h
          · exact hj1 h
          · exact hj2 h
      · intro hm
        rcases List.mem_append.mp hm with h | h
        · exact (f1 j (by omega)).2 (by rw [acc1]; simp [h])
        · exact hj2 (List.mem_singleton.mp h)
    · intro hm
      exact hn2_acc1 (by rw [acc1]; simp [hm])
    · rw [hkeysF]
      simp
    · rw [hkeysF]
      simp
    · intro n hn
      rw [hkeysF]
      exact hmemkeys _ (mono1 _ hn)
  | PLUS x ihx =>
    intro nfa c hinv hf
    obtain ⟨inv1, f1, c1le, acc1, na1, st1, sa1, srt1, mono1⟩ := ihx nfa c hinv hf
    simp only [buildFragment]
    set p1 := buildFragment x nfa c with hp1
    set c1 := p1.2.1 with hc1
    set n1 := newStateName c1 with hn1
    set n2 := newStateName (c1 + 1) with hn2
    obtain ⟨tk, tnd, ta, tns, tst, ttr⟩ := addTwo_spec p1.1 c1 inv1 f1
    have hn2_acc1 : n2 ∉ p1.1.accept := (f1 (c1 + 1) (by omega)).2
    have hn2_xa : n2 ≠ p1.2.2.accept := fun h => hn2_acc1 (by
      rw [acc1, h]; simp)
    have hkeysF : (addTransN (addTransN (addTransN
        (demoteAccept (addStateN (addStateN p1.1 n1 false false) n2 true false)
          p1.2.2.accept) n1 p1.2.2.start 'ε')
        p1.2.2.accept p1.2.2.start 'ε') p1.2.2.accept n2 'ε').states.map Prod.fst =
        p1.1.states.map Prod.fst ++ [n1, n2] := by
      rw [addTransN_states, addTransN_states, addTransN_states,
        demoteAccept_keys, tk]
    have haccF : (addTransN (addTransN (addTransN
        (demoteAccept (addStateN (addStateN p1.1 n1 false false) n2 true false)
          p1.2.2.accept) n1 p1.2.2.start 'ε')
        p1.2.2.accept p1.2.2.start 'ε') p1.2.2.accept n2 'ε').accept =
        nfa.accept ++ [n2] := by
      rw [addTransN_accept, addTransN_accept, addTransN_accept,
        demoteAccept_accept, ta, acc1]
      simp only [removeStr_append]
      rw [removeStr_of_not_mem na1, removeStr_singleton_self,
        removeStr_singleton_ne hn2_xa]
      simp
    have hedgeF : (addTransN (addTransN (addTransN
        (demoteAccept (addStateN (addStateN p1.1 n1 false false) n2 true false)
          p1.2.2.accept) n1 p1.2.2.start 'ε')
        p1.2.2.accept p1.2.2.start 'ε') p1.2.2.accept n2 'ε').etrans =
        p1.1.etrans ++ [((n1, 'ε'), p1.2.2.start)] ++
        [((p1.2.2.accept, 'ε'), p1.2.2.start)] ++ [((p1.2.2.accept, 'ε'), n2)] := by
      rw [addTransN_etrans, addTransN_etrans, addTransN_etrans,
        demoteAccept_etrans, ttr]
    have hstartF : (addTransN (addTransN (addTransN
        (demoteAccept (addStateN (addStateN p1.1 n1 false false) n2 true false)
          p1.2.2.accept) n1 p1.2.2.start 'ε')
        p1.2.2.accept p1.2.2.start 'ε') p1.2.2.accept n2 'ε').start = nfa.start := by
      rw [addTransN_start, addTransN_start, addTransN_start,
        demoteAccept_start, tst, srt1]
    have hmemkeys : ∀ a, a ∈ p1.1.states.map Prod.fst →
        a ∈ p1.1.states.map Prod.fst ++ [n1, n2] := fun a ha =>
      List.mem_append.mpr (Or.inl ha)
    refine ⟨?_, ?_, by omega, haccF, ?_, ?_, ?_, hstartF, ?_⟩
    · constructor
      · rw [hkeysF]
        rw [tk] at tnd
        exact tnd
      · intro p hp
        rw [addTransN_states, addTransN_states, addTransN_states] at hp
        exact demoteAccept_noStart _ tns p hp
      · intro a ha
        rw [haccF] at ha
        rw [hkeysF]
        rcases List.mem_append.mp ha with h | h
        · exact hmemkeys a (mono1 _ (hinv.acceptKeys a h))
        · rw [List.mem_singleton.mp h]
          simp
      · intro e he
        rw [hedgeF] at he
        rw [hkeysF]
        simp only [List.append_assoc, List.mem_append, List.mem_singleton] at he
        rcases he with h | h | h | h
        · obtain ⟨h1, h2⟩ := inv1.edgeKeys e h
          exact ⟨hmemkeys _ h1, hmemkeys _ h2⟩
        · rw [h]
          exact ⟨by simp, hmemkeys _ st1⟩
        · rw [h]
          exact ⟨hmemkeys _ sa1, hmemkeys _ st1⟩
        · rw [h]
          exact ⟨hmemkeys _ sa1, by simp⟩
    · intro j hj
      have hj1 : newStateName j ≠ n1 := by
        rw [hn1]; intro h; have := newStateName_inj h; omega
      have hj2 : newStateName j ≠ n2 := by
        rw [hn2]; intro h; have := newStateName_inj h; omega
      rw [hkeysF, haccF]
      constructor
      · intro hm
        rcases List.mem_append.mp hm with h | h
        · exact (f1 j (by omega)).1 h
        · simp only [List.mem_cons, List.mem_singleton, List.not_mem_nil,
            or_false] at h
          rcases h with h | h
          · exact hj1 h
          · exact hj2 h
      · intro hm
        rcases List.mem_append.mp hm with h | h
        · exact (f1 j (by omega)).2 (by rw [acc1]; simp [h])
        · exact hj2 (List.mem_singleton.mp h)
    · intro hm
      exact hn2_acc1 (by rw [acc1]; simp [hm])
    · rw [hkeysF]
      simp
    · rw [hkeysF]
      simp
    · intro n hn
      rw [hkeysF]
      exact hmemkeys _ (mono1 _ hn)

/-! ## C6: properties of the subset-construction memoization -/

theorem mem_canon (l : List String) (x : String) : x ∈ canon l ↔ x ∈ l := by
  rw [canon, (List.perm_insertionSort (fun a b : String => a ≤ b) l.dedup).mem_iff,
    List.mem_dedup]

theorem canon_eq_of_mem_iff {l l' : List String}
    (h : ∀ x, x ∈ l ↔ x ∈ l') : canon l = canon l' := by
  have hp : l.dedup.Perm l'.dedup := by
    apply List.Subperm.antisymm
    · exact (List.nodup_dedup l).subperm (fun x hx =>
        List.mem_dedup.mpr ((h x).mp (List.mem_dedup.mp hx)))
    · exact (List.nodup_dedup l').subperm (fun x hx =>
        List.mem_dedup.mpr ((h x).mpr (List.mem_dedup.mp hx)))
  rw [canon, canon]
  exact List.eq_of_perm_of_sorted
    (((List.perm_insertionSort _ _).trans hp).trans
      (List.perm_insertionSort _ _).symm)
    (List.sorted_insertionSort _ _) (List.sorted_insertionSort _ _)

theorem canon_idem (l : List String) : canon (canon l) = canon l :=
  canon_eq_of_mem_iff (fun x => mem_canon l x)

theorem canon_ne_nil {l : List String} (h : l ≠ []) : canon l ≠ [] := by
  cases l with
  | nil => exact absurd rfl h
  | cons a t =>
    intro hc
    have ha : a ∈ canon (a :: t) := (mem_canon _ _).mpr (by simp)
    rw [hc] at ha
    cases ha

theorem addStateD_ff_accept (d : DFAData) (n : String) :
    (addStateD d n false false).accept = d.accept := rfl

theorem addStateD_ff_table (d : DFAData) (n : String) :
    (addStateD d n false false).table = d.table := rfl

theorem addStateD_ff_start (d : DFAData) (n : String) :
    (addStateD d n false false).start = d.start := rfl

theorem dfaAddChecked_accept (d : DFAData) (f t : String) (sym : Char) :
    (dfaAddChecked d f t sym).accept = d.accept := by
  rw [dfaAddChecked, dfaAddTransition]
  by_cases h : (d.table.lookup (f, sym)).isSome
  · rw [if_pos h]
  · rw [if_neg h]

theorem dfaAddChecked_start (d : DFAData) (f t : String) (sym : Char) :
    (dfaAddChecked d f t sym).start = d.start := by
  rw [dfaAddChecked, dfaAddTransition]
  by_cases h : (d.table.lookup (f, sym)).isSome
  · rw [if_pos h]
  · rw [if_neg h]

theorem dfaAddChecked_table (d : DFAData) (f t : String) (sym : Char) :
    (dfaAddChecked d f t sym).table = d.table ∨
    (dfaAddChecked d f t sym).table = d.table ++ [((f, sym), t)] := by
  rw [dfaAddChecked, dfaAddTransition]
  by_cases h : (d.table.lookup (f, sym)).isSome
  · rw [if_pos h]
    exact Or.inl rfl
  · rw [if_neg h]
    exact Or.inr rfl

theorem mem_snd_inj {α β : Type} {l : List (α × β)}
    (h : (l.map Prod.snd).Nodup) {k1 k2 : α} {v : β}
    (h1 : (k1, v) ∈ l) (h2 : (k2, v) ∈ l) : k1 = k2 := by
  induction l with
  | nil => cases h1
  | cons p rest ih =>
    rw [List.map_cons, List.nodup_cons] at h
    rcases List.mem_cons.mp h1 with e1 | m1
    · rcases List.mem_cons.mp h2 with e2 | m2
      · rw [show k1 = p.1 from congrArg Prod.fst e1,
          show k2 = p.1 from congrArg Prod.fst e2]
      · exfalso
        have hv : p.2 = v := by rw [← e1]
        exact h.1 (hv ▸ List.mem_map.mpr ⟨(k2, v), m2, rfl⟩)
    · rcases List.mem_cons.mp h2 with e2 | m2
      · exfalso
        have hv : p.2 = v := by rw [← e2]
        exact h.1 (hv ▸ List.mem_map.mpr ⟨(k1, v), m1, rfl⟩)
      · exact ih h.2 m1 m2

theorem fresh_name_not_mem {c : Nat} :
    newStateName c ∉ (List.range c).map newStateName := by
  intro h
  obtain ⟨j, hj, he⟩ := List.mem_map.mp h
  have := newStateName_inj he
  rw [List.mem_range] at hj
  omega

theorem subInv_names_nodup {nfa : NFAData} {st : SubsetSt}
    (h : SubInv nfa st) : (st.smap.map Prod.snd).Nodup := by
  rw [h.names_eq]
  exact (List.nodup_range _).map (fun a b hab => newStateName_inj hab)

theorem subInv_setStart {nfa : NFAData} {st : SubsetSt} (h : SubInv nfa st)
    (x : Option String) :
    SubInv nfa ⟨{ st.dfa with start := x }, st.smap, st.counter⟩ := by
  obtain ⟨a, b, c, d, e, f, g⟩ := h
  exact ⟨a, b, c, d, e, f, g⟩

/-- The memoized state lookup preserves the subset invariant, binds the
requested canonical key to the returned name, keeps every earlier
binding, and leaves table and start untouched. -/
theorem getDfaState_spec (nfa : NFAData) (st : SubsetSt) (key : List String)
    (hinv : SubInv nfa st) (hc : canon key = key) (hne : key ≠ []) :
    SubInv nfa (getDfaState nfa st key).1 ∧
    (getDfaState nfa st key).1.smap.lookup key =
      some (getDfaState nfa st key).2 ∧
    (∀ k v, st.smap.lookup k = some v →
      (getDfaState nfa st key).1.smap.lookup k = some v) ∧
    (getDfaState nfa st key).1.dfa.table = st.dfa.table ∧
    (getDfaState nfa st key).1.dfa.start = st.dfa.start := by
  cases hlook : st.smap.lookup key with
  | some name =>
    have hred : getDfaState nfa st key = (st, name) := by
      simp only [getDfaState, hlook]
    rw [hred]
    exact ⟨hinv, hlook, fun k v h => h, rfl, rfl⟩
  | none =>
    have hres : getDfaState nfa st key =
        (⟨{ states := updA st.dfa.states ("q" ++ toString (st.counter + 1))
              ⟨false, false⟩,
            alphabet := st.dfa.alphabet,
            start := st.dfa.start,
            accept := if (key.any fun s => decide (s ∈ nfa.accept)) = true
              then insertStr st.dfa.accept ("q" ++ toString (st.counter + 1))
              else st.dfa.accept,
            table := st.dfa.table },
          st.smap ++ [(key, "q" ++ toString (st.counter + 1))],
          st.counter + 1⟩,
         "q" ++ toString (st.counter + 1)) := by
      simp only [getDfaState, hlook]
      by_cases hany : (key.any fun s => decide (s ∈ nfa.accept)) = true
      · rw [if_pos hany, if_pos hany]
        rfl
      · rw [if_neg hany, if_neg hany]
        rfl
    rw [hres]
    have hname : ("q" ++ toString (st.counter + 1)) = newStateName st.counter :=
      rfl
    have hfresh : ("q" ++ toString (st.counter + 1)) ∉ st.smap.map Prod.snd := by
      rw [hname, hinv.names_eq]
      exact fresh_name_not_mem
    have hkey : key ∉ st.smap.map Prod.fst := (lookup_eq_none_iff _ _).mp hlook
    have hlooknew : (st.smap ++
        [(key, "q" ++ toString (st.counter + 1))]).lookup key =
        some ("q" ++ toString (st.counter + 1)) := by
      rw [lookup_append_right _ hlook]
      exact lookup_cons_eq _ _ _ rfl
    refine ⟨?_, hlooknew, fun k v h => lookup_append_left _ h, rfl, rfl⟩
    constructor
    · rw [List.map_append, hinv.names_eq, List.range_succ, List.map_append]
      rfl
    · rw [List.map_append]
      refine hinv.keys_nodup.append (by simp) ?_
      intro a ha hb
      rw [List.map_cons, List.map_nil, List.mem_singleton] at hb
      have hb2 : a = key := hb
      exact hkey (hb2 ▸ ha)
    · intro k hk
      rw [List.map_append] at hk
      rcases List.mem_append.mp hk with h | h
      · exact hinv.keys_canon k h
      · rw [List.map_cons, List.map_nil, List.mem_singleton] at h
        have h2 : k = key := h
        rw [h2, hc]
    · intro k hk
      rw [List.map_append] at hk
      rcases List.mem_append.mp hk with h | h
      · exact hinv.keys_ne k h
      · rw [List.map_cons, List.map_nil, List.mem_singleton] at h
        have h2 : k = key := h
        rw [h2]
        exact hne
    · intro kv hkv
      rcases List.mem_append.mp hkv with hold | hnew
      · by_cases hany : (key.any fun s => decide (s ∈ nfa.accept)) = true
        · rw [if_pos hany, mem_insertStr]
          have hne2 : kv.2 ≠ "q" ++ toString (st.counter + 1) := by
            intro he
            exact hfresh (he ▸ List.mem_map.mpr ⟨kv, hold, rfl⟩)
          rw [or_iff_left hne2]
          exact hinv.accept_iff kv hold
        · rw [if_neg hany]
          exact hinv.accept_iff kv hold
      · rw [List.mem_singleton] at hnew
        rw [hnew]
        by_cases hany : (key.any fun s => decide (s ∈ nfa.accept)) = true
        · rw [if_pos hany]
          constructor
          · intro _
            obtain ⟨a, ha, hd⟩ := List.any_eq_true.mp hany
            exact ⟨a, ha, of_decide_eq_true hd⟩
          · intro _
            exact (mem_insertStr _ _).mpr (Or.inr rfl)
        · rw [if_neg hany]
          constructor
          · intro hmem
            exact absurd (hinv.accept_sub _ hmem) hfresh
          · intro ⟨a, ha, hd⟩
            exact absurd (List.any_eq_true.mpr ⟨a, ha, decide_eq_true hd⟩) hany
    · intro n hn
      rw [List.map_append]
      by_cases hany : (key.any fun s => decide (s ∈ nfa.accept)) = true
      · rw [if_pos hany] at hn
        rcases (mem_insertStr _ _).mp hn with h | h
        · exact List.mem_append.mpr (Or.inl (hinv.accept_sub n h))
        · rw [h]
          simp
      · rw [if_neg hany] at hn
        exact List.mem_append.mpr (Or.inl (hinv.accept_sub n hn))
    · intro e he
      obtain ⟨S, h1, h2, h3⟩ := hinv.table_inv e he
      exact ⟨S, lookup_append_left _ h1, h2, lookup_append_left _ h3⟩

/-- One alphabet-symbol step of the BFS body preserves the subset
invariant, the binding of the current subset, every earlier binding and
the DFA start state, and only enqueues canonical non-empty keys. -/
theorem subsetSymStep_spec (nfa : NFAData) (S : List String)
    (processed : List (List String)) (curName : String)
    (acc : SubsetSt × List (List String)) (sym : Char)
    (hinv : SubInv nfa acc.1) (hcur : acc.1.smap.lookup S = some curName) :
    SubInv nfa (subsetSymStep nfa S processed curName acc sym).1 ∧
    (subsetSymStep nfa S processed curName acc sym).1.smap.lookup S =
      some curName ∧
    (∀ k v, acc.1.smap.lookup k = some v →
      (subsetSymStep nfa S processed curName acc sym).1.smap.lookup k =
        some v) ∧
    (subsetSymStep nfa S processed curName acc sym).1.dfa.start =
      acc.1.dfa.start ∧
    (∀ k ∈ (subsetSymStep nfa S processed curName acc sym).2,
      k ∈ acc.2 ∨ (canon k = k ∧ k ≠ [])) := by
  by_cases hnext : nfaSetSucc nfa S sym = []
  · have hred : subsetSymStep nfa S processed curName acc sym = acc := by
      simp only [subsetSymStep]
      rw [if_pos hnext]
    rw [hred]
    exact ⟨hinv, hcur, fun k v h => h, rfl, fun k hk => Or.inl hk⟩
  · obtain ⟨pinv, plook, pmono, ptab, pstart⟩ :=
      getDfaState_spec nfa acc.1 (canon (nfaSetSucc nfa S sym)) hinv
        (canon_idem _) (canon_ne_nil hnext)
    have hred : subsetSymStep nfa S processed curName acc sym =
        (⟨{ (getDfaState nfa acc.1 (canon (nfaSetSucc nfa S sym))).1 with
            dfa := dfaAddChecked
              (getDfaState nfa acc.1 (canon (nfaSetSucc nfa S sym))).1.dfa
              curName
              (getDfaState nfa acc.1 (canon (nfaSetSucc nfa S sym))).2 sym },
          if canon (nfaSetSucc nfa S sym) ∈ processed then acc.2
          else acc.2 ++ [canon (nfaSetSucc nfa S sym)]⟩ :
            SubsetSt × List (List String)) := by
      simp only [subsetSymStep]
      rw [if_neg hnext]
    rw [hred]
    refine ⟨?_, pmono _ _ hcur, fun k v h => pmono k v h, ?_, ?_⟩
    · obtain ⟨i1, i2, i3, i4, i5, i6, i7⟩ := pinv
      refine ⟨i1, i2, i3, i4, ?_, ?_, ?_⟩
      · intro kv hkv
        rw [dfaAddChecked_accept]
        exact i5 kv hkv
      · intro n hn
        rw [dfaAddChecked_accept] at hn
        exact i6 n hn
      · intro e he
        rcases dfaAddChecked_table
            (getDfaState nfa acc.1 (canon (nfaSetSucc nfa S sym))).1.dfa
            curName
            (getDfaState nfa acc.1 (canon (nfaSetSucc nfa S sym))).2 sym with
          ht | ht
        · rw [ht] at he
          exact i7 e he
        · rw [ht] at he
          rcases List.mem_append.mp he with hold | hnew
          · exact i7 e hold
          · rw [List.mem_singleton] at hnew
            rw [hnew]
            exact ⟨S, pmono _ _ hcur, hnext, plook⟩
    · rw [dfaAddChecked_start, pstart]
    · intro k hk
      by_cases hp : canon (nfaSetSucc nfa S sym) ∈ processed
      · rw [if_pos hp] at hk
        exact Or.inl hk
      · rw [if_neg hp] at hk
        rcases List.mem_append.mp hk with h | h
        · exact Or.inl h
        · rw [List.mem_singleton] at h
          rw [h]
          exact Or.inr ⟨canon_idem _, canon_ne_nil hnext⟩

/-- The fold of `subsetSymStep` over the alphabet preserves the same
facts as each step. -/
theorem subsetFold_spec (nfa : NFAData) (S : List String)
    (processed : List (List String)) (curName : String) (syms : List Char) :
    ∀ (acc : SubsetSt × List (List String)),
      SubInv nfa acc.1 → acc.1.smap.lookup S = some curName →
      SubInv nfa
        (syms.foldl (subsetSymStep nfa S processed curName) acc).1 ∧
      (syms.foldl (subsetSymStep nfa S processed curName)
        acc).1.smap.lookup S = some curName ∧
      (∀ k v, acc.1.smap.lookup k = some v →
        (syms.foldl (subsetSymStep nfa S processed curName)
          acc).1.smap.lookup k = some v) ∧
      (syms.foldl (subsetSymStep nfa S processed curName) acc).1.dfa.start =
        acc.1.dfa.start ∧
      (∀ k ∈ (syms.foldl (subsetSymStep nfa S processed curName) acc).2,
        k ∈ acc.2 ∨ (canon k = k ∧ k ≠ [])) := by
  induction syms with
  | nil =>
    intro acc hinv hcur
    exact ⟨hinv, hcur, fun k v h => h, rfl, fun k hk => Or.inl hk⟩
  | cons sym syms ih =>
    intro acc hinv hcur
    rw [List.foldl_cons]
    obtain ⟨i1, c1, m1, s1, q1⟩ :=
      subsetSymStep_spec nfa S processed curName acc sym hinv hcur
    obtain ⟨i2, c2, m2, s2, q2⟩ :=
      ih (subsetSymStep nfa S processed curName acc sym) i1 c1
    refine ⟨i2, c2, fun k v h => m2 k v (m1 k v h), by rw [s2, s1], ?_⟩
    intro k hk
    rcases q2 k hk with h2 | h2
    · exact q1 k h2
    · exact Or.inr h2

/-- The whole BFS preserves the subset invariant and the DFA start
state, provided every queued key is canonical and non-empty. -/
theorem subsetLoop_inv (nfa : NFAData) :
    ∀ (fuel : Nat) (queue processed : List (List String)) (st : SubsetSt),
      SubInv nfa st → (∀ k ∈ queue, canon k = k ∧ k ≠ []) →
      SubInv nfa (subsetLoop nfa fuel queue processed st).1 ∧
      (subsetLoop nfa fuel queue processed st).1.dfa.start = st.dfa.start := by
  intro fuel
  induction fuel with
  | zero =>
    intro queue processed st hinv _
    exact ⟨hinv, rfl⟩
  | succ fuel ih =>
    intro queue processed st hinv hq
    cases queue with
    | nil => exact ⟨hinv, rfl⟩
    | cons S rest =>
      by_cases hmem : S ∈ processed
      · have hred : subsetLoop nfa (fuel + 1) (S :: rest) processed st =
            subsetLoop nfa fuel rest processed st := by
          simp only [subsetLoop]
          rw [if_pos hmem]
        rw [hred]
        exact ih rest processed st hinv
          (fun k hk => hq k (List.mem_cons_of_mem _ hk))
      · have hred : subsetLoop nfa (fuel + 1) (S :: rest) processed st =
            subsetLoop nfa fuel
              (rest ++ (nfa.alphabet.foldl
                (subsetSymStep nfa S (processed ++ [S])
                  (getDfaState nfa st S).2)
                ((getDfaState nfa st S).1, ([] : List (List String)))).2)
              (processed ++ [S])
              (nfa.alphabet.foldl
                (subsetSymStep nfa S (processed ++ [S])
                  (getDfaState nfa st S).2)
                ((getDfaState nfa st S).1, ([] : List (List String)))).1 := by
          simp only [subsetLoop]
          rw [if_neg hmem]
        rw [hred]
        obtain ⟨hqS1, hqS2⟩ := hq S (by simp)
        obtain ⟨pinv, plook, pmono, ptab, pstart⟩ :=
          getDfaState_spec nfa st S hinv hqS1 hqS2
        obtain ⟨finv, fcur, fmono, fstart, fqueue⟩ :=
          subsetFold_spec nfa S (processed ++ [S]) (getDfaState nfa st S).2
            nfa.alphabet ((getDfaState nfa st S).1, ([] : List (List String)))
            pinv plook
        have hq2 : ∀ k ∈ rest ++ (nfa.alphabet.foldl
            (subsetSymStep nfa S (processed ++ [S]) (getDfaState nfa st S).2)
            ((getDfaState nfa st S).1, ([] : List (List String)))).2,
            canon k = k ∧ k ≠ [] := by
          intro k hk
          rcases List.mem_append.mp hk with h | h
          · exact hq k (List.mem_cons_of_mem _ h)
          · rcases fqueue k h with h2 | h2
            · cases h2
            · exact h2
        have hrec := ih _ (processed ++ [S]) _ finv hq2
        refine ⟨hrec.1, ?_⟩
        rw [hrec.2, fstart, pstart]

/-- The subset invariant holds of the completed construction. -/
theorem subsetFull_inv (nfa : NFAData) : SubInv nfa (nfaToDfaFull nfa).1 := by
  cases hstart : nfa.start with
  | none =>
    have hred : nfaToDfaFull nfa = (⟨emptyDFA, [], 0⟩, []) := by
      simp only [nfaToDfaFull, hstart]
    rw [hred]
    refine ⟨rfl, List.nodup_nil, ?_, ?_, ?_, ?_, ?_⟩ <;> simp [emptyDFA]
  | some s0 =>
    have hinv0 : SubInv nfa ⟨emptyDFA, [], 0⟩ := by
      refine ⟨rfl, List.nodup_nil, ?_, ?_, ?_, ?_, ?_⟩ <;> simp [emptyDFA]
    obtain ⟨pinv, plook, pmono, ptab, pstart⟩ :=
      getDfaState_spec nfa ⟨emptyDFA, [], 0⟩ (canon [s0]) hinv0 (canon_idem _)
        (canon_ne_nil (by simp))
    have hred : nfaToDfaFull nfa =
        subsetLoop nfa (subsetFuel nfa s0) [canon [s0]] []
          ⟨{ (getDfaState nfa ⟨emptyDFA, [], 0⟩ (canon [s0])).1.dfa with
              start := some (getDfaState nfa ⟨emptyDFA, [], 0⟩
                (canon [s0])).2 },
            (getDfaState nfa ⟨emptyDFA, [], 0⟩ (canon [s0])).1.smap,
            (getDfaState nfa ⟨emptyDFA, [], 0⟩ (canon [s0])).1.counter⟩ := by
      simp only [nfaToDfaFull, hstart]
    rw [hred]
    exact (subsetLoop_inv nfa (subsetFuel nfa s0) [canon [s0]] [] _
      (subInv_setStart pinv _)
      (fun k hk => by
        rw [List.mem_singleton] at hk
        rw [hk]
        exact ⟨canon_idem _, canon_ne_nil (by simp)⟩)).1

/-- C6: in the subset construction, the canonical subset key is
order-independent; no two memoized DFA states share a subset key (so a
subset is never given two DFA states, whatever the discovery order); a
memoized DFA state is accepting iff its subset meets the NFA accept set;
and a symbol with an empty successor set emits no transition from the
corresponding DFA state. -/
theorem claim_C6 (nfa : NFAData) :
    (∀ l l' : List String, (∀ x, x ∈ l ↔ x ∈ l') → canon l = canon l') ∧
    ((nfaToDfaFull nfa).1.smap.map Prod.fst).Nodup ∧
    (∀ key name, (nfaToDfaFull nfa).1.smap.lookup key = some name →
      (name ∈ (nfaToDfaFull nfa).1.dfa.accept ↔ ∃ a ∈ key, a ∈ nfa.accept)) ∧
    (∀ key name sym, (nfaToDfaFull nfa).1.smap.lookup key = some name →
      nfaSetSucc nfa key sym = [] →
      (nfaToDfaFull nfa).1.dfa.table.lookup (name, sym) = none) := by
  have hinv := subsetFull_inv nfa
  refine ⟨fun l l' h => canon_eq_of_mem_iff h, hinv.keys_nodup, ?_, ?_⟩
  · intro key name hl
    exact hinv.accept_iff (key, name) (lookup_mem hl)
  · intro key name sym hl hsucc
    cases htab : (nfaToDfaFull nfa).1.dfa.table.lookup (name, sym) with
    | none => rfl
    | some t =>
      exfalso
      obtain ⟨S, hS1, hS2, hS3⟩ := hinv.table_inv _ (lookup_mem htab)
      have hkeyS : S = key :=
        mem_snd_inj (subInv_names_nodup hinv) (lookup_mem hS1) (lookup_mem hl)
      rw [hkeyS] at hS2
      exact hS2 hsucc

/-- Witness for C6's inner implications at the concrete NFA `exNFA6`
(whose subset DFA memoizes `["s"] ↦ q1`, `["t"] ↦ q2`). -/
theorem claim_C6_witness :
    canon ["b", "a"] = canon ["a", "b", "a"] ∧
    (("q2" : String) ∈ (nfaToDfaFull exNFA6).1.dfa.accept ↔
      ∃ a ∈ ["t"], a ∈ exNFA6.accept) ∧
    (nfaToDfaFull exNFA6).1.dfa.table.lookup ("q2", 'a') = none := by
  obtain ⟨hc, _, hacc, htab⟩ := claim_C6 exNFA6
  refine ⟨hc ["b", "a"] ["a", "b", "a"] ?_, hacc ["t"] "q2" (by rfl),
    htab ["t"] "q2" 'a' (by rfl) (by rfl)⟩
  intro x
  constructor
  · intro h
    rcases List.mem_cons.mp h with h | h
    · simp [h]
    · simp [List.mem_singleton.mp h]
  · intro h
    rcases List.mem_cons.mp h with h | h
    · simp [h]
    · rcases List.mem_cons.mp h with h | h
      · simp [h]
      · simp [List.mem_singleton.mp h]

/-! ## C7: Thompson's construction yields one start and one accept state -/

theorem emptyNFA_inv : BuildInv emptyNFA := by
  constructor <;> simp [emptyNFA]

theorem emptyNFA_fresh : FreshFrom emptyNFA 0 := by
  intro j _
  simp [emptyNFA]

/-- `set_start_state` flips the flag exactly on entries keyed `name`;
when no entry carried the flag before, the flagged entries afterwards
are counted by the occurrences of `name` among the keys. -/
theorem startFlag_count (l : List (String × StFlags)) (name : String)
    (hns : ∀ p ∈ l, p.2.is_start = false) :
    ((l.map (fun p =>
        if p.1 = name then (p.1, { p.2 with is_start := true }) else p)).filter
      (fun p => p.2.is_start)).length = (l.map Prod.fst).count name := by
  induction l with
  | nil => rfl
  | cons p t ih =>
    have hp : p.2.is_start = false := hns p (by simp)
    have iht := ih (fun q hq => hns q (List.mem_cons_of_mem _ hq))
    by_cases h : p.1 = name
    · rw [List.map_cons, if_pos h, List.filter_cons_of_pos (by rfl),
        List.length_cons, iht, List.map_cons, List.count_cons]
      simp [h]
    · rw [List.map_cons, if_neg h, List.filter_cons_of_neg (by simp [hp]),
        iht, List.map_cons, List.count_cons]
      simp [h]

theorem setStartFlag_accept (m : NFAData) (name : String) :
    (setStartFlag m name).accept = m.accept := rfl

/-- C7: whenever the parser accepts a regex, the ε-NFA delivered by
`thompson_construction` has exactly one state whose start flag is set and
its accept-state set is a singleton. -/
theorem claim_C7 (regex : List Char) (E : NFAData)
    (h : thompsonConstruction regex = .ok E) :
    ((E.states.filter (fun p => p.2.is_start)).length = 1) ∧
      ∃ a, E.accept = [a] := by
  unfold thompsonConstruction at h
  cases hp : parseRegex regex with
  | error e => rw [hp] at h; exact absurd h (by simp)
  | ok ast =>
    rw [hp] at h
    have h2 : Except.ok (ε := ParseErr)
        (setStartFlag (buildFragment ast emptyNFA 0).1
          (buildFragment ast emptyNFA 0).2.2.start) = Except.ok E := h
    have hE : E = setStartFlag (buildFragment ast emptyNFA 0).1
        (buildFragment ast emptyNFA 0).2.2.start := by
      injection h2 with h3
      exact h3.symm
    obtain ⟨inv, _, _, hacc, _, hst, _, _, _⟩ :=
      buildFragment_inv ast emptyNFA 0 emptyNFA_inv emptyNFA_fresh
    subst hE
    constructor
    · rw [setStartFlag]
      simp only []
      rw [startFlag_count _ _ inv.noStart]
      have hle := (List.nodup_iff_count_le_one.mp inv.nodupKeys)
        (buildFragment ast emptyNFA 0).2.2.start
      have hpos : 0 < ((buildFragment ast emptyNFA 0).1.states.map
          Prod.fst).count (buildFragment ast emptyNFA 0).2.2.start :=
        List.count_pos_iff.mpr hst
      omega
    · refine ⟨(buildFragment ast emptyNFA 0).2.2.accept, ?_⟩
      rw [setStartFlag_accept, hacc]
      rfl

/-- Witness for C7 at the regex `a`. -/
theorem claim_C7_witness :
    thompsonConstruction ['a'] = Except.ok
      (⟨[("q1", ⟨false, true⟩), ("q2", ⟨true, false⟩)], ['a'], some "q1",
        ["q2"], [(("q1", 'a'), "q2")]⟩ : NFAData) ∧
    ((((⟨[("q1", ⟨false, true⟩), ("q2", ⟨true, false⟩)], ['a'], some "q1",
        ["q2"], [(("q1", 'a'), "q2")]⟩ : NFAData)).states.filter
      (fun p => p.2.is_start)).length = 1) ∧
      ∃ a, (⟨[("q1", ⟨false, true⟩), ("q2", ⟨true, false⟩)], ['a'],
        some "q1", ["q2"], [(("q1", 'a'), "q2")]⟩ : NFAData).accept = [a] :=
  ⟨by rfl, claim_C7 ['a'] _ (by rfl)⟩

/-! ## C2: the PDA acceptance search has no step bound -/

/-- Auxiliary induction for `claim_C2`: from the configuration reached
after `k` loop iterations (with all later loop configurations still
unvisited), the BFS of `PDA.accepts` on `loopPDA` consumes every amount
of fuel without returning. -/
theorem loopPDA_never_returns :
    ∀ (fuel k : Nat) (vis : List PDACfg),
      (∀ j, k ≤ j → cfgZ j ∉ vis) →
      pdaLoop loopPDA fuel [cfgZ k] vis = none := by
  intro fuel
  induction fuel with
  | zero => intro k vis _; rfl
  | succ f ih =>
    intro k vis h
    have hmem : cfgZ k ∉ vis := h k le_rfl
    have hstep : pdaLoop loopPDA (f + 1) [cfgZ k] vis =
        pdaLoop loopPDA f [cfgZ (k + 1)] (vis ++ [cfgZ k]) := by
      simp only [pdaLoop, cfgZ, List.replicate_succ]
      rw [if_neg (by simpa [cfgZ, List.replicate_succ] using hmem)]
      simp [pdaApplicable, loopPDA, pdaStep, List.replicate_succ]
    rw [hstep]
    apply ih
    intro j hj
    simp only [List.mem_append, List.mem_singleton]
    rintro (hin | heq)
    · exact h j (Nat.le_of_succ_le hj) hin
    · have : j + 1 = k + 1 := by
        have := congrArg (fun c : PDACfg => c.2.2.length) heq
        simpa [cfgZ] using this
      omega

/-- C2: the claim that `PDA.accepts` imposes an explicit step or
frontier bound and reports a distinct "undecided" outcome is violated by
the code: the BFS in `PDA.accepts` is an unbounded `while queue` loop
returning only True/False.  On `loopPDA` with empty input it explores
the infinite family `(q0, ε, Z^(k+1))` of pairwise distinct
configurations, so for every number of loop iterations the search is
still running (`none`); the Python loop never terminates and never
reports any outcome, undecided or otherwise. -/
theorem claim_C2 : ∀ fuel : Nat, pdaAccepts loopPDA [] fuel = none := by
  intro fuel
  have h0 : pdaAccepts loopPDA [] fuel = pdaLoop loopPDA fuel [cfgZ 0] [] := rfl
  rw [h0]
  exact loopPDA_never_returns fuel 0 [] (by intro j _ hj; simp at hj)

/-! ## C4: the Mealy→Moore→Mealy round trip shifts the output sequence -/

/-- C4: on the machine `exMealy` (whose states have unambiguous
outputs), the original machine outputs `["0"]` on input "a" but the
round-tripped machine outputs `["1"]` — the round trip emits the
destination state's output instead of the transition's own output, so
the claimed output-sequence preservation fails on the code. -/
theorem claim_C4 :
    mealyProcess exMealy ['a'] = (true, ["0"]) ∧
    mealyProcess (mooreToMealy (mealyToMoore exMealy)) ['a'] = (true, ["1"]) := by
  exact ⟨rfl, rfl⟩

/-! ## C8: construction-time violations fail at the offending call -/

/-- C8: adding a DFA transition over an already-bound `(state, symbol)`
key fails with the duplicate-transition error (the check precedes every
mutation, so nothing is overwritten and no modified automaton is
produced), and assigning a Moore state output for an unknown state
likewise fails before any mutation. -/
theorem claim_C8 :
    (∀ (d : DFAData) (f t : String) (sym : Char),
      (d.table.lookup (f, sym)).isSome = true →
      dfaAddTransition d f t sym = .error "DFA transition already exists") ∧
    (∀ (mo : MooreData) (s out : String),
      (mo.states.lookup s).isSome = false →
      mooreSetStateOutput mo s out = .error "State does not exist") := by
  constructor
  · intro d f t sym h
    simp [dfaAddTransition, h]
  · intro mo s out h
    simp [mooreSetStateOutput, h]

/-- Witness for C8 at concrete machines: `exDFA8` already maps
`(s, x)`, and `exMoore8` has no state named "zz". -/
theorem claim_C8_witness :
    dfaAddTransition exDFA8 "s" "s" 'x' = .error "DFA transition already exists" ∧
    mooreSetStateOutput exMoore8 "zz" "1" = .error "State does not exist" :=
  ⟨claim_C8.1 exDFA8 "s" "s" 'x' (by decide),
   claim_C8.2 exMoore8 "zz" "1" (by decide)⟩

/-! ## C10: a missing start state means rejection, not an error -/

/-- C10: for every automaton kind, with no start state set, `accepts`
returns `False` (for the PDA: for any iteration budget), the
output-machine `process_input` returns failure with an empty output
list, and every step-by-step simulator returns an empty trace. -/
theorem claim_C10 (d : DFAData) (n : NFAData) (p : PDAData)
    (me : MealyData) (mo : MooreData) (w : List Char) (fuel : Nat)
    (hd : d.start = none) (hn : n.start = none) (hp : p.start = none)
    (hme : me.start = none) (hmo : mo.start = none) :
    dfaAccepts d w = false ∧ dfaSimulate d w = [] ∧
    nfaAccepts n w = false ∧ nfaSimulate n w = [] ∧
    enfaAccepts n w = false ∧ enfaSimulate n w = [] ∧
    pdaAccepts p w fuel = some false ∧ pdaSimulate p w fuel = [] ∧
    mealyAccepts me w = false ∧ mealyProcess me w = (false, []) ∧
    mealySimulate me w = [] ∧
    mooreAccepts mo w = false ∧ mooreProcess mo w = (false, []) ∧
    mooreSimulate mo w = [] := by
  refine ⟨?_, ?_, ?_, ?_, ?_, ?_, ?_, ?_, ?_, ?_, ?_, ?_, ?_, ?_⟩ <;>
    simp [dfaAccepts, dfaSimulate, nfaAccepts, nfaSimulate, enfaAccepts,
      enfaSimulate, pdaAccepts, pdaSimulate, mealyAccepts, mealyProcess,
      mealySimulate, mooreAccepts, mooreProcess, mooreSimulate,
      hd, hn, hp, hme, hmo]

/-- Witness for C10 at the concrete start-less machines. -/
theorem claim_C10_witness :
    dfaAccepts emptyDFA ['a'] = false ∧ dfaSimulate emptyDFA ['a'] = [] ∧
    nfaAccepts emptyNFA ['a'] = false ∧ nfaSimulate emptyNFA ['a'] = [] ∧
    enfaAccepts emptyNFA ['a'] = false ∧ enfaSimulate emptyNFA ['a'] = [] ∧
    pdaAccepts emptyPDA ['a'] 3 = some false ∧ pdaSimulate emptyPDA ['a'] 3 = [] ∧
    mealyAccepts emptyMealy ['a'] = false ∧
    mealyProcess emptyMealy ['a'] = (false, []) ∧
    mealySimulate emptyMealy ['a'] = [] ∧
    mooreAccepts emptyMoore ['a'] = false ∧
    mooreProcess emptyMoore ['a'] = (false, []) ∧
    mooreSimulate emptyMoore ['a'] = [] :=
  claim_C10 emptyDFA emptyNFA emptyPDA emptyMealy emptyMoore ['a'] 3
    rfl rfl rfl rfl rfl

/-! ## Reachability worklist (`find_reachable_states`) correctness -/

theorem reachFuel_eq (d : DFAData) (s0 : String) :
    reachFuel d s0 = (d.alphabet.length + 1) * (dfaTargets d s0).length + 2 :=
  rfl

theorem popSide_false_none {l : List String}
    (h : popSide false l = none) : l = [] := by
  cases l with
  | nil => rfl
  | cons x xs =>
    rw [popSide, if_neg (by decide)] at h
    cases hp : popSide false xs with
    | none => rw [hp] at h; cases h
    | some p => rw [hp] at h; cases h

theorem popSide_false_eq {l : List String} {s : String} {l1 : List String}
    (h : popSide false l = some (s, l1)) : l = l1 ++ [s] := by
  induction l generalizing s l1 with
  | nil => cases h
  | cons x xs ih =>
    rw [popSide, if_neg (by decide)] at h
    cases hp : popSide false xs with
    | none =>
      rw [hp] at h
      injection h with h2
      injection h2 with ha hb
      rw [popSide_false_none hp, ← hb, ← ha]
      rfl
    | some p =>
      obtain ⟨y, ys⟩ := p
      rw [hp] at h
      injection h with h2
      injection h2 with ha hb
      rw [← hb, ← ha, List.cons_append, ih hp]

theorem dfaWalk_cons (d : DFAData) (s t : String) (c : Char) (w : List Char)
    (h : dfaNext d s c = some t) :
    dfaWalk d s (c :: w) = dfaWalk d t w := by
  rw [dfaWalk, h]

theorem dfaWalk_append (d : DFAData) (w1 : List Char) :
    ∀ (w2 : List Char) (s x : String), dfaWalk d s w1 = some x →
      dfaWalk d s (w1 ++ w2) = dfaWalk d x w2 := by
  induction w1 with
  | nil =>
    intro w2 s x h
    injection h with h
    rw [h]
    rfl
  | cons c w1 ih =>
    intro w2 s x h
    rw [dfaWalk] at h
    cases hn : dfaNext d s c with
    | none => rw [hn] at h; cases h
    | some t =>
      rw [hn] at h
      rw [List.cons_append, dfaWalk_cons d s t c _ hn]
      exact ih w2 t x h

theorem dfaReach_step {d : DFAData} {s0 x t : String} {sym : Char}
    (h : dfaReach d s0 x) (hs : dfaNext d x sym = some t) :
    dfaReach d s0 t := by
  obtain ⟨w, hw⟩ := h
  refine ⟨w ++ [sym], ?_⟩
  rw [dfaWalk_append d w [sym] s0 x hw, dfaWalk, hs]
  rfl

theorem unseen_drop {V reach : List String} {s : String} (hnd : V.Nodup)
    (hs : s ∈ V) (hns : s ∉ reach) :
    (V.filter (fun v => decide (v ∉ reach))).length =
    (V.filter (fun v => decide (v ∉ reach ++ [s]))).length + 1 := by
  induction V with
  | nil => cases hs
  | cons v V ih =>
    rw [List.nodup_cons] at hnd
    simp only [List.filter_cons]
    by_cases hv : v = s
    · subst hv
      have hcong : List.filter (fun x => decide (x ∉ reach)) V =
          List.filter (fun x => decide (x ∉ reach ++ [v])) V := by
        apply List.filter_congr
        intro a ha
        have hane : a ≠ v := fun he => hnd.1 (he ▸ ha)
        simp [hane]
      rw [if_pos (decide_eq_true hns), if_neg (by simp), List.length_cons,
        hcong]
    · have hsw : s ∈ V := by
        rcases List.mem_cons.mp hs with h | h
        · exact absurd h.symm hv
        · exact h
      have hc2 : (decide (v ∉ reach)) = (decide (v ∉ reach ++ [s])) := by
        simp [hv]
      by_cases hvr : v ∉ reach
      · rw [if_pos (decide_eq_true hvr),
          if_pos (by rw [← hc2]; exact decide_eq_true hvr),
          List.length_cons, List.length_cons, ih hnd.2 hsw]
      · rw [if_neg (by simpa using hvr),
          if_neg (by rw [← hc2]; simpa using hvr), ih hnd.2 hsw]

theorem reachLoop_pop (d : DFAData) (fuel : Nat) (stack reach : List String)
    (s : String) (stack1 : List String)
    (hpop : popSide false stack = some (s, stack1)) :
    reachLoop d (fuel + 1) stack reach =
      if s ∈ reach then reachLoop d fuel stack1 reach
      else reachLoop d fuel (stack1 ++ d.alphabet.filterMap (fun sym =>
          match dfaNext d s sym with
          | none => none
          | some t => if t ∈ reach ++ [s] then none else some t))
        (reach ++ [s]) := by
  rw [reachLoop, hpop]

theorem reachLoop_spec (d : DFAData) (s0 : String)
    (hsym : ∀ e ∈ d.table, e.1.2 ∈ d.alphabet) :
    ∀ (fuel : Nat) (stack reach : List String),
      reach.Nodup →
      (∀ x ∈ reach, x ∈ dfaTargets d s0) →
      (∀ x ∈ stack, x ∈ dfaTargets d s0) →
      (∀ x ∈ reach, dfaReach d s0 x) →
      (∀ x ∈ stack, dfaReach d s0 x) →
      (∀ x ∈ reach, ∀ sym t, dfaNext d x sym = some t →
        t ∈ reach ∨ t ∈ stack) →
      stack.length + (d.alphabet.length + 1) *
        ((dfaTargets d s0).filter (fun v => decide (v ∉ reach))).length <
        fuel →
      (∀ x ∈ reach, x ∈ reachLoop d fuel stack reach) ∧
      (∀ x ∈ stack, x ∈ reachLoop d fuel stack reach) ∧
      (reachLoop d fuel stack reach).Nodup ∧
      (∀ x ∈ reachLoop d fuel stack reach, dfaReach d s0 x) ∧
      (∀ x ∈ reachLoop d fuel stack reach, ∀ sym t,
        dfaNext d x sym = some t → t ∈ reachLoop d fuel stack reach) ∧
      (∀ x ∈ reachLoop d fuel stack reach, x ∈ dfaTargets d s0) := by
  intro fuel
  induction fuel with
  | zero =>
    intro stack reach _ _ _ _ _ _ h7
    omega
  | succ fuel ih =>
    intro stack reach h1 h2 h3 h4 h5 h6 h7
    cases hpop : popSide false stack with
    | none =>
      have hstack : stack = [] := popSide_false_none hpop
      have hred : reachLoop d (fuel + 1) stack reach = reach := by
        rw [reachLoop, hpop]
      rw [hred]
      subst hstack
      refine ⟨fun x hx => hx, fun x hx => absurd hx (List.not_mem_nil x),
        h1, h4, ?_, h2⟩
      intro x hx sym t ht
      rcases h6 x hx sym t ht with h | h
      · exact h
      · exact absurd h (List.not_mem_nil t)
    | some p =>
      obtain ⟨s, stack1⟩ := p
      have hst : stack = stack1 ++ [s] := popSide_false_eq hpop
      have hs_stack : s ∈ stack := by rw [hst]; simp
      have hsub1 : ∀ x ∈ stack1, x ∈ stack := by
        intro x hx
        rw [hst]
        exact List.mem_append.mpr (Or.inl hx)
      by_cases hmem : s ∈ reach
      · have hred : reachLoop d (fuel + 1) stack reach =
            reachLoop d fuel stack1 reach := by
          rw [reachLoop_pop d fuel stack reach s stack1 hpop, if_pos hmem]
        rw [hred]
        have hlen : stack.length = stack1.length + 1 := by
          rw [hst, List.length_append, List.length_singleton]
        obtain ⟨c1, c2, c3, c4, c5, c6⟩ := ih stack1 reach h1 h2
          (fun x hx => h3 x (hsub1 x hx)) h4
          (fun x hx => h5 x (hsub1 x hx))
          (fun x hx sym t ht => by
            rcases h6 x hx sym t ht with h | h
            · exact Or.inl h
            · rw [hst] at h
              rcases List.mem_append.mp h with h | h
              · exact Or.inr h
              · rw [List.mem_singleton] at h
                exact Or.inl (h ▸ hmem))
          (by omega)
        refine ⟨c1, ?_, c3, c4, c5, c6⟩
        intro x hx
        rw [hst] at hx
        rcases List.mem_append.mp hx with h | h
        · exact c2 x h
        · rw [List.mem_singleton] at h
          exact c1 x (h ▸ hmem)
      · have hred : reachLoop d (fuel + 1) stack reach =
            reachLoop d fuel
              (stack1 ++ d.alphabet.filterMap (fun sym =>
                match dfaNext d s sym with
                | none => none
                | some t => if t ∈ reach ++ [s] then none else some t))
              (reach ++ [s]) := by
          rw [reachLoop_pop d fuel stack reach s stack1 hpop, if_neg hmem]
        rw [hred]
        have hsV : s ∈ dfaTargets d s0 := h3 s hs_stack
        have hsR : dfaReach d s0 s := h5 s hs_stack
        have h1n : (reach ++ [s]).Nodup := by
          rw [List.nodup_append]
          exact ⟨h1, List.nodup_singleton s, by
            intro a ha hb
            rw [List.mem_singleton] at hb
            exact hmem (hb ▸ ha)⟩
        have h2n : ∀ x ∈ reach ++ [s], x ∈ dfaTargets d s0 := by
          intro x hx
          rcases List.mem_append.mp hx with h | h
          · exact h2 x h
          · rw [List.mem_singleton] at h
            exact h ▸ hsV
        have hpush : ∀ x ∈ d.alphabet.filterMap (fun sym =>
            match dfaNext d s sym with
            | none => none
            | some t => if t ∈ reach ++ [s] then none else some t),
            ∃ sym, dfaNext d s sym = some x ∧ x ∉ reach ++ [s] := by
          intro x hx
          obtain ⟨sym, _, hsym2⟩ := List.mem_filterMap.mp hx
          cases hn : dfaNext d s sym with
          | none =>
            rw [hn] at hsym2
            have hsym3 : (none : Option String) = some x := hsym2
            cases hsym3
          | some t =>
            rw [hn] at hsym2
            have hsym3 : (if t ∈ reach ++ [s] then none else some t) =
                some x := hsym2
            by_cases htr : t ∈ reach ++ [s]
            · rw [if_pos htr] at hsym3; cases hsym3
            · rw [if_neg htr] at hsym3
              injection hsym3 with hsym3
              exact ⟨sym, by rw [hn, hsym3], hsym3 ▸ htr⟩
        have h3n : ∀ x ∈ stack1 ++ d.alphabet.filterMap (fun sym =>
            match dfaNext d s sym with
            | none => none
            | some t => if t ∈ reach ++ [s] then none else some t),
            x ∈ dfaTargets d s0 := by
          intro x hx
          rcases List.mem_append.mp hx with h | h
          · exact h3 x (hsub1 x h)
          · obtain ⟨sym, hn, _⟩ := hpush x h
            have hmem2 := lookup_mem hn
            rw [dfaTargets, List.mem_dedup]
            exact List.mem_cons_of_mem _
              (List.mem_map.mpr ⟨((s, sym), x), hmem2, rfl⟩)
        have h4n : ∀ x ∈ reach ++ [s], dfaReach d s0 x := by
          intro x hx
          rcases List.mem_append.mp hx with h | h
          · exact h4 x h
          · rw [List.mem_singleton] at h
            exact h ▸ hsR
        have h5n : ∀ x ∈ stack1 ++ d.alphabet.filterMap (fun sym =>
            match dfaNext d s sym with
            | none => none
            | some t => if t ∈ reach ++ [s] then none else some t),
            dfaReach d s0 x := by
          intro x hx
          rcases List.mem_append.mp hx with h | h
          · exact h5 x (hsub1 x h)
          · obtain ⟨sym, hn, _⟩ := hpush x h
            exact dfaReach_step hsR hn
        have h6n : ∀ x ∈ reach ++ [s], ∀ sym t, dfaNext d x sym = some t →
            t ∈ reach ++ [s] ∨ t ∈ stack1 ++ d.alphabet.filterMap (fun sym =>
              match dfaNext d s sym with
              | none => none
              | some t => if t ∈ reach ++ [s] then none else some t) := by
          intro x hx sym t ht
          rcases List.mem_append.mp hx with h | h
          · rcases h6 x h sym t ht with h2 | h2
            · exact Or.inl (List.mem_append.mpr (Or.inl h2))
            · rw [hst] at h2
              rcases List.mem_append.mp h2 with h3 | h3
              · exact Or.inr (List.mem_append.mpr (Or.inl h3))
              · exact Or.inl (List.mem_append.mpr (Or.inr h3))
          · rw [List.mem_singleton] at h
            subst h
            by_cases htr : t ∈ reach ++ [x]
            · exact Or.inl htr
            · refine Or.inr (List.mem_append.mpr (Or.inr ?_))
              refine List.mem_filterMap.mpr ⟨sym, ?_, ?_⟩
              · have := lookup_mem ht
                exact hsym ((x, sym), t) this
              · rw [ht]
                show (if t ∈ reach ++ [x] then none else some t) = some t
                rw [if_neg htr]
        have hfuel : (stack1 ++ d.alphabet.filterMap (fun sym =>
            match dfaNext d s sym with
            | none => none
            | some t => if t ∈ reach ++ [s] then none else some t)).length +
            (d.alphabet.length + 1) *
            ((dfaTargets d s0).filter
              (fun v => decide (v ∉ reach ++ [s]))).length < fuel := by
          have hnodupV : (dfaTargets d s0).Nodup := List.nodup_dedup _
          have hdrop := unseen_drop hnodupV hsV hmem
          have hplen : (d.alphabet.filterMap (fun sym =>
              match dfaNext d s sym with
              | none => none
              | some t => if t ∈ reach ++ [s] then none else some t)).length ≤
              d.alphabet.length := List.length_filterMap_le _ _
          have hslen : stack.length = stack1.length + 1 := by
            rw [hst, List.length_append, List.length_singleton]
          rw [List.length_append]
          have hmul : (d.alphabet.length + 1) *
              ((dfaTargets d s0).filter (fun v => decide (v ∉ reach))).length =
              (d.alphabet.length + 1) *
              ((dfaTargets d s0).filter
                (fun v => decide (v ∉ reach ++ [s]))).length +
              (d.alphabet.length + 1) := by
            rw [hdrop]
            ring
          omega
        obtain ⟨c1, c2, c3, c4, c5, c6⟩ := ih _ _ h1n h2n h3n h4n h5n h6n hfuel
        refine ⟨?_, ?_, c3, c4, c5, c6⟩
        · intro x hx
          exact c1 x (List.mem_append.mpr (Or.inl hx))
        · intro x hx
          rw [hst] at hx
          rcases List.mem_append.mp hx with h | h
          · exact c2 x (List.mem_append.mpr (Or.inl h))
          · rw [List.mem_singleton] at h
            exact c1 x (List.mem_append.mpr (Or.inr (by rw [h]; simp)))

/-- `find_reachable_states` is sound, duplicate-free, closed under the
transition table and complete for reachability. -/
theorem findReachable_spec (d : DFAData) (s0 : String)
    (hsym : ∀ e ∈ d.table, e.1.2 ∈ d.alphabet) :
    s0 ∈ findReachable d s0 ∧
    (findReachable d s0).Nodup ∧
    (∀ x ∈ findReachable d s0, dfaReach d s0 x) ∧
    (∀ x ∈ findReachable d s0, ∀ sym t, dfaNext d x sym = some t →
      t ∈ findReachable d s0) ∧
    (∀ x ∈ findReachable d s0, x ∈ dfaTargets d s0) := by
  have hs0V : s0 ∈ dfaTargets d s0 := by
    rw [dfaTargets, List.mem_dedup]
    simp
  have hfuel : ([s0] : List String).length + (d.alphabet.length + 1) *
      ((dfaTargets d s0).filter (fun v => decide (v ∉ ([] : List String)))).length <
      reachFuel d s0 := by
    have hfull : (dfaTargets d s0).filter
        (fun v => decide (v ∉ ([] : List String))) = dfaTargets d s0 := by
      apply List.filter_eq_self.mpr
      intro a _
      simp
    rw [hfull, List.length_singleton, reachFuel_eq]
    have hle : (dfaTargets d s0).length ≤ (dfaTargets d s0).length := le_rfl
    omega
  obtain ⟨_, c2, c3, c4, c5, c6⟩ := reachLoop_spec d s0 hsym (reachFuel d s0)
    [s0] [] List.nodup_nil (by intro x hx; cases hx)
    (by
      intro x hx
      rw [List.mem_singleton] at hx
      exact hx ▸ hs0V)
    (by intro x hx; cases hx)
    (by
      intro x hx
      rw [List.mem_singleton] at hx
      exact hx ▸ ⟨[], rfl⟩)
    (by intro x hx sym t ht; cases hx)
    hfuel
  exact ⟨c2 s0 (by simp), c3, c4, c5, c6⟩

/-- Reachability completeness of `find_reachable_states`. -/
theorem findReachable_complete (d : DFAData) (s0 : String)
    (hsym : ∀ e ∈ d.table, e.1.2 ∈ d.alphabet) :
    ∀ x, dfaReach d s0 x → x ∈ findReachable d s0 := by
  obtain ⟨hs0, _, _, hclosed, _⟩ := findReachable_spec d s0 hsym
  intro x hx
  obtain ⟨w, hw⟩ := hx
  have hgen : ∀ (w : List Char) (y : String), y ∈ findReachable d s0 →
      dfaWalk d y w = some x → x ∈ findReachable d s0 := by
    intro w
    induction w with
    | nil =>
      intro y hy hw2
      injection hw2 with hw2
      exact hw2 ▸ hy
    | cons c w ih =>
      intro y hy hw2
      rw [dfaWalk] at hw2
      cases hn : dfaNext d y c with
      | none => rw [hn] at hw2; cases hw2
      | some t =>
        rw [hn] at hw2
        exact ih t (hclosed y hy c t hn) hw2
  exact hgen w s0 hs0 hw

/-! ## Partition refinement (`minimize_dfa`): splitting lemmas -/

theorem mem_fst_inj {α β : Type} {l : List (α × β)}
    (h : (l.map Prod.fst).Nodup) {k : α} {v1 v2 : β}
    (h1 : (k, v1) ∈ l) (h2 : (k, v2) ∈ l) : v1 = v2 := by
  induction l with
  | nil => cases h1
  | cons p rest ih =>
    rw [List.map_cons, List.nodup_cons] at h
    rcases List.mem_cons.mp h1 with e1 | m1
    · rcases List.mem_cons.mp h2 with e2 | m2
      · rw [show v1 = p.2 from congrArg Prod.snd e1,
          show v2 = p.2 from congrArg Prod.snd e2]
      · exfalso
        have hk : p.1 = k := by rw [← e1]
        exact h.1 (hk ▸ List.mem_map.mpr ⟨(k, v2), m2, rfl⟩)
    · rcases List.mem_cons.mp h2 with e2 | m2
      · exfalso
        have hk : p.1 = k := by rw [← e2]
        exact h.1 (hk ▸ List.mem_map.mpr ⟨(k, v1), m1, rfl⟩)
      · exact ih h.2 m1 m2

theorem addToGroup_flatten (key : List Int) (s : String) :
    ∀ gs : List (List Int × List String),
      ((addToGroup key s gs).map Prod.snd).flatten.Perm
        (s :: (gs.map Prod.snd).flatten) := by
  intro gs
  induction gs with
  | nil =>
    rw [addToGroup]
    simp
  | cons g gs ih =>
    rw [addToGroup]
    by_cases h : g.1 = key
    · rw [if_pos h, List.map_cons, List.flatten_cons, List.map_cons,
        List.flatten_cons, List.append_assoc]
      exact List.perm_middle
    · rw [if_neg h, List.map_cons, List.flatten_cons, List.map_cons,
        List.flatten_cons]
      exact ((ih.append_left g.2).trans List.perm_middle)

theorem addToGroup_nonempty (key : List Int) (s : String)
    (gs : List (List Int × List String)) (h : ∀ g ∈ gs, g.2 ≠ []) :
    ∀ g ∈ addToGroup key s gs, g.2 ≠ [] := by
  induction gs with
  | nil =>
    rw [addToGroup]
    intro g hg
    rw [List.mem_singleton] at hg
    rw [hg]
    simp
  | cons g0 gs ih =>
    rw [addToGroup]
    by_cases hk : g0.1 = key
    · rw [if_pos hk]
      intro g hg
      rcases List.mem_cons.mp hg with h2 | h2
      · rw [h2]
        simp
      · exact h g (List.mem_cons_of_mem _ h2)
    · rw [if_neg hk]
      intro g hg
      rcases List.mem_cons.mp hg with h2 | h2
      · rw [h2]
        exact h g0 (by simp)
      · exact ih (fun g hg2 => h g (List.mem_cons_of_mem _ hg2)) g h2

theorem addToGroup_uniform (sig : String → List Int) (key : List Int)
    (s : String) (hs : sig s = key)
    (gs : List (List Int × List String))
    (h : ∀ g ∈ gs, ∀ x ∈ g.2, sig x = g.1) :
    ∀ g ∈ addToGroup key s gs, ∀ x ∈ g.2, sig x = g.1 := by
  induction gs with
  | nil =>
    rw [addToGroup]
    intro g hg x hx
    rw [List.mem_singleton] at hg
    subst hg
    rw [List.mem_singleton] at hx
    rw [hx, hs]
  | cons g0 gs ih =>
    rw [addToGroup]
    by_cases hk : g0.1 = key
    · rw [if_pos hk]
      intro g hg x hx
      rcases List.mem_cons.mp hg with h2 | h2
      · subst h2
        rcases List.mem_append.mp hx with h3 | h3
        · exact h g0 (by simp) x h3
        · rw [List.mem_singleton] at h3
          rw [h3, hs, hk]
      · exact h g (List.mem_cons_of_mem _ h2) x hx
    · rw [if_neg hk]
      intro g hg x hx
      rcases List.mem_cons.mp hg with h2 | h2
      · subst h2
        exact h g (by simp) x hx
      · exact ih (fun g2 hg2 => h g2 (List.mem_cons_of_mem _ hg2)) g h2 x hx

theorem addToGroup_keys_sub (key : List Int) (s : String)
    (gs : List (List Int × List String)) :
    ∀ k ∈ (addToGroup key s gs).map Prod.fst,
      k = key ∨ k ∈ gs.map Prod.fst := by
  induction gs with
  | nil =>
    rw [addToGroup]
    intro k hk
    rw [List.map_cons, List.map_nil, List.mem_singleton] at hk
    exact Or.inl hk
  | cons g0 gs ih =>
    rw [addToGroup]
    by_cases hk : g0.1 = key
    · rw [if_pos hk]
      intro k hkm
      rw [List.map_cons, List.mem_cons] at hkm
      rcases hkm with h2 | h2
      · exact Or.inr (by rw [List.map_cons, List.mem_cons]; exact Or.inl h2)
      · exact Or.inr (by
          rw [List.map_cons, List.mem_cons]
          exact Or.inr h2)
    · rw [if_neg hk]
      intro k hkm
      rw [List.map_cons, List.mem_cons] at hkm
      rcases hkm with h2 | h2
      · exact Or.inr (by rw [List.map_cons, List.mem_cons]; exact Or.inl h2)
      · rcases ih k h2 with h3 | h3
        · exact Or.inl h3
        · exact Or.inr (by
            rw [List.map_cons, List.mem_cons]
            exact Or.inr h3)

theorem addToGroup_keys_nodup (key : List Int) (s : String)
    (gs : List (List Int × List String))
    (h : (gs.map Prod.fst).Nodup) :
    ((addToGroup key s gs).map Prod.fst).Nodup := by
  induction gs with
  | nil =>
    rw [addToGroup]
    simp
  | cons g0 gs ih =>
    rw [List.map_cons, List.nodup_cons] at h
    rw [addToGroup]
    by_cases hk : g0.1 = key
    · rw [if_pos hk, List.map_cons, List.nodup_cons]
      exact ⟨h.1, h.2⟩
    · rw [if_neg hk, List.map_cons, List.nodup_cons]
      refine ⟨?_, ih h.2⟩
      intro hmem
      rcases addToGroup_keys_sub key s gs g0.1 hmem with h2 | h2
      · exact hk h2
      · exact h.1 h2

theorem groupFold_flatten (sig : String → List Int) (B : List String) :
    ∀ gs : List (List Int × List String),
      (((B.foldl (fun acc s => addToGroup (sig s) s acc) gs).map
        Prod.snd).flatten).Perm (B ++ (gs.map Prod.snd).flatten) := by
  induction B with
  | nil =>
    intro gs
    rw [List.foldl_nil, List.nil_append]
  | cons b B ih =>
    intro gs
    rw [List.foldl_cons]
    refine (ih (addToGroup (sig b) b gs)).trans ?_
    refine ((addToGroup_flatten (sig b) b gs).append_left B).trans ?_
    rw [List.cons_append]
    exact List.perm_middle

theorem groupFold_uniform (sig : String → List Int) (B : List String) :
    ∀ gs : List (List Int × List String),
      (∀ g ∈ gs, ∀ x ∈ g.2, sig x = g.1) →
      ∀ g ∈ B.foldl (fun acc s => addToGroup (sig s) s acc) gs,
        ∀ x ∈ g.2, sig x = g.1 := by
  induction B with
  | nil =>
    intro gs h
    rw [List.foldl_nil]
    exact h
  | cons b B ih =>
    intro gs h
    rw [List.foldl_cons]
    exact ih _ (addToGroup_uniform sig (sig b) b rfl gs h)

theorem groupFold_nonempty (sig : String → List Int) (B : List String) :
    ∀ gs : List (List Int × List String),
      (∀ g ∈ gs, g.2 ≠ []) →
      ∀ g ∈ B.foldl (fun acc s => addToGroup (sig s) s acc) gs, g.2 ≠ [] := by
  induction B with
  | nil =>
    intro gs h
    rw [List.foldl_nil]
    exact h
  | cons b B ih =>
    intro gs h
    rw [List.foldl_cons]
    exact ih _ (addToGroup_nonempty (sig b) b gs h)

theorem groupFold_keys_nodup (sig : String → List Int) (B : List String) :
    ∀ gs : List (List Int × List String),
      ((gs.map Prod.fst).Nodup) →
      ((B.foldl (fun acc s => addToGroup (sig s) s acc) gs).map
        Prod.fst).Nodup := by
  induction B with
  | nil =>
    intro gs h
    rw [List.foldl_nil]
    exact h
  | cons b B ih =>
    intro gs h
    rw [List.foldl_cons]
    exact ih _ (addToGroup_keys_nodup (sig b) b gs h)

theorem splitPartition_flatten (d : DFAData) (parts : List (List String))
    (B : List String) : (splitPartition d parts B).flatten.Perm B := by
  rw [splitPartition]
  by_cases h : B.length ≤ 1
  · rw [if_pos h]
    simp
  · rw [if_neg h]
    have he : ((B.foldl (fun acc s => addToGroup (sigOf d parts s) s acc)
        []).map (fun g => g.2)) =
        ((B.foldl (fun acc s => addToGroup (sigOf d parts s) s acc) []).map
          Prod.snd) := rfl
    rw [he]
    have hp := groupFold_flatten (sigOf d parts) B []
    simpa using hp

theorem splitPartition_sub (d : DFAData) (parts : List (List String))
    (B : List String) :
    ∀ C ∈ splitPartition d parts B, ∀ x ∈ C, x ∈ B := by
  intro C hC x hx
  exact (splitPartition_flatten d parts B).mem_iff.mp
    (List.mem_flatten.mpr ⟨C, hC, hx⟩)

theorem splitPartition_nonempty (d : DFAData) (parts : List (List String))
    (B : List String) (hB : B ≠ []) :
    ∀ C ∈ splitPartition d parts B, C ≠ [] := by
  rw [splitPartition]
  by_cases h : B.length ≤ 1
  · rw [if_pos h]
    intro C hC
    rw [List.mem_singleton] at hC
    rw [hC]
    exact hB
  · rw [if_neg h]
    intro C hC
    obtain ⟨g, hg, rfl⟩ := List.mem_map.mp hC
    exact groupFold_nonempty (sigOf d parts) B [] (by simp) g hg

theorem splitPartition_uniform (d : DFAData) (parts : List (List String))
    (B : List String) (h : (splitPartition d parts B).length ≤ 1) :
    ∀ x ∈ B, ∀ y ∈ B, sigOf d parts x = sigOf d parts y := by
  by_cases hb : B.length ≤ 1
  · cases B with
    | nil => intro x hx; cases hx
    | cons b B2 =>
      rw [List.length_cons] at hb
      have hB2 : B2 = [] := List.length_eq_zero.mp (by omega)
      subst hB2
      intro x hx y hy
      rw [List.mem_singleton] at hx hy
      rw [hx, hy]
  · rw [splitPartition, if_neg hb, List.length_map] at h
    have hperm := groupFold_flatten (sigOf d parts) B []
    cases hG : B.foldl (fun acc s => addToGroup (sigOf d parts s) s acc) [] with
    | nil =>
      rw [hG] at hperm
      have h2 : (B ++ (([] : List (List Int × List String)).map
          Prod.snd).flatten).Perm ([] : List String) := hperm.symm
      have hBnil : B = [] := by simpa using h2.eq_nil
      intro x hx
      rw [hBnil] at hx
      cases hx
    | cons g G2 =>
      rw [hG, List.length_cons] at h
      have hG2 : G2 = [] := List.length_eq_zero.mp (by omega)
      subst hG2
      rw [hG] at hperm
      have hmem : ∀ x ∈ B, x ∈ g.2 := by
        intro x hx
        have hx2 : x ∈ (([g].map Prod.snd).flatten) :=
          hperm.mem_iff.mpr (by simpa using hx)
        simpa using hx2
      intro x hx y hy
      have hu := groupFold_uniform (sigOf d parts) B [] (by simp)
      rw [hG] at hu
      rw [hu g (by simp) x (hmem x hx), hu g (by simp) y (hmem y hy)]

theorem splitPartition_diff (d : DFAData) (parts : List (List String))
    (B : List String) :
    ∀ C1 ∈ splitPartition d parts B, ∀ C2 ∈ splitPartition d parts B,
      C1 ≠ C2 → ∀ x ∈ C1, ∀ y ∈ C2,
        sigOf d parts x ≠ sigOf d parts y := by
  by_cases hb : B.length ≤ 1
  · rw [splitPartition, if_pos hb]
    intro C1 h1 C2 h2 hne
    rw [List.mem_singleton] at h1 h2
    exact absurd (h1.trans h2.symm) hne
  · rw [splitPartition, if_neg hb]
    intro C1 h1 C2 h2 hne x hx y hy
    obtain ⟨g1, hg1, rfl⟩ := List.mem_map.mp h1
    obtain ⟨g2, hg2, rfl⟩ := List.mem_map.mp h2
    have hk : g1.1 ≠ g2.1 := by
      intro he
      have hnd := groupFold_keys_nodup (sigOf d parts) B [] (by simp)
      have hg1b : (g1.1, g1.2) ∈ B.foldl
          (fun acc s => addToGroup (sigOf d parts s) s acc) [] := hg1
      have hg2b : (g1.1, g2.2) ∈ B.foldl
          (fun acc s => addToGroup (sigOf d parts s) s acc) [] := by
        rw [he]
        exact hg2
      exact hne (mem_fst_inj hnd hg1b hg2b)
    have hx1 : sigOf d parts x = g1.1 :=
      groupFold_uniform (sigOf d parts) B [] (by simp) g1 hg1 x hx
    have hy1 : sigOf d parts y = g2.1 :=
      groupFold_uniform (sigOf d parts) B [] (by simp) g2 hg2 y hy
    rw [hx1, hy1]
    exact hk

/-- `split_partition` results of one full pass, assembled in order, plus
the `changed` flag. -/
theorem refinePass_eq (d : DFAData) (parts : List (List String)) :
    refinePass d parts = (parts.flatMap (fun B =>
        if 1 < (splitPartition d parts B).length then splitPartition d parts B
        else [B]),
      parts.any (fun B => decide (1 < (splitPartition d parts B).length))) := by
  rw [refinePass]
  suffices h : ∀ (l : List (List String)) (acc : List (List String) × Bool),
      l.foldl (fun acc block =>
        let split := splitPartition d parts block
        if 1 < split.length then (acc.1 ++ split, true)
        else (acc.1 ++ [block], acc.2)) acc =
      (acc.1 ++ l.flatMap (fun B =>
        if 1 < (splitPartition d parts B).length then
          splitPartition d parts B else [B]),
       acc.2 || l.any (fun B =>
         decide (1 < (splitPartition d parts B).length))) by
    rw [h parts ([], false)]
    simp
  intro l
  induction l with
  | nil =>
    intro acc
    simp
  | cons B l ih =>
    intro acc
    rw [List.foldl_cons]
    by_cases hs : 1 < (splitPartition d parts B).length
    · have hred : (let split := splitPartition d parts B
          if 1 < split.length then (acc.1 ++ split, true)
          else (acc.1 ++ [B], acc.2)) =
          (acc.1 ++ splitPartition d parts B, true) := by
        show (if 1 < (splitPartition d parts B).length then
          (acc.1 ++ splitPartition d parts B, true)
          else (acc.1 ++ [B], acc.2)) = _
        rw [if_pos hs]
      rw [hred, ih, List.flatMap_cons, List.any_cons, if_pos hs]
      simp [hs, List.append_assoc]
    · have hred : (let split := splitPartition d parts B
          if 1 < split.length then (acc.1 ++ split, true)
          else (acc.1 ++ [B], acc.2)) =
          (acc.1 ++ [B], acc.2) := by
        show (if 1 < (splitPartition d parts B).length then
          (acc.1 ++ splitPartition d parts B, true)
          else (acc.1 ++ [B], acc.2)) = _
        rw [if_neg hs]
      rw [hred, ih, List.flatMap_cons, List.any_cons, if_neg hs]
      simp [hs, List.append_assoc]

theorem refinePass_flatten (d : DFAData) (parts : List (List String)) :
    (refinePass d parts).1.flatten.Perm parts.flatten := by
  rw [refinePass_eq]
  suffices aux : ∀ l : List (List String),
      (l.flatMap (fun B =>
        if 1 < (splitPartition d parts B).length then splitPartition d parts B
        else [B])).flatten.Perm l.flatten from aux parts
  intro l
  induction l with
  | nil => exact List.Perm.refl _
  | cons B l ih =>
    rw [List.flatMap_cons, List.flatten_append, List.flatten_cons]
    refine List.Perm.append ?_ ih
    by_cases hs : 1 < (splitPartition d parts B).length
    · rw [if_pos hs]
      exact splitPartition_flatten d parts B
    · rw [if_neg hs]
      simp

theorem refinePass_ne (d : DFAData) (parts : List (List String))
    (hne : ∀ B ∈ parts, B ≠ []) :
    ∀ C ∈ (refinePass d parts).1, C ≠ [] := by
  rw [refinePass_eq]
  intro C hC
  obtain ⟨B, hB, hC2⟩ := List.mem_flatMap.mp hC
  by_cases hs : 1 < (splitPartition d parts B).length
  · rw [if_pos hs] at hC2
    exact splitPartition_nonempty d parts B (hne B hB) C hC2
  · rw [if_neg hs] at hC2
    rw [List.mem_singleton] at hC2
    rw [hC2]
    exact hne B hB

theorem refinePass_sub (d : DFAData) (parts : List (List String)) :
    ∀ C ∈ (refinePass d parts).1, ∃ B ∈ parts, ∀ x ∈ C, x ∈ B := by
  rw [refinePass_eq]
  intro C hC
  obtain ⟨B, hB, hC2⟩ := List.mem_flatMap.mp hC
  refine ⟨B, hB, ?_⟩
  by_cases hs : 1 < (splitPartition d parts B).length
  · rw [if_pos hs] at hC2
    exact splitPartition_sub d parts B C hC2
  · rw [if_neg hs] at hC2
    rw [List.mem_singleton] at hC2
    intro x hx
    rw [hC2] at hx
    exact hx

theorem refinePass_false_eq (d : DFAData) (parts : List (List String))
    (h : (refinePass d parts).2 = false) : (refinePass d parts).1 = parts := by
  have hall : ∀ B ∈ parts, ¬ 1 < (splitPartition d parts B).length := by
    rw [refinePass_eq] at h
    simp only [List.any_eq_false, decide_eq_true_eq] at h
    exact h
  rw [refinePass_eq]
  suffices aux : ∀ l : List (List String),
      (∀ B ∈ l, ¬ 1 < (splitPartition d parts B).length) →
      l.flatMap (fun B =>
        if 1 < (splitPartition d parts B).length then splitPartition d parts B
        else [B]) = l from aux parts hall
  intro l
  induction l with
  | nil => intro _; rfl
  | cons B l ih =>
    intro hl
    rw [List.flatMap_cons, if_neg (hl B (by simp)),
      ih (fun B2 hB2 => hl B2 (List.mem_cons_of_mem _ hB2))]
    rfl

theorem refinePass_length_le (d : DFAData) (parts : List (List String)) :
    parts.length ≤ (refinePass d parts).1.length := by
  rw [refinePass_eq]
  suffices aux : ∀ l : List (List String),
      l.length ≤ (l.flatMap (fun B =>
        if 1 < (splitPartition d parts B).length then splitPartition d parts B
        else [B])).length from aux parts
  intro l
  induction l with
  | nil => exact le_rfl
  | cons B l ih =>
    rw [List.flatMap_cons, List.length_append, List.length_cons]
    by_cases hs : 1 < (splitPartition d parts B).length
    · rw [if_pos hs]
      omega
    · rw [if_neg hs]
      rw [List.length_singleton]
      omega

theorem refinePass_true_lt (d : DFAData) (parts : List (List String))
    (h : (refinePass d parts).2 = true) :
    parts.length < (refinePass d parts).1.length := by
  have h2 := h
  rw [refinePass_eq] at h2
  obtain ⟨B0, hB0, hcond⟩ := List.any_eq_true.mp h2
  rw [refinePass_eq]
  suffices aux : ∀ l : List (List String), B0 ∈ l →
      l.length < (l.flatMap (fun B =>
        if 1 < (splitPartition d parts B).length then splitPartition d parts B
        else [B])).length from aux parts hB0
  intro l
  induction l with
  | nil => intro h3; cases h3
  | cons B l ih =>
    intro h3
    rw [List.flatMap_cons, List.length_append, List.length_cons]
    have haux : ∀ l2 : List (List String),
        l2.length ≤ (l2.flatMap (fun B =>
          if 1 < (splitPartition d parts B).length then
            splitPartition d parts B else [B])).length := by
      intro l2
      have := refinePass_length_le d parts
      clear this
      induction l2 with
      | nil => exact le_rfl
      | cons C l2 ih2 =>
        rw [List.flatMap_cons, List.length_append, List.length_cons]
        by_cases hs : 1 < (splitPartition d parts C).length
        · rw [if_pos hs]
          omega
        · rw [if_neg hs, List.length_singleton]
          omega
    rcases List.mem_cons.mp h3 with hBB | hBl
    · subst hBB
      rw [if_pos (of_decide_eq_true hcond)]
      have h4 := haux l
      have h5 := of_decide_eq_true hcond
      omega
    · by_cases hs : 1 < (splitPartition d parts B).length
      · rw [if_pos hs]
        have h4 := ih hBl
        omega
      · rw [if_neg hs, List.length_singleton]
        have h4 := ih hBl
        omega

theorem refinePass_false_uniform (d : DFAData) (parts : List (List String))
    (h : (refinePass d parts).2 = false) :
    ∀ B ∈ parts, ∀ x ∈ B, ∀ y ∈ B, sigOf d parts x = sigOf d parts y := by
  intro B hB
  apply splitPartition_uniform
  rw [refinePass_eq] at h
  simp only [List.any_eq_false, decide_eq_true_eq] at h
  have h2 := h B hB
  omega

theorem parts_length_le_flatten (parts : List (List String))
    (hne : ∀ B ∈ parts, B ≠ []) : parts.length ≤ parts.flatten.length := by
  induction parts with
  | nil => exact le_rfl
  | cons B l ih =>
    rw [List.flatten_cons, List.length_append, List.length_cons]
    have hB : 0 < B.length := List.length_pos.mpr (hne B (by simp))
    have h2 := ih (fun C hC => hne C (List.mem_cons_of_mem _ hC))
    omega

/-- The refinement loop, given enough fuel, lands on a fixpoint of
`refinePass` while redistributing exactly the same states into
non-empty blocks, each inside one original block. -/
theorem refineLoop_spec (d : DFAData) (reach : List String) :
    ∀ (fuel : Nat) (parts : List (List String)),
      (∀ B ∈ parts, B ≠ []) →
      parts.flatten.Perm reach →
      reach.length + 1 < parts.length + fuel →
      (∀ B ∈ refineLoop d fuel parts, B ≠ []) ∧
      (refineLoop d fuel parts).flatten.Perm reach ∧
      (refinePass d (refineLoop d fuel parts)).2 = false ∧
      (∀ B ∈ refineLoop d fuel parts, ∃ B0 ∈ parts, ∀ x ∈ B, x ∈ B0) := by
  intro fuel
  induction fuel with
  | zero =>
    intro parts hne hperm hfuel
    exfalso
    have h1 := parts_length_le_flatten parts hne
    have h2 := hperm.length_eq
    omega
  | succ fuel ih =>
    intro parts hne hperm hfuel
    have hred : refineLoop d (fuel + 1) parts =
        if (refinePass d parts).2 then refineLoop d fuel (refinePass d parts).1
        else (refinePass d parts).1 := by
      rw [refineLoop]
    cases hch : (refinePass d parts).2 with
    | false =>
      have heq := refinePass_false_eq d parts hch
      rw [hred, if_neg (by rw [hch]; exact Bool.false_ne_true), heq]
      exact ⟨hne, hperm, by rw [hch], fun B hB => ⟨B, hB, fun x hx => hx⟩⟩
    | true =>
      rw [hred, if_pos hch]
      have hlt := refinePass_true_lt d parts hch
      obtain ⟨c1, c2, c3, c4⟩ := ih (refinePass d parts).1
        (refinePass_ne d parts hne)
        ((refinePass_flatten d parts).trans hperm)
        (by omega)
      refine ⟨c1, c2, c3, ?_⟩
      intro B hB
      obtain ⟨B1, hB1, hsub1⟩ := c4 B hB
      obtain ⟨B0, hB0, hsub0⟩ := refinePass_sub d parts B1 hB1
      exact ⟨B0, hB0, fun x hx => hsub0 x (hsub1 x hx)⟩

/-! ## Block indices (`partIdx`) under a disjoint partition -/

theorem flatten_nodup_disjoint {P : List (List String)}
    (h : P.flatten.Nodup) :
    ∀ B1 ∈ P, ∀ B2 ∈ P, B1 ≠ B2 → ∀ z ∈ B1, z ∉ B2 := by
  induction P with
  | nil => intro B1 h1; cases h1
  | cons C Ps ih =>
    rw [List.flatten_cons, List.nodup_append] at h
    obtain ⟨hC, hPs, hdisj⟩ := h
    intro B1 h1 B2 h2 hne z hz
    rcases List.mem_cons.mp h1 with e1 | m1
    · rcases List.mem_cons.mp h2 with e2 | m2
      · exact absurd (e1.trans e2.symm) hne
      · intro hz2
        exact hdisj (e1 ▸ hz) (List.mem_flatten.mpr ⟨B2, m2, hz2⟩)
    · rcases List.mem_cons.mp h2 with e2 | m2
      · intro hz2
        exact hdisj (e2 ▸ hz2) (List.mem_flatten.mpr ⟨B1, m1, hz⟩)
      · exact ih hPs B1 m1 B2 m2 hne z hz

theorem findIdx_blocks_some {P : List (List String)} {B : List String}
    {x : String} (hB : B ∈ P) (hx : x ∈ B) :
    ∃ j, P.findIdx? (fun p => decide (x ∈ p)) = some j := by
  induction P with
  | nil => cases hB
  | cons C Ps ih =>
    simp only [List.findIdx?_cons]
    by_cases hc : x ∈ C
    · rw [if_pos (decide_eq_true hc)]
      exact ⟨0, rfl⟩
    · rw [if_neg (by simp [hc])]
      rcases List.mem_cons.mp hB with e1 | m1
      · exact absurd (e1 ▸ hx) hc
      · obtain ⟨j, hj⟩ := ih m1
        rw [List.findIdx?_succ, hj]
        exact ⟨j + 1, rfl⟩

theorem findIdx_blocks_none {P : List (List String)} {y : String}
    (h : ∀ B ∈ P, y ∉ B) :
    P.findIdx? (fun p => decide (y ∈ p)) = none := by
  induction P with
  | nil => rfl
  | cons C Ps ih =>
    simp only [List.findIdx?_cons]
    rw [if_neg (by simp [h C (by simp)]), List.findIdx?_succ,
      ih (fun B hB => h B (List.mem_cons_of_mem _ hB))]
    rfl

theorem partIdx_head_mem {C : List String} {Ps : List (List String)}
    {x : String} (hx : x ∈ C) : partIdx (C :: Ps) (some x) = 0 := by
  rw [partIdx]
  simp only [List.findIdx?_cons]
  rw [if_pos (decide_eq_true hx)]
  rfl

theorem partIdx_head_not_mem {C : List String} {Ps : List (List String)}
    {x : String} (hx : x ∉ C) :
    partIdx (C :: Ps) (some x) =
      match Ps.findIdx? (fun p => decide (x ∈ p)) with
      | none => -1
      | some i => ((i + 1 : Nat) : Int) := by
  rw [partIdx]
  simp only [List.findIdx?_cons]
  rw [if_neg (by simp [hx]), List.findIdx?_succ]
  cases h : Ps.findIdx? (fun p => decide (x ∈ p)) with
  | none => rfl
  | some j => rfl

theorem partIdx_not_mem {P : List (List String)} {y : String}
    (h : ∀ B ∈ P, y ∉ B) : partIdx P (some y) = -1 := by
  rw [partIdx, findIdx_blocks_none h]

theorem partIdx_mem_ne {P : List (List String)} {B : List String} {x : String}
    (hB : B ∈ P) (hx : x ∈ B) : partIdx P (some x) ≠ -1 := by
  obtain ⟨j, hj⟩ := findIdx_blocks_some hB hx
  rw [partIdx, hj]
  show ((j : Nat) : Int) ≠ -1
  omega

/-- Under a disjoint partition, two states receive the same block index
exactly when the second lies in the first one's block. -/
theorem partIdx_block {P : List (List String)} (hnd : P.flatten.Nodup) :
    ∀ B ∈ P, ∀ x ∈ B, ∀ y,
      (partIdx P (some x) = partIdx P (some y) ↔ y ∈ B) := by
  induction P with
  | nil => intro B hB; cases hB
  | cons C Ps ih =>
    rw [List.flatten_cons, List.nodup_append] at hnd
    obtain ⟨hC, hPs, hdisj⟩ := hnd
    intro B hB x hx y
    rcases List.mem_cons.mp hB with e1 | m1
    · subst e1
      rw [partIdx_head_mem hx]
      by_cases hy : y ∈ B
      · rw [partIdx_head_mem hy]
        simp [hy]
      · rw [partIdx_head_not_mem hy]
        cases hfy : Ps.findIdx? (fun p => decide (y ∈ p)) with
        | none =>
          show (0 : Int) = -1 ↔ y ∈ B
          constructor
          · intro heq; omega
          · intro hyB; exact absurd hyB hy
        | some jy =>
          show (0 : Int) = ((jy + 1 : Nat) : Int) ↔ y ∈ B
          constructor
          · intro heq; omega
          · intro hyB; exact absurd hyB hy
    · have hxPs : x ∈ Ps.flatten := List.mem_flatten.mpr ⟨B, m1, hx⟩
      have hxC : x ∉ C := fun hc => hdisj hc hxPs
      rw [partIdx_head_not_mem hxC]
      obtain ⟨jx, hjx⟩ := findIdx_blocks_some m1 hx
      rw [hjx]
      by_cases hyC : y ∈ C
      · rw [partIdx_head_mem hyC]
        show ((jx + 1 : Nat) : Int) = 0 ↔ y ∈ B
        constructor
        · intro heq; omega
        · intro hyB
          exact ((hdisj hyC) (List.mem_flatten.mpr ⟨B, m1, hyB⟩)).elim
      · rw [partIdx_head_not_mem hyC]
        cases hfy : Ps.findIdx? (fun p => decide (y ∈ p)) with
        | none =>
          show ((jx + 1 : Nat) : Int) = -1 ↔ y ∈ B
          constructor
          · intro heq; omega
          · intro hyB
            obtain ⟨j, hj⟩ := findIdx_blocks_some m1 hyB
            rw [hj] at hfy
            cases hfy
        | some jy =>
          show ((jx + 1 : Nat) : Int) = ((jy + 1 : Nat) : Int) ↔ y ∈ B
          have hIH := ih hPs B m1 x hx y
          have hx2 : partIdx Ps (some x) = (jx : Int) := by rw [partIdx, hjx]
          have hy2 : partIdx Ps (some y) = (jy : Int) := by rw [partIdx, hfy]
          rw [hx2, hy2] at hIH
          constructor
          · intro heq
            have hj : jx = jy := by omega
            exact hIH.mp (by rw [hj])
          · intro hyB
            have hj : (jx : Int) = (jy : Int) := hIH.mpr hyB
            have hj2 : jx = jy := by omega
            rw [hj2]

/-! ## Observations: fixpoint blocks are observationally uniform,
distinct blocks are observationally separated -/

theorem dfaObs_nil (d : DFAData) (s : String) :
    dfaObs d s [] = some (decide (s ∈ d.accept)) := rfl

theorem dfaObs_cons_none (d : DFAData) (s : String) (c : Char)
    (w : List Char) (h : dfaNext d s c = none) :
    dfaObs d s (c :: w) = none := by
  rw [dfaObs, dfaWalk, h]
  rfl

theorem dfaObs_cons_some (d : DFAData) (s t : String) (c : Char)
    (w : List Char) (h : dfaNext d s c = some t) :
    dfaObs d s (c :: w) = dfaObs d t w := by
  rw [dfaObs, dfaObs, dfaWalk, h]

theorem dfaAcceptsFrom_iff_obs (d : DFAData) (w : List Char) :
    ∀ s : String, dfaAcceptsFrom d s w = true ↔ dfaObs d s w = some true := by
  induction w with
  | nil =>
    intro s
    rw [dfaAcceptsFrom, dfaObs_nil]
    simp
  | cons c w ih =>
    intro s
    cases hn : dfaNext d s c with
    | none =>
      rw [dfaObs_cons_none d s c w hn, dfaAcceptsFrom, hn]
      simp
    | some t =>
      rw [dfaObs_cons_some d s t c w hn, dfaAcceptsFrom, hn]
      exact ih t

theorem dfaNext_none_of_sym (d : DFAData)
    (hsym : ∀ e ∈ d.table, e.1.2 ∈ d.alphabet) (s : String) (c : Char)
    (hc : c ∉ d.alphabet) : dfaNext d s c = none := by
  cases h : dfaNext d s c with
  | none => rfl
  | some t =>
    exact absurd (hsym ((s, c), t) (lookup_mem h)) hc

theorem sigOf_point {d : DFAData} {P : List (List String)} {x y : String}
    (h : sigOf d P x = sigOf d P y) :
    ∀ c ∈ d.alphabet,
      partIdx P (dfaNext d x c) = partIdx P (dfaNext d y c) := by
  intro c hc
  have hm : c ∈ d.alphabet.insertionSort (fun a b => a ≤ b) :=
    (List.perm_insertionSort _ _).mem_iff.mpr hc
  rw [sigOf, sigOf] at h
  exact List.map_inj_left.mp h c hm

/-- At a refinement fixpoint, states in a common block have identical
observations for every word. -/
theorem fixpoint_obs (d : DFAData) (P : List (List String))
    (hsym : ∀ e ∈ d.table, e.1.2 ∈ d.alphabet)
    (hnd : P.flatten.Nodup)
    (hclosed : ∀ x ∈ P.flatten, ∀ sym t, dfaNext d x sym = some t →
      t ∈ P.flatten)
    (hacc : ∀ B ∈ P, ∀ x ∈ B, ∀ y ∈ B, (x ∈ d.accept ↔ y ∈ d.accept))
    (hsig : ∀ B ∈ P, ∀ x ∈ B, ∀ y ∈ B, sigOf d P x = sigOf d P y) :
    ∀ (w : List Char), ∀ B ∈ P, ∀ x ∈ B, ∀ y ∈ B,
      dfaObs d x w = dfaObs d y w := by
  intro w
  induction w with
  | nil =>
    intro B hB x hx y hy
    rw [dfaObs_nil, dfaObs_nil]
    exact congrArg some (decide_eq_decide.mpr (hacc B hB x hx y hy))
  | cons c w ih =>
    intro B hB x hx y hy
    by_cases hc : c ∈ d.alphabet
    · have hidx := sigOf_point (hsig B hB x hx y hy) c hc
      cases hnx : dfaNext d x c with
      | none =>
        cases hny : dfaNext d y c with
        | none =>
          rw [dfaObs_cons_none d x c w hnx, dfaObs_cons_none d y c w hny]
        | some t2 =>
          exfalso
          rw [hnx, hny] at hidx
          obtain ⟨B2, hB2, ht2⟩ := List.mem_flatten.mp
            (hclosed y (List.mem_flatten.mpr ⟨B, hB, hy⟩) c t2 hny)
          exact partIdx_mem_ne hB2 ht2 (by rw [← hidx]; rfl)
      | some t1 =>
        cases hny : dfaNext d y c with
        | none =>
          exfalso
          rw [hnx, hny] at hidx
          obtain ⟨B1, hB1, ht1⟩ := List.mem_flatten.mp
            (hclosed x (List.mem_flatten.mpr ⟨B, hB, hx⟩) c t1 hnx)
          exact partIdx_mem_ne hB1 ht1 (by rw [hidx]; rfl)
        | some t2 =>
          rw [dfaObs_cons_some d x t1 c w hnx, dfaObs_cons_some d y t2 c w hny]
          rw [hnx, hny] at hidx
          obtain ⟨B1, hB1, ht1⟩ := List.mem_flatten.mp
            (hclosed x (List.mem_flatten.mpr ⟨B, hB, hx⟩) c t1 hnx)
          have hsame := (partIdx_block hnd B1 hB1 t1 ht1 t2).mp hidx
          exact ih B1 hB1 t1 ht1 t2 hsame
    · rw [dfaObs_cons_none d x c w (dfaNext_none_of_sym d hsym x c hc),
        dfaObs_cons_none d y c w (dfaNext_none_of_sym d hsym y c hc)]

/-- One refinement pass preserves pairwise observational separation of
distinct blocks. -/
theorem sep_refinePass (d : DFAData) (P : List (List String))
    (hnd : P.flatten.Nodup)
    (hclosed : ∀ x ∈ P.flatten, ∀ sym t, dfaNext d x sym = some t →
      t ∈ P.flatten)
    (hsep : ∀ B1 ∈ P, ∀ B2 ∈ P, B1 ≠ B2 → ∀ x ∈ B1, ∀ y ∈ B2,
      ∃ w, dfaObs d x w ≠ dfaObs d y w) :
    ∀ C1 ∈ (refinePass d P).1, ∀ C2 ∈ (refinePass d P).1, C1 ≠ C2 →
      ∀ x ∈ C1, ∀ y ∈ C2, ∃ w, dfaObs d x w ≠ dfaObs d y w := by
  intro C1 h1 C2 h2 hne x hx y hy
  rw [refinePass_eq] at h1 h2
  obtain ⟨B1, hB1, hC1⟩ := List.mem_flatMap.mp h1
  obtain ⟨B2, hB2, hC2⟩ := List.mem_flatMap.mp h2
  have hxB1 : x ∈ B1 := by
    by_cases hs : 1 < (splitPartition d P B1).length
    · rw [if_pos hs] at hC1
      exact splitPartition_sub d P B1 C1 hC1 x hx
    · rw [if_neg hs] at hC1
      rw [List.mem_singleton] at hC1
      exact hC1 ▸ hx
  have hyB2 : y ∈ B2 := by
    by_cases hs : 1 < (splitPartition d P B2).length
    · rw [if_pos hs] at hC2
      exact splitPartition_sub d P B2 C2 hC2 y hy
    · rw [if_neg hs] at hC2
      rw [List.mem_singleton] at hC2
      exact hC2 ▸ hy
  by_cases hBB : B1 = B2
  · subst hBB
    by_cases hs : 1 < (splitPartition d P B1).length
    · rw [if_pos hs] at hC1 hC2
      have hdiff := splitPartition_diff d P B1 C1 hC1 C2 hC2 hne x hx y hy
      have hpoint : ∃ c ∈ d.alphabet.insertionSort (fun a b => a ≤ b),
          partIdx P (dfaNext d x c) ≠ partIdx P (dfaNext d y c) := by
        by_contra hcon
        push_neg at hcon
        exact hdiff (List.map_congr_left hcon)
      obtain ⟨c, hcmem, hcne⟩ := hpoint
      cases hnx : dfaNext d x c with
      | none =>
        cases hny : dfaNext d y c with
        | none =>
          exfalso
          rw [hnx, hny] at hcne
          exact hcne rfl
        | some t2 =>
          refine ⟨[c], ?_⟩
          rw [dfaObs_cons_none d x c [] hnx, dfaObs_cons_some d y t2 c [] hny,
            dfaObs_nil]
          exact fun h => Option.noConfusion h
      | some t1 =>
        cases hny : dfaNext d y c with
        | none =>
          refine ⟨[c], ?_⟩
          rw [dfaObs_cons_none d y c [] hny, dfaObs_cons_some d x t1 c [] hnx,
            dfaObs_nil]
          exact fun h => Option.noConfusion h
        | some t2 =>
          rw [hnx, hny] at hcne
          obtain ⟨Bt1, hBt1, ht1⟩ := List.mem_flatten.mp
            (hclosed x (List.mem_flatten.mpr ⟨B1, hB1, hxB1⟩) c t1 hnx)
          obtain ⟨Bt2, hBt2, ht2⟩ := List.mem_flatten.mp
            (hclosed y (List.mem_flatten.mpr ⟨B1, hB1, hyB2⟩) c t2 hny)
          have hdiffB : Bt1 ≠ Bt2 := fun he => hcne
            ((partIdx_block hnd Bt1 hBt1 t1 ht1 t2).mpr (he ▸ ht2))
          obtain ⟨w, hw⟩ := hsep Bt1 hBt1 Bt2 hBt2 hdiffB t1 ht1 t2 ht2
          refine ⟨c :: w, ?_⟩
          rw [dfaObs_cons_some d x t1 c w hnx, dfaObs_cons_some d y t2 c w hny]
          exact hw
    · rw [if_neg hs] at hC1 hC2
      rw [List.mem_singleton] at hC1 hC2
      exact absurd (hC1.trans hC2.symm) hne
  · exact hsep B1 hB1 B2 hB2 hBB x hxB1 y hyB2

/-! ## `build_minimized_dfa`: state-creation phase -/

theorem repName_inj {i j : Nat}
    (h : ("q" ++ toString i : String) = "q" ++ toString j) : i = j := by
  have hd := congrArg String.data h
  rw [String.data_append, String.data_append] at hd
  have hr : Nat.repr i = Nat.repr j := by
    apply String.ext
    exact List.append_cancel_left hd
  exact natRepr_inj hr

theorem enumFrom_cons_eq (k : Nat) (B : List String)
    (l : List (List String)) :
    List.enumFrom k (B :: l) = (k, B) :: List.enumFrom (k + 1) l := rfl

theorem minimBaseStep_eq (d : DFAData) (acc : DFAData) (k : Nat)
    (B : List String) :
    minimBaseStep d acc (k, B) =
      if B.any (fun s => decide (s ∈ d.accept)) then
        { states := updA acc.states ("q" ++ toString k) ⟨false, false⟩,
          alphabet := acc.alphabet, start := acc.start,
          accept := insertStr acc.accept ("q" ++ toString k),
          table := acc.table }
      else
        { states := updA acc.states ("q" ++ toString k) ⟨false, false⟩,
          alphabet := acc.alphabet, start := acc.start,
          accept := acc.accept, table := acc.table } := by
  simp only [minimBaseStep]
  by_cases h : B.any (fun s => decide (s ∈ d.accept)) = true
  · rw [if_pos h, if_pos h]
    rfl
  · rw [if_neg h, if_neg h]
    rfl

theorem baseFold_spec (d : DFAData) :
    ∀ (l : List (List String)) (k : Nat) (acc : DFAData),
      (∀ j, k ≤ j → ("q" ++ toString j) ∉ acc.states.map Prod.fst ∧
        ("q" ++ toString j) ∉ acc.accept) →
      ((List.enumFrom k l).foldl (minimBaseStep d) acc).states.map Prod.fst =
        acc.states.map Prod.fst ++
          (List.enumFrom k l).map (fun pr => "q" ++ toString pr.1) ∧
      ((List.enumFrom k l).foldl (minimBaseStep d) acc).table = acc.table ∧
      ((List.enumFrom k l).foldl (minimBaseStep d) acc).start = acc.start ∧
      ((List.enumFrom k l).foldl (minimBaseStep d) acc).alphabet =
        acc.alphabet ∧
      (∀ n ∈ acc.accept,
        n ∈ ((List.enumFrom k l).foldl (minimBaseStep d) acc).accept) ∧
      (∀ i (hi : i < l.length),
        (("q" ++ toString (k + i)) ∈
            ((List.enumFrom k l).foldl (minimBaseStep d) acc).accept ↔
          (l.get ⟨i, hi⟩).any (fun s => decide (s ∈ d.accept)) = true)) ∧
      (∀ n ∈ ((List.enumFrom k l).foldl (minimBaseStep d) acc).accept,
        n ∈ acc.accept ∨ ∃ i, i < l.length ∧ n = "q" ++ toString (k + i)) := by
  intro l
  induction l with
  | nil =>
    intro k acc hfresh
    refine ⟨by simp, rfl, rfl, rfl, fun n hn => hn, ?_, fun n hn => Or.inl hn⟩
    intro i hi
    rw [List.length_nil] at hi
    exact absurd hi (by omega)
  | cons B l ih =>
    intro k acc hfresh
    rw [enumFrom_cons_eq, List.foldl_cons, minimBaseStep_eq]
    have hneK : ∀ j, k + 1 ≤ j →
        ("q" ++ toString j : String) ≠ "q" ++ toString k := by
      intro j hj he
      have := repName_inj he
      omega
    have hlookK : acc.states.lookup ("q" ++ toString k) = none := by
      rw [lookup_eq_none_iff]
      exact (hfresh k le_rfl).1
    by_cases hany : B.any (fun s => decide (s ∈ d.accept)) = true
    · rw [if_pos hany]
      have hfresh2 : ∀ j, k + 1 ≤ j →
          ("q" ++ toString j) ∉ (updA acc.states ("q" ++ toString k)
            (⟨false, false⟩ : StFlags)).map Prod.fst ∧
          ("q" ++ toString j) ∉ insertStr acc.accept ("q" ++ toString k) := by
        intro j hj
        constructor
        · intro hmem
          rcases (mem_keys_updA _ _ _ _).mp hmem with h2 | h2
          · exact (hfresh j (by omega)).1 h2
          · exact hneK j hj h2
        · intro hmem
          rcases (mem_insertStr _ _).mp hmem with h2 | h2
          · exact (hfresh j (by omega)).2 h2
          · exact hneK j hj h2
      obtain ⟨c1, c2, c3, c4, c5, c6, c7⟩ := ih (k + 1)
        { states := updA acc.states ("q" ++ toString k) ⟨false, false⟩,
          alphabet := acc.alphabet, start := acc.start,
          accept := insertStr acc.accept ("q" ++ toString k),
          table := acc.table } hfresh2
      refine ⟨?_, c2, c3, c4, ?_, ?_, ?_⟩
      · rw [c1]
        show (updA acc.states ("q" ++ toString k)
          (⟨false, false⟩ : StFlags)).map Prod.fst ++ _ = _
        rw [keys_updA, if_neg (by rw [hlookK]; simp),
          List.map_cons, List.append_assoc, List.singleton_append]
      · intro n hn
        exact c5 n ((mem_insertStr _ _).mpr (Or.inl hn))
      · intro i hi
        cases i with
        | zero =>
          rw [Nat.add_zero]
          constructor
          · intro _
            exact hany
          · intro _
            exact c5 _ ((mem_insertStr _ _).mpr (Or.inr rfl))
        | succ j =>
          have hkj : k + (j + 1) = (k + 1) + j := by omega
          rw [hkj]
          rw [List.length_cons] at hi
          exact c6 j (by omega)
      · intro n hn
        rcases c7 n hn with h2 | h2
        · rcases (mem_insertStr _ _).mp h2 with h3 | h3
          · exact Or.inl h3
          · refine Or.inr ⟨0, by simp, ?_⟩
            rw [Nat.add_zero]
            exact h3
        · obtain ⟨i, hil, hin⟩ := h2
          refine Or.inr ⟨i + 1, by simp; omega, ?_⟩
          rw [show k + (i + 1) = (k + 1) + i from by omega]
          exact hin
    · rw [if_neg hany]
      have hfresh2 : ∀ j, k + 1 ≤ j →
          ("q" ++ toString j) ∉ (updA acc.states ("q" ++ toString k)
            (⟨false, false⟩ : StFlags)).map Prod.fst ∧
          ("q" ++ toString j) ∉ acc.accept := by
        intro j hj
        constructor
        · intro hmem
          rcases (mem_keys_updA _ _ _ _).mp hmem with h2 | h2
          · exact (hfresh j (by omega)).1 h2
          · exact hneK j hj h2
        · exact (hfresh j (by omega)).2
      obtain ⟨c1, c2, c3, c4, c5, c6, c7⟩ := ih (k + 1)
        { states := updA acc.states ("q" ++ toString k) ⟨false, false⟩,
          alphabet := acc.alphabet, start := acc.start,
          accept := acc.accept, table := acc.table } hfresh2
      refine ⟨?_, c2, c3, c4, c5, ?_, ?_⟩
      · rw [c1]
        show (updA acc.states ("q" ++ toString k)
          (⟨false, false⟩ : StFlags)).map Prod.fst ++ _ = _
        rw [keys_updA, if_neg (by rw [hlookK]; simp),
          List.map_cons, List.append_assoc, List.singleton_append]
      · intro i hi
        cases i with
        | zero =>
          rw [Nat.add_zero]
          constructor
          · intro hmem
            exfalso
            rcases c7 _ hmem with h2 | h2
            · exact (hfresh k le_rfl).2 h2
            · obtain ⟨i, hil, hin⟩ := h2
              have := repName_inj hin
              omega
          · intro h2
            exact absurd h2 hany
        | succ j =>
          have hkj : k + (j + 1) = (k + 1) + j := by omega
          rw [hkj]
          rw [List.length_cons] at hi
          exact c6 j (by omega)
      · intro n hn
        rcases c7 n hn with h2 | h2
        · exact Or.inl h2
        · obtain ⟨i, hil, hin⟩ := h2
          refine Or.inr ⟨i + 1, by simp; omega, ?_⟩
          rw [show k + (i + 1) = (k + 1) + i from by omega]
          exact hin

/-! ## `build_minimized_dfa`: transition-sampling phase -/

theorem stateMapLookup_found {parts : List (List String)}
    (hnd : parts.flatten.Nodup) :
    ∀ B ∈ parts, ∀ x ∈ B,
      ∃ i, ∃ hi : i < parts.length,
        stateMapLookup parts x = some ("q" ++ toString i) ∧
        parts.get ⟨i, hi⟩ = B := by
  induction parts with
  | nil => intro B hB; cases hB
  | cons C Ps ih =>
    rw [List.flatten_cons, List.nodup_append] at hnd
    obtain ⟨hC, hPs, hdisj⟩ := hnd
    intro B hB x hx
    by_cases hxC : x ∈ C
    · have hBC : B = C := by
        rcases List.mem_cons.mp hB with h | h
        · exact h
        · exact absurd hxC
            (fun hc => hdisj hc (List.mem_flatten.mpr ⟨B, h, hx⟩))
      refine ⟨0, by simp, ?_, ?_⟩
      · rw [stateMapLookup]
        simp only [List.findIdx?_cons]
        rw [if_pos (decide_eq_true hxC)]
      · rw [hBC]
        rfl
    · have hBPs : B ∈ Ps := by
        rcases List.mem_cons.mp hB with h | h
        · exact absurd (h ▸ hx) hxC
        · exact h
      obtain ⟨i, hi, hsl, hget⟩ := ih hPs B hBPs x hx
      refine ⟨i + 1, by simp only [List.length_cons]; omega, ?_, ?_⟩
      · rw [stateMapLookup] at hsl ⊢
        simp only [List.findIdx?_cons]
        rw [if_neg (by simp [hxC]), List.findIdx?_succ]
        cases hf : Ps.findIdx? (fun p => decide (x ∈ p)) with
        | none =>
          rw [hf] at hsl
          have hsl2 : (none : Option String) = some ("q" ++ toString i) := hsl
          cases hsl2
        | some j =>
          rw [hf] at hsl
          have hsl2 : some ("q" ++ toString j : String) =
              some ("q" ++ toString i) := hsl
          injection hsl2 with hsl3
          have hji := repName_inj hsl3
          show some ("q" ++ toString (j + 1) : String) =
            some ("q" ++ toString (i + 1))
          rw [hji]
      · exact hget

theorem parts_get_inj {parts : List (List String)}
    (hnd : parts.flatten.Nodup) :
    ∀ (i j : Nat) (hi : i < parts.length) (hj : j < parts.length),
      parts.get ⟨i, hi⟩ = parts.get ⟨j, hj⟩ → parts.get ⟨i, hi⟩ ≠ [] →
      i = j := by
  induction parts with
  | nil =>
    intro i j hi
    rw [List.length_nil] at hi
    omega
  | cons C Ps ih =>
    rw [List.flatten_cons, List.nodup_append] at hnd
    obtain ⟨hC, hPs, hdisj⟩ := hnd
    intro i j hi hj heq hne
    cases i with
    | zero =>
      cases j with
      | zero => rfl
      | succ j2 =>
        exfalso
        have hget : (C :: Ps).get ⟨0, hi⟩ = C := rfl
        rw [hget] at heq hne
        cases hCval : C with
        | nil => exact hne hCval
        | cons z zs =>
          have hz : z ∈ C := by rw [hCval]; simp
          have hmem : Ps.get ⟨j2, by
              rw [List.length_cons] at hj
              omega⟩ ∈ Ps := List.get_mem _ _ _
          have hz2 : z ∈ Ps.flatten := List.mem_flatten.mpr
            ⟨Ps.get ⟨j2, by rw [List.length_cons] at hj; omega⟩, hmem, by
              rw [show (Ps.get ⟨j2, by
                  rw [List.length_cons] at hj; omega⟩) =
                (C :: Ps).get ⟨j2 + 1, hj⟩ from rfl, ← heq]
              exact hz⟩
          exact hdisj hz hz2
    | succ i2 =>
      cases j with
      | zero =>
        exfalso
        have hget : (C :: Ps).get ⟨0, hj⟩ = C := rfl
        rw [hget] at heq
        have hmem : Ps.get ⟨i2, by
            rw [List.length_cons] at hi
            omega⟩ ∈ Ps := List.get_mem _ _ _
        cases hCval : C with
        | nil => exact hne (by rw [heq, hCval])
        | cons z zs =>
          have hz : z ∈ C := by rw [hCval]; simp
          have hz2 : z ∈ Ps.flatten := List.mem_flatten.mpr
            ⟨Ps.get ⟨i2, by rw [List.length_cons] at hi; omega⟩, hmem, by
              rw [show (Ps.get ⟨i2, by
                  rw [List.length_cons] at hi; omega⟩) =
                (C :: Ps).get ⟨i2 + 1, hi⟩ from rfl, heq]
              exact hz⟩
          exact hdisj hz hz2
      | succ j2 =>
        have := ih hPs i2 j2 (by rw [List.length_cons] at hi; omega)
          (by rw [List.length_cons] at hj; omega) heq hne
        omega

theorem stateMapLookup_same_block {parts : List (List String)}
    (hnd : parts.flatten.Nodup) {B : List String} (hB : B ∈ parts)
    {x y : String} (hx : x ∈ B) (hy : y ∈ B) :
    stateMapLookup parts x = stateMapLookup parts y := by
  obtain ⟨i, hi, hslx, hgetx⟩ := stateMapLookup_found hnd B hB x hx
  obtain ⟨j, hj, hsly, hgety⟩ := stateMapLookup_found hnd B hB y hy
  have hij : i = j := parts_get_inj hnd i j hi hj (by rw [hgetx, hgety])
    (by rw [hgetx]; intro hBnil; rw [hBnil] at hx; cases hx)
  rw [hslx, hsly, hij]

theorem stateMapLookup_eq_block {parts : List (List String)}
    (hnd : parts.flatten.Nodup) {B1 B2 : List String}
    (hB1 : B1 ∈ parts) (hB2 : B2 ∈ parts) {x y : String}
    (hx : x ∈ B1) (hy : y ∈ B2)
    (h : stateMapLookup parts x = stateMapLookup parts y) : B1 = B2 := by
  obtain ⟨i, hi, hslx, hgetx⟩ := stateMapLookup_found hnd B1 hB1 x hx
  obtain ⟨j, hj, hsly, hgety⟩ := stateMapLookup_found hnd B2 hB2 y hy
  rw [hslx, hsly] at h
  injection h with h2
  have hij := repName_inj h2
  subst hij
  rw [← hgetx, ← hgety]

theorem dfaAddChecked_states (d : DFAData) (f t : String) (sym : Char) :
    (dfaAddChecked d f t sym).states = d.states := by
  rw [dfaAddChecked, dfaAddTransition]
  by_cases h : (d.table.lookup (f, sym)).isSome
  · rw [if_pos h]
  · rw [if_neg h]

theorem dfaAddChecked_lookup_mono {d : DFAData} {f t : String} {sym : Char}
    {key : String × Char} {v : String} (h : d.table.lookup key = some v) :
    (dfaAddChecked d f t sym).table.lookup key = some v := by
  rcases dfaAddChecked_table d f t sym with h2 | h2
  · rw [h2]
    exact h
  · rw [h2]
    exact lookup_append_left _ h

theorem dfaAddChecked_lookup_self (d : DFAData) (f t : String) (sym : Char) :
    (dfaAddChecked d f t sym).table.lookup (f, sym) = some t ∨
    ∃ v, d.table.lookup (f, sym) = some v ∧
      (dfaAddChecked d f t sym).table.lookup (f, sym) = some v := by
  cases hp : d.table.lookup (f, sym) with
  | some v =>
    refine Or.inr ⟨v, rfl, ?_⟩
    rcases dfaAddChecked_table d f t sym with h2 | h2
    · rw [h2]
      exact hp
    · rw [h2]
      exact lookup_append_left _ hp
  | none =>
    refine Or.inl ?_
    have habs : ¬ (d.table.lookup (f, sym)).isSome := by
      rw [hp]
      simp
    rw [dfaAddChecked, dfaAddTransition, if_neg habs]
    show (d.table ++ [((f, sym), t)]).lookup (f, sym) = some t
    rw [lookup_append_right _ hp]
    exact lookup_cons_eq _ _ _ rfl

theorem transValue_eq (d : DFAData) (parts : List (List String))
    (hnd : parts.flatten.Nodup) {acc : DFAData}
    (hsound : TransSound d parts acc)
    {B : List String} (hB : B ∈ parts) {sample : String} {rest : List String}
    (hBeq : B = sample :: rest) {sym : Char} {t trep srep : String}
    (ht : dfaNext d sample sym = some t)
    (htrep : stateMapLookup parts t = some trep)
    (hsrep : stateMapLookup parts sample = some srep)
    {v : String} (hv : acc.table.lookup (srep, sym) = some v) : v = trep := by
  obtain ⟨B2, hB2, sample2, rest2, hBeq2, hsrep2, t2, ht2, htrep2⟩ :=
    hsound _ (lookup_mem hv)
  have hmem2 : sample2 ∈ B2 := by
    rw [hBeq2]
    exact List.mem_cons_self _ _
  have hmem1 : sample ∈ B := by
    rw [hBeq]
    exact List.mem_cons_self _ _
  have hslp : stateMapLookup parts sample2 = stateMapLookup parts sample := by
    rw [hsrep2, hsrep]
  have hBB : B2 = B := stateMapLookup_eq_block hnd hB2 hB hmem2 hmem1 hslp
  have hs2 : sample2 = sample := by
    rw [hBeq2, hBeq] at hBB
    injection hBB with h1 h2
  subst hs2
  rw [ht] at ht2
  injection ht2 with ht3
  subst ht3
  rw [htrep] at htrep2
  injection htrep2 with h4
  exact h4.symm

theorem minimTransInner_spec (d : DFAData) (parts : List (List String))
    (sample : String) (hblk : ∃ rest, (sample :: rest) ∈ parts) :
    ∀ (acc2 : DFAData) (sym : Char), TransSound d parts acc2 →
      TransSound d parts (minimTransInner d parts sample acc2 sym) ∧
      (∀ key v, acc2.table.lookup key = some v →
        (minimTransInner d parts sample acc2 sym).table.lookup key = some v) ∧
      (minimTransInner d parts sample acc2 sym).states = acc2.states ∧
      (minimTransInner d parts sample acc2 sym).accept = acc2.accept ∧
      (minimTransInner d parts sample acc2 sym).start = acc2.start := by
  intro acc2 sym hsound
  cases hδ : dfaNext d sample sym with
  | none =>
    have hred : minimTransInner d parts sample acc2 sym = acc2 := by
      rw [minimTransInner, hδ]
    rw [hred]
    exact ⟨hsound, fun k v h => h, rfl, rfl, rfl⟩
  | some t =>
    cases hsl1 : stateMapLookup parts t with
    | none =>
      cases hsl2 : stateMapLookup parts sample with
      | none =>
        have hred : minimTransInner d parts sample acc2 sym = acc2 := by
          rw [minimTransInner, hδ]
          show (match stateMapLookup parts t, stateMapLookup parts sample with
            | some trep2, some srep2 => dfaAddChecked acc2 srep2 trep2 sym
            | _, _ => acc2) = acc2
          rw [hsl1, hsl2]
        rw [hred]
        exact ⟨hsound, fun k v h => h, rfl, rfl, rfl⟩
      | some srep =>
        have hred : minimTransInner d parts sample acc2 sym = acc2 := by
          rw [minimTransInner, hδ]
          show (match stateMapLookup parts t, stateMapLookup parts sample with
            | some trep2, some srep2 => dfaAddChecked acc2 srep2 trep2 sym
            | _, _ => acc2) = acc2
          rw [hsl1, hsl2]
        rw [hred]
        exact ⟨hsound, fun k v h => h, rfl, rfl, rfl⟩
    | some trep =>
      cases hsl2 : stateMapLookup parts sample with
      | none =>
        have hred : minimTransInner d parts sample acc2 sym = acc2 := by
          rw [minimTransInner, hδ]
          show (match stateMapLookup parts t, stateMapLookup parts sample with
            | some trep2, some srep2 => dfaAddChecked acc2 srep2 trep2 sym
            | _, _ => acc2) = acc2
          rw [hsl1, hsl2]
        rw [hred]
        exact ⟨hsound, fun k v h => h, rfl, rfl, rfl⟩
      | some srep =>
        have hred : minimTransInner d parts sample acc2 sym =
            dfaAddChecked acc2 srep trep sym := by
          rw [minimTransInner, hδ]
          show (match stateMapLookup parts t, stateMapLookup parts sample with
            | some trep2, some srep2 => dfaAddChecked acc2 srep2 trep2 sym
            | _, _ => acc2) = dfaAddChecked acc2 srep trep sym
          rw [hsl1, hsl2]
        rw [hred]
        refine ⟨?_, fun k v h => dfaAddChecked_lookup_mono h,
          dfaAddChecked_states _ _ _ _, dfaAddChecked_accept _ _ _ _,
          dfaAddChecked_start _ _ _ _⟩
        intro e he
        rcases dfaAddChecked_table acc2 srep trep sym with h2 | h2
        · rw [h2] at he
          exact hsound e he
        · rw [h2] at he
          rcases List.mem_append.mp he with hold | hnew
          · exact hsound e hold
          · rw [List.mem_singleton] at hnew
            subst hnew
            obtain ⟨rest, hrest⟩ := hblk
            exact ⟨sample :: rest, hrest, sample, rest, rfl, hsl2, t, hδ, hsl1⟩

theorem transInnerFold_spec (d : DFAData) (parts : List (List String))
    (hnd : parts.flatten.Nodup) (sample : String)
    (hblk : ∃ rest, (sample :: rest) ∈ parts) :
    ∀ (syms : List Char) (acc2 : DFAData), TransSound d parts acc2 →
      TransSound d parts
        (syms.foldl (minimTransInner d parts sample) acc2) ∧
      (∀ key v, acc2.table.lookup key = some v →
        (syms.foldl (minimTransInner d parts sample) acc2).table.lookup key =
          some v) ∧
      (syms.foldl (minimTransInner d parts sample) acc2).states =
        acc2.states ∧
      (syms.foldl (minimTransInner d parts sample) acc2).accept =
        acc2.accept ∧
      (syms.foldl (minimTransInner d parts sample) acc2).start =
        acc2.start ∧
      (∀ sym ∈ syms, ∀ t trep srep, dfaNext d sample sym = some t →
        stateMapLookup parts t = some trep →
        stateMapLookup parts sample = some srep →
        (syms.foldl (minimTransInner d parts sample) acc2).table.lookup
          (srep, sym) = some trep) := by
  intro syms
  induction syms with
  | nil =>
    intro acc2 hsound
    refine ⟨hsound, fun k v h => h, rfl, rfl, rfl, ?_⟩
    intro sym hsym2
    cases hsym2
  | cons c syms ih =>
    intro acc2 hsound
    rw [List.foldl_cons]
    obtain ⟨i1, m1, s1, a1, t1⟩ :=
      minimTransInner_spec d parts sample hblk acc2 c hsound
    obtain ⟨i2, m2, s2, a2, t2, comp2⟩ :=
      ih (minimTransInner d parts sample acc2 c) i1
    refine ⟨i2, fun k v h => m2 k v (m1 k v h), by rw [s2, s1],
      by rw [a2, a1], by rw [t2, t1], ?_⟩
    intro sym hsymmem t trep srep ht htrep hsrep
    rcases List.mem_cons.mp hsymmem with he | hm
    · subst he
      obtain ⟨B0, hB0⟩ := hblk
      have hafter : (minimTransInner d parts sample acc2
          sym).table.lookup (srep, sym) = some trep := by
        have hred : minimTransInner d parts sample acc2 sym =
            dfaAddChecked acc2 srep trep sym := by
          rw [minimTransInner, ht]
          show (match stateMapLookup parts t, stateMapLookup parts sample with
            | some trep2, some srep2 => dfaAddChecked acc2 srep2 trep2 sym
            | _, _ => acc2) = dfaAddChecked acc2 srep trep sym
          rw [htrep, hsrep]
        rw [hred]
        rcases dfaAddChecked_lookup_self acc2 srep trep sym with h2 | h2
        · exact h2
        · obtain ⟨v, hv1, hv2⟩ := h2
          have hveq : v = trep := transValue_eq d parts hnd hsound hB0 rfl
            ht htrep hsrep hv1
          rw [hv2, hveq]
      exact m2 _ _ hafter
    · exact comp2 sym hm t trep srep ht htrep hsrep

theorem transFold_spec (d : DFAData) (parts : List (List String))
    (hnd : parts.flatten.Nodup) :
    ∀ (l : List (List String)) (acc : DFAData),
      (∀ B ∈ l, B ∈ parts) → TransSound d parts acc →
      TransSound d parts (l.foldl (minimTransStep d parts) acc) ∧
      (∀ key v, acc.table.lookup key = some v →
        (l.foldl (minimTransStep d parts) acc).table.lookup key = some v) ∧
      (l.foldl (minimTransStep d parts) acc).states = acc.states ∧
      (l.foldl (minimTransStep d parts) acc).accept = acc.accept ∧
      (l.foldl (minimTransStep d parts) acc).start = acc.start ∧
      (∀ B ∈ l, ∀ sample rest, B = sample :: rest →
        ∀ sym t trep srep, dfaNext d sample sym = some t →
          stateMapLookup parts t = some trep →
          stateMapLookup parts sample = some srep →
          sym ∈ d.alphabet →
          (l.foldl (minimTransStep d parts) acc).table.lookup (srep, sym) =
            some trep) := by
  intro l
  induction l with
  | nil =>
    intro acc _ hsound
    refine ⟨hsound, fun k v h => h, rfl, rfl, rfl, ?_⟩
    intro B hB
    cases hB
  | cons B l ih =>
    intro acc hmem hsound
    rw [List.foldl_cons]
    cases hBval : B with
    | nil =>
      have hred : minimTransStep d parts acc [] = acc := by
        rw [minimTransStep]
      rw [hred]
      obtain ⟨i2, m2, s2, a2, t2, comp2⟩ := ih acc
        (fun B2 hB2 => hmem B2 (List.mem_cons_of_mem _ hB2)) hsound
      refine ⟨i2, m2, s2, a2, t2, ?_⟩
      intro B2 hB2 sample rest hBeq sym t trep srep ht htrep hsrep hsyma
      rcases List.mem_cons.mp hB2 with he | hm
      · exfalso
        subst he
        simp [hBval] at hBeq
      · exact comp2 B2 hm sample rest hBeq sym t trep srep ht htrep hsrep
          hsyma
    | cons sample0 rest0 =>
      have hBmem : (sample0 :: rest0) ∈ parts := by
        rw [← hBval]
        exact hmem B (by simp)
      have hblk : ∃ rest, (sample0 :: rest) ∈ parts := ⟨rest0, hBmem⟩
      have hred : minimTransStep d parts acc (sample0 :: rest0) =
          d.alphabet.foldl (minimTransInner d parts sample0) acc := by
        rw [minimTransStep]
      rw [hred]
      obtain ⟨i1, m1, s1, a1, t1, comp1⟩ :=
        transInnerFold_spec d parts hnd sample0 hblk d.alphabet acc hsound
      obtain ⟨i2, m2, s2, a2, t2, comp2⟩ := ih _
        (fun B2 hB2 => hmem B2 (List.mem_cons_of_mem _ hB2)) i1
      refine ⟨i2, fun k v h => m2 k v (m1 k v h), by rw [s2, s1],
        by rw [a2, a1], by rw [t2, t1], ?_⟩
      intro B2 hB2 sample rest hBeq sym t trep srep ht htrep hsrep hsyma
      rcases List.mem_cons.mp hB2 with he | hm
      · have hsample : sample = sample0 := by
          rw [he] at hBeq
          injection hBeq with h1 h2
          exact h1.symm
        subst hsample
        exact m2 _ _ (comp1 sym hsyma t trep srep ht htrep hsrep)
      · exact comp2 B2 hm sample rest hBeq sym t trep srep ht htrep hsrep
          hsyma

/-- Full characterization of `build_minimized_dfa`: its start is the
block of the original start, its states are the block representatives
in order, a representative is accepting iff its block meets the original
accept set, and its transition table is exactly the block-sampled
quotient table. -/
theorem buildMinimized_spec (d : DFAData) (parts : List (List String))
    (origStart : String) (hnd : parts.flatten.Nodup) :
    (buildMinimized d parts origStart).start =
      stateMapLookup parts origStart ∧
    (buildMinimized d parts origStart).states.map Prod.fst =
      parts.enum.map (fun pr => "q" ++ toString pr.1) ∧
    (∀ i (hi : i < parts.length),
      (("q" ++ toString i) ∈ (buildMinimized d parts origStart).accept ↔
        (parts.get ⟨i, hi⟩).any (fun s => decide (s ∈ d.accept)) = true)) ∧
    (∀ n ∈ (buildMinimized d parts origStart).accept,
      ∃ i, i < parts.length ∧ n = "q" ++ toString i) ∧
    TransSound d parts (buildMinimized d parts origStart) ∧
    (∀ B ∈ parts, ∀ sample rest, B = sample :: rest →
      ∀ srep, stateMapLookup parts sample = some srep →
      ∀ sym t trep, dfaNext d sample sym = some t →
        stateMapLookup parts t = some trep → sym ∈ d.alphabet →
        dfaNext (buildMinimized d parts origStart) srep sym = some trep) := by
  have henum : parts.enum = List.enumFrom 0 parts := rfl
  obtain ⟨b1, b2, b3, b4, b5, b6, b7⟩ := baseFold_spec d parts 0 emptyDFA
    (by
      intro j _
      constructor
      · intro h
        cases h
      · intro h
        cases h)
  have hred : buildMinimized d parts origStart =
      parts.foldl (minimTransStep d parts)
        { parts.enum.foldl (minimBaseStep d) emptyDFA with
          start := stateMapLookup parts origStart } := by
    rw [buildMinimized]
  have hsound0 : TransSound d parts
      { parts.enum.foldl (minimBaseStep d) emptyDFA with
        start := stateMapLookup parts origStart } := by
    intro e he
    rw [henum] at he
    have he2 : e ∈ (emptyDFA : DFAData).table := by
      rw [← b2]
      exact he
    cases he2
  obtain ⟨f1, f2, f3, f4, f5, f6⟩ := transFold_spec d parts hnd parts
    { parts.enum.foldl (minimBaseStep d) emptyDFA with
      start := stateMapLookup parts origStart } (fun B hB => hB) hsound0
  rw [hred]
  refine ⟨?_, ?_, ?_, ?_, f1, ?_⟩
  · rw [f5]
  · rw [f3]
    show ((List.enumFrom 0 parts).foldl (minimBaseStep d)
        emptyDFA).states.map Prod.fst =
      parts.enum.map (fun pr => "q" ++ toString pr.1)
    rw [b1, henum]
    rfl
  · intro i hi
    have hfa : ((parts.foldl (minimTransStep d parts)
        { parts.enum.foldl (minimBaseStep d) emptyDFA with
          start := stateMapLookup parts origStart }).accept) =
        ((List.enumFrom 0 parts).foldl (minimBaseStep d) emptyDFA).accept := by
      rw [f4, henum]
    rw [hfa]
    have := b6 i hi
    rw [Nat.zero_add] at this
    exact this
  · intro n hn
    have hfa : ((parts.foldl (minimTransStep d parts)
        { parts.enum.foldl (minimBaseStep d) emptyDFA with
          start := stateMapLookup parts origStart }).accept) =
        ((List.enumFrom 0 parts).foldl (minimBaseStep d) emptyDFA).accept := by
      rw [f4, henum]
    rw [hfa] at hn
    rcases b7 n hn with h | h
    · cases h
    · obtain ⟨i, hil, hin⟩ := h
      rw [Nat.zero_add] at hin
      exact ⟨i, hil, hin⟩
  · intro B hB sample rest hBeq srep hsrep sym t trep ht htrep hsyma
    rw [dfaNext]
    exact f6 B hB sample rest hBeq sym t trep srep ht htrep hsrep hsyma

/-- The quotient table is silent exactly where sampling found nothing:
if the sampled successor is missing (or unmapped), the representative
has no transition on that symbol. -/
theorem buildMinimized_next_none (d : DFAData) (parts : List (List String))
    (origStart : String) (hnd : parts.flatten.Nodup)
    {B : List String} (hB : B ∈ parts) {sample : String} {rest : List String}
    (hBeq : B = sample :: rest) {srep : String}
    (hsrep : stateMapLookup parts sample = some srep) {sym : Char}
    (hnone : (dfaNext d sample sym).map (stateMapLookup parts) = none ∨
      (dfaNext d sample sym).map (stateMapLookup parts) = some none) :
    dfaNext (buildMinimized d parts origStart) srep sym = none := by
  obtain ⟨_, _, _, _, hsound, _⟩ :=
    buildMinimized_spec d parts origStart hnd
  cases hl : dfaNext (buildMinimized d parts origStart) srep sym with
  | none => rfl
  | some v =>
    exfalso
    rw [dfaNext] at hl
    obtain ⟨B2, hB2, sample2, rest2, hBeq2, hsrep2, t2, ht2, htrep2⟩ :=
      hsound _ (lookup_mem hl)
    have hmem2 : sample2 ∈ B2 := by
      rw [hBeq2]
      exact List.mem_cons_self _ _
    have hmem1 : sample ∈ B := by
      rw [hBeq]
      exact List.mem_cons_self _ _
    have hBB : B2 = B := stateMapLookup_eq_block hnd hB2 hB hmem2 hmem1
      (by rw [hsrep2, hsrep])
    have hs2 : sample2 = sample := by
      rw [hBeq2, hBeq] at hBB
      injection hBB with h1 h2
    subst hs2
    rcases hnone with h | h
    · rw [ht2] at h
      cases h
    · rw [ht2] at h
      have h2 : stateMapLookup parts t2 = none := by
        injection h
      rw [htrep2] at h2
      cases h2

/-- The minimized DFA simulates the original observation-for-observation:
the representative of a block behaves exactly like each of its states. -/
theorem quotient_obs (d : DFAData) (parts : List (List String))
    (origStart : String)
    (hsymd : ∀ e ∈ d.table, e.1.2 ∈ d.alphabet)
    (hnd : parts.flatten.Nodup)
    (hclosed : ∀ x ∈ parts.flatten, ∀ sym t, dfaNext d x sym = some t →
      t ∈ parts.flatten)
    (hacc : ∀ B ∈ parts, ∀ x ∈ B, ∀ y ∈ B, (x ∈ d.accept ↔ y ∈ d.accept))
    (hsig : ∀ B ∈ parts, ∀ x ∈ B, ∀ y ∈ B,
      sigOf d parts x = sigOf d parts y) :
    ∀ (w : List Char), ∀ B ∈ parts, ∀ x ∈ B, ∀ srep,
      stateMapLookup parts x = some srep →
      dfaObs (buildMinimized d parts origStart) srep w = dfaObs d x w := by
  intro w
  induction w with
  | nil =>
    intro B hB x hx srep hsrep
    rw [dfaObs_nil, dfaObs_nil]
    refine congrArg some (decide_eq_decide.mpr ?_)
    obtain ⟨i, hi, hsl, hget⟩ := stateMapLookup_found hnd B hB x hx
    rw [hsrep] at hsl
    injection hsl with hsl2
    obtain ⟨_, _, bacc, _, _, _⟩ := buildMinimized_spec d parts origStart hnd
    rw [hsl2, bacc i hi, hget]
    constructor
    · intro h
      obtain ⟨y, hyB, hy⟩ := List.any_eq_true.mp h
      exact (hacc B hB x hx y hyB).mpr (of_decide_eq_true hy)
    · intro h
      exact List.any_eq_true.mpr ⟨x, hx, decide_eq_true h⟩
  | cons c w ih =>
    intro B hB x hx srep hsrep
    cases hBv : B with
    | nil =>
      rw [hBv] at hx
      cases hx
    | cons sample rest =>
      have hsmem : sample ∈ B := by
        rw [hBv]
        exact List.mem_cons_self _ _
      have hsrepS : stateMapLookup parts sample = some srep := by
        rw [stateMapLookup_same_block hnd hB hsmem hx, hsrep]
      by_cases hc : c ∈ d.alphabet
      · have hidx := sigOf_point (hsig B hB x hx sample hsmem) c hc
        cases hδs : dfaNext d sample c with
        | none =>
          cases hδx : dfaNext d x c with
          | none =>
            have hq : dfaNext (buildMinimized d parts origStart) srep c =
                none := by
              refine buildMinimized_next_none d parts origStart hnd hB hBv
                hsrepS ?_
              rw [hδs]
              exact Or.inl rfl
            rw [dfaObs_cons_none _ _ _ _ hq, dfaObs_cons_none _ _ _ _ hδx]
          | some tx =>
            exfalso
            rw [hδx, hδs] at hidx
            obtain ⟨Bt, hBt, htx⟩ := List.mem_flatten.mp
              (hclosed x (List.mem_flatten.mpr ⟨B, hB, hx⟩) c tx hδx)
            exact partIdx_mem_ne hBt htx (by rw [hidx]; rfl)
        | some ts =>
          have htsF : ts ∈ parts.flatten :=
            hclosed sample (List.mem_flatten.mpr ⟨B, hB, hsmem⟩) c ts hδs
          obtain ⟨Bt, hBt, hts⟩ := List.mem_flatten.mp htsF
          obtain ⟨it, hit, hslt, hgett⟩ := stateMapLookup_found hnd Bt hBt ts hts
          cases hδx : dfaNext d x c with
          | none =>
            exfalso
            rw [hδx, hδs] at hidx
            exact partIdx_mem_ne hBt hts (by rw [← hidx]; rfl)
          | some tx =>
            rw [hδx, hδs] at hidx
            have htxBt : tx ∈ Bt :=
              (partIdx_block hnd Bt hBt ts hts tx).mp hidx.symm
            obtain ⟨_, _, _, _, _, bnext⟩ :=
              buildMinimized_spec d parts origStart hnd
            have hq : dfaNext (buildMinimized d parts origStart) srep c =
                some ("q" ++ toString it) :=
              bnext B hB sample rest hBv srep hsrepS c ts _ hδs hslt hc
            rw [dfaObs_cons_some _ _ _ _ _ hq, dfaObs_cons_some _ _ _ _ _ hδx]
            refine ih Bt hBt tx htxBt _ ?_
            rw [stateMapLookup_same_block hnd hBt htxBt hts, hslt]
      · have hq : dfaNext (buildMinimized d parts origStart) srep c = none := by
          refine buildMinimized_next_none d parts origStart hnd hB hBv
            hsrepS ?_
          rw [dfaNext_none_of_sym d hsymd sample c hc]
          exact Or.inl rfl
        rw [dfaObs_cons_none _ _ _ _ hq,
          dfaObs_cons_none _ _ _ _ (dfaNext_none_of_sym d hsymd x c hc)]

/-- Observational separation of distinct blocks survives the whole
refinement loop. -/
theorem sep_refineLoop (d : DFAData) (reach : List String)
    (hnodupR : reach.Nodup)
    (hclosedR : ∀ x ∈ reach, ∀ sym t, dfaNext d x sym = some t →
      t ∈ reach) :
    ∀ (fuel : Nat) (parts : List (List String)),
      parts.flatten.Perm reach →
      (∀ B1 ∈ parts, ∀ B2 ∈ parts, B1 ≠ B2 → ∀ x ∈ B1, ∀ y ∈ B2,
        ∃ w, dfaObs d x w ≠ dfaObs d y w) →
      ∀ C1 ∈ refineLoop d fuel parts, ∀ C2 ∈ refineLoop d fuel parts,
        C1 ≠ C2 → ∀ x ∈ C1, ∀ y ∈ C2,
          ∃ w, dfaObs d x w ≠ dfaObs d y w := by
  intro fuel
  induction fuel with
  | zero =>
    intro parts _ hsep
    exact hsep
  | succ fuel ih =>
    intro parts hperm hsep
    have hred : refineLoop d (fuel + 1) parts =
        if (refinePass d parts).2 then refineLoop d fuel (refinePass d parts).1
        else (refinePass d parts).1 := by
      rw [refineLoop]
    cases hch : (refinePass d parts).2 with
    | false =>
      rw [hred, if_neg (by rw [hch]; exact Bool.false_ne_true),
        refinePass_false_eq d parts hch]
      exact hsep
    | true =>
      rw [hred, if_pos hch]
      have hnd : parts.flatten.Nodup := hperm.nodup_iff.mpr hnodupR
      have hclosedF : ∀ x ∈ parts.flatten, ∀ sym t,
          dfaNext d x sym = some t → t ∈ parts.flatten := by
        intro x hxF sym t ht
        exact hperm.mem_iff.mpr
          (hclosedR x (hperm.mem_iff.mp hxF) sym t ht)
      exact ih (refinePass d parts).1
        ((refinePass_flatten d parts).trans hperm)
        (sep_refinePass d parts hnd hclosedF hsep)

theorem buildMinimized_count (d : DFAData) (parts : List (List String))
    (origStart : String) (hnd : parts.flatten.Nodup) :
    dfaStateCount (buildMinimized d parts origStart) = parts.length := by
  obtain ⟨_, bkeys, _, _, _, _⟩ := buildMinimized_spec d parts origStart hnd
  rw [dfaStateCount]
  have h1 : (buildMinimized d parts origStart).states.length =
      ((buildMinimized d parts origStart).states.map Prod.fst).length := by
    rw [List.length_map]
  rw [h1, bkeys, List.length_map, List.enum_length]

/-- `minimize_dfa` decomposed: with a start state present it builds the
quotient DFA of a partition `P` which redistributes exactly the
reachable states into non-empty blocks that are accept-uniform,
signature-stable, and pairwise observationally separated. -/
theorem minimizeDfa_parts (d : DFAData) (s0 : String)
    (hstart : d.start = some s0)
    (hsymd : ∀ e ∈ d.table, e.1.2 ∈ d.alphabet) :
    ∃ P : List (List String),
      minimizeDfa d = buildMinimized d P s0 ∧
      (∀ B ∈ P, B ≠ []) ∧
      P.flatten.Perm (findReachable d s0) ∧
      (refinePass d P).2 = false ∧
      (∀ B ∈ P, ∀ x ∈ B, ∀ y ∈ B, (x ∈ d.accept ↔ y ∈ d.accept)) ∧
      (∀ B1 ∈ P, ∀ B2 ∈ P, B1 ≠ B2 → ∀ x ∈ B1, ∀ y ∈ B2,
        ∃ w, dfaObs d x w ≠ dfaObs d y w) := by
  obtain ⟨hs0, hnodupR, hsoundR, hclosedR, hsubV⟩ :=
    findReachable_spec d s0 hsymd
  have hred : minimizeDfa d = buildMinimized d
      (refineLoop d ((findReachable d s0).length + 2)
        ((if (findReachable d s0).filter
            (fun x => decide (x ∈ d.accept)) = [] then []
          else [(findReachable d s0).filter
            (fun x => decide (x ∈ d.accept))]) ++
         (if (findReachable d s0).filter
            (fun x => decide (x ∉ d.accept)) = [] then []
          else [(findReachable d s0).filter
            (fun x => decide (x ∉ d.accept))]))) s0 := by
    simp only [minimizeDfa, hstart]
  have hne0 : ∀ B ∈ ((if (findReachable d s0).filter
      (fun x => decide (x ∈ d.accept)) = [] then []
    else [(findReachable d s0).filter (fun x => decide (x ∈ d.accept))]) ++
     (if (findReachable d s0).filter
        (fun x => decide (x ∉ d.accept)) = [] then []
      else [(findReachable d s0).filter
        (fun x => decide (x ∉ d.accept))])), B ≠ [] := by
    intro B hB
    rcases List.mem_append.mp hB with h | h
    · by_cases hA : (findReachable d s0).filter
          (fun x => decide (x ∈ d.accept)) = []
      · rw [if_pos hA] at h
        cases h
      · rw [if_neg hA] at h
        rw [List.mem_singleton] at h
        rw [h]
        exact hA
    · by_cases hN : (findReachable d s0).filter
          (fun x => decide (x ∉ d.accept)) = []
      · rw [if_pos hN] at h
        cases h
      · rw [if_neg hN] at h
        rw [List.mem_singleton] at h
        rw [h]
        exact hN
  have hperm0 : (((if (findReachable d s0).filter
      (fun x => decide (x ∈ d.accept)) = [] then []
    else [(findReachable d s0).filter (fun x => decide (x ∈ d.accept))]) ++
     (if (findReachable d s0).filter
        (fun x => decide (x ∉ d.accept)) = [] then []
      else [(findReachable d s0).filter
        (fun x => decide (x ∉ d.accept))])).flatten).Perm
      (findReachable d s0) := by
    have hfeq : (findReachable d s0).filter (fun x => decide (x ∉ d.accept)) =
        (findReachable d s0).filter (fun x => !decide (x ∈ d.accept)) := by
      apply List.filter_congr
      intro a _
      rw [decide_not]
    have hbase := List.filter_append_perm
      (fun x => decide (x ∈ d.accept)) (findReachable d s0)
    by_cases hA : (findReachable d s0).filter
        (fun x => decide (x ∈ d.accept)) = [] <;>
      by_cases hN : (findReachable d s0).filter
        (fun x => decide (x ∉ d.accept)) = []
    · rw [if_pos hA, if_pos hN]
      have h2 := hbase
      rw [hA, ← hfeq, hN] at h2
      exact h2
    · rw [if_pos hA, if_neg hN]
      have h2 := hbase
      rw [hA, ← hfeq, List.nil_append] at h2
      simpa using h2
    · rw [if_neg hA, if_pos hN]
      have h2 := hbase
      rw [← hfeq, hN, List.append_nil] at h2
      simpa using h2
    · rw [if_neg hA, if_neg hN]
      have h2 := hbase
      rw [← hfeq] at h2
      simpa using h2
  have hsep0 : ∀ B1 ∈ ((if (findReachable d s0).filter
      (fun x => decide (x ∈ d.accept)) = [] then []
    else [(findReachable d s0).filter (fun x => decide (x ∈ d.accept))]) ++
     (if (findReachable d s0).filter
        (fun x => decide (x ∉ d.accept)) = [] then []
      else [(findReachable d s0).filter
        (fun x => decide (x ∉ d.accept))])),
      ∀ B2 ∈ ((if (findReachable d s0).filter
        (fun x => decide (x ∈ d.accept)) = [] then []
      else [(findReachable d s0).filter (fun x => decide (x ∈ d.accept))]) ++
       (if (findReachable d s0).filter
          (fun x => decide (x ∉ d.accept)) = [] then []
        else [(findReachable d s0).filter
          (fun x => decide (x ∉ d.accept))])),
      B1 ≠ B2 → ∀ x ∈ B1, ∀ y ∈ B2,
        ∃ w, dfaObs d x w ≠ dfaObs d y w := by
    have hmemchar : ∀ B ∈ ((if (findReachable d s0).filter
        (fun x => decide (x ∈ d.accept)) = [] then []
      else [(findReachable d s0).filter (fun x => decide (x ∈ d.accept))]) ++
       (if (findReachable d s0).filter
          (fun x => decide (x ∉ d.accept)) = [] then []
        else [(findReachable d s0).filter
          (fun x => decide (x ∉ d.accept))])),
        B = (findReachable d s0).filter (fun x => decide (x ∈ d.accept)) ∨
        B = (findReachable d s0).filter (fun x => decide (x ∉ d.accept)) := by
      intro B hB
      rcases List.mem_append.mp hB with h | h
      · by_cases hA : (findReachable d s0).filter
            (fun x => decide (x ∈ d.accept)) = []
        · rw [if_pos hA] at h
          cases h
        · rw [if_neg hA] at h
          rw [List.mem_singleton] at h
          exact Or.inl h
      · by_cases hN : (findReachable d s0).filter
            (fun x => decide (x ∉ d.accept)) = []
        · rw [if_pos hN] at h
          cases h
        · rw [if_neg hN] at h
          rw [List.mem_singleton] at h
          exact Or.inr h
    intro B1 h1 B2 h2 hne x hx y hy
    have hobs : ∀ u v : String, u ∈ d.accept → v ∉ d.accept →
        ∃ w, dfaObs d u w ≠ dfaObs d v w := by
      intro u v hu hv
      refine ⟨[], ?_⟩
      rw [dfaObs_nil, dfaObs_nil]
      intro hcon
      injection hcon with hcon2
      rw [decide_eq_true hu, decide_eq_false hv] at hcon2
      cases hcon2
    rcases hmemchar B1 h1 with e1 | e1 <;> rcases hmemchar B2 h2 with e2 | e2
    · exact absurd (e1.trans e2.symm) hne
    · rw [e1] at hx
      rw [e2] at hy
      exact hobs x y (of_decide_eq_true (List.mem_filter.mp hx).2)
        (of_decide_eq_true (List.mem_filter.mp hy).2)
    · rw [e1] at hx
      rw [e2] at hy
      obtain ⟨w, hw⟩ := hobs y x
        (of_decide_eq_true (List.mem_filter.mp hy).2)
        (of_decide_eq_true (List.mem_filter.mp hx).2)
      exact ⟨w, fun hcon => hw hcon.symm⟩
    · exact absurd (e1.trans e2.symm) hne
  obtain ⟨hneP, hpermP, hfixP, hsubP⟩ := refineLoop_spec d
    (findReachable d s0) ((findReachable d s0).length + 2) _ hne0 hperm0
    (by omega)
  refine ⟨_, hred, hneP, hpermP, hfixP, ?_, ?_⟩
  · intro B hB x hx y hy
    obtain ⟨B0, hB0, hsub⟩ := hsubP B hB
    rcases (by
      intro B hB2
      rcases List.mem_append.mp hB2 with h | h
      · by_cases hA : (findReachable d s0).filter
            (fun x => decide (x ∈ d.accept)) = []
        · rw [if_pos hA] at h
          cases h
        · rw [if_neg hA] at h
          rw [List.mem_singleton] at h
          exact Or.inl h
      · by_cases hN : (findReachable d s0).filter
            (fun x => decide (x ∉ d.accept)) = []
        · rw [if_pos hN] at h
          cases h
        · rw [if_neg hN] at h
          rw [List.mem_singleton] at h
          exact Or.inr h : ∀ B ∈ ((if (findReachable d s0).filter
          (fun x => decide (x ∈ d.accept)) = [] then []
        else [(findReachable d s0).filter
          (fun x => decide (x ∈ d.accept))]) ++
         (if (findReachable d s0).filter
            (fun x => decide (x ∉ d.accept)) = [] then []
          else [(findReachable d s0).filter
            (fun x => decide (x ∉ d.accept))])),
          B = (findReachable d s0).filter (fun x => decide (x ∈ d.accept)) ∨
          B = (findReachable d s0).filter
            (fun x => decide (x ∉ d.accept))) B0 hB0 with e | e
    · constructor
      · intro _
        have := hsub y hy
        rw [e] at this
        exact of_decide_eq_true (List.mem_filter.mp this).2
      · intro _
        have := hsub x hx
        rw [e] at this
        exact of_decide_eq_true (List.mem_filter.mp this).2
    · constructor
      · intro hxa
        exfalso
        have := hsub x hx
        rw [e] at this
        exact of_decide_eq_true (List.mem_filter.mp this).2 hxa
      · intro hya
        exfalso
        have := hsub y hy
        rw [e] at this
        exact of_decide_eq_true (List.mem_filter.mp this).2 hya
  · exact sep_refineLoop d (findReachable d s0) hnodupR hclosedR
      ((findReachable d s0).length + 2) _ hperm0 hsep0

/-! ## The minimized DFA is itself well-formed enough to minimize -/

theorem smap_form {parts : List (List String)} {x v : String}
    (h : stateMapLookup parts x = some v) :
    ∃ i, i < parts.length ∧ v = "q" ++ toString i := by
  rw [stateMapLookup] at h
  cases hf : parts.findIdx? (fun p => decide (x ∈ p)) with
  | none =>
    rw [hf] at h
    cases h
  | some i =>
    rw [hf] at h
    have h2 : some ("q" ++ toString i : String) = some v := h
    injection h2 with h3
    have hbound : ∀ (l : List (List String)) (j : Nat),
        l.findIdx? (fun p => decide (x ∈ p)) = some j → j < l.length := by
      intro l
      induction l with
      | nil =>
        intro j hj
        cases hj
      | cons C Ps ihl =>
        intro j hj
        simp only [List.findIdx?_cons] at hj
        by_cases hc : x ∈ C
        · rw [if_pos (decide_eq_true hc)] at hj
          injection hj with hj2
          rw [List.length_cons]
          omega
        · rw [if_neg (by simp [hc]), List.findIdx?_succ] at hj
          cases hg : Ps.findIdx? (fun p => decide (x ∈ p)) with
          | none =>
            rw [hg] at hj
            cases hj
          | some j2 =>
            rw [hg] at hj
            have hj2 : some (j2 + 1) = some j := hj
            injection hj2 with hj3
            have := ihl j2 hg
            rw [List.length_cons]
            omega
    exact ⟨i, hbound parts i hf, h3.symm⟩

theorem dfaAddChecked_alpha_mono (d : DFAData) (f t : String) (sym : Char) :
    ∀ c ∈ d.alphabet, c ∈ (dfaAddChecked d f t sym).alphabet := by
  intro c hc
  rw [dfaAddChecked, dfaAddTransition]
  by_cases h : (d.table.lookup (f, sym)).isSome
  · rw [if_pos h]
    exact hc
  · rw [if_neg h]
    show c ∈ if sym = 'ε' then d.alphabet else insertChar d.alphabet sym
    by_cases he : sym = 'ε'
    · rw [if_pos he]
      exact hc
    · rw [if_neg he]
      exact (mem_insertChar _ _).mpr (Or.inl hc)

theorem dfaAddChecked_symwf {d : DFAData} {f t : String} {sym : Char}
    (hwf : ∀ e ∈ d.table, e.1.2 ∈ d.alphabet) (hsym : sym ≠ 'ε') :
    ∀ e ∈ (dfaAddChecked d f t sym).table,
      e.1.2 ∈ (dfaAddChecked d f t sym).alphabet := by
  intro e he
  rcases dfaAddChecked_table d f t sym with h2 | h2
  · rw [h2] at he
    exact dfaAddChecked_alpha_mono d f t sym _ (hwf e he)
  · rw [h2] at he
    rcases List.mem_append.mp he with hold | hnew
    · exact dfaAddChecked_alpha_mono d f t sym _ (hwf e hold)
    · rw [List.mem_singleton] at hnew
      subst hnew
      show sym ∈ (dfaAddChecked d f t sym).alphabet
      cases hp : d.table.lookup (f, sym) with
      | some v =>
        exfalso
        have hdc : dfaAddChecked d f t sym = d := by
          rw [dfaAddChecked, dfaAddTransition, if_pos (by rw [hp]; rfl)]
        rw [hdc] at h2
        have hlen := congrArg List.length h2
        rw [List.length_append, List.length_singleton] at hlen
        omega
      | none =>
        have habs : ¬ (d.table.lookup (f, sym)).isSome := by
          rw [hp]
          simp
        rw [dfaAddChecked, dfaAddTransition, if_neg habs]
        show sym ∈ if sym = 'ε' then d.alphabet else insertChar d.alphabet sym
        rw [if_neg hsym]
        exact (mem_insertChar _ _).mpr (Or.inr rfl)

theorem minimTransInner_symwf (d : DFAData) (parts : List (List String))
    (sample : String) (acc2 : DFAData) (sym : Char) (hsym : sym ≠ 'ε')
    (hwf : ∀ e ∈ acc2.table, e.1.2 ∈ acc2.alphabet) :
    (∀ e ∈ (minimTransInner d parts sample acc2 sym).table,
      e.1.2 ∈ (minimTransInner d parts sample acc2 sym).alphabet) ∧
    (∀ c ∈ acc2.alphabet,
      c ∈ (minimTransInner d parts sample acc2 sym).alphabet) := by
  cases hδ : dfaNext d sample sym with
  | none =>
    have hred : minimTransInner d parts sample acc2 sym = acc2 := by
      rw [minimTransInner, hδ]
    rw [hred]
    exact ⟨hwf, fun c hc => hc⟩
  | some t =>
    cases hsl1 : stateMapLookup parts t with
    | none =>
      cases hsl2 : stateMapLookup parts sample with
      | none =>
        have hred : minimTransInner d parts sample acc2 sym = acc2 := by
          rw [minimTransInner, hδ]
          show (match stateMapLookup parts t, stateMapLookup parts sample with
            | some trep2, some srep2 => dfaAddChecked acc2 srep2 trep2 sym
            | _, _ => acc2) = acc2
          rw [hsl1, hsl2]
        rw [hred]
        exact ⟨hwf, fun c hc => hc⟩
      | some srep =>
        have hred : minimTransInner d parts sample acc2 sym = acc2 := by
          rw [minimTransInner, hδ]
          show (match stateMapLookup parts t, stateMapLookup parts sample with
            | some trep2, some srep2 => dfaAddChecked acc2 srep2 trep2 sym
            | _, _ => acc2) = acc2
          rw [hsl1, hsl2]
        rw [hred]
        exact ⟨hwf, fun c hc => hc⟩
    | some trep =>
      cases hsl2 : stateMapLookup parts sample with
      | none =>
        have hred : minimTransInner d parts sample acc2 sym = acc2 := by
          rw [minimTransInner, hδ]
          show (match stateMapLookup parts t, stateMapLookup parts sample with
            | some trep2, some srep2 => dfaAddChecked acc2 srep2 trep2 sym
            | _, _ => acc2) = acc2
          rw [hsl1, hsl2]
        rw [hred]
        exact ⟨hwf, fun c hc => hc⟩
      | some srep =>
        have hred : minimTransInner d parts sample acc2 sym =
            dfaAddChecked acc2 srep trep sym := by
          rw [minimTransInner, hδ]
          show (match stateMapLookup parts t, stateMapLookup parts sample with
            | some trep2, some srep2 => dfaAddChecked acc2 srep2 trep2 sym
            | _, _ => acc2) = dfaAddChecked acc2 srep trep sym
          rw [hsl1, hsl2]
        rw [hred]
        exact ⟨dfaAddChecked_symwf hwf hsym,
          dfaAddChecked_alpha_mono acc2 srep trep sym⟩

theorem transInnerFold_symwf (d : DFAData) (parts : List (List String))
    (sample : String) :
    ∀ (syms : List Char) (acc2 : DFAData), (∀ c ∈ syms, c ≠ 'ε') →
      (∀ e ∈ acc2.table, e.1.2 ∈ acc2.alphabet) →
      (∀ e ∈ (syms.foldl (minimTransInner d parts sample) acc2).table,
        e.1.2 ∈ (syms.foldl (minimTransInner d parts sample) acc2).alphabet) ∧
      (∀ c ∈ acc2.alphabet,
        c ∈ (syms.foldl (minimTransInner d parts sample) acc2).alphabet) := by
  intro syms
  induction syms with
  | nil =>
    intro acc2 _ hwf
    exact ⟨hwf, fun c hc => hc⟩
  | cons c0 syms ih =>
    intro acc2 hne hwf
    rw [List.foldl_cons]
    obtain ⟨w1, a1⟩ := minimTransInner_symwf d parts sample acc2 c0
      (hne c0 (by simp)) hwf
    obtain ⟨w2, a2⟩ := ih (minimTransInner d parts sample acc2 c0)
      (fun c hc => hne c (List.mem_cons_of_mem _ hc)) w1
    exact ⟨w2, fun c hc => a2 c (a1 c hc)⟩

theorem transFold_symwf (d : DFAData) (parts : List (List String))
    (hne : ∀ c ∈ d.alphabet, c ≠ 'ε') :
    ∀ (l : List (List String)) (acc : DFAData),
      (∀ e ∈ acc.table, e.1.2 ∈ acc.alphabet) →
      (∀ e ∈ (l.foldl (minimTransStep d parts) acc).table,
        e.1.2 ∈ (l.foldl (minimTransStep d parts) acc).alphabet) := by
  intro l
  induction l with
  | nil =>
    intro acc hwf
    exact hwf
  | cons B l ih =>
    intro acc hwf
    rw [List.foldl_cons]
    cases hBval : B with
    | nil =>
      have hred : minimTransStep d parts acc [] = acc := by
        rw [minimTransStep]
      rw [hred]
      exact ih acc hwf
    | cons sample0 rest0 =>
      have hred : minimTransStep d parts acc (sample0 :: rest0) =
          d.alphabet.foldl (minimTransInner d parts sample0) acc := by
        rw [minimTransStep]
      rw [hred]
      obtain ⟨w1, _⟩ := transInnerFold_symwf d parts sample0 d.alphabet acc
        hne hwf
      exact ih _ w1

/-- The minimized DFA keeps every table symbol in its alphabet. -/
theorem minimized_symwf (d : DFAData) (parts : List (List String))
    (origStart : String) (hne : ∀ c ∈ d.alphabet, c ≠ 'ε') :
    ∀ e ∈ (buildMinimized d parts origStart).table,
      e.1.2 ∈ (buildMinimized d parts origStart).alphabet := by
  have hred : buildMinimized d parts origStart =
      parts.foldl (minimTransStep d parts)
        { parts.enum.foldl (minimBaseStep d) emptyDFA with
          start := stateMapLookup parts origStart } := by
    rw [buildMinimized]
  rw [hred]
  refine transFold_symwf d parts hne parts _ ?_
  intro e he
  have henum : parts.enum = List.enumFrom 0 parts := rfl
  obtain ⟨_, b2, _, _, _, _, _⟩ := baseFold_spec d parts 0 emptyDFA
    (by
      intro j _
      constructor
      · intro h
        cases h
      · intro h
        cases h)
  rw [henum] at he
  have he2 : e ∈ (emptyDFA : DFAData).table := by
    rw [← b2]
    exact he
  cases he2

/-! ## Acceptance preservation and state counting of `minimize_dfa` -/

/-- Walk-level quotient simulation: the minimized DFA tracks the block
of the original walk. -/
theorem quotient_walk (d : DFAData) (parts : List (List String))
    (origStart : String)
    (hsymd : ∀ e ∈ d.table, e.1.2 ∈ d.alphabet)
    (hnd : parts.flatten.Nodup)
    (hclosed : ∀ x ∈ parts.flatten, ∀ sym t, dfaNext d x sym = some t →
      t ∈ parts.flatten)
    (hsig : ∀ B ∈ parts, ∀ x ∈ B, ∀ y ∈ B,
      sigOf d parts x = sigOf d parts y) :
    ∀ (w : List Char), ∀ B ∈ parts, ∀ x ∈ B, ∀ srep,
      stateMapLookup parts x = some srep →
      ∀ z, dfaWalk d x w = some z →
        ∃ Bz ∈ parts, z ∈ Bz ∧
          dfaWalk (buildMinimized d parts origStart) srep w =
            stateMapLookup parts z := by
  intro w
  induction w with
  | nil =>
    intro B hB x hx srep hsrep z hz
    have hz2 : some x = some z := hz
    injection hz2 with hz3
    subst hz3
    exact ⟨B, hB, hx, by rw [hsrep]; rfl⟩
  | cons c w ih =>
    intro B hB x hx srep hsrep z hz
    rw [dfaWalk] at hz
    cases hδx : dfaNext d x c with
    | none =>
      rw [hδx] at hz
      have hz2 : (none : Option String) = some z := hz
      cases hz2
    | some tx =>
      rw [hδx] at hz
      have hz2 : dfaWalk d tx w = some z := hz
      cases hBv : B with
      | nil =>
        rw [hBv] at hx
        cases hx
      | cons sample rest =>
        have hsmem : sample ∈ B := by
          rw [hBv]
          exact List.mem_cons_self _ _
        have hsrepS : stateMapLookup parts sample = some srep := by
          rw [stateMapLookup_same_block hnd hB hsmem hx, hsrep]
        have hc : c ∈ d.alphabet := hsymd _ (lookup_mem hδx)
        have hidx := sigOf_point (hsig B hB x hx sample hsmem) c hc
        cases hδs : dfaNext d sample c with
        | none =>
          exfalso
          rw [hδx, hδs] at hidx
          obtain ⟨Bt, hBt, htx⟩ := List.mem_flatten.mp
            (hclosed x (List.mem_flatten.mpr ⟨B, hB, hx⟩) c tx hδx)
          exact partIdx_mem_ne hBt htx (by rw [hidx]; rfl)
        | some ts =>
          have htsF : ts ∈ parts.flatten :=
            hclosed sample (List.mem_flatten.mpr ⟨B, hB, hsmem⟩) c ts hδs
          obtain ⟨Bt, hBt, hts⟩ := List.mem_flatten.mp htsF
          obtain ⟨it, hit, hslt, hgett⟩ :=
            stateMapLookup_found hnd Bt hBt ts hts
          rw [hδx, hδs] at hidx
          have htxBt : tx ∈ Bt :=
            (partIdx_block hnd Bt hBt ts hts tx).mp hidx.symm
          obtain ⟨_, _, _, _, _, bnext⟩ :=
            buildMinimized_spec d parts origStart hnd
          have hq : dfaNext (buildMinimized d parts origStart) srep c =
              some ("q" ++ toString it) :=
            bnext B hB sample rest hBv srep hsrepS c ts _ hδs hslt hc
          have hsltx : stateMapLookup parts tx = some ("q" ++ toString it) := by
            rw [stateMapLookup_same_block hnd hBt htxBt hts, hslt]
          obtain ⟨Bz, hBz, hzB, hwalk⟩ := ih Bt hBt tx htxBt _ hsltx z hz2
          refine ⟨Bz, hBz, hzB, ?_⟩
          rw [dfaWalk_cons _ _ _ _ _ hq]
          exact hwalk

/-- `minimize_dfa` preserves the accepted language. -/
theorem minimizeDfa_accepts (d : DFAData) (s0 : String)
    (hstart : d.start = some s0)
    (hsymd : ∀ e ∈ d.table, e.1.2 ∈ d.alphabet) :
    ∀ w, dfaAccepts (minimizeDfa d) w = dfaAccepts d w := by
  obtain ⟨P, heq, hneP, hpermP, hfixP, haccP, hsepP⟩ :=
    minimizeDfa_parts d s0 hstart hsymd
  obtain ⟨hs0R, hnodupR, hsoundR, hclosedR, hsubV⟩ :=
    findReachable_spec d s0 hsymd
  have hndP : P.flatten.Nodup := hpermP.nodup_iff.mpr hnodupR
  have hclosedP : ∀ x ∈ P.flatten, ∀ sym t, dfaNext d x sym = some t →
      t ∈ P.flatten := fun x hx sym t ht =>
    hpermP.mem_iff.mpr (hclosedR x (hpermP.mem_iff.mp hx) sym t ht)
  have hsigP := refinePass_false_uniform d P hfixP
  have hs0F : s0 ∈ P.flatten := hpermP.mem_iff.mpr hs0R
  obtain ⟨B0, hB0, hs0B⟩ := List.mem_flatten.mp hs0F
  obtain ⟨i0, hi0, hsl0, hget0⟩ := stateMapLookup_found hndP B0 hB0 s0 hs0B
  obtain ⟨bstart, _, _, _, _, _⟩ := buildMinimized_spec d P s0 hndP
  intro w
  have hstart2 : (buildMinimized d P s0).start =
      some ("q" ++ toString i0) := by
    rw [bstart, hsl0]
  have hred1 : dfaAccepts (buildMinimized d P s0) w =
      dfaAcceptsFrom (buildMinimized d P s0) ("q" ++ toString i0) w := by
    rw [dfaAccepts, hstart2]
  have hred2 : dfaAccepts d w = dfaAcceptsFrom d s0 w := by
    rw [dfaAccepts, hstart]
  rw [heq, hred1, hred2]
  have hobs := quotient_obs d P s0 hsymd hndP hclosedP haccP hsigP w
    B0 hB0 s0 hs0B _ hsl0
  have h1 := dfaAcceptsFrom_iff_obs (buildMinimized d P s0) w
    ("q" ++ toString i0)
  have h2 := dfaAcceptsFrom_iff_obs d w s0
  cases hb1 : dfaAcceptsFrom (buildMinimized d P s0)
      ("q" ++ toString i0) w <;>
    cases hb2 : dfaAcceptsFrom d s0 w
  · rfl
  · exfalso
    have ho2 := h2.mp hb2
    rw [← hobs] at ho2
    have := h1.mpr ho2
    rw [hb1] at this
    cases this
  · exfalso
    have ho1 := h1.mp hb1
    rw [hobs] at ho1
    have := h2.mpr ho1
    rw [hb2] at this
    cases this
  · rfl

theorem blocks_nodup {P : List (List String)} (hnd : P.flatten.Nodup) :
    ∀ B ∈ P, B.Nodup := by
  induction P with
  | nil => intro B hB; cases hB
  | cons C Ps ih =>
    rw [List.flatten_cons, List.nodup_append] at hnd
    intro B hB
    rcases List.mem_cons.mp hB with h | h
    · exact h ▸ hnd.1
    · exact ih hnd.2.1 B h

theorem singleton_flatten_length {P : List (List String)}
    (h : ∀ B ∈ P, ∃ a, B = [a]) : P.flatten.length = P.length := by
  induction P with
  | nil => rfl
  | cons C Ps ih =>
    rw [List.flatten_cons, List.length_append, List.length_cons]
    obtain ⟨a, ha⟩ := h C (by simp)
    rw [ha, List.length_singleton,
      ih (fun B hB => h B (List.mem_cons_of_mem _ hB))]
    omega

/-- Minimization never increases the state count. -/
theorem minimize_count_le (d : DFAData) (s0 : String)
    (hwf : DFAWf d) (hstart : d.start = some s0) :
    dfaStateCount (minimizeDfa d) ≤ dfaStateCount d := by
  have hsymd := hwf.symMem
  obtain ⟨P, heq, hneP, hpermP, _, _, _⟩ := minimizeDfa_parts d s0 hstart hsymd
  obtain ⟨hs0R, hnodupR, _, _, hsubV⟩ := findReachable_spec d s0 hsymd
  have hndP : P.flatten.Nodup := hpermP.nodup_iff.mpr hnodupR
  rw [heq, buildMinimized_count d P s0 hndP]
  have h1 : P.length ≤ P.flatten.length := parts_length_le_flatten P hneP
  have h2 : P.flatten.length = (findReachable d s0).length := hpermP.length_eq
  have hsub : ∀ x ∈ findReachable d s0, x ∈ d.states.map Prod.fst := by
    intro x hx
    have hV := hsubV x hx
    rw [dfaTargets, List.mem_dedup] at hV
    rcases List.mem_cons.mp hV with h | h
    · exact h ▸ hwf.startMem s0 hstart
    · obtain ⟨e, he, hee⟩ := List.mem_map.mp h
      exact hee ▸ hwf.tgtMem e he
  have h3 : (findReachable d s0).length ≤
      (d.states.map Prod.fst).length := (hnodupR.subperm hsub).length_le
  rw [List.length_map] at h3
  rw [dfaStateCount]
  omega

/-- Each index of a partition of non-empty blocks owns a state whose
block name is that index. -/
theorem rep_of_get {parts : List (List String)} (hnd : parts.flatten.Nodup)
    (hne : ∀ B ∈ parts, B ≠ []) (i : Nat) (hi : i < parts.length) :
    ∃ x ∈ parts.get ⟨i, hi⟩,
      stateMapLookup parts x = some ("q" ++ toString i) := by
  have hBi : parts.get ⟨i, hi⟩ ∈ parts := List.get_mem parts i hi
  have hBne := hne _ hBi
  cases hBv : parts.get ⟨i, hi⟩ with
  | nil => exact absurd hBv hBne
  | cons xh rest =>
    have hxB : xh ∈ parts.get ⟨i, hi⟩ := by
      rw [hBv]
      exact List.mem_cons_self _ _
    obtain ⟨i2, hi2, hsl2, hget2⟩ := stateMapLookup_found hnd _ hBi xh hxB
    have hii : i2 = i := parts_get_inj hnd i2 i hi2 hi hget2
      (by rw [hget2]; exact hBne)
    rw [hii] at hsl2
    exact ⟨xh, List.mem_cons_self _ _, hsl2⟩

/-- Minimization is idempotent on the state count: running
`minimize_dfa` a second time keeps every block of the first run intact,
because distinct first-run blocks are observationally separated and the
quotient preserves observations. -/
theorem minimize_idem (d : DFAData) (s0 : String) (hwf : DFAWf d)
    (hstart : d.start = some s0) :
    dfaStateCount (minimizeDfa (minimizeDfa d)) =
      dfaStateCount (minimizeDfa d) := by
  have hsymd := hwf.symMem
  obtain ⟨P, heq, hneP, hpermP, hfixP, haccP, hsepP⟩ :=
    minimizeDfa_parts d s0 hstart hsymd
  obtain ⟨hs0R, hnodupR, hsoundR, hclosedR, hsubV⟩ :=
    findReachable_spec d s0 hsymd
  have hndP : P.flatten.Nodup := hpermP.nodup_iff.mpr hnodupR
  have hclosedP : ∀ x ∈ P.flatten, ∀ sym t, dfaNext d x sym = some t →
      t ∈ P.flatten := fun x hx sym t ht =>
    hpermP.mem_iff.mpr (hclosedR x (hpermP.mem_iff.mp hx) sym t ht)
  have hsigP := refinePass_false_uniform d P hfixP
  have hs0F : s0 ∈ P.flatten := hpermP.mem_iff.mpr hs0R
  obtain ⟨B0, hB0, hs0B⟩ := List.mem_flatten.mp hs0F
  obtain ⟨i0, hi0, hsl0, hget0⟩ := stateMapLookup_found hndP B0 hB0 s0 hs0B
  obtain ⟨bstart, bkeys, bacc, baccrev, bsound, bnext⟩ :=
    buildMinimized_spec d P s0 hndP
  have hstart2 : (minimizeDfa d).start = some ("q" ++ toString i0) := by
    rw [heq, bstart, hsl0]
  have hepsAl : ∀ c ∈ d.alphabet, c ≠ 'ε' :=
    fun c hc he => hwf.noEps (he ▸ hc)
  have hsymd2 : ∀ e ∈ (minimizeDfa d).table,
      e.1.2 ∈ (minimizeDfa d).alphabet := by
    rw [heq]
    exact minimized_symwf d P s0 hepsAl
  obtain ⟨P2, heq2, hneP2, hpermP2, hfixP2, haccP2, hsepP2⟩ :=
    minimizeDfa_parts (minimizeDfa d) ("q" ++ toString i0) hstart2 hsymd2
  obtain ⟨hs0R2, hnodupR2, hsoundR2, hclosedR2, hsubV2⟩ :=
    findReachable_spec (minimizeDfa d) ("q" ++ toString i0) hsymd2
  have hndP2 : P2.flatten.Nodup := hpermP2.nodup_iff.mpr hnodupR2
  have hclosedP2 : ∀ x ∈ P2.flatten, ∀ sym t,
      dfaNext (minimizeDfa d) x sym = some t → t ∈ P2.flatten :=
    fun x hx sym t ht =>
      hpermP2.mem_iff.mpr (hclosedR2 x (hpermP2.mem_iff.mp hx) sym t ht)
  have hsigP2 := refinePass_false_uniform (minimizeDfa d) P2 hfixP2
  have hrepform : ∀ x ∈ findReachable (minimizeDfa d) ("q" ++ toString i0),
      ∃ i, i < P.length ∧ x = "q" ++ toString i := by
    intro x hx
    have hV := hsubV2 x hx
    rw [dfaTargets, List.mem_dedup] at hV
    rcases List.mem_cons.mp hV with h | h
    · exact ⟨i0, hi0, h⟩
    · obtain ⟨e, he, hee⟩ := List.mem_map.mp h
      rw [heq] at he
      obtain ⟨B2, hB2, sample2, rest2, hBeq2, hsrep2, t2, ht2, htrep2⟩ :=
        bsound e he
      obtain ⟨i, hiL, hform⟩ := smap_form htrep2
      exact ⟨i, hiL, by rw [← hee, hform]⟩
  have hwalkQ := quotient_walk d P s0 hsymd hndP hclosedP hsigP
  have hrepreach : ∀ i, i < P.length →
      ("q" ++ toString i) ∈
        findReachable (minimizeDfa d) ("q" ++ toString i0) := by
    intro i hi
    obtain ⟨xh, hxB, hsl⟩ := rep_of_get hndP hneP i hi
    have hxR : xh ∈ findReachable d s0 :=
      hpermP.mem_iff.mp
        (List.mem_flatten.mpr ⟨_, List.get_mem P i hi, hxB⟩)
    obtain ⟨w, hw⟩ := hsoundR xh hxR
    obtain ⟨Bz, hBz, hzB, hwalk⟩ :=
      hwalkQ w B0 hB0 s0 hs0B _ hsl0 xh hw
    have hreach : dfaReach (minimizeDfa d) ("q" ++ toString i0)
        ("q" ++ toString i) := ⟨w, by rw [heq, hwalk, hsl]⟩
    exact findReachable_complete (minimizeDfa d) _ hsymd2 _ hreach
  have hlen2 : (findReachable (minimizeDfa d)
      ("q" ++ toString i0)).length = P.length := by
    have hrepsnodup : ((List.range P.length).map
        (fun i => ("q" ++ toString i : String))).Nodup :=
      List.Nodup.map (fun a b hab => repName_inj hab)
        (List.nodup_range P.length)
    have hsub1 : findReachable (minimizeDfa d) ("q" ++ toString i0) ⊆
        (List.range P.length).map
          (fun i => ("q" ++ toString i : String)) := by
      intro x hx
      obtain ⟨i, hi, hform⟩ := hrepform x hx
      exact List.mem_map.mpr ⟨i, List.mem_range.mpr hi, hform.symm⟩
    have hsub2 : (List.range P.length).map
        (fun i => ("q" ++ toString i : String)) ⊆
        findReachable (minimizeDfa d) ("q" ++ toString i0) := by
      intro x hx
      obtain ⟨i, hir, hxe⟩ := List.mem_map.mp hx
      exact hxe ▸ hrepreach i (List.mem_range.mp hir)
    have hperm := (hnodupR2.subperm hsub1).antisymm
      (hrepsnodup.subperm hsub2)
    rw [hperm.length_eq, List.length_map, List.length_range]
  have hdiffobs : ∀ i j, ∀ hi : i < P.length, ∀ hj : j < P.length, i ≠ j →
      ∃ w, dfaObs (minimizeDfa d) ("q" ++ toString i) w ≠
        dfaObs (minimizeDfa d) ("q" ++ toString j) w := by
    intro i j hi hj hij
    obtain ⟨xi, hxiB, hsli⟩ := rep_of_get hndP hneP i hi
    obtain ⟨xj, hxjB, hslj⟩ := rep_of_get hndP hneP j hj
    have hBimem : P.get ⟨i, hi⟩ ∈ P := List.get_mem P i hi
    have hBjmem : P.get ⟨j, hj⟩ ∈ P := List.get_mem P j hj
    have hBne : P.get ⟨i, hi⟩ ≠ P.get ⟨j, hj⟩ := by
      intro he
      exact hij (parts_get_inj hndP i j hi hj he (hneP _ hBimem))
    obtain ⟨w, hw⟩ := hsepP _ hBimem _ hBjmem hBne xi hxiB xj hxjB
    refine ⟨w, ?_⟩
    have hq1 := quotient_obs d P s0 hsymd hndP hclosedP haccP hsigP w
      _ hBimem xi hxiB _ hsli
    have hq2 := quotient_obs d P s0 hsymd hndP hclosedP haccP hsigP w
      _ hBjmem xj hxjB _ hslj
    rw [heq, hq1, hq2]
    exact hw
  have hstable := fixpoint_obs (minimizeDfa d) P2 hsymd2 hndP2 hclosedP2
    haccP2 hsigP2
  have hsing : ∀ B ∈ P2, ∃ a, B = [a] := by
    intro B hB
    have hnodB := blocks_nodup hndP2 B hB
    cases B with
    | nil => exact absurd rfl (hneP2 _ hB)
    | cons a rest =>
      cases rest with
      | nil => exact ⟨a, rfl⟩
      | cons b rest2 =>
        exfalso
        have hab : a ≠ b := by
          have h1 := List.nodup_cons.mp hnodB
          intro he
          exact h1.1 (he ▸ List.mem_cons_self _ _)
        have haR : a ∈ findReachable (minimizeDfa d)
            ("q" ++ toString i0) :=
          hpermP2.mem_iff.mp
            (List.mem_flatten.mpr ⟨_, hB, List.mem_cons_self _ _⟩)
        have hbR : b ∈ findReachable (minimizeDfa d)
            ("q" ++ toString i0) :=
          hpermP2.mem_iff.mp (List.mem_flatten.mpr
            ⟨_, hB, List.mem_cons_of_mem _ (List.mem_cons_self _ _)⟩)
        obtain ⟨i, hi, hai⟩ := hrepform a haR
        obtain ⟨j, hj, hbj⟩ := hrepform b hbR
        have hij : i ≠ j := fun he => hab (by rw [hai, hbj, he])
        obtain ⟨w, hw⟩ := hdiffobs i j hi hj hij
        have heqobs := hstable w _ hB a (List.mem_cons_self _ _) b
          (List.mem_cons_of_mem _ (List.mem_cons_self _ _))
        rw [← hai, ← hbj] at hw
        exact hw heqobs
  have hcL : dfaStateCount (minimizeDfa (minimizeDfa d)) = P2.length := by
    rw [heq2]
    exact buildMinimized_count _ _ _ hndP2
  have hcR : dfaStateCount (minimizeDfa d) = P.length := by
    rw [heq]
    exact buildMinimized_count _ _ _ hndP
  have hflat2 : P2.flatten.length = P2.length :=
    singleton_flatten_length hsing
  rw [hcL, hcR, ← hflat2, hpermP2.length_eq, hlen2]

/-- C3: for every well-formed DFA whose states are all reachable from
its start state, `minimize_dfa` never increases the state count, and it
is idempotent: minimizing a second time keeps the state count of the
first minimization. -/
theorem claim_C3 (d : DFAData) (s0 : String) (hwf : DFAWf d)
    (hstart : d.start = some s0)
    (_hreach : ∀ x ∈ d.states.map Prod.fst, dfaReach d s0 x) :
    dfaStateCount (minimizeDfa d) ≤ dfaStateCount d ∧
    dfaStateCount (minimizeDfa (minimizeDfa d)) =
      dfaStateCount (minimizeDfa d) :=
  ⟨minimize_count_le d s0 hwf hstart, minimize_idem d s0 hwf hstart⟩

theorem claim_C3_witness :
    dfaStateCount (minimizeDfa exDFA8) ≤ dfaStateCount exDFA8 ∧
    dfaStateCount (minimizeDfa (minimizeDfa exDFA8)) =
      dfaStateCount (minimizeDfa exDFA8) :=
  claim_C3 exDFA8 "s"
    { startMem := by
        intro s hs
        injection hs with hs2
        rw [← hs2]
        decide
      srcMem := by decide
      tgtMem := by decide
      symMem := by decide
      noEps := by decide }
    rfl
    (by
      intro x hx
      have hx2 : x = "s" ∨ x = "t" := by
        rcases List.mem_cons.mp hx with h | h
        · exact Or.inl h
        · rcases List.mem_cons.mp h with h2 | h2
          · exact Or.inr h2
          · cases h2
      rcases hx2 with h | h
      · exact ⟨[], by rw [h]; decide⟩
      · exact ⟨['x'], by rw [h]; decide⟩)

/-! ## Epsilon-closure worklists (src/models/nfa.py `epsilon_closure`,
src/algorithms/subset_construction.py `epsilon_closure`) -/

theorem popSide_none {l : List String} {front : Bool}
    (h : popSide front l = none) : l = [] := by
  cases front
  · exact popSide_false_none h
  · cases l with
    | nil => rfl
    | cons x xs =>
      rw [popSide, if_pos rfl] at h
      cases h

theorem popSide_perm {l : List String} {front : Bool} {x : String}
    {l1 : List String} (h : popSide front l = some (x, l1)) :
    l.Perm (x :: l1) := by
  cases front
  · rw [popSide_false_eq h]
    exact List.perm_append_singleton x l1
  · cases l with
    | nil => cases h
    | cons y ys =>
      rw [popSide, if_pos rfl] at h
      injection h with h2
      injection h2 with ha hb
      rw [ha, hb]

/-- One `closAdd` pass: every successor not yet in the closure enters
both closure and worklist; the measure `|work| + 2·|unseen|` does not
increase. -/
theorem closAdd_spec (U : List String) (hndU : U.Nodup) :
    ∀ (ts clos work : List String), clos.Nodup →
      (∀ x ∈ work, x ∈ clos) →
      (∀ y ∈ ts, y ∈ U) →
      (closAdd clos work ts).1.Nodup ∧
      (∀ x ∈ clos, x ∈ (closAdd clos work ts).1) ∧
      (∀ x ∈ (closAdd clos work ts).2, x ∈ (closAdd clos work ts).1) ∧
      (∀ x ∈ work, x ∈ (closAdd clos work ts).2) ∧
      (∀ y ∈ ts, y ∈ (closAdd clos work ts).1) ∧
      (∀ x ∈ (closAdd clos work ts).1, x ∈ clos ∨ x ∈ ts) ∧
      (∀ x ∈ (closAdd clos work ts).1, x ∉ clos →
        x ∈ (closAdd clos work ts).2) ∧
      ((closAdd clos work ts).2.length +
        2 * ((U.filter
          (fun v => decide (v ∉ (closAdd clos work ts).1))).length) ≤
       work.length +
        2 * ((U.filter (fun v => decide (v ∉ clos))).length)) := by
  intro ts
  induction ts with
  | nil =>
    intro clos work hnd hwc hts
    rw [closAdd]
    exact ⟨hnd, fun x hx => hx, fun x hx => hwc x hx, fun x hx => hx,
      fun y hy => absurd hy (List.not_mem_nil y),
      fun x hx => Or.inl hx, fun x hx hnc => absurd hx hnc, le_refl _⟩
  | cons t ts ih =>
    intro clos work hnd hwc hts
    by_cases htc : t ∈ clos
    · rw [closAdd, if_pos htc]
      obtain ⟨c1, c2, c3, c4, c5, c6, c7, c8⟩ := ih clos work hnd hwc
        (fun y hy => hts y (List.mem_cons_of_mem _ hy))
      refine ⟨c1, c2, c3, c4, ?_, ?_, c7, c8⟩
      · intro y hy
        rcases List.mem_cons.mp hy with h | h
        · exact h ▸ c2 t htc
        · exact c5 y h
      · intro x hx
        rcases c6 x hx with h | h
        · exact Or.inl h
        · exact Or.inr (List.mem_cons_of_mem _ h)
    · rw [closAdd, if_neg htc]
      have hnd2 : (clos ++ [t]).Nodup := by
        rw [List.nodup_append]
        exact ⟨hnd, List.nodup_singleton t, by
          intro a ha hb
          rw [List.mem_singleton] at hb
          exact htc (hb ▸ ha)⟩
      have hwc2 : ∀ x ∈ work ++ [t], x ∈ clos ++ [t] := by
        intro x hx
        rcases List.mem_append.mp hx with h | h
        · exact List.mem_append_left _ (hwc x h)
        · exact List.mem_append_right _ h
      obtain ⟨c1, c2, c3, c4, c5, c6, c7, c8⟩ := ih (clos ++ [t])
        (work ++ [t]) hnd2 hwc2
        (fun y hy => hts y (List.mem_cons_of_mem _ hy))
      have htm : t ∈ (closAdd (clos ++ [t]) (work ++ [t]) ts).1 :=
        c2 t (List.mem_append_right _ (List.mem_singleton_self t))
      refine ⟨c1, ?_, c3, ?_, ?_, ?_, ?_, ?_⟩
      · intro x hx
        exact c2 x (List.mem_append_left _ hx)
      · intro x hx
        exact c4 x (List.mem_append_left _ hx)
      · intro y hy
        rcases List.mem_cons.mp hy with h | h
        · exact h ▸ htm
        · exact c5 y h
      · intro x hx
        rcases c6 x hx with h | h
        · rcases List.mem_append.mp h with h2 | h2
          · exact Or.inl h2
          · rw [List.mem_singleton] at h2
            exact Or.inr (h2 ▸ List.mem_cons_self _ _)
        · exact Or.inr (List.mem_cons_of_mem _ h)
      · intro x hx hnc
        by_cases hxt : x = t
        · subst hxt
          exact c4 x (List.mem_append_right _ (List.mem_singleton_self x))
        · refine c7 x hx ?_
          intro hx2
          rcases List.mem_append.mp hx2 with h | h
          · exact hnc h
          · rw [List.mem_singleton] at h
            exact hxt h
      · have hdrop := unseen_drop hndU (hts t (List.mem_cons_self _ _)) htc
        rw [List.length_append, List.length_singleton] at c8
        omega

/-- The closure worklist, with enough fuel, returns a superset of the
initial closure whose members are all `FnReach`-reachable and which is
closed under the successor function. -/
theorem closureLoop_spec (ets : String → List String) (front : Bool)
    (U : List String) (hndU : U.Nodup)
    (hU : ∀ x, ∀ y ∈ ets x, y ∈ U) (S0 : List String) :
    ∀ fuel clos work, clos.Nodup →
      (∀ x ∈ work, x ∈ clos) →
      (∀ x ∈ clos, FnReach ets S0 x) →
      (∀ x ∈ clos, x ∉ work → ∀ y ∈ ets x, y ∈ clos) →
      work.length + 2 * ((U.filter (fun v => decide (v ∉ clos))).length) <
        fuel →
      (∀ x ∈ clos, x ∈ closureLoop ets front fuel clos work) ∧
      (∀ x ∈ closureLoop ets front fuel clos work, FnReach ets S0 x) ∧
      (∀ x ∈ closureLoop ets front fuel clos work, ∀ y ∈ ets x,
        y ∈ closureLoop ets front fuel clos work) := by
  intro fuel
  induction fuel with
  | zero =>
    intro clos work _ _ _ _ hfuel
    omega
  | succ fuel ih =>
    intro clos work hnd hwc hsound hproc hfuel
    rw [closureLoop]
    cases hpop : popSide front work with
    | none =>
      have hwnil := popSide_none hpop
      subst hwnil
      exact ⟨fun x hx => hx, hsound,
        fun x hx => hproc x hx (List.not_mem_nil x)⟩
    | some p =>
      obtain ⟨s, work1⟩ := p
      have hperm := popSide_perm hpop
      have hsw : s ∈ work := hperm.mem_iff.mpr (List.mem_cons_self _ _)
      have hsc : s ∈ clos := hwc s hsw
      obtain ⟨c1, c2, c3, c4, c5, c6, c7, c8⟩ := closAdd_spec U hndU
        (ets s) clos work1 hnd
        (fun x hx => hwc x (hperm.mem_iff.mpr (List.mem_cons_of_mem _ hx)))
        (hU s)
      have hfuel2 : (closAdd clos work1 (ets s)).2.length +
          2 * ((U.filter (fun v =>
            decide (v ∉ (closAdd clos work1 (ets s)).1))).length) < fuel := by
        have hlw : work.length = work1.length + 1 := by
          rw [hperm.length_eq, List.length_cons]
        omega
      have hproc2 : ∀ x ∈ (closAdd clos work1 (ets s)).1,
          x ∉ (closAdd clos work1 (ets s)).2 → ∀ y ∈ ets x,
            y ∈ (closAdd clos work1 (ets s)).1 := by
        intro x hx hnx y hy
        by_cases hxc : x ∈ clos
        · by_cases hxs : x = s
          · exact c5 y (hxs ▸ hy)
          · have hxnw : x ∉ work := by
              intro hxw
              rcases List.mem_cons.mp (hperm.mem_iff.mp hxw) with h | h
              · exact hxs h
              · exact hnx (c4 x h)
            exact c2 y (hproc x hxc hxnw y hy)
        · exact absurd (c7 x hx hxc) hnx
      have hsound2 : ∀ x ∈ (closAdd clos work1 (ets s)).1,
          FnReach ets S0 x := by
        intro x hx
        rcases c6 x hx with h | h
        · exact hsound x h
        · exact FnReach.step (hsound s hsc) h
      obtain ⟨i1, i2, i3⟩ := ih (closAdd clos work1 (ets s)).1
        (closAdd clos work1 (ets s)).2 c1 c3 hsound2 hproc2 hfuel2
      exact ⟨fun x hx => i1 x (c2 x hx), i2, i3⟩

/-- `epsilon_closure` (either worklist variant) contains its input, its
members are epsilon-reachable from the input, and it is closed under
epsilon successors. -/
theorem epsClosure_spec (m : NFAData) (front : Bool) (S : List String) :
    (∀ x ∈ S, x ∈ epsClosure m front S) ∧
    (∀ x ∈ epsClosure m front S, FnReach (fun s => nfaNext m s 'ε') S x) ∧
    (∀ x ∈ epsClosure m front S, ∀ y ∈ nfaNext m x 'ε',
      y ∈ epsClosure m front S) := by
  have hndU : ((S ++ m.etrans.map (fun e => e.2)).dedup).Nodup :=
    List.nodup_dedup _
  have hU : ∀ x, ∀ y ∈ nfaNext m x 'ε',
      y ∈ (S ++ m.etrans.map (fun e => e.2)).dedup := by
    intro x y hy
    rw [nfaNext] at hy
    obtain ⟨e, he, hcond⟩ := List.mem_filterMap.mp hy
    rw [List.mem_dedup, List.mem_append]
    by_cases hc : e.1.1 = x ∧ e.1.2 = 'ε'
    · rw [if_pos hc] at hcond
      injection hcond with h2
      exact Or.inr (h2 ▸ List.mem_map.mpr ⟨e, he, rfl⟩)
    · rw [if_neg hc] at hcond
      cases hcond
  have hfuel : S.dedup.length + 2 * (((S ++ m.etrans.map
      (fun e => e.2)).dedup.filter
        (fun v => decide (v ∉ S.dedup))).length) < closureFuel m S := by
    have hle : ((S ++ m.etrans.map (fun e => e.2)).dedup.filter
        (fun v => decide (v ∉ S.dedup))).length ≤
        (S ++ m.etrans.map (fun e => e.2)).dedup.length :=
      List.length_filter_le _ _
    rw [closureFuel]
    omega
  obtain ⟨h1, h2, h3⟩ := closureLoop_spec
    (fun s => nfaNext m s 'ε') front _ hndU hU S (closureFuel m S)
    S.dedup S.dedup (List.nodup_dedup S) (fun x hx => hx)
    (fun x hx => FnReach.base (List.mem_dedup.mp hx))
    (fun x hx hnx => absurd hx hnx) hfuel
  exact ⟨fun x hx => h1 x (List.mem_dedup.mpr hx), h2, h3⟩

/-- Completeness of `epsilon_closure`: every epsilon-reachable state is
in the computed closure. -/
theorem epsClosure_complete (m : NFAData) (front : Bool) (S : List String) :
    ∀ x, FnReach (fun s => nfaNext m s 'ε') S x →
      x ∈ epsClosure m front S := by
  obtain ⟨h1, _, h3⟩ := epsClosure_spec m front S
  intro x hx
  induction hx with
  | base h => exact h1 _ h
  | step _ hy ihx => exact h3 _ ihx _ hy

/-- Membership in `epsilon_closure` is exactly epsilon-reachability,
for either worklist variant. -/
theorem epsClosure_iff (m : NFAData) (front : Bool) (S : List String)
    (x : String) :
    x ∈ epsClosure m front S ↔ FnReach (fun s => nfaNext m s 'ε') S x :=
  ⟨(epsClosure_spec m front S).2.1 x, epsClosure_complete m front S x⟩

/-! ## Reachability algebra for epsilon closures -/

theorem FnReach_mono {ets : String → List String} {S S2 : List String}
    (h : ∀ s ∈ S, s ∈ S2) {x : String} (hx : FnReach ets S x) :
    FnReach ets S2 x := by
  induction hx with
  | base hb => exact FnReach.base (h _ hb)
  | step _ hy ihx => exact FnReach.step ihx hy

theorem FnReach_congr {ets : String → List String} {S S2 : List String}
    (h : ∀ a, a ∈ S ↔ a ∈ S2) (x : String) :
    FnReach ets S x ↔ FnReach ets S2 x :=
  ⟨FnReach_mono (fun s hs => (h s).mp hs),
   FnReach_mono (fun s hs => (h s).mpr hs)⟩

theorem FnReach_split {ets : String → List String} {S : List String}
    {x : String} :
    FnReach ets S x ↔ ∃ s ∈ S, FnReach ets [s] x := by
  constructor
  · intro hx
    induction hx with
    | base hb => exact ⟨_, hb, FnReach.base (List.mem_singleton_self _)⟩
    | step _ hy ihx =>
      obtain ⟨s, hs, hr⟩ := ihx
      exact ⟨s, hs, FnReach.step hr hy⟩
  · intro ⟨s, hs, hr⟩
    exact FnReach_mono (fun a ha => by
      rw [List.mem_singleton] at ha
      exact ha ▸ hs) hr

theorem FnReach_trans {ets : String → List String} {S S2 : List String}
    (h : ∀ s ∈ S, FnReach ets S2 s) {x : String}
    (hx : FnReach ets S x) : FnReach ets S2 x := by
  induction hx with
  | base hb => exact h _ hb
  | step _ hy ihx => exact FnReach.step ihx hy

theorem FnReach_nil {ets : String → List String} {x : String} :
    ¬ FnReach ets [] x := by
  intro hx
  induction hx with
  | base hb => exact absurd hb (List.not_mem_nil _)
  | step _ _ ihx => exact ihx

theorem mem_nfaNext {m : NFAData} {s : String} {sym : Char} {t : String} :
    t ∈ nfaNext m s sym ↔ ((s, sym), t) ∈ m.etrans := by
  rw [nfaNext, List.mem_filterMap]
  constructor
  · intro ⟨e, he, hcond⟩
    by_cases hc : e.1.1 = s ∧ e.1.2 = sym
    · rw [if_pos hc] at hcond
      injection hcond with h2
      have he2 : e = ((s, sym), t) := by
        obtain ⟨⟨f, sy⟩, u⟩ := e
        obtain ⟨hc1, hc2⟩ := hc
        simp only at hc1 hc2 h2
        rw [hc1, hc2, h2]
      exact he2 ▸ he
    · rw [if_neg hc] at hcond
      cases hcond
  · intro he
    exact ⟨((s, sym), t), he, by rw [if_pos ⟨rfl, rfl⟩]⟩

theorem mem_nfaStepSet {m : NFAData} {cur : List String} {c : Char}
    {t : String} :
    t ∈ nfaStepSet m cur c ↔ ∃ q ∈ cur, t ∈ nfaNext m q c := by
  rw [nfaStepSet, List.mem_dedup, List.mem_flatMap]

theorem nfaSetSucc_eq_stepSet (m : NFAData) (S : List String) (c : Char) :
    nfaSetSucc m S c = nfaStepSet m S c := rfl

theorem bool_eq_of_iff {a b : Bool} (h : a = true ↔ b = true) : a = b := by
  cases a <;> cases b <;> simp_all

/-- Epsilon closures of member-equal seed sets have the same members. -/
theorem epsClosure_congr {m : NFAData} {f1 f2 : Bool} {S S2 : List String}
    (h : ∀ a, a ∈ S ↔ a ∈ S2) (x : String) :
    x ∈ epsClosure m f1 S ↔ x ∈ epsClosure m f2 S2 := by
  rw [epsClosure_iff, epsClosure_iff]
  exact FnReach_congr h x

/-! ## Epsilon elimination: characterizing `epsilon_nfa_to_nfa` -/

theorem addTransFold_spec (s : String) (sym : Char) :
    ∀ (L : List String) (nfa : NFAData),
      (L.foldl (fun acc tgt => addTransN acc s tgt sym) nfa).states =
        nfa.states ∧
      (L.foldl (fun acc tgt => addTransN acc s tgt sym) nfa).start =
        nfa.start ∧
      (L.foldl (fun acc tgt => addTransN acc s tgt sym) nfa).accept =
        nfa.accept ∧
      (L.foldl (fun acc tgt => addTransN acc s tgt sym) nfa).etrans =
        nfa.etrans ++ L.map (fun tgt => ((s, sym), tgt)) := by
  intro L
  induction L with
  | nil =>
    intro nfa
    exact ⟨rfl, rfl, rfl, by rw [List.map_nil, List.append_nil]; rfl⟩
  | cons t L ih =>
    intro nfa
    rw [List.foldl_cons]
    obtain ⟨h1, h2, h3, h4⟩ := ih (addTransN nfa s t sym)
    refine ⟨h1, h2, h3, ?_⟩
    rw [h4, addTransN, List.map_cons]
    simp

theorem elimSymbolTrans_spec (E nfa : NFAData) (s : String)
    (ec : List String) (sym : Char) :
    (elimSymbolTrans E nfa s ec sym).states = nfa.states ∧
    (elimSymbolTrans E nfa s ec sym).start = nfa.start ∧
    (elimSymbolTrans E nfa s ec sym).accept = nfa.accept ∧
    (∀ f sy t, ((f, sy), t) ∈ (elimSymbolTrans E nfa s ec sym).etrans ↔
      (((f, sy), t) ∈ nfa.etrans ∨
        (f = s ∧ sy = sym ∧ sym ≠ 'ε' ∧
          t ∈ epsClosure E false (nfaSetSucc E ec sym)))) := by
  by_cases he : sym = 'ε'
  · rw [elimSymbolTrans, if_pos he]
    refine ⟨rfl, rfl, rfl, ?_⟩
    intro f sy t
    constructor
    · exact Or.inl
    · intro h
      rcases h with h | ⟨_, _, hne, _⟩
      · exact h
      · exact absurd he hne
  · by_cases hn : nfaSetSucc E ec sym = []
    · have hred : elimSymbolTrans E nfa s ec sym = nfa := by
        rw [elimSymbolTrans, if_neg he]
        exact if_pos hn
      rw [hred]
      refine ⟨rfl, rfl, rfl, ?_⟩
      intro f sy t
      constructor
      · exact Or.inl
      · intro h
        rcases h with h | ⟨_, _, _, hmem⟩
        · exact h
        · rw [hn, epsClosure_iff] at hmem
          exact absurd hmem FnReach_nil
    · have hred : elimSymbolTrans E nfa s ec sym =
          (epsClosure E false (nfaSetSucc E ec sym)).foldl
            (fun acc tgt => addTransN acc s tgt sym) nfa := by
        rw [elimSymbolTrans, if_neg he]
        exact if_neg hn
      rw [hred]
      obtain ⟨h1, h2, h3, h4⟩ := addTransFold_spec s sym
        (epsClosure E false (nfaSetSucc E ec sym)) nfa
      refine ⟨h1, h2, h3, ?_⟩
      intro f sy t
      rw [h4, List.mem_append, List.mem_map]
      constructor
      · intro h
        rcases h with h | ⟨tgt, htgt, heq⟩
        · exact Or.inl h
        · injection heq with heq1 heq2
          injection heq1 with ha hb
          exact Or.inr ⟨ha.symm, hb.symm, he, heq2 ▸ htgt⟩
      · intro h
        rcases h with h | ⟨ha, hb, _, hmem⟩
        · exact Or.inl h
        · exact Or.inr ⟨t, hmem, by rw [ha, hb]⟩

theorem elimFold_spec (E : NFAData) (s : String) (ec : List String) :
    ∀ (syms : List Char) (nfa : NFAData),
      (syms.foldl (fun acc sym => elimSymbolTrans E acc s ec sym)
        nfa).states = nfa.states ∧
      (syms.foldl (fun acc sym => elimSymbolTrans E acc s ec sym)
        nfa).start = nfa.start ∧
      (syms.foldl (fun acc sym => elimSymbolTrans E acc s ec sym)
        nfa).accept = nfa.accept ∧
      (∀ f sy t, ((f, sy), t) ∈
          (syms.foldl (fun acc sym => elimSymbolTrans E acc s ec sym)
            nfa).etrans ↔
        (((f, sy), t) ∈ nfa.etrans ∨
          (f = s ∧ sy ∈ syms ∧ sy ≠ 'ε' ∧
            t ∈ epsClosure E false (nfaSetSucc E ec sy)))) := by
  intro syms
  induction syms with
  | nil =>
    intro nfa
    refine ⟨rfl, rfl, rfl, ?_⟩
    intro f sy t
    constructor
    · exact Or.inl
    · intro h
      rcases h with h | ⟨_, hmem, _, _⟩
      · exact h
      · exact absurd hmem (List.not_mem_nil _)
  | cons sym syms ih =>
    intro nfa
    rw [List.foldl_cons]
    obtain ⟨h1, h2, h3, h4⟩ := ih (elimSymbolTrans E nfa s ec sym)
    obtain ⟨g1, g2, g3, g4⟩ := elimSymbolTrans_spec E nfa s ec sym
    refine ⟨by rw [h1, g1], by rw [h2, g2], by rw [h3, g3], ?_⟩
    intro f sy t
    rw [h4, g4]
    constructor
    · intro h
      rcases h with (h | ⟨ha, hb, hc, hd⟩) | ⟨ha, hb, hc, hd⟩
      · exact Or.inl h
      · exact Or.inr ⟨ha, hb ▸ List.mem_cons_self _ _, hb ▸ hc, hb ▸ hd⟩
      · exact Or.inr ⟨ha, List.mem_cons_of_mem _ hb, hc, hd⟩
    · intro h
      rcases h with h | ⟨ha, hb, hc, hd⟩
      · exact Or.inl (Or.inl h)
      · rcases List.mem_cons.mp hb with h2 | h2
        · exact Or.inl (Or.inr ⟨ha, h2, h2 ▸ hc, h2 ▸ hd⟩)
        · exact Or.inr ⟨ha, h2, hc, hd⟩

theorem elimState_spec (E nfa : NFAData) (s : String) :
    (elimState E nfa s).states = nfa.states ∧
    (elimState E nfa s).start = nfa.start ∧
    (∀ a, a ∈ (elimState E nfa s).accept ↔
      (a ∈ nfa.accept ∨ (a = s ∧ (epsClosure E false [s]).any
        (fun x => decide (x ∈ E.accept)) = true))) ∧
    (∀ f sy t, ((f, sy), t) ∈ (elimState E nfa s).etrans ↔
      (((f, sy), t) ∈ nfa.etrans ∨
        (f = s ∧ sy ∈ E.alphabet ∧ sy ≠ 'ε' ∧
          t ∈ epsClosure E false
            (nfaSetSucc E (epsClosure E false [s]) sy)))) := by
  by_cases hacc : (epsClosure E false [s]).any
      (fun x => decide (x ∈ E.accept)) = true
  · have hred : elimState E nfa s =
        E.alphabet.foldl (fun acc sym =>
          elimSymbolTrans E acc s (epsClosure E false [s]) sym)
          { nfa with accept := insertStr nfa.accept s } := by
      rw [elimState, if_pos hacc]
    rw [hred]
    obtain ⟨h1, h2, h3, h4⟩ := elimFold_spec E s (epsClosure E false [s])
      E.alphabet { nfa with accept := insertStr nfa.accept s }
    refine ⟨h1, h2, ?_, h4⟩
    intro a
    rw [h3]
    show a ∈ insertStr nfa.accept s ↔ _
    rw [mem_insertStr]
    constructor
    · intro h
      rcases h with h | h
      · exact Or.inl h
      · exact Or.inr ⟨h, hacc⟩
    · intro h
      rcases h with h | ⟨h, _⟩
      · exact Or.inl h
      · exact Or.inr h
  · have hred : elimState E nfa s =
        E.alphabet.foldl (fun acc sym =>
          elimSymbolTrans E acc s (epsClosure E false [s]) sym) nfa := by
      rw [elimState, if_neg hacc]
    rw [hred]
    obtain ⟨h1, h2, h3, h4⟩ := elimFold_spec E s (epsClosure E false [s])
      E.alphabet nfa
    refine ⟨h1, h2, ?_, h4⟩
    intro a
    rw [h3]
    constructor
    · exact Or.inl
    · intro h
      rcases h with h | ⟨_, h2⟩
      · exact h
      · exact absurd h2 hacc

theorem elimStatesFold_spec (E : NFAData) :
    ∀ (ps : List (String × StFlags)) (nfa : NFAData),
      (ps.foldl (fun acc p => elimState E acc p.1) nfa).start = nfa.start ∧
      (∀ a, a ∈ (ps.foldl (fun acc p => elimState E acc p.1) nfa).accept ↔
        (a ∈ nfa.accept ∨ ∃ p ∈ ps, a = p.1 ∧
          (epsClosure E false [p.1]).any
            (fun x => decide (x ∈ E.accept)) = true)) ∧
      (∀ f sy t, ((f, sy), t) ∈
          (ps.foldl (fun acc p => elimState E acc p.1) nfa).etrans ↔
        (((f, sy), t) ∈ nfa.etrans ∨ ∃ p ∈ ps, f = p.1 ∧
          sy ∈ E.alphabet ∧ sy ≠ 'ε' ∧
          t ∈ epsClosure E false
            (nfaSetSucc E (epsClosure E false [p.1]) sy))) := by
  intro ps
  induction ps with
  | nil =>
    intro nfa
    refine ⟨rfl, ?_, ?_⟩
    · intro a
      constructor
      · exact Or.inl
      · intro h
        rcases h with h | ⟨p, hp, _⟩
        · exact h
        · exact absurd hp (List.not_mem_nil _)
    · intro f sy t
      constructor
      · exact Or.inl
      · intro h
        rcases h with h | ⟨p, hp, _⟩
        · exact h
        · exact absurd hp (List.not_mem_nil _)
  | cons q ps ih =>
    intro nfa
    rw [List.foldl_cons]
    obtain ⟨h1, h2, h3⟩ := ih (elimState E nfa q.1)
    obtain ⟨g1, g2, g3, g4⟩ := elimState_spec E nfa q.1
    refine ⟨by rw [h1, g2], ?_, ?_⟩
    · intro a
      rw [h2, g3]
      constructor
      · intro h
        rcases h with (h | ⟨ha, hb⟩) | ⟨p, hp, ha, hb⟩
        · exact Or.inl h
        · exact Or.inr ⟨q, List.mem_cons_self _ _, ha, hb⟩
        · exact Or.inr ⟨p, List.mem_cons_of_mem _ hp, ha, hb⟩
      · intro h
        rcases h with h | ⟨p, hp, ha, hb⟩
        · exact Or.inl (Or.inl h)
        · rcases List.mem_cons.mp hp with h2 | h2
          · exact Or.inl (Or.inr ⟨h2 ▸ ha, h2 ▸ hb⟩)
          · exact Or.inr ⟨p, h2, ha, hb⟩
    · intro f sy t
      rw [h3, g4]
      constructor
      · intro h
        rcases h with (h | ⟨ha, hb, hc, hd⟩) | ⟨p, hp, ha, hb, hc, hd⟩
        · exact Or.inl h
        · exact Or.inr ⟨q, List.mem_cons_self _ _, ha, hb, hc, hd⟩
        · exact Or.inr ⟨p, List.mem_cons_of_mem _ hp, ha, hb, hc, hd⟩
      · intro h
        rcases h with h | ⟨p, hp, ha, hb, hc, hd⟩
        · exact Or.inl (Or.inl h)
        · rcases List.mem_cons.mp hp with h2 | h2
          · exact Or.inl (Or.inr ⟨h2 ▸ ha, hb, hc, h2 ▸ hd⟩)
          · exact Or.inr ⟨p, h2, ha, hb, hc, hd⟩

theorem baseFoldN_spec :
    ∀ (ps : List (String × StFlags)) (acc : NFAData),
      (ps.foldl (fun acc p => addStateN acc p.1 false false) acc).accept =
        acc.accept ∧
      (ps.foldl (fun acc p => addStateN acc p.1 false false) acc).etrans =
        acc.etrans ∧
      (ps.foldl (fun acc p => addStateN acc p.1 false false) acc).start =
        acc.start := by
  intro ps
  induction ps with
  | nil => intro acc; exact ⟨rfl, rfl, rfl⟩
  | cons q ps ih =>
    intro acc
    rw [List.foldl_cons]
    obtain ⟨h1, h2, h3⟩ := ih (addStateN acc q.1 false false)
    exact ⟨h1, h2, h3⟩

theorem epsilonNfaToNfa_start (E : NFAData) :
    (epsilonNfaToNfa E).start = E.start := by
  rw [epsilonNfaToNfa]
  rw [(elimStatesFold_spec E E.states _).1]

theorem epsilonNfaToNfa_accept (E : NFAData) :
    ∀ a, a ∈ (epsilonNfaToNfa E).accept ↔
      (a ∈ E.states.map Prod.fst ∧ (epsClosure E false [a]).any
        (fun x => decide (x ∈ E.accept)) = true) := by
  intro a
  rw [epsilonNfaToNfa]
  rw [(elimStatesFold_spec E E.states _).2.1 a]
  have hbase : ({ E.states.foldl
      (fun acc p => addStateN acc p.1 false false) emptyNFA with
        start := E.start } : NFAData).accept = [] := by
    show (E.states.foldl (fun acc p => addStateN acc p.1 false false)
      emptyNFA).accept = []
    rw [(baseFoldN_spec E.states emptyNFA).1]
    rfl
  rw [hbase]
  constructor
  · intro h
    rcases h with h | ⟨p, hp, ha, hb⟩
    · exact absurd h (List.not_mem_nil _)
    · exact ⟨List.mem_map.mpr ⟨p, hp, ha.symm⟩, ha ▸ hb⟩
  · intro ⟨h1, h2⟩
    obtain ⟨p, hp, hpa⟩ := List.mem_map.mp h1
    exact Or.inr ⟨p, hp, hpa.symm, hpa ▸ h2⟩

theorem epsilonNfaToNfa_etrans (E : NFAData) :
    ∀ f sy t, ((f, sy), t) ∈ (epsilonNfaToNfa E).etrans ↔
      (f ∈ E.states.map Prod.fst ∧ sy ∈ E.alphabet ∧ sy ≠ 'ε' ∧
        t ∈ epsClosure E false
          (nfaSetSucc E (epsClosure E false [f]) sy)) := by
  intro f sy t
  rw [epsilonNfaToNfa]
  rw [(elimStatesFold_spec E E.states _).2.2 f sy t]
  have hbase : ({ E.states.foldl
      (fun acc p => addStateN acc p.1 false false) emptyNFA with
        start := E.start } : NFAData).etrans = [] := by
    show (E.states.foldl (fun acc p => addStateN acc p.1 false false)
      emptyNFA).etrans = []
    rw [(baseFoldN_spec E.states emptyNFA).2.1]
    rfl
  rw [hbase]
  constructor
  · intro h
    rcases h with h | ⟨p, hp, ha, hb, hc, hd⟩
    · exact absurd h (List.not_mem_nil _)
    · exact ⟨List.mem_map.mpr ⟨p, hp, ha.symm⟩, hb, hc, ha ▸ hd⟩
  · intro ⟨h1, h2, h3, h4⟩
    obtain ⟨p, hp, hpa⟩ := List.mem_map.mp h1
    exact Or.inr ⟨p, hp, hpa.symm, h2, h3, hpa ▸ h4⟩

theorem succ_keys (E : NFAData) (hwf : ENFAWf E) (S : List String)
    (c : Char) :
    ∀ s ∈ nfaSetSucc E S c, s ∈ E.states.map Prod.fst := by
  intro s hs
  rw [nfaSetSucc_eq_stepSet, mem_nfaStepSet] at hs
  obtain ⟨u, _, hu⟩ := hs
  rw [mem_nfaNext] at hu
  exact (hwf.edgeKeys _ hu).2

theorem FnReach_keys (E : NFAData) (hwf : ENFAWf E) {S : List String}
    (hS : ∀ a ∈ S, a ∈ E.states.map Prod.fst) :
    ∀ x, FnReach (fun s => nfaNext E s 'ε') S x →
      x ∈ E.states.map Prod.fst := by
  intro x hx
  induction hx with
  | base hb => exact hS _ hb
  | step _ hy ihx =>
    rw [mem_nfaNext] at hy
    exact (hwf.edgeKeys _ hy).2

/-- Simulation kernel for epsilon elimination: when the NFA set `T` and
the closed set `C` denote the same epsilon-reachable states, the
eliminated NFA and the original ε-NFA agree on every epsilon-free
word. -/
theorem elim_acceptsFrom (E : NFAData) (hwf : ENFAWf E)
    (hsym : ∀ e ∈ E.etrans, e.1.2 ≠ 'ε' → e.1.2 ∈ E.alphabet) :
    ∀ (w : List Char), (∀ c ∈ w, c ≠ 'ε') →
      ∀ (T C : List String),
        (∀ q ∈ T, q ∈ E.states.map Prod.fst) →
        (∀ a, a ∈ C ↔ FnReach (fun s => nfaNext E s 'ε') T a) →
        nfaAcceptsFrom (epsilonNfaToNfa E) T w = enfaAcceptsFrom E C w := by
  intro w
  induction w with
  | nil =>
    intro _ T C hT hC
    rw [nfaAcceptsFrom, enfaAcceptsFrom]
    apply bool_eq_of_iff
    rw [List.any_eq_true, List.any_eq_true]
    constructor
    · intro ⟨q, hqT, hq⟩
      rw [decide_eq_true_eq, epsilonNfaToNfa_accept] at hq
      obtain ⟨_, hany⟩ := hq
      rw [List.any_eq_true] at hany
      obtain ⟨a, haC, haacc⟩ := hany
      rw [epsClosure_iff] at haC
      refine ⟨a, ?_, haacc⟩
      rw [hC]
      exact FnReach_split.mpr ⟨q, hqT, haC⟩
    · intro ⟨a, haC, haacc⟩
      rw [hC] at haC
      obtain ⟨q, hqT, hrq⟩ := FnReach_split.mp haC
      refine ⟨q, hqT, ?_⟩
      rw [decide_eq_true_eq, epsilonNfaToNfa_accept]
      refine ⟨hT q hqT, ?_⟩
      rw [List.any_eq_true]
      exact ⟨a, (epsClosure_iff E false [q] a).mpr hrq, haacc⟩
  | cons c w ih =>
    intro hw T C hT hC
    have hc : c ≠ 'ε' := hw c (List.mem_cons_self _ _)
    have hw2 : ∀ x ∈ w, x ≠ 'ε' :=
      fun x hx => hw x (List.mem_cons_of_mem _ hx)
    have hNexp : nfaAcceptsFrom (epsilonNfaToNfa E) T (c :: w) =
        (if nfaStepSet (epsilonNfaToNfa E) T c = [] then false
         else nfaAcceptsFrom (epsilonNfaToNfa E)
           (nfaStepSet (epsilonNfaToNfa E) T c) w) := rfl
    have hEexp : enfaAcceptsFrom E C (c :: w) =
        (if (C.flatMap (fun s => nfaNext E s c)).dedup = [] then false
         else enfaAcceptsFrom E
           (epsClosure E true ((C.flatMap (fun s => nfaNext E s c)).dedup))
           w) := rfl
    rw [hNexp, hEexp]
    have hmemE : ∀ x, x ∈ (C.flatMap (fun s => nfaNext E s c)).dedup ↔
        ∃ u, FnReach (fun s => nfaNext E s 'ε') T u ∧ x ∈ nfaNext E u c := by
      intro x
      rw [List.mem_dedup, List.mem_flatMap]
      constructor
      · intro ⟨u, huC, hx⟩
        exact ⟨u, (hC u).mp huC, hx⟩
      · intro ⟨u, hru, hx⟩
        exact ⟨u, (hC u).mpr hru, hx⟩
    by_cases hcal : c ∈ E.alphabet
    · have hmemN : ∀ x, x ∈ nfaStepSet (epsilonNfaToNfa E) T c ↔
          ∃ q ∈ T, x ∈ epsClosure E false
            (nfaSetSucc E (epsClosure E false [q]) c) := by
        intro x
        rw [mem_nfaStepSet]
        constructor
        · intro ⟨q, hq, hx⟩
          rw [mem_nfaNext, epsilonNfaToNfa_etrans] at hx
          exact ⟨q, hq, hx.2.2.2⟩
        · intro ⟨q, hq, hx⟩
          refine ⟨q, hq, ?_⟩
          rw [mem_nfaNext, epsilonNfaToNfa_etrans]
          exact ⟨hT q hq, hcal, hc, hx⟩
      have hsub1 : ∀ s ∈ (C.flatMap (fun x => nfaNext E x c)).dedup,
          s ∈ nfaStepSet (epsilonNfaToNfa E) T c := by
        intro s hs
        rw [hmemE] at hs
        obtain ⟨u, hru, hs2⟩ := hs
        obtain ⟨q, hqT, hrq⟩ := FnReach_split.mp hru
        rw [hmemN]
        refine ⟨q, hqT, (epsClosure_spec E false _).1 s ?_⟩
        rw [nfaSetSucc_eq_stepSet, mem_nfaStepSet]
        exact ⟨u, (epsClosure_iff E false [q] u).mpr hrq, hs2⟩
      have hsub2 : ∀ s ∈ nfaStepSet (epsilonNfaToNfa E) T c,
          FnReach (fun x => nfaNext E x 'ε')
            ((C.flatMap (fun x => nfaNext E x c)).dedup) s := by
        intro s hs
        rw [hmemN] at hs
        obtain ⟨q, hqT, hsClos⟩ := hs
        rw [epsClosure_iff] at hsClos
        refine FnReach_mono ?_ hsClos
        intro v hv
        rw [nfaSetSucc_eq_stepSet, mem_nfaStepSet] at hv
        obtain ⟨u, huClos, hv2⟩ := hv
        rw [epsClosure_iff] at huClos
        rw [hmemE]
        exact ⟨u, FnReach_split.mpr ⟨q, hqT, huClos⟩, hv2⟩
      have hiff : (nfaStepSet (epsilonNfaToNfa E) T c = []) ↔
          ((C.flatMap (fun s => nfaNext E s c)).dedup = []) := by
        rw [List.eq_nil_iff_forall_not_mem, List.eq_nil_iff_forall_not_mem]
        constructor
        · intro hN x hx
          exact hN x (hsub1 x hx)
        · intro hE x hx
          obtain ⟨v, hv, _⟩ := FnReach_split.mp (hsub2 x hx)
          exact hE v hv
      by_cases hN : nfaStepSet (epsilonNfaToNfa E) T c = []
      · rw [if_pos hN, if_pos (hiff.mp hN)]
      · rw [if_neg hN, if_neg (fun h => hN (hiff.mpr h))]
        apply ih hw2
        · intro x hx
          rw [hmemN] at hx
          obtain ⟨q, _, hx2⟩ := hx
          rw [epsClosure_iff] at hx2
          exact FnReach_keys E hwf (succ_keys E hwf _ c) x hx2
        · intro a
          rw [epsClosure_iff]
          constructor
          · intro ha
            exact FnReach_trans (fun s hs => FnReach.base (hsub1 s hs)) ha
          · intro ha
            exact FnReach_trans hsub2 ha
    · have hN : nfaStepSet (epsilonNfaToNfa E) T c = [] := by
        rw [List.eq_nil_iff_forall_not_mem]
        intro x hx
        rw [mem_nfaStepSet] at hx
        obtain ⟨q, _, hx2⟩ := hx
        rw [mem_nfaNext, epsilonNfaToNfa_etrans] at hx2
        exact hcal hx2.2.1
      have hE : (C.flatMap (fun s => nfaNext E s c)).dedup = [] := by
        rw [List.eq_nil_iff_forall_not_mem]
        intro x hx
        rw [hmemE] at hx
        obtain ⟨u, _, hx2⟩ := hx
        rw [mem_nfaNext] at hx2
        exact hcal (hsym _ hx2 hc)
      rw [if_pos hN, if_pos hE]

/-- Epsilon elimination preserves acceptance on every epsilon-free
word. -/
theorem elim_accepts (E : NFAData) (hwf : ENFAWf E)
    (hsym : ∀ e ∈ E.etrans, e.1.2 ≠ 'ε' → e.1.2 ∈ E.alphabet)
    (w : List Char) (hw : ∀ c ∈ w, c ≠ 'ε') :
    nfaAccepts (epsilonNfaToNfa E) w = enfaAccepts E w := by
  rw [nfaAccepts, enfaAccepts, epsilonNfaToNfa_start]
  cases hst : E.start with
  | none => rfl
  | some s0 =>
    exact elim_acceptsFrom E hwf hsym w hw [s0] (epsClosure E true [s0])
      (fun q hq => by
        rw [List.mem_singleton] at hq
        exact hq ▸ hwf.startMem s0 hst)
      (fun a => epsClosure_iff E true [s0] a)

/-! ## Subset construction: completeness of the BFS -/

theorem SubExt_refl (st : SubsetSt) : SubExt st st :=
  ⟨fun _ _ h => h, fun _ _ h => h⟩

theorem SubExt_trans {st1 st2 st3 : SubsetSt} (h1 : SubExt st1 st2)
    (h2 : SubExt st2 st3) : SubExt st1 st3 :=
  ⟨fun k v h => h2.1 k v (h1.1 k v h),
   fun p v h => h2.2 p v (h1.2 p v h)⟩

theorem SubComplete_mono {nfa : NFAData} {st st2 : SubsetSt}
    {K : List String} (hext : SubExt st st2)
    (h : SubComplete nfa st K) : SubComplete nfa st2 K := by
  intro sym hsym hne
  obtain ⟨nK, nT, h1, h2, h3⟩ := h sym hsym hne
  exact ⟨nK, nT, hext.1 _ _ h1, hext.1 _ _ h2, hext.2 _ _ h3⟩

theorem getDfaState_smap (nfa : NFAData) (st : SubsetSt)
    (key : List String) :
    (getDfaState nfa st key).1.smap = st.smap ∨
    ((getDfaState nfa st key).1.smap =
      st.smap ++ [(key, "q" ++ toString (st.counter + 1))] ∧
      st.smap.lookup key = none) := by
  cases hlook : st.smap.lookup key with
  | some name =>
    have hred : getDfaState nfa st key = (st, name) := by
      simp only [getDfaState, hlook]
    rw [hred]
    exact Or.inl rfl
  | none =>
    refine Or.inr ⟨?_, rfl⟩
    simp only [getDfaState, hlook]

theorem getDfaState_table (nfa : NFAData) (st : SubsetSt)
    (key : List String) :
    (getDfaState nfa st key).1.dfa.table = st.dfa.table := by
  cases hlook : st.smap.lookup key with
  | some name =>
    have hred : getDfaState nfa st key = (st, name) := by
      simp only [getDfaState, hlook]
    rw [hred]
  | none =>
    simp only [getDfaState, hlook]
    by_cases hany : (key.any fun s => decide (s ∈ nfa.accept)) = true
    · rw [if_pos hany]
      rfl
    · rw [if_neg hany]
      rfl

theorem getDfaState_ext (nfa : NFAData) (st : SubsetSt)
    (key : List String) : SubExt st (getDfaState nfa st key).1 := by
  constructor
  · intro k v h
    rcases getDfaState_smap nfa st key with h2 | ⟨h2, _⟩
    · rw [h2]
      exact h
    · rw [h2]
      exact lookup_append_left _ h
  · intro p v h
    rw [getDfaState_table]
    exact h

theorem getDfaState_keys (nfa : NFAData) (st : SubsetSt)
    (key : List String) :
    ∀ k ∈ (getDfaState nfa st key).1.smap.map Prod.fst,
      k ∈ st.smap.map Prod.fst ∨ k = key := by
  intro k hk
  rcases getDfaState_smap nfa st key with h2 | ⟨h2, _⟩
  · rw [h2] at hk
    exact Or.inl hk
  · rw [h2, List.map_append] at hk
    rcases List.mem_append.mp hk with h | h
    · exact Or.inl h
    · rw [List.map_cons, List.map_nil, List.mem_singleton] at h
      exact Or.inr h

theorem subsetSymStep_ext (nfa : NFAData) (S : List String)
    (processed : List (List String)) (curName : String)
    (acc : SubsetSt × List (List String)) (sym : Char) :
    SubExt acc.1 (subsetSymStep nfa S processed curName acc sym).1 := by
  by_cases hnext : nfaSetSucc nfa S sym = []
  · have hred : subsetSymStep nfa S processed curName acc sym = acc := by
      simp only [subsetSymStep]
      rw [if_pos hnext]
    rw [hred]
    exact SubExt_refl _
  · have hred : (subsetSymStep nfa S processed curName acc sym).1 =
        ⟨dfaAddChecked
            (getDfaState nfa acc.1 (canon (nfaSetSucc nfa S sym))).1.dfa
            curName
            (getDfaState nfa acc.1 (canon (nfaSetSucc nfa S sym))).2 sym,
          (getDfaState nfa acc.1 (canon (nfaSetSucc nfa S sym))).1.smap,
          (getDfaState nfa acc.1 (canon (nfaSetSucc nfa S sym))).1.counter⟩ := by
      simp only [subsetSymStep]
      rw [if_neg hnext]
    rw [hred]
    refine SubExt_trans (getDfaState_ext nfa acc.1
      (canon (nfaSetSucc nfa S sym))) ⟨fun k v h => h, ?_⟩
    intro p v h
    exact dfaAddChecked_lookup_mono h

theorem subsetSymStep_queue (nfa : NFAData) (S : List String)
    (processed : List (List String)) (curName : String)
    (acc : SubsetSt × List (List String)) (sym : Char) :
    (∀ k ∈ (subsetSymStep nfa S processed curName acc sym).2,
      k ∈ acc.2 ∨ k = canon (nfaSetSucc nfa S sym)) ∧
    (∀ k ∈ acc.2, k ∈ (subsetSymStep nfa S processed curName acc sym).2) ∧
    (subsetSymStep nfa S processed curName acc sym).2.length ≤
      acc.2.length + 1 ∧
    (∀ k ∈ (subsetSymStep nfa S processed curName acc sym).1.smap.map
        Prod.fst,
      k ∈ acc.1.smap.map Prod.fst ∨ k = canon (nfaSetSucc nfa S sym)) := by
  by_cases hnext : nfaSetSucc nfa S sym = []
  · have hred : subsetSymStep nfa S processed curName acc sym = acc := by
      simp only [subsetSymStep]
      rw [if_pos hnext]
    rw [hred]
    exact ⟨fun k hk => Or.inl hk, fun k hk => hk, by omega,
      fun k hk => Or.inl hk⟩
  · have hred : subsetSymStep nfa S processed curName acc sym =
        (⟨dfaAddChecked
            (getDfaState nfa acc.1 (canon (nfaSetSucc nfa S sym))).1.dfa
            curName
            (getDfaState nfa acc.1 (canon (nfaSetSucc nfa S sym))).2 sym,
          (getDfaState nfa acc.1 (canon (nfaSetSucc nfa S sym))).1.smap,
          (getDfaState nfa acc.1 (canon (nfaSetSucc nfa S sym))).1.counter⟩,
         if canon (nfaSetSucc nfa S sym) ∈ processed then acc.2
         else acc.2 ++ [canon (nfaSetSucc nfa S sym)]) := by
      simp only [subsetSymStep]
      rw [if_neg hnext]
    rw [hred]
    refine ⟨?_, ?_, ?_, ?_⟩
    · intro k hk
      by_cases hp : canon (nfaSetSucc nfa S sym) ∈ processed
      · rw [if_pos hp] at hk
        exact Or.inl hk
      · rw [if_neg hp] at hk
        rcases List.mem_append.mp hk with h | h
        · exact Or.inl h
        · rw [List.mem_singleton] at h
          exact Or.inr h
    · intro k hk
      by_cases hp : canon (nfaSetSucc nfa S sym) ∈ processed
      · rw [if_pos hp]
        exact hk
      · rw [if_neg hp]
        exact List.mem_append_left _ hk
    · by_cases hp : canon (nfaSetSucc nfa S sym) ∈ processed
      · rw [if_pos hp]
        show acc.2.length ≤ acc.2.length + 1
        omega
      · rw [if_neg hp]
        show (acc.2 ++ [canon (nfaSetSucc nfa S sym)]).length ≤
          acc.2.length + 1
        rw [List.length_append, List.length_singleton]
    · exact getDfaState_keys nfa acc.1 (canon (nfaSetSucc nfa S sym))

theorem getDfaState_alpha (nfa : NFAData) (st : SubsetSt)
    (key : List String) :
    (getDfaState nfa st key).1.dfa.alphabet = st.dfa.alphabet := by
  cases hlook : st.smap.lookup key with
  | some name =>
    have hred : getDfaState nfa st key = (st, name) := by
      simp only [getDfaState, hlook]
    rw [hred]
  | none =>
    simp only [getDfaState, hlook]
    by_cases hany : (key.any fun s => decide (s ∈ nfa.accept)) = true
    · rw [if_pos hany]
      rfl
    · rw [if_neg hany]
      rfl

theorem subsetSymStep_symwf (nfa : NFAData) (S : List String)
    (processed : List (List String)) (curName : String)
    (acc : SubsetSt × List (List String)) (sym : Char) (hs : sym ≠ 'ε')
    (h : ∀ e ∈ acc.1.dfa.table, e.1.2 ∈ acc.1.dfa.alphabet) :
    ∀ e ∈ (subsetSymStep nfa S processed curName acc sym).1.dfa.table,
      e.1.2 ∈ (subsetSymStep nfa S processed curName acc sym).1.dfa.alphabet := by
  by_cases hnext : nfaSetSucc nfa S sym = []
  · have hred : subsetSymStep nfa S processed curName acc sym = acc := by
      simp only [subsetSymStep]
      rw [if_pos hnext]
    rw [hred]
    exact h
  · have hred : (subsetSymStep nfa S processed curName acc sym).1 =
        ⟨dfaAddChecked
            (getDfaState nfa acc.1 (canon (nfaSetSucc nfa S sym))).1.dfa
            curName
            (getDfaState nfa acc.1 (canon (nfaSetSucc nfa S sym))).2 sym,
          (getDfaState nfa acc.1 (canon (nfaSetSucc nfa S sym))).1.smap,
          (getDfaState nfa acc.1 (canon (nfaSetSucc nfa S sym))).1.counter⟩ := by
      simp only [subsetSymStep]
      rw [if_neg hnext]
    rw [hred]
    refine dfaAddChecked_symwf ?_ hs
    rw [getDfaState_table, getDfaState_alpha]
    exact h

theorem subsetFold_ext (nfa : NFAData) (S : List String)
    (processed : List (List String)) (curName : String) :
    ∀ (syms : List Char) (acc : SubsetSt × List (List String)),
      SubExt acc.1
        ((syms.foldl (subsetSymStep nfa S processed curName) acc)).1 := by
  intro syms
  induction syms with
  | nil => intro acc; exact SubExt_refl _
  | cons sym syms ih =>
    intro acc
    rw [List.foldl_cons]
    exact SubExt_trans (subsetSymStep_ext nfa S processed curName acc sym)
      (ih _)

theorem subsetFold_symwf (nfa : NFAData) (S : List String)
    (processed : List (List String)) (curName : String)
    (hna : ('ε' : Char) ∉ nfa.alphabet) :
    ∀ (syms : List Char), (∀ c ∈ syms, c ∈ nfa.alphabet) →
      ∀ (acc : SubsetSt × List (List String)),
      (∀ e ∈ acc.1.dfa.table, e.1.2 ∈ acc.1.dfa.alphabet) →
      ∀ e ∈ ((syms.foldl (subsetSymStep nfa S processed curName)
          acc)).1.dfa.table,
        e.1.2 ∈ ((syms.foldl (subsetSymStep nfa S processed curName)
          acc)).1.dfa.alphabet := by
  intro syms
  induction syms with
  | nil => intro _ acc h; exact h
  | cons sym syms ih =>
    intro hsyms acc h
    rw [List.foldl_cons]
    refine ih (fun c hc => hsyms c (List.mem_cons_of_mem _ hc)) _ ?_
    refine subsetSymStep_symwf nfa S processed curName acc sym ?_ h
    intro he
    exact hna (he ▸ hsyms sym (List.mem_cons_self _ _))

theorem subsetFold_queue (nfa : NFAData) (S : List String)
    (processed : List (List String)) (curName : String) :
    ∀ (syms : List Char) (acc : SubsetSt × List (List String)),
      (∀ k ∈ ((syms.foldl (subsetSymStep nfa S processed curName) acc)).2,
        k ∈ acc.2 ∨ ∃ sym, k = canon (nfaSetSucc nfa S sym)) ∧
      ((syms.foldl (subsetSymStep nfa S processed curName) acc)).2.length ≤
        acc.2.length + syms.length ∧
      (∀ k ∈ ((syms.foldl (subsetSymStep nfa S processed curName)
          acc)).1.smap.map Prod.fst,
        k ∈ acc.1.smap.map Prod.fst ∨
          ∃ sym, k = canon (nfaSetSucc nfa S sym)) ∧
      (∀ k ∈ acc.2,
        k ∈ ((syms.foldl (subsetSymStep nfa S processed curName) acc)).2) := by
  intro syms
  induction syms with
  | nil =>
    intro acc
    exact ⟨fun k hk => Or.inl hk,
      by show acc.2.length ≤ acc.2.length + 0; omega,
      fun k hk => Or.inl hk, fun k hk => hk⟩
  | cons sym syms ih =>
    intro acc
    rw [List.foldl_cons]
    obtain ⟨s1, s2, s3, s4⟩ := subsetSymStep_queue nfa S processed curName
      acc sym
    obtain ⟨i1, i2, i3, i4⟩ := ih (subsetSymStep nfa S processed curName
      acc sym)
    refine ⟨?_, ?_, ?_, ?_⟩
    · intro k hk
      rcases i1 k hk with h | h
      · rcases s1 k h with h2 | h2
        · exact Or.inl h2
        · exact Or.inr ⟨sym, h2⟩
      · exact Or.inr h
    · rw [List.length_cons]
      omega
    · intro k hk
      rcases i3 k hk with h | h
      · rcases s4 k h with h2 | h2
        · exact Or.inl h2
        · exact Or.inr ⟨sym, h2⟩
      · exact Or.inr h
    · intro k hk
      exact i4 k (s2 k hk)

theorem subsetSymStep_complete (nfa : NFAData) (S : List String)
    (processed : List (List String)) (curName : String)
    (acc : SubsetSt × List (List String)) (sym : Char)
    (hinv : SubInv nfa acc.1) (hcur : acc.1.smap.lookup S = some curName)
    (hne : nfaSetSucc nfa S sym ≠ []) :
    ∃ nT, (subsetSymStep nfa S processed curName acc sym).1.smap.lookup
        (canon (nfaSetSucc nfa S sym)) = some nT ∧
      (subsetSymStep nfa S processed curName acc
        sym).1.dfa.table.lookup (curName, sym) = some nT := by
  obtain ⟨pinv, plook, pmono, ptab, pstart⟩ :=
    getDfaState_spec nfa acc.1 (canon (nfaSetSucc nfa S sym)) hinv
      (canon_idem _) (canon_ne_nil hne)
  have hred : (subsetSymStep nfa S processed curName acc sym).1 =
      ⟨dfaAddChecked
          (getDfaState nfa acc.1 (canon (nfaSetSucc nfa S sym))).1.dfa
          curName
          (getDfaState nfa acc.1 (canon (nfaSetSucc nfa S sym))).2 sym,
        (getDfaState nfa acc.1 (canon (nfaSetSucc nfa S sym))).1.smap,
        (getDfaState nfa acc.1 (canon (nfaSetSucc nfa S sym))).1.counter⟩ := by
    simp only [subsetSymStep]
    rw [if_neg hne]
  rw [hred]
  refine ⟨(getDfaState nfa acc.1 (canon (nfaSetSucc nfa S sym))).2,
    plook, ?_⟩
  rcases dfaAddChecked_lookup_self
      (getDfaState nfa acc.1 (canon (nfaSetSucc nfa S sym))).1.dfa
      curName
      (getDfaState nfa acc.1 (canon (nfaSetSucc nfa S sym))).2 sym with
    h | ⟨v, hv, hv2⟩
  · exact h
  · obtain ⟨S2, h1, h2, h3⟩ := pinv.table_inv _ (lookup_mem hv)
    have hSS : S2 = S := mem_snd_inj (subInv_names_nodup pinv)
      (lookup_mem h1) (lookup_mem (pmono _ _ hcur))
    have h3b : (getDfaState nfa acc.1
        (canon (nfaSetSucc nfa S sym))).1.smap.lookup
        (canon (nfaSetSucc nfa S sym)) = some v := by
      rw [hSS] at h3
      exact h3
    rw [h3b] at plook
    injection plook with h4
    rw [hv2, h4]

theorem subsetFold_complete (nfa : NFAData) (S : List String)
    (processed : List (List String)) (curName : String) :
    ∀ (syms : List Char) (acc : SubsetSt × List (List String)),
      SubInv nfa acc.1 → acc.1.smap.lookup S = some curName →
      ∀ sym ∈ syms, nfaSetSucc nfa S sym ≠ [] →
        ∃ nT, ((syms.foldl (subsetSymStep nfa S processed curName)
            acc)).1.smap.lookup (canon (nfaSetSucc nfa S sym)) = some nT ∧
          ((syms.foldl (subsetSymStep nfa S processed curName)
            acc)).1.dfa.table.lookup (curName, sym) = some nT := by
  intro syms
  induction syms with
  | nil =>
    intro acc _ _ sym hsym
    exact absurd hsym (List.not_mem_nil _)
  | cons sym2 syms ih =>
    intro acc hinv hcur sym hsym hne
    rw [List.foldl_cons]
    obtain ⟨i1, c1, _, _, _⟩ :=
      subsetSymStep_spec nfa S processed curName acc sym2 hinv hcur
    rcases List.mem_cons.mp hsym with h | h
    · subst h
      obtain ⟨nT, h1, h2⟩ := subsetSymStep_complete nfa S processed curName
        acc sym hinv hcur hne
      obtain ⟨e1, e2⟩ := subsetFold_ext nfa S processed curName syms
        (subsetSymStep nfa S processed curName acc sym)
      exact ⟨nT, e1 _ _ h1, e2 _ _ h2⟩
    · exact ih (subsetSymStep nfa S processed curName acc sym2) i1 c1
        sym h hne

/-- There are at most `2 ^ |U|` distinct canonical keys over a universe
`U`. -/
theorem canonKeys_count (U : List String)
    (P : List (List String)) (hnd : P.Nodup)
    (hcanon : ∀ k ∈ P, canon k = k)
    (hsub : ∀ k ∈ P, ∀ x ∈ k, x ∈ U) :
    P.length ≤ 2 ^ U.length := by
  have hinj : ∀ k1 ∈ P, ∀ k2 ∈ P,
      U.filter (fun x => decide (x ∈ k1)) =
        U.filter (fun x => decide (x ∈ k2)) → k1 = k2 := by
    intro k1 h1 k2 h2 heq
    have hmem : ∀ x, x ∈ k1 ↔ x ∈ k2 := by
      intro x
      constructor
      · intro hx
        have hf : x ∈ U.filter (fun x => decide (x ∈ k1)) :=
          List.mem_filter.mpr ⟨hsub k1 h1 x hx, decide_eq_true hx⟩
        rw [heq] at hf
        exact of_decide_eq_true (List.mem_filter.mp hf).2
      · intro hx
        have hf : x ∈ U.filter (fun x => decide (x ∈ k2)) :=
          List.mem_filter.mpr ⟨hsub k2 h2 x hx, decide_eq_true hx⟩
        rw [← heq] at hf
        exact of_decide_eq_true (List.mem_filter.mp hf).2
    have hc := canon_eq_of_mem_iff hmem
    rw [hcanon k1 h1, hcanon k2 h2] at hc
    exact hc
  have hmapnd : (P.map (fun k =>
      U.filter (fun x => decide (x ∈ k)))).Nodup :=
    List.Nodup.map_on hinj hnd
  have hmapsub : ∀ s ∈ P.map (fun k =>
      U.filter (fun x => decide (x ∈ k))), s ∈ U.sublists := by
    intro s hs
    obtain ⟨k, _, he⟩ := List.mem_map.mp hs
    rw [← he]
    exact List.mem_sublists.mpr (List.filter_sublist _)
  have hle := (hmapnd.subperm hmapsub).length_le
  rw [List.length_map, List.length_sublists] at hle
  exact hle

theorem SubExt_keys {st st2 : SubsetSt} (h : SubExt st st2) :
    ∀ k ∈ st.smap.map Prod.fst, k ∈ st2.smap.map Prod.fst := by
  intro k hk
  rw [← lookup_isSome_iff] at hk
  cases hl : st.smap.lookup k with
  | none => rw [hl] at hk; cases hk
  | some v =>
    rw [← lookup_isSome_iff, h.1 k v hl]
    rfl

theorem getDfaState_key_mem (nfa : NFAData) (st : SubsetSt)
    (key : List String) :
    key ∈ (getDfaState nfa st key).1.smap.map Prod.fst := by
  cases hlook : st.smap.lookup key with
  | some name =>
    have hred : getDfaState nfa st key = (st, name) := by
      simp only [getDfaState, hlook]
    rw [hred, ← lookup_isSome_iff, hlook]
    rfl
  | none =>
    have h2 : (getDfaState nfa st key).1.smap =
        st.smap ++ [(key, "q" ++ toString (st.counter + 1))] := by
      simp only [getDfaState, hlook]
    rw [h2, List.map_append]
    exact List.mem_append_right _ (by
      rw [List.map_cons, List.map_nil]
      exact List.mem_singleton_self _)

theorem subsetSymStep_qmem (nfa : NFAData) (S : List String)
    (processed : List (List String)) (curName : String)
    (acc : SubsetSt × List (List String)) (sym : Char) :
    ∀ k ∈ (subsetSymStep nfa S processed curName acc sym).2,
      k ∈ acc.2 ∨
        k ∈ (subsetSymStep nfa S processed curName acc
          sym).1.smap.map Prod.fst := by
  by_cases hnext : nfaSetSucc nfa S sym = []
  · have hred : subsetSymStep nfa S processed curName acc sym = acc := by
      simp only [subsetSymStep]
      rw [if_pos hnext]
    rw [hred]
    exact fun k hk => Or.inl hk
  · have hred : subsetSymStep nfa S processed curName acc sym =
        (⟨dfaAddChecked
            (getDfaState nfa acc.1 (canon (nfaSetSucc nfa S sym))).1.dfa
            curName
            (getDfaState nfa acc.1 (canon (nfaSetSucc nfa S sym))).2 sym,
          (getDfaState nfa acc.1 (canon (nfaSetSucc nfa S sym))).1.smap,
          (getDfaState nfa acc.1 (canon (nfaSetSucc nfa S sym))).1.counter⟩,
         if canon (nfaSetSucc nfa S sym) ∈ processed then acc.2
         else acc.2 ++ [canon (nfaSetSucc nfa S sym)]) := by
      simp only [subsetSymStep]
      rw [if_neg hnext]
    rw [hred]
    intro k hk
    by_cases hp : canon (nfaSetSucc nfa S sym) ∈ processed
    · rw [if_pos hp] at hk
      exact Or.inl hk
    · rw [if_neg hp] at hk
      rcases List.mem_append.mp hk with h | h
      · exact Or.inl h
      · rw [List.mem_singleton] at h
        subst h
        exact Or.inr (getDfaState_key_mem nfa acc.1 _)

theorem subsetSymStep_keys2 (nfa : NFAData) (S : List String)
    (processed : List (List String)) (curName : String)
    (acc : SubsetSt × List (List String)) (sym : Char) :
    ∀ k ∈ (subsetSymStep nfa S processed curName acc
        sym).1.smap.map Prod.fst,
      k ∈ acc.1.smap.map Prod.fst ∨
        k ∈ (subsetSymStep nfa S processed curName acc sym).2 ∨
        k ∈ processed := by
  by_cases hnext : nfaSetSucc nfa S sym = []
  · have hred : subsetSymStep nfa S processed curName acc sym = acc := by
      simp only [subsetSymStep]
      rw [if_pos hnext]
    rw [hred]
    exact fun k hk => Or.inl hk
  · have hred : subsetSymStep nfa S processed curName acc sym =
        (⟨dfaAddChecked
            (getDfaState nfa acc.1 (canon (nfaSetSucc nfa S sym))).1.dfa
            curName
            (getDfaState nfa acc.1 (canon (nfaSetSucc nfa S sym))).2 sym,
          (getDfaState nfa acc.1 (canon (nfaSetSucc nfa S sym))).1.smap,
          (getDfaState nfa acc.1 (canon (nfaSetSucc nfa S sym))).1.counter⟩,
         if canon (nfaSetSucc nfa S sym) ∈ processed then acc.2
         else acc.2 ++ [canon (nfaSetSucc nfa S sym)]) := by
      simp only [subsetSymStep]
      rw [if_neg hnext]
    rw [hred]
    intro k hk
    rcases getDfaState_keys nfa acc.1 (canon (nfaSetSucc nfa S sym)) k hk
      with h | h
    · exact Or.inl h
    · subst h
      by_cases hp : canon (nfaSetSucc nfa S sym) ∈ processed
      · exact Or.inr (Or.inr hp)
      · refine Or.inr (Or.inl ?_)
        rw [if_neg hp]
        exact List.mem_append_right _ (List.mem_singleton_self _)

theorem subsetFold_qmem (nfa : NFAData) (S : List String)
    (processed : List (List String)) (curName : String) :
    ∀ (syms : List Char) (acc : SubsetSt × List (List String)),
      ∀ k ∈ ((syms.foldl (subsetSymStep nfa S processed curName) acc)).2,
        k ∈ acc.2 ∨
          k ∈ ((syms.foldl (subsetSymStep nfa S processed curName)
            acc)).1.smap.map Prod.fst := by
  intro syms
  induction syms with
  | nil => intro acc k hk; exact Or.inl hk
  | cons sym syms ih =>
    intro acc k hk
    rw [List.foldl_cons] at hk ⊢
    rcases ih (subsetSymStep nfa S processed curName acc sym) k hk with
      h | h
    · rcases subsetSymStep_qmem nfa S processed curName acc sym k h with
        h2 | h2
      · exact Or.inl h2
      · exact Or.inr (SubExt_keys
          (subsetFold_ext nfa S processed curName syms _) k h2)
    · exact Or.inr h

theorem subsetFold_keys2 (nfa : NFAData) (S : List String)
    (processed : List (List String)) (curName : String) :
    ∀ (syms : List Char) (acc : SubsetSt × List (List String)),
      ∀ k ∈ ((syms.foldl (subsetSymStep nfa S processed curName)
          acc)).1.smap.map Prod.fst,
        k ∈ acc.1.smap.map Prod.fst ∨
          k ∈ ((syms.foldl (subsetSymStep nfa S processed curName)
            acc)).2 ∨
          k ∈ processed := by
  intro syms
  induction syms with
  | nil => intro acc k hk; exact Or.inl hk
  | cons sym syms ih =>
    intro acc k hk
    rw [List.foldl_cons] at hk ⊢
    rcases ih (subsetSymStep nfa S processed curName acc sym) k hk with
      h | h | h
    · rcases subsetSymStep_keys2 nfa S processed curName acc sym k h with
        h2 | h2 | h2
      · exact Or.inl h2
      · refine Or.inr (Or.inl ?_)
        exact (subsetFold_queue nfa S processed curName syms _).2.2.2 k h2
      · exact Or.inr (Or.inr h2)
    · exact Or.inr (Or.inl h)
    · exact Or.inr (Or.inr h)

theorem subsetLoop_symwf (nfa : NFAData)
    (hna : ('ε' : Char) ∉ nfa.alphabet) :
    ∀ (fuel : Nat) (queue processed : List (List String)) (st : SubsetSt),
      (∀ e ∈ st.dfa.table, e.1.2 ∈ st.dfa.alphabet) →
      ∀ e ∈ (subsetLoop nfa fuel queue processed st).1.dfa.table,
        e.1.2 ∈ (subsetLoop nfa fuel queue processed st).1.dfa.alphabet := by
  intro fuel
  induction fuel with
  | zero => intro queue processed st h; exact h
  | succ fuel ih =>
    intro queue processed st h
    cases queue with
    | nil => exact h
    | cons S rest =>
      by_cases hmem : S ∈ processed
      · have hred : subsetLoop nfa (fuel + 1) (S :: rest) processed st =
            subsetLoop nfa fuel rest processed st := by
          simp only [subsetLoop]
          rw [if_pos hmem]
        rw [hred]
        exact ih rest processed st h
      · have hred : subsetLoop nfa (fuel + 1) (S :: rest) processed st =
            subsetLoop nfa fuel
              (rest ++ (nfa.alphabet.foldl
                (subsetSymStep nfa S (processed ++ [S])
                  (getDfaState nfa st S).2)
                ((getDfaState nfa st S).1, ([] : List (List String)))).2)
              (processed ++ [S])
              (nfa.alphabet.foldl
                (subsetSymStep nfa S (processed ++ [S])
                  (getDfaState nfa st S).2)
                ((getDfaState nfa st S).1, ([] : List (List String)))).1 := by
          simp only [subsetLoop]
          rw [if_neg hmem]
        rw [hred]
        refine ih _ _ _ ?_
        refine subsetFold_symwf nfa S (processed ++ [S])
          (getDfaState nfa st S).2 hna nfa.alphabet (fun c hc => hc) _ ?_
        rw [getDfaState_table, getDfaState_alpha]
        exact h

/-- Everything one BFS iteration establishes about the fold over the
alphabet for the subset `S` being processed. -/
theorem subsetBody_spec (nfa : NFAData) (U : List String)
    (hUsucc : ∀ (K : List String) (sym : Char),
      ∀ x ∈ nfaSetSucc nfa K sym, x ∈ U)
    (st : SubsetSt) (S : List String) (processed : List (List String))
    (hinv : SubInv nfa st) (hqS1 : canon S = S) (hqS2 : S ≠ []) :
    SubInv nfa (nfa.alphabet.foldl
        (subsetSymStep nfa S (processed ++ [S]) (getDfaState nfa st S).2)
        ((getDfaState nfa st S).1, ([] : List (List String)))).1 ∧
    SubExt st (nfa.alphabet.foldl
        (subsetSymStep nfa S (processed ++ [S]) (getDfaState nfa st S).2)
        ((getDfaState nfa st S).1, ([] : List (List String)))).1 ∧
    SubComplete nfa (nfa.alphabet.foldl
        (subsetSymStep nfa S (processed ++ [S]) (getDfaState nfa st S).2)
        ((getDfaState nfa st S).1, ([] : List (List String)))).1 S ∧
    (∀ k ∈ (nfa.alphabet.foldl
        (subsetSymStep nfa S (processed ++ [S]) (getDfaState nfa st S).2)
        ((getDfaState nfa st S).1, ([] : List (List String)))).2, canon k = k ∧ k ≠ []) ∧
    (∀ k ∈ (nfa.alphabet.foldl
        (subsetSymStep nfa S (processed ++ [S]) (getDfaState nfa st S).2)
        ((getDfaState nfa st S).1, ([] : List (List String)))).2, ∀ x ∈ k, x ∈ U) ∧
    (∀ k ∈ (nfa.alphabet.foldl
        (subsetSymStep nfa S (processed ++ [S]) (getDfaState nfa st S).2)
        ((getDfaState nfa st S).1, ([] : List (List String)))).2, k ∈ (nfa.alphabet.foldl
        (subsetSymStep nfa S (processed ++ [S]) (getDfaState nfa st S).2)
        ((getDfaState nfa st S).1, ([] : List (List String)))).1.smap.map Prod.fst) ∧
    (∀ k ∈ (nfa.alphabet.foldl
        (subsetSymStep nfa S (processed ++ [S]) (getDfaState nfa st S).2)
        ((getDfaState nfa st S).1, ([] : List (List String)))).1.smap.map Prod.fst,
      k ∈ st.smap.map Prod.fst ∨ k = S ∨ k ∈ (nfa.alphabet.foldl
        (subsetSymStep nfa S (processed ++ [S]) (getDfaState nfa st S).2)
        ((getDfaState nfa st S).1, ([] : List (List String)))).2 ∨
        k ∈ processed ++ [S]) ∧
    (nfa.alphabet.foldl
        (subsetSymStep nfa S (processed ++ [S]) (getDfaState nfa st S).2)
        ((getDfaState nfa st S).1, ([] : List (List String)))).2.length ≤ nfa.alphabet.length := by
  obtain ⟨pinv, plook, pmono, ptab, pstart⟩ :=
    getDfaState_spec nfa st S hinv hqS1 hqS2
  obtain ⟨finv, fcur, fmono, fstart, fqueue⟩ :=
    subsetFold_spec nfa S (processed ++ [S]) (getDfaState nfa st S).2
      nfa.alphabet ((getDfaState nfa st S).1, ([] : List (List String)))
      pinv plook
  have hext : SubExt st (nfa.alphabet.foldl
        (subsetSymStep nfa S (processed ++ [S]) (getDfaState nfa st S).2)
        ((getDfaState nfa st S).1, ([] : List (List String)))).1 :=
    SubExt_trans (getDfaState_ext nfa st S)
      (subsetFold_ext nfa S (processed ++ [S]) (getDfaState nfa st S).2
        nfa.alphabet ((getDfaState nfa st S).1, ([] : List (List String))))
  obtain ⟨q1, q2, q3, q4⟩ := subsetFold_queue nfa S (processed ++ [S])
    (getDfaState nfa st S).2 nfa.alphabet
    ((getDfaState nfa st S).1, ([] : List (List String)))
  refine ⟨finv, hext, ?_, ?_, ?_, ?_, ?_, ?_⟩
  · intro sym hsym hne
    obtain ⟨nT, h1, h2⟩ := subsetFold_complete nfa S (processed ++ [S])
      (getDfaState nfa st S).2 nfa.alphabet
      ((getDfaState nfa st S).1, ([] : List (List String)))
      pinv plook sym hsym hne
    exact ⟨(getDfaState nfa st S).2, nT, fcur, h1, h2⟩
  · intro k hk
    rcases fqueue k hk with h | h
    · exact absurd h (List.not_mem_nil _)
    · exact h
  · intro k hk
    rcases q1 k hk with h | ⟨sym, hsym⟩
    · exact absurd h (List.not_mem_nil _)
    · intro x hx
      rw [hsym, mem_canon] at hx
      exact hUsucc S sym x hx
  · intro k hk
    rcases subsetFold_qmem nfa S (processed ++ [S])
        (getDfaState nfa st S).2 nfa.alphabet
        ((getDfaState nfa st S).1, ([] : List (List String))) k hk with
      h | h
    · exact absurd h (List.not_mem_nil _)
    · exact h
  · intro k hk
    rcases subsetFold_keys2 nfa S (processed ++ [S])
        (getDfaState nfa st S).2 nfa.alphabet
        ((getDfaState nfa st S).1, ([] : List (List String))) k hk with
      h | h | h
    · rcases getDfaState_keys nfa st S k h with h2 | h2
      · exact Or.inl h2
      · exact Or.inr (Or.inl h2)
    · exact Or.inr (Or.inr (Or.inl h))
    · exact Or.inr (Or.inr (Or.inr h))
  · have hq2 : (nfa.alphabet.foldl
        (subsetSymStep nfa S (processed ++ [S]) (getDfaState nfa st S).2)
        ((getDfaState nfa st S).1, ([] : List (List String)))).2.length ≤
        ((getDfaState nfa st S).1,
          ([] : List (List String))).2.length + nfa.alphabet.length := q2
    have hz : ((getDfaState nfa st S).1,
        ([] : List (List String))).2.length = 0 := rfl
    omega

/-- The subset-construction BFS, with `subsetFuel`-style fuel, drains
its queue: at the end every memoized subset key has been processed and
every processed key has its full transition row in the DFA. -/
theorem subsetLoop_full (nfa : NFAData) (U : List String)
    (hUsucc : ∀ (K : List String) (sym : Char),
      ∀ x ∈ nfaSetSucc nfa K sym, x ∈ U) :
    ∀ (fuel : Nat) (queue processed : List (List String)) (st : SubsetSt),
      SubInv nfa st →
      (∀ k ∈ queue, canon k = k ∧ k ≠ []) →
      (∀ k ∈ queue, ∀ x ∈ k, x ∈ U) →
      (∀ k ∈ queue, k ∈ st.smap.map Prod.fst) →
      processed.Nodup →
      (∀ k ∈ processed, canon k = k) →
      (∀ k ∈ processed, ∀ x ∈ k, x ∈ U) →
      (∀ k ∈ st.smap.map Prod.fst, k ∈ processed ∨ k ∈ queue) →
      (∀ k ∈ processed, SubComplete nfa st k) →
      queue.length + (2 ^ U.length - processed.length) *
        (nfa.alphabet.length + 1) < fuel →
      SubExt st (subsetLoop nfa fuel queue processed st).1 ∧
      (∀ k ∈ (subsetLoop nfa fuel queue processed st).1.smap.map Prod.fst,
        k ∈ (subsetLoop nfa fuel queue processed st).2) ∧
      (∀ k ∈ (subsetLoop nfa fuel queue processed st).2,
        SubComplete nfa (subsetLoop nfa fuel queue processed st).1 k) := by
  intro fuel
  induction fuel with
  | zero =>
    intro queue processed st _ _ _ _ _ _ _ _ _ hfuel
    omega
  | succ fuel ih =>
    intro queue processed st hinv hq hqU hqmem hpnd hpcanon hpU hpq hcomp
      hfuel
    cases queue with
    | nil =>
      refine ⟨SubExt_refl st, ?_, ?_⟩
      · intro k hk
        rcases hpq k hk with h | h
        · exact h
        · exact absurd h (List.not_mem_nil _)
      · exact hcomp
    | cons S rest =>
      by_cases hmem : S ∈ processed
      · have hred : subsetLoop nfa (fuel + 1) (S :: rest) processed st =
            subsetLoop nfa fuel rest processed st := by
          simp only [subsetLoop]
          rw [if_pos hmem]
        rw [hred]
        refine ih rest processed st hinv
          (fun k hk => hq k (List.mem_cons_of_mem _ hk))
          (fun k hk => hqU k (List.mem_cons_of_mem _ hk))
          (fun k hk => hqmem k (List.mem_cons_of_mem _ hk))
          hpnd hpcanon hpU ?_ hcomp ?_
        · intro k hk
          rcases hpq k hk with h | h
          · exact Or.inl h
          · rcases List.mem_cons.mp h with h2 | h2
            · exact Or.inl (h2 ▸ hmem)
            · exact Or.inr h2
        · rw [List.length_cons] at hfuel
          omega
      · have hred : subsetLoop nfa (fuel + 1) (S :: rest) processed st =
            subsetLoop nfa fuel
              (rest ++ (nfa.alphabet.foldl
          (subsetSymStep nfa S (processed ++ [S]) (getDfaState nfa st S).2)
          ((getDfaState nfa st S).1, ([] : List (List String)))).2)
              (processed ++ [S])
              (nfa.alphabet.foldl
          (subsetSymStep nfa S (processed ++ [S]) (getDfaState nfa st S).2)
          ((getDfaState nfa st S).1, ([] : List (List String)))).1 := by
          simp only [subsetLoop]
          rw [if_neg hmem]
        rw [hred]
        obtain ⟨hqS1, hqS2⟩ := hq S (List.mem_cons_self _ _)
        obtain ⟨finv, hext, hScomp, bq1, bq2, bq3, bkeys, blen⟩ :=
          subsetBody_spec nfa U hUsucc st S processed hinv hqS1 hqS2
        have hpnd2 : (processed ++ [S]).Nodup := by
          rw [List.nodup_append]
          refine ⟨hpnd, List.nodup_singleton _, ?_⟩
          intro a ha hb
          rw [List.mem_singleton] at hb
          exact hmem (hb ▸ ha)
        have hpcanon2 : ∀ k ∈ processed ++ [S], canon k = k := by
          intro k hk
          rcases List.mem_append.mp hk with h | h
          · exact hpcanon k h
          · rw [List.mem_singleton] at h
            exact h ▸ hqS1
        have hpU2 : ∀ k ∈ processed ++ [S], ∀ x ∈ k, x ∈ U := by
          intro k hk
          rcases List.mem_append.mp hk with h | h
          · exact hpU k h
          · rw [List.mem_singleton] at h
            exact h ▸ hqU S (List.mem_cons_self _ _)
        have hcount : (processed ++ [S]).length ≤ 2 ^ U.length :=
          canonKeys_count U (processed ++ [S]) hpnd2 hpcanon2 hpU2
        obtain ⟨r1, r2, r3⟩ := ih (rest ++ (nfa.alphabet.foldl
          (subsetSymStep nfa S (processed ++ [S]) (getDfaState nfa st S).2)
          ((getDfaState nfa st S).1, ([] : List (List String)))).2) (processed ++ [S])
          (nfa.alphabet.foldl
          (subsetSymStep nfa S (processed ++ [S]) (getDfaState nfa st S).2)
          ((getDfaState nfa st S).1, ([] : List (List String)))).1 finv
          (by
            intro k hk
            rcases List.mem_append.mp hk with h | h
            · exact hq k (List.mem_cons_of_mem _ h)
            · exact bq1 k h)
          (by
            intro k hk
            rcases List.mem_append.mp hk with h | h
            · exact hqU k (List.mem_cons_of_mem _ h)
            · exact bq2 k h)
          (by
            intro k hk
            rcases List.mem_append.mp hk with h | h
            · exact SubExt_keys hext k (hqmem k (List.mem_cons_of_mem _ h))
            · exact bq3 k h)
          hpnd2 hpcanon2 hpU2
          (by
            intro k hk
            rcases bkeys k hk with h | h | h | h
            · rcases hpq k h with h2 | h2
              · exact Or.inl (List.mem_append_left _ h2)
              · rcases List.mem_cons.mp h2 with h3 | h3
                · exact Or.inl (List.mem_append_right _
                    (h3 ▸ List.mem_singleton_self _))
                · exact Or.inr (List.mem_append_left _ h3)
            · exact Or.inl (List.mem_append_right _
                (h ▸ List.mem_singleton_self _))
            · exact Or.inr (List.mem_append_right _ h)
            · exact Or.inl h)
          (by
            intro k hk
            rcases List.mem_append.mp hk with h | h
            · exact SubComplete_mono hext (hcomp k h)
            · rw [List.mem_singleton] at h
              exact h ▸ hScomp)
          (by
            have hlen2 : (processed ++ [S]).length = processed.length + 1 := by
              rw [List.length_append, List.length_singleton]
            have hA : 2 ^ U.length - processed.length =
                (2 ^ U.length - (processed ++ [S]).length) + 1 := by
              omega
            have hmul : (2 ^ U.length - processed.length) *
                (nfa.alphabet.length + 1) =
                (2 ^ U.length - (processed ++ [S]).length) *
                  (nfa.alphabet.length + 1) + (nfa.alphabet.length + 1) := by
              rw [hA]
              ring
            rw [List.length_cons] at hfuel
            rw [List.length_append]
            omega)
        exact ⟨SubExt_trans hext r1, r2, r3⟩

/-- The completed subset construction: the memoization invariant holds,
every memoized key is fully expanded, and the DFA start state is the
memoized name of the start key. -/
theorem nfaToDfaFull_spec (nfa : NFAData) (s0 : String)
    (hstart : nfa.start = some s0) :
    SubInv nfa (nfaToDfaFull nfa).1 ∧
    (∀ k ∈ (nfaToDfaFull nfa).1.smap.map Prod.fst,
      SubComplete nfa (nfaToDfaFull nfa).1 k) ∧
    (nfaToDfaFull nfa).1.smap.lookup (canon [s0]) = some (getDfaState nfa ⟨emptyDFA, [], 0⟩ (canon [s0])).2 ∧
    (nfaToDfaFull nfa).1.dfa.start = some (getDfaState nfa ⟨emptyDFA, [], 0⟩ (canon [s0])).2 := by
  have hinv0 : SubInv nfa ⟨emptyDFA, [], 0⟩ := by
    refine ⟨rfl, List.nodup_nil, ?_, ?_, ?_, ?_, ?_⟩ <;> simp [emptyDFA]
  obtain ⟨pinv, plook, pmono, ptab, pstart⟩ :=
    getDfaState_spec nfa ⟨emptyDFA, [], 0⟩ (canon [s0]) hinv0 (canon_idem _)
      (canon_ne_nil (by simp))
  have hred : nfaToDfaFull nfa =
      subsetLoop nfa (subsetFuel nfa s0) [canon [s0]] []
        ⟨{ (getDfaState nfa ⟨emptyDFA, [], 0⟩ (canon [s0])).1.dfa with start := some (getDfaState nfa ⟨emptyDFA, [], 0⟩ (canon [s0])).2 }, (getDfaState nfa ⟨emptyDFA, [], 0⟩ (canon [s0])).1.smap,
          (getDfaState nfa ⟨emptyDFA, [], 0⟩ (canon [s0])).1.counter⟩ := by
    simp only [nfaToDfaFull, hstart]
  have hq : ∀ k ∈ [canon [s0]], canon k = k ∧ k ≠ [] := by
    intro k hk
    rw [List.mem_singleton] at hk
    rw [hk]
    exact ⟨canon_idem _, canon_ne_nil (by simp)⟩
  have hUsucc : ∀ (K : List String) (sym : Char),
      ∀ x ∈ nfaSetSucc nfa K sym,
        x ∈ (s0 :: nfa.etrans.map (fun e => e.2)).dedup := by
    intro K sym x hx
    rw [nfaSetSucc_eq_stepSet, mem_nfaStepSet] at hx
    obtain ⟨q, _, hq2⟩ := hx
    rw [mem_nfaNext] at hq2
    rw [List.mem_dedup]
    exact List.mem_cons_of_mem _ (List.mem_map.mpr ⟨_, hq2, rfl⟩)
  have hsmem : canon [s0] ∈
      ((getDfaState nfa ⟨emptyDFA, [], 0⟩ (canon [s0])).1.smap).map Prod.fst := by
    rw [← lookup_isSome_iff, plook]
    rfl
  obtain ⟨r1, r2, r3⟩ := subsetLoop_full nfa
    (s0 :: nfa.etrans.map (fun e => e.2)).dedup hUsucc
    (subsetFuel nfa s0) [canon [s0]] []
    ⟨{ (getDfaState nfa ⟨emptyDFA, [], 0⟩ (canon [s0])).1.dfa with start := some (getDfaState nfa ⟨emptyDFA, [], 0⟩ (canon [s0])).2 }, (getDfaState nfa ⟨emptyDFA, [], 0⟩ (canon [s0])).1.smap, (getDfaState nfa ⟨emptyDFA, [], 0⟩ (canon [s0])).1.counter⟩
    (subInv_setStart pinv _) hq
    (by
      intro k hk x hx
      rw [List.mem_singleton] at hk
      rw [hk, mem_canon, List.mem_singleton] at hx
      rw [List.mem_dedup, hx]
      exact List.mem_cons_self _ _)
    (by
      intro k hk
      rw [List.mem_singleton] at hk
      rw [hk]
      exact hsmem)
    List.nodup_nil
    (fun k hk => absurd hk (List.not_mem_nil _))
    (fun k hk => absurd hk (List.not_mem_nil _))
    (by
      intro k hk
      refine Or.inr ?_
      rcases getDfaState_keys nfa ⟨emptyDFA, [], 0⟩ (canon [s0]) k hk with
        h | h
      · exact absurd h (List.not_mem_nil _)
      · rw [List.mem_singleton]
        exact h)
    (fun k hk => absurd hk (List.not_mem_nil _))
    (by
      rw [subsetFuel, List.length_singleton, List.length_nil, Nat.sub_zero]
      have hexp : 2 ^ ((s0 :: nfa.etrans.map
          (fun e => e.2)).dedup.length) * (nfa.alphabet.length + 2) =
          2 ^ ((s0 :: nfa.etrans.map (fun e => e.2)).dedup.length) *
            (nfa.alphabet.length + 1) +
          2 ^ ((s0 :: nfa.etrans.map (fun e => e.2)).dedup.length) := by
        ring
      have hpos : 0 < 2 ^ ((s0 :: nfa.etrans.map
          (fun e => e.2)).dedup.length) := Nat.pos_pow_of_pos _ (by omega)
      omega)
  rw [hred]
  obtain ⟨hloopinv, hloopstart⟩ := subsetLoop_inv nfa (subsetFuel nfa s0)
    [canon [s0]] []
    ⟨{ (getDfaState nfa ⟨emptyDFA, [], 0⟩ (canon [s0])).1.dfa with start := some (getDfaState nfa ⟨emptyDFA, [], 0⟩ (canon [s0])).2 }, (getDfaState nfa ⟨emptyDFA, [], 0⟩ (canon [s0])).1.smap, (getDfaState nfa ⟨emptyDFA, [], 0⟩ (canon [s0])).1.counter⟩
    (subInv_setStart pinv _) hq
  refine ⟨hloopinv, ?_, ?_, ?_⟩
  · intro k hk
    exact r3 k (r2 k hk)
  · exact r1.1 _ _ plook
  · rw [hloopstart]

/-- `NFA.accepts` from a state set depends only on the members of the
set. -/
theorem nfaAcceptsFrom_congr (m : NFAData) :
    ∀ (w : List Char) (C C2 : List String), (∀ a, a ∈ C ↔ a ∈ C2) →
      nfaAcceptsFrom m C w = nfaAcceptsFrom m C2 w := by
  intro w
  induction w with
  | nil =>
    intro C C2 h
    rw [nfaAcceptsFrom, nfaAcceptsFrom]
    apply bool_eq_of_iff
    rw [List.any_eq_true, List.any_eq_true]
    constructor
    · intro ⟨a, ha, hacc⟩
      exact ⟨a, (h a).mp ha, hacc⟩
    · intro ⟨a, ha, hacc⟩
      exact ⟨a, (h a).mpr ha, hacc⟩
  | cons c w ih =>
    intro C C2 h
    have h1 : nfaAcceptsFrom m C (c :: w) =
        (if nfaStepSet m C c = [] then false
         else nfaAcceptsFrom m (nfaStepSet m C c) w) := rfl
    have h2 : nfaAcceptsFrom m C2 (c :: w) =
        (if nfaStepSet m C2 c = [] then false
         else nfaAcceptsFrom m (nfaStepSet m C2 c) w) := rfl
    rw [h1, h2]
    have hstep : ∀ a, a ∈ nfaStepSet m C c ↔ a ∈ nfaStepSet m C2 c := by
      intro a
      rw [mem_nfaStepSet, mem_nfaStepSet]
      constructor
      · intro ⟨q, hq, ha⟩
        exact ⟨q, (h q).mp hq, ha⟩
      · intro ⟨q, hq, ha⟩
        exact ⟨q, (h q).mpr hq, ha⟩
    by_cases hn : nfaStepSet m C c = []
    · have hn2 : nfaStepSet m C2 c = [] := by
        rw [List.eq_nil_iff_forall_not_mem] at hn ⊢
        intro a ha
        exact hn a ((hstep a).mpr ha)
      rw [if_pos hn, if_pos hn2]
    · have hn2 : nfaStepSet m C2 c ≠ [] := by
        intro h2n
        rw [List.eq_nil_iff_forall_not_mem] at h2n
        apply hn
        rw [List.eq_nil_iff_forall_not_mem]
        intro a ha
        exact h2n a ((hstep a).mp ha)
      rw [if_neg hn, if_neg hn2]
      exact ih _ _ hstep

/-- Simulation kernel for the subset construction: the DFA state
memoized for a subset key accepts exactly the words the NFA accepts
from that subset. -/
theorem subset_acceptsFrom (nfa : NFAData)
    (hsymwf : ∀ e ∈ nfa.etrans, e.1.2 ∈ nfa.alphabet)
    (st : SubsetSt) (hinv : SubInv nfa st)
    (hcomp : ∀ k ∈ st.smap.map Prod.fst, SubComplete nfa st k) :
    ∀ (w : List Char) (K : List String) (nK : String),
      st.smap.lookup K = some nK →
      dfaAcceptsFrom st.dfa nK w = nfaAcceptsFrom nfa K w := by
  intro w
  induction w with
  | nil =>
    intro K nK hK
    rw [dfaAcceptsFrom, nfaAcceptsFrom]
    apply bool_eq_of_iff
    rw [decide_eq_true_eq, List.any_eq_true]
    have hiff := hinv.accept_iff (K, nK) (lookup_mem hK)
    constructor
    · intro h
      obtain ⟨a, ha, hacc⟩ := hiff.mp h
      exact ⟨a, ha, decide_eq_true hacc⟩
    · intro ⟨a, ha, hacc⟩
      exact hiff.mpr ⟨a, ha, of_decide_eq_true hacc⟩
  | cons c w ih =>
    intro K nK hK
    have hdexp : dfaAcceptsFrom st.dfa nK (c :: w) =
        (match dfaNext st.dfa nK c with
         | none => false
         | some t => dfaAcceptsFrom st.dfa t w) := rfl
    have hnexp : nfaAcceptsFrom nfa K (c :: w) =
        (if nfaStepSet nfa K c = [] then false
         else nfaAcceptsFrom nfa (nfaStepSet nfa K c) w) := rfl
    rw [hdexp, hnexp]
    by_cases hne : nfaStepSet nfa K c = []
    · rw [if_pos hne]
      have hnone : dfaNext st.dfa nK c = none := by
        rw [dfaNext]
        cases hl : st.dfa.table.lookup (nK, c) with
        | none => rfl
        | some v =>
          exfalso
          obtain ⟨S2, h1, h2, h3⟩ := hinv.table_inv _ (lookup_mem hl)
          have hSS : S2 = K := mem_snd_inj (subInv_names_nodup hinv)
            (lookup_mem h1) (lookup_mem hK)
          have h2b : nfaSetSucc nfa S2 c ≠ [] := h2
          rw [hSS] at h2b
          exact h2b hne
      rw [hnone]
    · rw [if_neg hne]
      have hKmem : K ∈ st.smap.map Prod.fst := by
        rw [← lookup_isSome_iff, hK]
        rfl
      have hcal : c ∈ nfa.alphabet := by
        have hx : ∃ x, x ∈ nfaStepSet nfa K c := by
          cases hvv : nfaStepSet nfa K c with
          | nil => exact absurd hvv hne
          | cons x xs => exact ⟨x, List.mem_cons_self _ _⟩
        obtain ⟨x, hx2⟩ := hx
        rw [mem_nfaStepSet] at hx2
        obtain ⟨q, _, hq⟩ := hx2
        rw [mem_nfaNext] at hq
        exact hsymwf _ hq
      obtain ⟨nK2, nT, g1, g2, g3⟩ := hcomp K hKmem c hcal
        (by rw [nfaSetSucc_eq_stepSet]; exact hne)
      rw [hK] at g1
      injection g1 with hnn
      rw [← hnn] at g3
      have hdn : dfaNext st.dfa nK c = some nT := g3
      rw [hdn]
      show dfaAcceptsFrom st.dfa nT w = nfaAcceptsFrom nfa
        (nfaStepSet nfa K c) w
      rw [ih (canon (nfaSetSucc nfa K c)) nT g2]
      apply nfaAcceptsFrom_congr
      intro a
      rw [mem_canon, nfaSetSucc_eq_stepSet]

/-- The subset construction preserves acceptance. -/
theorem subset_accepts (nfa : NFAData) (s0 : String)
    (hstart : nfa.start = some s0)
    (hsymwf : ∀ e ∈ nfa.etrans, e.1.2 ∈ nfa.alphabet) :
    ∀ w, dfaAccepts (nfaToDfa nfa) w = nfaAccepts nfa w := by
  obtain ⟨hinv, hcomp, hs1, hs2⟩ := nfaToDfaFull_spec nfa s0 hstart
  intro w
  rw [nfaToDfa]
  have hred1 : dfaAccepts (nfaToDfaFull nfa).1.dfa w =
      dfaAcceptsFrom (nfaToDfaFull nfa).1.dfa
        (getDfaState nfa ⟨emptyDFA, [], 0⟩ (canon [s0])).2 w := by
    rw [dfaAccepts, hs2]
  have hred2 : nfaAccepts nfa w = nfaAcceptsFrom nfa [s0] w := by
    rw [nfaAccepts, hstart]
  rw [hred1, hred2,
    subset_acceptsFrom nfa hsymwf (nfaToDfaFull nfa).1 hinv hcomp w
      (canon [s0]) _ hs1]
  apply nfaAcceptsFrom_congr
  intro a
  rw [mem_canon]

/-! ## Well-formedness of the Thompson and elimination outputs -/

theorem addStateN_sympres {m : NFAData}
    (h : ∀ e ∈ m.etrans, e.1.2 ≠ 'ε' → e.1.2 ∈ m.alphabet)
    (name : String) (iacc istart : Bool) :
    ∀ e ∈ (addStateN m name iacc istart).etrans, e.1.2 ≠ 'ε' →
      e.1.2 ∈ (addStateN m name iacc istart).alphabet := h

theorem demoteAccept_sympres {m : NFAData}
    (h : ∀ e ∈ m.etrans, e.1.2 ≠ 'ε' → e.1.2 ∈ m.alphabet)
    (name : String) :
    ∀ e ∈ (demoteAccept m name).etrans, e.1.2 ≠ 'ε' →
      e.1.2 ∈ (demoteAccept m name).alphabet := h

theorem addTransN_sympres {m : NFAData}
    (h : ∀ e ∈ m.etrans, e.1.2 ≠ 'ε' → e.1.2 ∈ m.alphabet)
    (f t : String) (sym : Char) :
    ∀ e ∈ (addTransN m f t sym).etrans, e.1.2 ≠ 'ε' →
      e.1.2 ∈ (addTransN m f t sym).alphabet := by
  intro e he hne
  rw [addTransN] at he ⊢
  show e.1.2 ∈ if sym = 'ε' then m.alphabet else insertChar m.alphabet sym
  rcases List.mem_append.mp he with hold | hnew
  · by_cases hs : sym = 'ε'
    · rw [if_pos hs]
      exact h e hold hne
    · rw [if_neg hs]
      exact (mem_insertChar _ _).mpr (Or.inl (h e hold hne))
  · rw [List.mem_singleton] at hnew
    subst hnew
    rw [if_neg hne]
    exact (mem_insertChar _ _).mpr (Or.inr rfl)

theorem buildFragment_symwf (node : RegexNode) :
    ∀ (nfa : NFAData) (c : Nat),
      (∀ e ∈ nfa.etrans, e.1.2 ≠ 'ε' → e.1.2 ∈ nfa.alphabet) →
      ∀ e ∈ (buildFragment node nfa c).1.etrans, e.1.2 ≠ 'ε' →
        e.1.2 ∈ (buildFragment node nfa c).1.alphabet := by
  induction node with
  | EPSILON =>
    intro nfa c h
    simp only [buildFragment]
    exact addTransN_sympres (addStateN_sympres (addStateN_sympres h _ _ _)
      _ _ _) _ _ _
  | CHAR v =>
    intro nfa c h
    simp only [buildFragment]
    exact addTransN_sympres (addStateN_sympres (addStateN_sympres h _ _ _)
      _ _ _) _ _ _
  | CONCAT l r ihl ihr =>
    intro nfa c h
    simp only [buildFragment]
    exact addTransN_sympres (demoteAccept_sympres
      (ihr _ _ (ihl _ _ h)) _) _ _ _
  | OR l r ihl ihr =>
    intro nfa c h
    simp only [buildFragment]
    exact addTransN_sympres (addTransN_sympres (addTransN_sympres
      (addTransN_sympres (demoteAccept_sympres (demoteAccept_sympres
        (addStateN_sympres (addStateN_sympres (ihr _ _ (ihl _ _ h))
          _ _ _) _ _ _) _) _) _ _ _) _ _ _) _ _ _) _ _ _
  | STAR x ihx =>
    intro nfa c h
    simp only [buildFragment]
    exact addTransN_sympres (addTransN_sympres (addTransN_sympres
      (addTransN_sympres (demoteAccept_sympres (addStateN_sympres
        (addStateN_sympres (ihx _ _ h) _ _ _) _ _ _) _) _ _ _) _ _ _)
      _ _ _) _ _ _
  | PLUS x ihx =>
    intro nfa c h
    simp only [buildFragment]
    exact addTransN_sympres (addTransN_sympres (addTransN_sympres
      (demoteAccept_sympres (addStateN_sympres (addStateN_sympres
        (ihx _ _ h) _ _ _) _ _ _) _) _ _ _) _ _ _) _ _ _

theorem setStartFlag_keys (m : NFAData) (name : String) :
    (setStartFlag m name).states.map Prod.fst = m.states.map Prod.fst := by
  rw [setStartFlag, List.map_map]
  apply List.map_congr_left
  intro p _
  by_cases h : p.1 = name
  · rw [Function.comp_apply, if_pos h, h]
  · rw [Function.comp_apply, if_neg h]

theorem setStartFlag_etrans (m : NFAData) (name : String) :
    (setStartFlag m name).etrans = m.etrans := rfl

theorem setStartFlag_alphabet (m : NFAData) (name : String) :
    (setStartFlag m name).alphabet = m.alphabet := rfl

theorem setStartFlag_start (m : NFAData) (name : String) :
    (setStartFlag m name).start = some name := rfl

/-- The ε-NFA delivered by Thompson's construction is well-formed: its
start state exists, accept states and edge endpoints are states, and
every non-epsilon edge symbol is in the alphabet. -/
theorem thompson_wf (regex : List Char) (E : NFAData)
    (h : thompsonConstruction regex = .ok E) :
    ENFAWf E ∧ (∃ s0, E.start = some s0) ∧
    (∀ e ∈ E.etrans, e.1.2 ≠ 'ε' → e.1.2 ∈ E.alphabet) := by
  unfold thompsonConstruction at h
  cases hp : parseRegex regex with
  | error e =>
    rw [hp] at h
    exact absurd h (by simp)
  | ok ast =>
    rw [hp] at h
    have h2 : Except.ok (ε := ParseErr)
        (setStartFlag (buildFragment ast emptyNFA 0).1
          (buildFragment ast emptyNFA 0).2.2.start) = Except.ok E := h
    injection h2 with h3
    obtain ⟨binv, _, _, hacc, _, hstartmem, haccmem, _, _⟩ :=
      buildFragment_inv ast emptyNFA 0 emptyNFA_inv emptyNFA_fresh
    have hsym := buildFragment_symwf ast emptyNFA 0
      (by intro e he; cases he)
    subst h3
    refine ⟨⟨?_, ?_, ?_⟩, ⟨_, setStartFlag_start _ _⟩, ?_⟩
    · intro s hs
      rw [setStartFlag_start] at hs
      injection hs with hs2
      rw [setStartFlag_keys, ← hs2]
      exact hstartmem
    · intro a ha
      rw [setStartFlag_accept] at ha
      rw [setStartFlag_keys]
      rw [hacc] at ha
      rcases List.mem_append.mp ha with h4 | h4
      · exact absurd h4 (List.not_mem_nil _)
      · rw [List.mem_singleton] at h4
        exact h4 ▸ haccmem
    · intro e he
      rw [setStartFlag_etrans] at he
      rw [setStartFlag_keys]
      exact binv.edgeKeys e he
    · intro e he hne
      rw [setStartFlag_etrans] at he
      rw [setStartFlag_alphabet]
      exact hsym e he hne

theorem addTransN_wf2 {m : NFAData}
    (h1 : ∀ e ∈ m.etrans, e.1.2 ∈ m.alphabet)
    (h2 : ('ε' : Char) ∉ m.alphabet) (f t : String) {sym : Char}
    (hs : sym ≠ 'ε') :
    (∀ e ∈ (addTransN m f t sym).etrans,
      e.1.2 ∈ (addTransN m f t sym).alphabet) ∧
    ('ε' : Char) ∉ (addTransN m f t sym).alphabet := by
  constructor
  · intro e he
    rw [addTransN] at he ⊢
    show e.1.2 ∈ if sym = 'ε' then m.alphabet else insertChar m.alphabet sym
    rw [if_neg hs]
    rcases List.mem_append.mp he with hold | hnew
    · exact (mem_insertChar _ _).mpr (Or.inl (h1 e hold))
    · rw [List.mem_singleton] at hnew
      subst hnew
      exact (mem_insertChar _ _).mpr (Or.inr rfl)
  · show ('ε' : Char) ∉
      (if sym = 'ε' then m.alphabet else insertChar m.alphabet sym)
    rw [if_neg hs]
    intro hmem
    rcases (mem_insertChar _ _).mp hmem with h | h
    · exact h2 h
    · exact hs h.symm

theorem addTransFold_wf2 (s : String) {sym : Char} (hs : sym ≠ 'ε') :
    ∀ (L : List String) (nfa : NFAData),
      (∀ e ∈ nfa.etrans, e.1.2 ∈ nfa.alphabet) →
      ('ε' : Char) ∉ nfa.alphabet →
      (∀ e ∈ (L.foldl (fun acc tgt => addTransN acc s tgt sym)
          nfa).etrans,
        e.1.2 ∈ (L.foldl (fun acc tgt => addTransN acc s tgt sym)
          nfa).alphabet) ∧
      ('ε' : Char) ∉ (L.foldl (fun acc tgt => addTransN acc s tgt sym)
        nfa).alphabet := by
  intro L
  induction L with
  | nil => intro nfa h1 h2; exact ⟨h1, h2⟩
  | cons t L ih =>
    intro nfa h1 h2
    rw [List.foldl_cons]
    obtain ⟨g1, g2⟩ := addTransN_wf2 h1 h2 s t hs
    exact ih (addTransN nfa s t sym) g1 g2

theorem elimSymbolTrans_wf2 (E nfa : NFAData) (s : String)
    (ec : List String) (sym : Char)
    (h1 : ∀ e ∈ nfa.etrans, e.1.2 ∈ nfa.alphabet)
    (h2 : ('ε' : Char) ∉ nfa.alphabet) :
    (∀ e ∈ (elimSymbolTrans E nfa s ec sym).etrans,
      e.1.2 ∈ (elimSymbolTrans E nfa s ec sym).alphabet) ∧
    ('ε' : Char) ∉ (elimSymbolTrans E nfa s ec sym).alphabet := by
  by_cases he : sym = 'ε'
  · rw [elimSymbolTrans, if_pos he]
    exact ⟨h1, h2⟩
  · by_cases hn : nfaSetSucc E ec sym = []
    · have hred : elimSymbolTrans E nfa s ec sym = nfa := by
        rw [elimSymbolTrans, if_neg he]
        exact if_pos hn
      rw [hred]
      exact ⟨h1, h2⟩
    · have hred : elimSymbolTrans E nfa s ec sym =
          (epsClosure E false (nfaSetSucc E ec sym)).foldl
            (fun acc tgt => addTransN acc s tgt sym) nfa := by
        rw [elimSymbolTrans, if_neg he]
        exact if_neg hn
      rw [hred]
      exact addTransFold_wf2 s he _ nfa h1 h2

theorem elimFold_wf2 (E : NFAData) (s : String) (ec : List String) :
    ∀ (syms : List Char) (nfa : NFAData),
      (∀ e ∈ nfa.etrans, e.1.2 ∈ nfa.alphabet) →
      ('ε' : Char) ∉ nfa.alphabet →
      (∀ e ∈ (syms.foldl (fun acc sym => elimSymbolTrans E acc s ec sym)
          nfa).etrans,
        e.1.2 ∈ (syms.foldl (fun acc sym => elimSymbolTrans E acc s ec sym)
          nfa).alphabet) ∧
      ('ε' : Char) ∉ (syms.foldl
        (fun acc sym => elimSymbolTrans E acc s ec sym) nfa).alphabet := by
  intro syms
  induction syms with
  | nil => intro nfa h1 h2; exact ⟨h1, h2⟩
  | cons sym syms ih =>
    intro nfa h1 h2
    rw [List.foldl_cons]
    obtain ⟨g1, g2⟩ := elimSymbolTrans_wf2 E nfa s ec sym h1 h2
    exact ih (elimSymbolTrans E nfa s ec sym) g1 g2

theorem elimState_wf2 (E nfa : NFAData) (s : String)
    (h1 : ∀ e ∈ nfa.etrans, e.1.2 ∈ nfa.alphabet)
    (h2 : ('ε' : Char) ∉ nfa.alphabet) :
    (∀ e ∈ (elimState E nfa s).etrans,
      e.1.2 ∈ (elimState E nfa s).alphabet) ∧
    ('ε' : Char) ∉ (elimState E nfa s).alphabet := by
  by_cases hacc : (epsClosure E false [s]).any
      (fun x => decide (x ∈ E.accept)) = true
  · have hred : elimState E nfa s =
        E.alphabet.foldl (fun acc sym =>
          elimSymbolTrans E acc s (epsClosure E false [s]) sym)
          { nfa with accept := insertStr nfa.accept s } := by
      rw [elimState, if_pos hacc]
    rw [hred]
    exact elimFold_wf2 E s (epsClosure E false [s]) E.alphabet _ h1 h2
  · have hred : elimState E nfa s =
        E.alphabet.foldl (fun acc sym =>
          elimSymbolTrans E acc s (epsClosure E false [s]) sym) nfa := by
      rw [elimState, if_neg hacc]
    rw [hred]
    exact elimFold_wf2 E s (epsClosure E false [s]) E.alphabet nfa h1 h2

theorem baseFoldN_alpha :
    ∀ (ps : List (String × StFlags)) (acc : NFAData),
      (ps.foldl (fun acc p => addStateN acc p.1 false false) acc).alphabet =
        acc.alphabet := by
  intro ps
  induction ps with
  | nil => intro acc; rfl
  | cons q ps ih =>
    intro acc
    rw [List.foldl_cons]
    exact ih (addStateN acc q.1 false false)

/-- The eliminated NFA only carries transitions labelled by its own
(epsilon-free) alphabet. -/
theorem epsilonNfaToNfa_wf2 (E : NFAData) :
    (∀ e ∈ (epsilonNfaToNfa E).etrans,
      e.1.2 ∈ (epsilonNfaToNfa E).alphabet) ∧
    ('ε' : Char) ∉ (epsilonNfaToNfa E).alphabet := by
  rw [epsilonNfaToNfa]
  have hgen : ∀ (ps : List (String × StFlags)) (nfa : NFAData),
      (∀ e ∈ nfa.etrans, e.1.2 ∈ nfa.alphabet) →
      ('ε' : Char) ∉ nfa.alphabet →
      (∀ e ∈ (ps.foldl (fun acc p => elimState E acc p.1) nfa).etrans,
        e.1.2 ∈ (ps.foldl (fun acc p => elimState E acc p.1)
          nfa).alphabet) ∧
      ('ε' : Char) ∉ (ps.foldl (fun acc p => elimState E acc p.1)
        nfa).alphabet := by
    intro ps
    induction ps with
    | nil => intro nfa h1 h2; exact ⟨h1, h2⟩
    | cons q ps ih =>
      intro nfa h1 h2
      rw [List.foldl_cons]
      obtain ⟨g1, g2⟩ := elimState_wf2 E nfa q.1 h1 h2
      exact ih (elimState E nfa q.1) g1 g2
  refine hgen E.states _ ?_ ?_
  · intro e he
    have h2 : ({ E.states.foldl
        (fun acc p => addStateN acc p.1 false false) emptyNFA with
          start := E.start } : NFAData).etrans = [] := by
      show (E.states.foldl (fun acc p => addStateN acc p.1 false false)
        emptyNFA).etrans = []
      rw [(baseFoldN_spec E.states emptyNFA).2.1]
      rfl
    rw [h2] at he
    cases he
  · show ('ε' : Char) ∉ (E.states.foldl
      (fun acc p => addStateN acc p.1 false false) emptyNFA).alphabet
    rw [baseFoldN_alpha E.states emptyNFA]
    intro h
    cases h

theorem nfaToDfa_symwf (nfa : NFAData)
    (hna : ('ε' : Char) ∉ nfa.alphabet) :
    ∀ e ∈ (nfaToDfa nfa).table, e.1.2 ∈ (nfaToDfa nfa).alphabet := by
  rw [nfaToDfa]
  cases hstart : nfa.start with
  | none =>
    have hred : nfaToDfaFull nfa = (⟨emptyDFA, [], 0⟩, []) := by
      simp only [nfaToDfaFull, hstart]
    rw [hred]
    intro e he
    cases he
  | some s0 =>
    have hred : nfaToDfaFull nfa =
        subsetLoop nfa (subsetFuel nfa s0) [canon [s0]] []
          ⟨{ (getDfaState nfa ⟨emptyDFA, [], 0⟩ (canon [s0])).1.dfa with
              start := some (getDfaState nfa ⟨emptyDFA, [], 0⟩
                (canon [s0])).2 },
            (getDfaState nfa ⟨emptyDFA, [], 0⟩ (canon [s0])).1.smap,
            (getDfaState nfa ⟨emptyDFA, [], 0⟩ (canon [s0])).1.counter⟩ := by
      simp only [nfaToDfaFull, hstart]
    rw [hred]
    refine subsetLoop_symwf nfa hna (subsetFuel nfa s0) [canon [s0]] [] _ ?_
    intro e he
    have htab : ({ (getDfaState nfa ⟨emptyDFA, [], 0⟩ (canon [s0])).1.dfa
        with start := some (getDfaState nfa ⟨emptyDFA, [], 0⟩
          (canon [s0])).2 } : DFAData).table = [] := by
      show (getDfaState nfa ⟨emptyDFA, [], 0⟩ (canon [s0])).1.dfa.table = []
      rw [getDfaState_table]
      rfl
    rw [htab] at he
    cases he

/-- C1 (amended): for every regex the parser accepts and every input
word that does not contain the reserved epsilon marker `'ε'`, the
pipeline's four machines agree on acceptance: the eliminated NFA, the
subset-construction DFA and the minimized DFA all return exactly the
verdict of the Thompson ε-NFA.  (For words containing `'ε'` the ε-NFA
simulation follows epsilon edges as if they were labelled input edges
while the eliminated machines reject, so the unrestricted claim fails;
see the counterexample.) -/
theorem claim_C1 (regex : List Char) (E : NFAData) (w : List Char)
    (hok : thompsonConstruction regex = .ok E)
    (hw : ∀ c ∈ w, c ≠ 'ε') :
    nfaAccepts (epsilonNfaToNfa E) w = enfaAccepts E w ∧
    dfaAccepts (nfaToDfa (epsilonNfaToNfa E)) w = enfaAccepts E w ∧
    dfaAccepts (minimizeDfa (nfaToDfa (epsilonNfaToNfa E))) w =
      enfaAccepts E w := by
  obtain ⟨hwf, ⟨s0, hs0⟩, hsym⟩ := thompson_wf regex E hok
  obtain ⟨hw2a, hw2b⟩ := epsilonNfaToNfa_wf2 E
  have h1 : nfaAccepts (epsilonNfaToNfa E) w = enfaAccepts E w :=
    elim_accepts E hwf hsym w hw
  have hstartN : (epsilonNfaToNfa E).start = some s0 := by
    rw [epsilonNfaToNfa_start, hs0]
  have h2 : dfaAccepts (nfaToDfa (epsilonNfaToNfa E)) w =
      nfaAccepts (epsilonNfaToNfa E) w :=
    subset_accepts (epsilonNfaToNfa E) s0 hstartN hw2a w
  obtain ⟨_, _, _, hs2⟩ := nfaToDfaFull_spec (epsilonNfaToNfa E) s0 hstartN
  have h3 := minimizeDfa_accepts (nfaToDfa (epsilonNfaToNfa E)) _ hs2
    (nfaToDfa_symwf (epsilonNfaToNfa E) hw2b) w
  exact ⟨h1, by rw [h2, h1], by rw [h3, h2, h1]⟩

/-- The unrestricted pipeline-equivalence claim is false: the parser
accepts the regex `"ε"` (the literal epsilon character, parsed as the
EPSILON token), and on the input word `"ε"` the Thompson ε-NFA accepts
(its simulation follows the epsilon edge as a labelled edge and the
closed result set contains the accept state) while the eliminated NFA
rejects (epsilon elimination emits no `'ε'`-labelled transitions). -/
theorem claim_C1_counterexample :
    thompsonConstruction ['ε'] = Except.ok exThompsonEps ∧
    enfaAccepts exThompsonEps ['ε'] = true ∧
    nfaAccepts (epsilonNfaToNfa exThompsonEps) ['ε'] = false :=
  ⟨rfl, by decide, by decide⟩

theorem claim_C1_witness :
    thompsonConstruction ['a'] = Except.ok exThompsonA ∧
    ('a' : Char) ≠ 'ε' ∧
    (nfaAccepts (epsilonNfaToNfa exThompsonA) ['a'] =
        enfaAccepts exThompsonA ['a'] ∧
      dfaAccepts (nfaToDfa (epsilonNfaToNfa exThompsonA)) ['a'] =
        enfaAccepts exThompsonA ['a'] ∧
      dfaAccepts (minimizeDfa (nfaToDfa (epsilonNfaToNfa exThompsonA)))
          ['a'] =
        enfaAccepts exThompsonA ['a']) :=
  ⟨rfl, by decide,
   claim_C1 ['a'] exThompsonA ['a'] rfl (by decide)⟩

end FSM
